import Mathlib

/-! # Integrated staff scheduling: the diving heuristic (branch-and-price)

A shallow embedding of `Source/Diving_Heuristic.cpp` (class
`Diving_Column_Generation`) and of the parts of `Source/Problem_Data.h` it reads.

Conventions of the embedding

* C++ `double` values are rationals (`ℚ`); the comparisons of the source are the
  comparisons of `ℚ`, the constant `1 - fractionality_tolerance_master` is `999/1000`.
* C++ arrays and vectors are lists. Reading or writing outside an array, and reading a
  local variable that was never assigned, is undefined behaviour in the source: the
  embedded function then returns `none`.
* The CPLEX model of the master problem is stored column by column: every column
  carries its name, objective coefficient, bounds and its non-zero entries
  `(row index, value)`. The callable-library routines the source uses (`CPXnewcols`,
  `CPXaddrows`, `CPXaddcols`, `CPXdelcols`, `CPXgetcolindex`, `CPXgetcolname`,
  `CPXgetnumcols`) are embedded as functions on that model. The optimisers
  (`CPXlpopt`, `CPXmipopt`, `CPXsolution`) are an oracle: their answers are inputs.
-/

namespace Diving_Heuristic

/-! ## Problem data (`Problem_Data.h`) -/

/-- The global problem data read by the algorithm. -/
structure Problem_Data where
  nb_shifts : Nat
  nb_people : Nat
  nb_tasks : Nat
  nb_tasks_CODU : Nat
  nb_days : Nat
  nb_groups : Nat
  nb_groups_CODU : Nat
  nb_weekends : Nat
  start_day : Nat
  nb_holidays : Nat
  person_group : Nat → Nat → Bool
  person_task : Nat → Nat → Bool
  group_task : Nat → Nat → Bool
  shift_demands : Nat → Nat → Nat → Int
  task_durations : Nat → Int
  obj_weight_Y_REplus : Int
  obj_weight_Y_REmin_CODU : Int
  obj_weight_Y_REmin_amb : Int
  obj_weight_Y_Hplus : Int
  obj_weight_Y_Hmin : Int
  obj_weight_Y_W : Int
  obj_weight_Y_G_CODU : Int
  obj_weight_Y_G_ambulances : Int

/-- The product `nb_tasks*nb_days*nb_shifts` that the source writes out everywhere. -/
def Problem_Data.tds (pd : Problem_Data) : Nat := pd.nb_tasks * pd.nb_days * pd.nb_shifts

/-! ## Fixed algorithm settings -/

/-- The tolerance for deciding whether a reduced cost is smaller than 0. -/
def reduced_cost_tolerance_LP : ℚ := 1 / 1000

/-- The tolerance for deciding whether the master problem is integer. -/
def fractionality_tolerance_master : ℚ := 1 / 1000

/-- Objective function value of the super columns (`obj_value_super_column`). -/
def obj_value_super_column : ℚ := 10000

/-- The two branching methods of `Branching_Method_Diving`. -/
inductive Branching_Method_Diving where
  | largest_fractional_variable
  | value_above_threshold
deriving DecidableEq, Repr

/-- The two methods of `Column_Generation_Method`. -/
inductive Column_Generation_Method where
  | one_column_per_person
  | one_column_person_p_and_reoptimize
deriving DecidableEq, Repr

/-! ## The CPLEX model of the master problem -/

/-- One column (variable) of a CPLEX problem; `ub = none` is "no upper bound". -/
structure CpxCol where
  name : String
  obj : ℚ
  lb : ℚ
  ub : Option ℚ
  coefs : List (Nat × ℚ)
deriving DecidableEq, Repr

/-- One row (constraint) of a CPLEX problem: name, sense (`'E'`, `'L'`, `'G'`), rhs. -/
structure CpxRow where
  name : String
  sense : Char
  rhs : ℚ
deriving DecidableEq, Repr

/-- A CPLEX problem object. -/
structure CpxLP where
  cols : List CpxCol
  rows : List CpxRow
deriving DecidableEq, Repr

/-- `CPXcreateprob`: the empty problem. -/
def CPXcreateprob : CpxLP := ⟨[], []⟩

/-- `CPXgetnumcols`. -/
def CPXgetnumcols (lp : CpxLP) : Nat := lp.cols.length

/-- `CPXgetnumrows`. -/
def CPXgetnumrows (lp : CpxLP) : Nat := lp.rows.length

/-- `CPXnewcols` for one column: a new empty column at the end. -/
def CPXnewcols (lp : CpxLP) (obj lb : ℚ) (ub : Option ℚ) (colname : String) : CpxLP :=
  { lp with cols := lp.cols ++ [⟨colname, obj, lb, ub, []⟩] }

/-- Append the entry `(row, v)` to column `j`. -/
def addEntry (cols : List CpxCol) (row : Nat) (j : Nat) (v : ℚ) : List CpxCol :=
  cols.modify (fun c => { c with coefs := c.coefs ++ [(row, v)] }) j

/-- `CPXaddrows` for one row with the sparse entries `(matind[k], matval[k])`; CPLEX
rejects the call (and changes nothing) when a column index is out of range. -/
def CPXaddrows (lp : CpxLP) (rhs : ℚ) (sense : Char) (mat : List (Nat × ℚ))
    (rowname : String) : CpxLP :=
  if mat.all (fun e => decide (e.1 < lp.cols.length)) then
    { cols := mat.foldl (fun cs e => addEntry cs lp.rows.length e.1 e.2) lp.cols,
      rows := lp.rows ++ [⟨rowname, sense, rhs⟩] }
  else lp

/-- `CPXaddcols` for one column with the sparse entries `(matind[k], matval[k])`; CPLEX
rejects the call (and changes nothing) when a row index is out of range. -/
def CPXaddcols (lp : CpxLP) (obj : ℚ) (mat : List (Nat × ℚ)) (lb : ℚ) (ub : Option ℚ)
    (colname : String) : CpxLP :=
  if mat.all (fun e => decide (e.1 < lp.rows.length)) then
    { lp with cols := lp.cols ++ [⟨colname, obj, lb, ub, mat⟩] }
  else lp

/-- `CPXdelcols (begin = end = j)`: delete column `j`. -/
def CPXdelcols (lp : CpxLP) (j : Nat) : CpxLP :=
  { lp with cols := lp.cols.eraseIdx j }

/-- `CPXgetcolindex`: the index of the first column with the given name, if any. -/
def CPXgetcolindex (lp : CpxLP) (name : String) : Option Nat :=
  let j := lp.cols.findIdx (fun c => c.name == name)
  if j < lp.cols.length then some j else none

/-- `CPXgetcolname (begin = end = i)`. -/
def CPXgetcolname (lp : CpxLP) (i : Nat) : Option String :=
  (lp.cols[i]?).map (fun c => c.name)

/-! ## The state of `Diving_Column_Generation` -/

/-- A generated column `z_pk` as remembered by the algorithm (`struct Column`). -/
structure Column where
  person : Nat
  name : String
  cost : ℚ
  a_tds : List Int
deriving DecidableEq, Repr

/-- The calls whose order the run is observed by (kept in the field `log` of the state,
which is not a member of the class). -/
inductive Event where
  | master_solved
  | priced (person : Nat)
  | column_added (person : Nat)
  | branched
  | solution_saved
deriving DecidableEq, Repr

/-- The data members of `Diving_Column_Generation` that the embedded functions use.
`subproblems` holds, per person, the objective coefficients of the columns of the pricing
problem (the part of it that changes after `build_subproblem_problem`); `clock_checks`
counts the comparisons of elapsed time with the allowed time; `log` records the calls
made. -/
structure State where
  masterproblem : CpxLP
  status : Int
  solstat : Int
  objective_master : ℚ
  objective_subproblem : ℚ
  solution_master : List ℚ
  dual_var_master : List ℚ
  cost_column_k_person_p : ℚ
  mu_p : ℚ
  solution_subproblem : List ℚ
  solve_subproblem_p : List Bool
  current_columns : List Column
  fixed_columns : List Column
  fixed_indices_cplex : List Nat
  fixed_people : List Nat
  nb_people_fixed_current_iteration : Nat
  nb_calls_CG : Nat
  nb_branching_dec : Nat
  algorithm_failed : Bool
  algorithm_solution_status : String
  solution : List Int
  nb_columns_added_total : Nat
  objective_best_solution : ℚ
  values_coef : List ℚ
  subproblems : List (List ℚ)
  first_call_CG : Bool
  iterations_CG : Nat
  lowerbound_root_node : ℚ
  clock_checks : Nat
  log : List Event
deriving DecidableEq, Repr

/-- Index of the first generated column `z_pk` (`k ≥ 1`) in the master: the master
starts with the `Y_REplus`, the `Y_REmin` and the super columns. -/
def firstGenerated (pd : Problem_Data) : Nat := 2 * pd.tds + pd.nb_people

/-! ## `is_solution_fractional` -/

/-- The loop of `is_solution_fractional` over the remaining indices. -/
def is_solution_fractional_loop (solution_master : List ℚ) : List Nat → Option Bool
  | [] => some false
  | i :: rest =>
    match solution_master[i]? with
    | none => none
    | some v =>
      if v > fractionality_tolerance_master ∧ v < 1 - fractionality_tolerance_master then
        some true
      else is_solution_fractional_loop solution_master rest

/-- `Diving_Column_Generation::is_solution_fractional`. -/
def is_solution_fractional (st : State) : Option Bool :=
  is_solution_fractional_loop st.solution_master
    (List.range (CPXgetnumcols st.masterproblem))

/-! ## `find_branching_variables` -/

/-- The local variables of `find_branching_variables`; `none` is "never assigned". -/
structure BranchLocals where
  cplex_index : Option Nat
  column_index : Option Nat
  branching_person : Option Nat
  z_val_current_highest_frac_col : ℚ
deriving DecidableEq, Repr

/-- The search `for (j = 0; j < current_columns.size(); ++j) if (current_columns[j].name
== column_name) { ...; break; }` started at position `j`: the position and the record
of the first match. -/
def find_column_loop (column_name : String) : List Column → Nat → Option (Nat × Column)
  | [], _ => none
  | c :: cs, j =>
    if c.name = column_name then some (j, c) else find_column_loop column_name cs (j + 1)

/-- The body executed for a selected master index `i`: read the column name from CPLEX,
set `cplex_index`, and search the record in `current_columns`; when no record has the
name, `column_index` and `branching_person` keep their old contents. -/
def select_column (st : State) (i : Nat) (loc : BranchLocals) : Option BranchLocals :=
  match CPXgetcolname st.masterproblem i with
  | none => none
  | some column_name =>
    match find_column_loop column_name st.current_columns 0 with
    | some (j, c) =>
      some { loc with cplex_index := some i, column_index := some j,
                      branching_person := some c.person }
    | none => some { loc with cplex_index := some i }

/-- The four statements `fixed_indices_cplex.push_back(cplex_index); fixed_people.push_back(
branching_person); ++nb_people_fixed_current_iteration; fixed_columns.push_back(
current_columns[column_index]);`. -/
def push_fixed (st : State) (loc : BranchLocals) : Option State :=
  match loc.cplex_index, loc.branching_person, loc.column_index with
  | some ci, some bp, some j =>
    match st.current_columns[j]? with
    | some col =>
      some { st with
        fixed_indices_cplex := st.fixed_indices_cplex ++ [ci],
        fixed_people := st.fixed_people ++ [bp],
        nb_people_fixed_current_iteration := st.nb_people_fixed_current_iteration + 1,
        fixed_columns := st.fixed_columns ++ [col] }
    | none => none
  | _, _, _ => none

/-- The loop of the largest-fractional-variable rule over the remaining indices. -/
def largest_loop (st : State) : List Nat → BranchLocals → Option BranchLocals
  | [], loc => some loc
  | i :: rest, loc =>
    match st.solution_master[i]? with
    | none => none
    | some v =>
      if v < 1 - fractionality_tolerance_master ∧ v > loc.z_val_current_highest_frac_col then
        match select_column st i loc with
        | none => none
        | some loc1 => largest_loop st rest { loc1 with z_val_current_highest_frac_col := v }
      else largest_loop st rest loc

/-- The first loop of the value-above-threshold rule over the remaining indices; the
result carries the state, the locals and `variables_fixed`. -/
def threshold_loop (branching_threshold_diving : ℚ) :
    List Nat → State → BranchLocals → Nat → Option (State × BranchLocals × Nat)
  | [], st, loc, variables_fixed => some (st, loc, variables_fixed)
  | i :: rest, st, loc, variables_fixed =>
    match st.solution_master[i]? with
    | none => none
    | some v =>
      if v < 1 - fractionality_tolerance_master ∧ v > branching_threshold_diving then
        match select_column st i loc with
        | none => none
        | some loc1 =>
          match push_fixed st loc1 with
          | none => none
          | some st1 =>
            threshold_loop branching_threshold_diving rest st1 loc1 (variables_fixed + 1)
      else threshold_loop branching_threshold_diving rest st loc variables_fixed

/-- The master indices `2*nb_tasks*nb_days*nb_shifts + nb_people, ..., numcols - 1` of
the generated columns, in the order of the `for` loops. -/
def generatedIndices (pd : Problem_Data) (st : State) : List Nat :=
  List.range' (firstGenerated pd) (CPXgetnumcols st.masterproblem - firstGenerated pd)

/-- The locals of `find_branching_variables` at entry. -/
def initLocals : BranchLocals := ⟨none, none, none, 0⟩

/-- `Diving_Column_Generation::find_branching_variables` (the printing left out). -/
def find_branching_variables (pd : Problem_Data)
    (branching_method_diving : Branching_Method_Diving) (branching_threshold_diving : ℚ)
    (st : State) : Option State :=
  let st0 := { st with fixed_indices_cplex := [], nb_people_fixed_current_iteration := 0 }
  match branching_method_diving with
  | Branching_Method_Diving.largest_fractional_variable =>
    match largest_loop st0 (generatedIndices pd st0) initLocals with
    | none => none
    | some loc => push_fixed st0 loc
  | Branching_Method_Diving.value_above_threshold =>
    match threshold_loop branching_threshold_diving (generatedIndices pd st0) st0 initLocals 0 with
    | none => none
    | some (st1, loc, variables_fixed) =>
      if variables_fixed = 0 then
        match largest_loop st1 (generatedIndices pd st1) loc with
        | none => none
        | some loc1 => push_fixed st1 loc1
      else some st1

/-! ## `add_branching_restrictions` -/

/-- The loop of `add_branching_restrictions` over `fixed_indices_cplex`. -/
def add_branching_restrictions_loop : List Nat → State → State
  | [], st => st
  | i :: rest, st =>
    let nb := st.nb_branching_dec + 1
    add_branching_restrictions_loop rest { st with
      nb_branching_dec := nb,
      masterproblem := CPXaddrows st.masterproblem 1 'E' [(i, 1)]
        ("Branching_Restriction_" ++ toString nb) }

/-- `Diving_Column_Generation::add_branching_restrictions`. -/
def add_branching_restrictions (st : State) : State :=
  add_branching_restrictions_loop st.fixed_indices_cplex st

/-! ## `remove_columns_that_violate_branching_restrictions` -/

/-- The inner loop over `j = 0 .. nb_people_fixed_current_iteration - 1` for the record
`cc = current_columns[i]`; `fixed_columns[fixed_columns.size() - 1 - j]` must exist. -/
def remove_columns_inner (fixed_columns : List Column) (cc : Column) :
    List Nat → CpxLP → Option CpxLP
  | [], lp => some lp
  | j :: rest, lp =>
    if j < fixed_columns.length then
      match fixed_columns[fixed_columns.length - 1 - j]? with
      | none => none
      | some fc =>
        if cc.person = fc.person ∧ cc.name ≠ fc.name then
          match CPXgetcolindex lp cc.name with
          | some col_index =>
            remove_columns_inner fixed_columns cc rest (CPXdelcols lp col_index)
          | none => remove_columns_inner fixed_columns cc rest lp
        else remove_columns_inner fixed_columns cc rest lp
    else none

/-- The outer loop over the records of `current_columns`. -/
def remove_columns_outer (fixed_columns : List Column) (nb : Nat) :
    List Column → CpxLP → Option CpxLP
  | [], lp => some lp
  | cc :: rest, lp =>
    match remove_columns_inner fixed_columns cc (List.range nb) lp with
    | none => none
    | some lp1 => remove_columns_outer fixed_columns nb rest lp1

/-- `Diving_Column_Generation::remove_columns_that_violate_branching_restrictions`. -/
def remove_columns_that_violate_branching_restrictions (st : State) : Option State :=
  match remove_columns_outer st.fixed_columns st.nb_people_fixed_current_iteration
      st.current_columns st.masterproblem with
  | none => none
  | some lp => some { st with masterproblem := lp }

/-! ## `fix_residual_schedule` -/

/-- The loop of `fix_residual_schedule`; `column_index` is the local variable of that
name (`none`: never assigned). -/
def fix_residual_loop (st : State) :
    List Nat → Option Nat → List Column → Option (List Column)
  | [], _, fixed => some fixed
  | i :: rest, column_index, fixed =>
    match st.solution_master[i]? with
    | none => none
    | some v =>
      if v ≥ 1 - fractionality_tolerance_master then
        match CPXgetcolname st.masterproblem i with
        | none => none
        | some column_name =>
          let column_index1 :=
            match find_column_loop column_name st.current_columns 0 with
            | some (j, _) => some j
            | none => column_index
          match column_index1 with
          | none => none
          | some j =>
            match st.current_columns[j]? with
            | none => none
            | some col => fix_residual_loop st rest column_index1 (fixed ++ [col])
      else fix_residual_loop st rest column_index fixed

/-- `Diving_Column_Generation::fix_residual_schedule`. -/
def fix_residual_schedule (pd : Problem_Data) (st : State) : Option State :=
  match fix_residual_loop st (generatedIndices pd st) none [] with
  | none => none
  | some fixed => some { st with fixed_columns := fixed }

/-! ## `build_master_problem` -/

/-- The index triples of the loop nest `for t in [t0, t1), for d, for s`, in source order. -/
def tdsLoop (pd : Problem_Data) (t0 t1 : Nat) : List (Nat × Nat × Nat) :=
  (List.range' t0 (t1 - t0)).flatMap fun t =>
    (List.range pd.nb_days).flatMap fun d =>
      (List.range pd.nb_shifts).map fun s => (t, d, s)

/-- The position `t*nb_days*nb_shifts + d*nb_shifts + s` of a triple. -/
def tdsIndex (pd : Problem_Data) (x : Nat × Nat × Nat) : Nat :=
  x.1 * pd.nb_days * pd.nb_shifts + x.2.1 * pd.nb_shifts + x.2.2

/-- Name of a variable or row built from a prefix and the 1-based indices `t, d, s`. -/
def name_tds (pre mid1 mid2 : String) (x : Nat × Nat × Nat) : String :=
  pre ++ toString (x.1 + 1) ++ mid1 ++ toString (x.2.1 + 1) ++ mid2 ++ toString (x.2.2 + 1)

/-- Name `z_<p+1>_<k>` of the `k`-th column of person `p`. -/
def name_z (p k : Nat) : String := "z_" ++ toString (p + 1) ++ "_" ++ toString k

/-- Capacity of the scratch arrays `matind`, `matval` of `build_master_problem`. -/
def matCapacityMaster : Nat := 100000

/-- Capacity of the scratch arrays `matind`, `matval` of `add_column_to_master`. -/
def matCapacityColumn : Nat := 20000

/-- The sparse row of the coverage constraint of `(t,d,s)`: a 0 on every super column,
-1 on `Y_REplus`, +1 on `Y_REmin`. -/
def coverage_entries (pd : Problem_Data) (x : Nat × Nat × Nat) : List (Nat × ℚ) :=
  (List.range pd.nb_people).map (fun p => (2 * pd.tds + p, (0 : ℚ)))
    ++ [(tdsIndex pd x, -1), (pd.tds + tdsIndex pd x, 1)]

/-- One loop nest adding coverage rows (constraint set 1.1 or 1.2); writing the entries
needs room for `nb_people + 2` elements in the scratch arrays. -/
def add_coverage_rows (pd : Problem_Data) (pre : String) :
    List (Nat × Nat × Nat) → CpxLP → Option CpxLP
  | [], lp => some lp
  | x :: rest, lp =>
    if pd.nb_people + 2 ≤ matCapacityMaster then
      add_coverage_rows pd pre rest
        (CPXaddrows lp (pd.shift_demands x.1 x.2.1 x.2.2) 'E' (coverage_entries pd x)
          (name_tds pre "_day_" "_shift_" x))
    else none

/-- The variables of the master problem: `Y_REplus`, `Y_REmin`, one super column per
person. -/
def master_variables (pd : Problem_Data) : CpxLP :=
  let lp1 := (tdsLoop pd 0 pd.nb_tasks).foldl
    (fun lp x => CPXnewcols lp pd.obj_weight_Y_REplus 0 none (name_tds "Y_REplus_" "_" "_" x))
    CPXcreateprob
  let lp2 := (tdsLoop pd 0 pd.nb_tasks).foldl
    (fun lp x => CPXnewcols lp
      (if x.1 < pd.nb_tasks_CODU then pd.obj_weight_Y_REmin_CODU else pd.obj_weight_Y_REmin_amb)
      0 none (name_tds "Y_REmin_" "_" "_" x))
    lp1
  (List.range pd.nb_people).foldl
    (fun lp p => CPXnewcols lp obj_value_super_column 0 (some 1) (name_z p 0)) lp2

/-- Constraint set 2 of the master: one column per person. -/
def add_convexity_rows (pd : Problem_Data) (lp : CpxLP) : CpxLP :=
  (List.range pd.nb_people).foldl
    (fun lp p => CPXaddrows lp 1 'E' [(2 * pd.tds + p, 1)]
      ("One_column_for_person_" ++ toString (p + 1))) lp

/-- `Diving_Column_Generation::build_master_problem`: the master problem it creates. -/
def build_master_problem (pd : Problem_Data) : Option CpxLP :=
  match add_coverage_rows pd "Coverage_constraint_CODU_task_"
      (tdsLoop pd 0 pd.nb_tasks_CODU) (master_variables pd) with
  | none => none
  | some lp4 =>
    match add_coverage_rows pd "Coverage_constraint_ambulances_task_"
        (tdsLoop pd pd.nb_tasks_CODU pd.nb_tasks) lp4 with
    | none => none
    | some lp5 => some (add_convexity_rows pd lp5)

/-! ## `build_subproblem_problem` -/

/-- The enumerator `Shift::night` of `Problem_Data.h`. -/
def Shift.night : Nat := 0

/-- The enumerator `Shift::morning` of `Problem_Data.h`. -/
def Shift.morning : Nat := 1

/-- The enumerator `Shift::afternoon` of `Problem_Data.h`. -/
def Shift.afternoon : Nat := 2

/-- Capacity of the scratch arrays `matind`, `matval` of `build_subproblem_problem`. -/
def matCapacitySubproblem : Nat := 20000

/-- The arguments of one call of `CPXaddrows` that adds a single row. -/
structure RowCall where
  rhs : ℚ
  sense : Char
  mat : List (Nat × ℚ)
  name : String

/-- A sequence of `CPXaddrows` calls, in order. -/
def add_row_calls (calls : List RowCall) (lp : CpxLP) : CpxLP :=
  calls.foldl (fun lp r => CPXaddrows lp r.rhs r.sense r.mat r.name) lp

/-- The days visited by `for (d = d0; d < nb_days; d = d + 7)`. -/
def weekLoop (d0 nb_days : Nat) : List Nat :=
  (List.range ((nb_days - d0 + 6) / 7)).map fun i => d0 + 7 * i

/-- The Sundays of the planning horizon, `for (d = 6 - start_day; d < nb_days; d = d + 7)`
(for a start day in `0..6`). -/
def sundays (pd : Problem_Data) : List Nat := weekLoop (6 - pd.start_day) pd.nb_days

/-- The calculation of `nb_weekends` in `input` (`Problem_Data.cpp`): the number of
iterations of that loop. -/
def input_nb_weekends (start_day nb_days : Nat) : Nat :=
  (weekLoop (6 - start_day) nb_days).length

/-- The right-hand side `(int)(((double)140 / 28 * nb_days) + 0.5) - 7 * nb_holidays` of
constraint set 9; `140 / 28` is exactly 5, so the conversion yields `5 * nb_days`. -/
def working_hours_target (pd : Problem_Data) : Int := 5 * pd.nb_days - 7 * pd.nb_holidays

/-- The variables of a pricing problem, in the order of creation: `a_tds` (binary, objective
0), `Y_Wplus_w`, `Y_Wmin_w`, `Y_Hplus`, `Y_Hmin`, `Y_G_g` (integer, no upper bound). The
variable types are not stored in the model. -/
def subproblem_variables (pd : Problem_Data) : CpxLP :=
  let lp1 := (tdsLoop pd 0 pd.nb_tasks).foldl
    (fun lp x => CPXnewcols lp 0 0 (some 1) (name_tds "a_" "_" "_" x)) CPXcreateprob
  let lp2 := (List.range pd.nb_weekends).foldl
    (fun lp w => CPXnewcols lp pd.obj_weight_Y_W 0 none ("Y_Wplus_" ++ toString (w + 1))) lp1
  let lp3 := (List.range pd.nb_weekends).foldl
    (fun lp w => CPXnewcols lp pd.obj_weight_Y_W 0 none ("Y_Wmin_" ++ toString (w + 1))) lp2
  let lp4 := CPXnewcols lp3 pd.obj_weight_Y_Hplus 0 none "Y_Hplus"
  let lp5 := CPXnewcols lp4 pd.obj_weight_Y_Hmin 0 none "Y_Hmin"
  (List.range pd.nb_groups).foldl
    (fun lp g => CPXnewcols lp
      (if g < pd.nb_groups_CODU then pd.obj_weight_Y_G_CODU else pd.obj_weight_Y_G_ambulances)
      0 none ("Y_G_" ++ toString (g + 1))) lp5

/-- The row of constraint set (2.1) for day `d`: night, morning and afternoon shift of
day `d`. -/
def row_2_1 (pd : Problem_Data) (d : Nat) : RowCall :=
  { rhs := 1, sense := 'L',
    mat := (List.range pd.nb_tasks).flatMap fun t =>
      [(tdsIndex pd (t, d, Shift.night), 1), (tdsIndex pd (t, d, Shift.morning), 1),
       (tdsIndex pd (t, d, Shift.afternoon), 1)],
    name := "Min_11_hours_between_night_shift_and_next_shift_on_day_" ++ toString (d + 1) }

/-- Constraint set (2.1), `for (d = 0; d < nb_days; ++d)`. -/
def constraint_set_2_1 (pd : Problem_Data) : List RowCall :=
  (List.range pd.nb_days).map (row_2_1 pd)

/-- The row of constraint set (2.2) for day `d`: morning and afternoon shift of day `d`,
night shift of day `d + 1`. -/
def row_2_2 (pd : Problem_Data) (d : Nat) : RowCall :=
  { rhs := 1, sense := 'L',
    mat := (List.range pd.nb_tasks).flatMap fun t =>
      [(tdsIndex pd (t, d, Shift.morning), 1), (tdsIndex pd (t, d, Shift.afternoon), 1),
       (tdsIndex pd (t, d + 1, Shift.night), 1)],
    name := "Min_11_hours_between_morning_shift_and_next_shift_on_day_" ++ toString (d + 1) }

/-- Constraint set (2.2), `for (d = 0; d < nb_days - 1; ++d)`. -/
def constraint_set_2_2 (pd : Problem_Data) : List RowCall :=
  (List.range (pd.nb_days - 1)).map (row_2_2 pd)

/-- The row of constraint set (2.3) for day `d`: afternoon shift of day `d`, night and
morning shift of day `d + 1`. -/
def row_2_3 (pd : Problem_Data) (d : Nat) : RowCall :=
  { rhs := 1, sense := 'L',
    mat := (List.range pd.nb_tasks).flatMap fun t =>
      [(tdsIndex pd (t, d, Shift.afternoon), 1), (tdsIndex pd (t, d + 1, Shift.night), 1),
       (tdsIndex pd (t, d + 1, Shift.morning), 1)],
    name := "Min_11_hours_between_afternoon_shift_and_next_shift_on_day_" ++ toString (d + 1) }

/-- Constraint set (2.3), `for (d = 0; d < nb_days - 1; ++d)`. -/
def constraint_set_2_3 (pd : Problem_Data) : List RowCall :=
  (List.range (pd.nb_days - 1)).map (row_2_3 pd)

/-- Constraint set 3: no assignment to a task the person cannot perform. -/
def constraint_set_3 (pd : Problem_Data) (person : Nat) : List RowCall :=
  ((tdsLoop pd 0 pd.nb_tasks).filter fun x => !pd.person_task person x.1).map fun x =>
    { rhs := 0, sense := 'E', mat := [(tdsIndex pd x, 1)],
      name := "Person_" ++ toString (person + 1) ++ "_cannot_do_task" ++ toString (x.1 + 1) ++
        "_day_" ++ toString (x.2.1 + 1) ++ "_shift_" ++ toString (x.2.2 + 1) }

/-- The entries `(t, d, s) -> v` of the loop nest `for t, for d in days, for s`. -/
def window_entries (pd : Problem_Data) (days : List Nat) (v : ℚ) : List (Nat × ℚ) :=
  (List.range pd.nb_tasks).flatMap fun t =>
    days.flatMap fun d =>
      (List.range pd.nb_shifts).map fun s => (tdsIndex pd (t, d, s), v)

/-- Constraint set 4: at most 6 working days among the days `r, ..., r + 6`. -/
def constraint_set_4 (pd : Problem_Data) (person : Nat) : List RowCall :=
  (List.range (pd.nb_days - 6)).map fun r =>
    { rhs := 6, sense := 'L', mat := window_entries pd (List.range' r 7) 1,
      name := "Maximum_6_consecutive_working_days_from_day_" ++ toString (person + 1) }

/-- Constraint set 5: at least one working day among the days `r, ..., r + 5`. -/
def constraint_set_5 (pd : Problem_Data) (person : Nat) : List RowCall :=
  (List.range (pd.nb_days - 5)).map fun r =>
    { rhs := 1, sense := 'G', mat := window_entries pd (List.range' r 6) 1,
      name := "maximum_5_consecutive_days_off_from_day_" ++ toString (person + 1) }

/-- Constraint set 7: the assignments on all Sundays together are at most
`3 * nb_weekends / 4` (integer division). -/
def constraint_set_7 (pd : Problem_Data) : RowCall :=
  { rhs := ((3 * pd.nb_weekends / 4 : Nat) : ℚ), sense := 'L',
    mat := window_entries pd (sundays pd) 1, name := "at_least_one_Sunday_off" }

/-- Constraint set 8: for every Sunday `d > 0`, numbered `w = 0, 1, ...`, the assignments
on Sunday minus those on Saturday equal `Y_Wplus_w - Y_Wmin_w`. -/
def constraint_set_8 (pd : Problem_Data) : List RowCall :=
  (((sundays pd).filter fun d => decide (0 < d)).enum).map fun wd =>
    { rhs := 0, sense := 'E',
      mat := ((List.range pd.nb_tasks).flatMap fun t =>
          (List.range pd.nb_shifts).flatMap fun s =>
            [(tdsIndex pd (t, wd.2, s), (1 : ℚ)), (tdsIndex pd (t, wd.2 - 1, s), -1)]) ++
        [(pd.tds + wd.1, -1), (pd.tds + pd.nb_weekends + wd.1, 1)],
      name := "whole_weekend_week_" ++ toString (wd.2 / 7 + 1) }

/-- Constraint set 9: the worked hours equal the target plus `Y_Hplus` minus `Y_Hmin`. -/
def constraint_set_9 (pd : Problem_Data) : RowCall :=
  { rhs := (working_hours_target pd : ℚ), sense := 'E',
    mat := ((tdsLoop pd 0 pd.nb_tasks).map fun x =>
        (tdsIndex pd x, (pd.task_durations x.1 : ℚ))) ++
      [(pd.tds + 2 * pd.nb_weekends, -1), (pd.tds + 2 * pd.nb_weekends + 1, 1)],
    name := "140_working_hours" }

/-- The row of constraint set 12 for group `g`: the assignments of a member of `g` to
tasks outside `g` (nothing for a person outside `g`) equal `Y_G_g`. -/
def row_12 (pd : Problem_Data) (person g : Nat) : RowCall :=
  { rhs := 0, sense := 'E',
    mat := (if pd.person_group person g then
        ((tdsLoop pd 0 pd.nb_tasks).filter fun x => !pd.group_task g x.1).map fun x =>
          (tdsIndex pd x, (1 : ℚ))
      else []) ++ [(pd.tds + 2 * pd.nb_weekends + 2 + g, -1)],
    name := "group_" ++ toString (g + 1) ++ "_assign_tasks_to_members_of_this_group" }

/-- Constraint set 12, `for (g = 0; g < nb_groups; ++g)`. -/
def constraint_set_12 (pd : Problem_Data) (person : Nat) : List RowCall :=
  (List.range pd.nb_groups).map (row_12 pd person)

/-- Constraint sets (13.1)-(13.3): at least two shifts of the given kind on tasks the
person can perform. -/
def constraint_set_13 (pd : Problem_Data) (person : Nat) (shift : Nat) (kind : String) :
    RowCall :=
  { rhs := 2, sense := 'G',
    mat := ((List.range pd.nb_tasks).filter fun t => pd.person_task person t).flatMap fun t =>
      (List.range pd.nb_days).map fun d => (tdsIndex pd (t, d, shift), (1 : ℚ)),
    name := "Person_" ++ toString (person + 1) ++ "_at_least_two_" ++ kind ++ "_shifts" }

/-- All rows of the pricing problem of a person, in the order in which
`build_subproblem_problem` adds them. -/
def subproblem_rows (pd : Problem_Data) (person : Nat) : List RowCall :=
  constraint_set_2_1 pd ++ constraint_set_2_2 pd ++ constraint_set_2_3 pd ++
    constraint_set_3 pd person ++ constraint_set_4 pd person ++ constraint_set_5 pd person ++
    [constraint_set_7 pd] ++ constraint_set_8 pd ++ [constraint_set_9 pd] ++
    constraint_set_12 pd person ++
    [constraint_set_13 pd person Shift.night "night",
     constraint_set_13 pd person Shift.morning "morning",
     constraint_set_13 pd person Shift.afternoon "afternoon"]

/-- `Diving_Column_Generation::build_subproblem_problem`: the pricing problem of a
person. Writing a row needs room for its entries in the scratch arrays; for a start day
outside `0..6` the source computes negative day indices, and the embedding gives no
result. -/
def build_subproblem_problem (pd : Problem_Data) (person : Nat) : Option CpxLP :=
  if pd.start_day ≤ 6 ∧
      (subproblem_rows pd person).all (fun r => decide (r.mat.length ≤ matCapacitySubproblem))
  then some (add_row_calls (subproblem_rows pd person) (subproblem_variables pd))
  else none

/-- The objective coefficients of the columns of a pricing problem after
`build_subproblem_problem` (the rows do not change them). -/
def subproblem_objective (pd : Problem_Data) : List ℚ :=
  (subproblem_variables pd).cols.map fun c => c.obj

/-! ## `add_column_to_master` -/

/-- The conversion `(int) x` of a double: truncation toward zero, undefined when the
result is not an `int`. -/
def double_to_int (x : ℚ) : Option Int :=
  let z : Int := if 0 ≤ x then ⌊x⌋ else ⌈x⌉
  if -2147483648 ≤ z ∧ z ≤ 2147483647 then some z else none

/-- The loop nest of `add_column_to_master` over `(t,d,s)`: it fills the sparse column
`(matind, matval)` and the vector `a_tds` of the new record. -/
def add_column_entries (pd : Problem_Data) (solution_subproblem : List ℚ) :
    List (Nat × Nat × Nat) → List (Nat × ℚ) → List Int → Option (List (Nat × ℚ) × List Int)
  | [], mat, a_tds => some (mat, a_tds)
  | x :: rest, mat, a_tds =>
    if mat.length < matCapacityColumn then
      match solution_subproblem[tdsIndex pd x]? with
      | none => none
      | some v =>
        match double_to_int (v + 1 / 10) with
        | none => none
        | some a =>
          add_column_entries pd solution_subproblem rest (mat ++ [(tdsIndex pd x, v)])
            (a_tds ++ [a])
    else none

/-- `Diving_Column_Generation::add_column_to_master`. -/
def add_column_to_master (pd : Problem_Data) (st : State) (person : Nat) : Option State :=
  let nb_calls_CG := st.nb_calls_CG + 1
  let name := name_z person nb_calls_CG
  match add_column_entries pd st.solution_subproblem (tdsLoop pd 0 pd.nb_tasks) [] [] with
  | none => none
  | some (mat, a_tds) =>
    if mat.length < matCapacityColumn then
      some { st with
        nb_calls_CG := nb_calls_CG,
        masterproblem := CPXaddcols st.masterproblem st.cost_column_k_person_p
          (mat ++ [(pd.tds + person, 1)]) 0 (some 1) name,
        current_columns := st.current_columns ++
          [{ person := person, name := name, cost := st.cost_column_k_person_p,
             a_tds := a_tds }] }
    else none

/-! ## `save_solution` -/

/-- The loop `for (tds ...) if (col.a_tds[tds] == 1) temp_sol[col.person*... + tds] = 1`
for one fixed column. -/
def save_solution_mark (pd : Problem_Data) (col : Column) :
    List Nat → List Int → Option (List Int)
  | [], temp_sol => some temp_sol
  | tds :: rest, temp_sol =>
    match col.a_tds[tds]? with
    | none => none
    | some a =>
      if a = 1 then
        if col.person * pd.tds + tds < temp_sol.length then
          save_solution_mark pd col rest (temp_sol.set (col.person * pd.tds + tds) 1)
        else none
      else save_solution_mark pd col rest temp_sol

/-- The loop over `fixed_columns` that fills `temp_sol`. -/
def save_solution_temp (pd : Problem_Data) : List Column → List Int → Option (List Int)
  | [], temp_sol => some temp_sol
  | col :: rest, temp_sol =>
    match save_solution_mark pd col (List.range pd.tds) temp_sol with
    | none => none
    | some temp_sol1 => save_solution_temp pd rest temp_sol1

/-- The innermost loop `for (t ...)` of the second part for fixed `p, d, s`. -/
def save_solution_tasks (pd : Problem_Data) (temp_sol : List Int) (p d s : Nat) :
    List Nat → List Int → Option (List Int)
  | [], solution => some solution
  | t :: rest, solution =>
    match temp_sol[p * pd.tds + t * pd.nb_days * pd.nb_shifts + d * pd.nb_shifts + s]? with
    | none => none
    | some a =>
      if a = 1 then
        if p * pd.nb_days * pd.nb_shifts + d * pd.nb_shifts + s < solution.length then
          save_solution_tasks pd temp_sol p d s rest
            (solution.set (p * pd.nb_days * pd.nb_shifts + d * pd.nb_shifts + s) (t : Int))
        else none
      else save_solution_tasks pd temp_sol p d s rest solution

/-- The loop nest `for p, for d, for s` of the second part, as a list of triples. -/
def pdsLoop (pd : Problem_Data) : List (Nat × Nat × Nat) :=
  (List.range pd.nb_people).flatMap fun p =>
    (List.range pd.nb_days).flatMap fun d =>
      (List.range pd.nb_shifts).map fun s => (p, d, s)

/-- The second part of `save_solution` over the remaining triples `(p,d,s)`. -/
def save_solution_fill (pd : Problem_Data) (temp_sol : List Int) :
    List (Nat × Nat × Nat) → List Int → Option (List Int)
  | [], solution => some solution
  | x :: rest, solution =>
    match save_solution_tasks pd temp_sol x.1 x.2.1 x.2.2 (List.range pd.nb_tasks) solution with
    | none => none
    | some solution1 => save_solution_fill pd temp_sol rest solution1

/-- `Diving_Column_Generation::save_solution`. -/
def save_solution (pd : Problem_Data) (st : State) : Option State :=
  match double_to_int (st.objective_master + 1 / 2) with
  | none => none
  | some obj =>
    match save_solution_temp pd st.fixed_columns (List.replicate (pd.nb_people * pd.tds) 0) with
    | none => none
    | some temp_sol =>
      match save_solution_fill pd temp_sol (pdsLoop pd)
          (List.replicate (pd.nb_people * pd.nb_days * pd.nb_shifts) (-1)) with
      | none => none
      | some solution =>
        some { st with objective_best_solution := obj, solution := solution }

/-! ## Solver status codes and the optimisation oracle -/

/-- The solution status codes of `cplex.h` that `check_solution_status` compares with. -/
structure CPX_Codes where
  CPX_STAT_OPTIMAL : Int
  CPX_STAT_UNBOUNDED : Int
  CPX_STAT_INFEASIBLE : Int
  CPX_STAT_INForUNBD : Int
  CPXMIP_OPTIMAL : Int
  CPXMIP_OPTIMAL_TOL : Int
  CPXMIP_UNBOUNDED : Int
  CPXMIP_INFEASIBLE : Int
  CPXMIP_INForUNBD : Int
  CPXMIP_OPTIMAL_INFEAS : Int
  CPXMIP_TIME_LIM_FEAS : Int
  CPXMIP_TIME_LIM_INFEAS : Int
  CPXMIP_MEM_LIM_FEAS : Int
  CPXMIP_MEM_LIM_INFEAS : Int

/-- The values of these codes in the CPLEX callable library. -/
def cplexCodes : CPX_Codes :=
  { CPX_STAT_OPTIMAL := 1, CPX_STAT_UNBOUNDED := 2, CPX_STAT_INFEASIBLE := 3,
    CPX_STAT_INForUNBD := 4, CPXMIP_OPTIMAL := 101, CPXMIP_OPTIMAL_TOL := 102,
    CPXMIP_UNBOUNDED := 118, CPXMIP_INFEASIBLE := 103, CPXMIP_INForUNBD := 119,
    CPXMIP_OPTIMAL_INFEAS := 115, CPXMIP_TIME_LIM_FEAS := 107,
    CPXMIP_TIME_LIM_INFEAS := 108, CPXMIP_MEM_LIM_FEAS := 111,
    CPXMIP_MEM_LIM_INFEAS := 112 }

/-- What `CPXlpopt` followed by `CPXsolution` leaves behind: the return code of
`CPXsolution`, the solution status, the objective, and the contents of the primal and
dual arrays (by position). -/
structure LPAnswer where
  status : Int
  solstat : Int
  objval : ℚ
  x : Nat → ℚ
  pi : Nat → ℚ

/-- What `CPXmipopt` followed by `CPXsolution` leaves behind for a pricing problem. -/
structure MIPAnswer where
  status : Int
  solstat : Int
  objval : ℚ
  x : Nat → ℚ

/-- The black-box parts of a run: the LP optimiser on the master, the MIP optimiser on
the pricing problem of a person (given the objective coefficients of its columns and
the cutoff), and the outcome of the `n`-th comparison of the elapsed time
with the allowed computation time. -/
structure Oracle where
  lpopt : CpxLP → LPAnswer
  mipopt : Nat → List ℚ → ℚ → MIPAnswer
  time_exceeded : Nat → Bool

/-- Number of columns of a pricing problem as created by `build_subproblem_problem`:
the `a_tds`, `Y_Wplus`, `Y_Wmin`, `Y_Hplus`, `Y_Hmin` and `Y_G` variables. -/
def numcols_subproblem (pd : Problem_Data) : Nat :=
  pd.tds + 2 * pd.nb_weekends + 2 + pd.nb_groups

/-! ## `check_solution_status` -/

/-- `Diving_Column_Generation::check_solution_status`. -/
def check_solution_status (cpx : CPX_Codes) (st : State) (integer : Bool)
    (status_ solstat_ : Int) : State × Bool :=
  if status_ ≠ 0 then
    ({ st with algorithm_failed := true,
               algorithm_solution_status := "\nError 1217: No solution exists. \nThe requested command cannot be executed because no solution exists for the problem. \nOptimize the problem first." },
     false)
  else
    let st1 : State :=
      if !integer then
        if solstat_ = cpx.CPX_STAT_OPTIMAL then
          { st with algorithm_failed := false,
                    algorithm_solution_status := "CPLEX has found the optimal solution." }
        else if solstat_ = cpx.CPX_STAT_UNBOUNDED then
          { st with algorithm_failed := true,
                    algorithm_solution_status := "\nProblem is unbounded." }
        else if solstat_ = cpx.CPX_STAT_INFEASIBLE then
          { st with algorithm_failed := true,
                    algorithm_solution_status := "\nProblem is infeasible." }
        else if solstat_ = cpx.CPX_STAT_INForUNBD then
          { st with algorithm_failed := true,
                    algorithm_solution_status := "\nProblem is unbounded or infeasible." }
        else st
      else
        if solstat_ = cpx.CPXMIP_OPTIMAL ∨ solstat_ = cpx.CPXMIP_OPTIMAL_TOL then
          { st with algorithm_failed := false,
                    algorithm_solution_status := "CPLEX has found the optimal solution." }
        else if solstat_ = cpx.CPXMIP_UNBOUNDED then
          { st with algorithm_failed := true,
                    algorithm_solution_status := "\nProblem is unbounded." }
        else if solstat_ = cpx.CPXMIP_INFEASIBLE then
          { st with algorithm_failed := true,
                    algorithm_solution_status := "\nProblem is infeasible." }
        else if solstat_ = cpx.CPXMIP_INForUNBD then
          { st with algorithm_failed := true,
                    algorithm_solution_status := "\nProblem is unbounded or infeasible." }
        else if solstat_ = cpx.CPXMIP_OPTIMAL_INFEAS then
          { st with algorithm_failed := true,
                    algorithm_solution_status := "\nProblem optimal with unscaled infeasibilities." }
        else if solstat_ = cpx.CPXMIP_TIME_LIM_FEAS then
          { st with algorithm_failed := true,
                    algorithm_solution_status := "\nTime limit exceeded, integer solution exists." }
        else if solstat_ = cpx.CPXMIP_TIME_LIM_INFEAS then
          { st with algorithm_failed := true,
                    algorithm_solution_status := "\nTime limit exceeded, no integer solution." }
        else if solstat_ = cpx.CPXMIP_MEM_LIM_FEAS then
          { st with algorithm_failed := true,
                    algorithm_solution_status := "\nTreememory limit, integer solution exists." }
        else if solstat_ = cpx.CPXMIP_MEM_LIM_INFEAS then
          { st with algorithm_failed := true,
                    algorithm_solution_status := "\nTreememory limit, no integer solution exists." }
        else
          { st with algorithm_failed := true,
                    algorithm_solution_status := "\nOther reason for failure." }
    (st1, !st1.algorithm_failed)

/-! ## `solve_masterproblem`, `change_coefficients_subproblem`, `solve_subproblem` -/

/-- `Diving_Column_Generation::solve_masterproblem`: the new state and the returned
objective value. The arrays get one entry per row and per column of the master. -/
def solve_masterproblem (cpx : CPX_Codes) (orc : Oracle) (st : State) : State × ℚ :=
  let ans := orc.lpopt st.masterproblem
  let st1 : State := { st with
    dual_var_master := (List.range (CPXgetnumrows st.masterproblem)).map ans.pi,
    solution_master := (List.range (CPXgetnumcols st.masterproblem)).map ans.x,
    status := ans.status, solstat := ans.solstat, objective_master := ans.objval }
  let st2 := (check_solution_status cpx st1 false st1.status st1.solstat).1
  (st2, st2.objective_master)

/-- `CPXchgobj` with the index array `indices_sub = 0, 1, ..., cnt-1` of
`create_cplex_arrays`: the objective coefficients of the first `cnt` columns are
replaced by `values`; CPLEX rejects the call (and changes nothing) when an index is out
of range. -/
def CPXchgobj (obj : List ℚ) (values : List ℚ) : List ℚ :=
  if values.length ≤ obj.length then values ++ obj.drop values.length else obj

/-- `Diving_Column_Generation::change_coefficients_subproblem`. -/
def change_coefficients_subproblem (pd : Problem_Data) (st : State) (person : Nat) :
    Option State :=
  let cnt := pd.tds
  match st.dual_var_master[cnt + person]? with
  | none => none
  | some mu =>
    if cnt ≤ st.dual_var_master.length ∧ cnt ≤ st.values_coef.length then
      let values_coef :=
        (st.dual_var_master.take cnt).map (fun v => -v) ++ st.values_coef.drop cnt
      match st.subproblems[person]? with
      | none => none
      | some sub =>
        some { st with mu_p := mu, values_coef := values_coef,
                       subproblems := st.subproblems.set person
                         (CPXchgobj sub (values_coef.take cnt)) }
    else none

/-- The cost `c_pk` of the column found by the pricing problem, computed from the
penalty variables of its solution (second half of `solve_subproblem`). -/
def column_cost (pd : Problem_Data) (sol : List ℚ) : Option ℚ :=
  let base := pd.tds
  let rd : Nat → Option ℚ := fun i => sol[i]?
  let addAll : List Nat → ℚ → ℚ → Option ℚ := fun idx w acc =>
    idx.foldl (fun (acc : Option ℚ) i =>
      match acc, rd i with
      | some a, some v => some (a + w * v)
      | _, _ => none) (some acc)
  match addAll ((List.range (2 * pd.nb_weekends)).map (fun w => base + w))
      pd.obj_weight_Y_W 0 with
  | none => none
  | some c1 =>
    match rd (base + 2 * pd.nb_weekends), rd (base + 2 * pd.nb_weekends + 1) with
    | some hp, some hm =>
      let c3 := c1 + pd.obj_weight_Y_Hplus * hp + pd.obj_weight_Y_Hmin * hm
      match addAll ((List.range pd.nb_groups_CODU).map
          (fun g => base + 2 * pd.nb_weekends + 2 + g)) pd.obj_weight_Y_G_CODU c3 with
      | none => none
      | some c4 =>
        addAll ((List.range' pd.nb_groups_CODU (pd.nb_groups - pd.nb_groups_CODU)).map
          (fun g => base + 2 * pd.nb_weekends + 2 + g)) pd.obj_weight_Y_G_ambulances c4
    | _, _ => none

/-- The calls `CPXsetdblparam`, `CPXmipopt` and `CPXsolution` of `solve_subproblem`, given
the oracle's answer: `CPXsolution` fills the objective and the solution array only when
it succeeds. -/
def store_mip_answer (pd : Problem_Data) (st : State) (ans : MIPAnswer) : State :=
  { st with
    status := ans.status, solstat := ans.solstat,
    objective_subproblem := if ans.status = 0 then ans.objval else st.objective_subproblem,
    solution_subproblem :=
      if ans.status = 0 then (List.range (numcols_subproblem pd)).map ans.x
      else st.solution_subproblem }

/-- `Diving_Column_Generation::solve_subproblem`: the new state and the returned
reduced cost. -/
def solve_subproblem (pd : Problem_Data) (cpx : CPX_Codes) (orc : Oracle) (st : State)
    (person : Nat) : Option (State × ℚ) :=
  match st.subproblems[person]? with
  | none => none
  | some objcoef =>
    let st1 := store_mip_answer pd st (orc.mipopt person objcoef st.mu_p)
    let r := check_solution_status cpx st1 true st1.status st1.solstat
    let st2 : State :=
      if !r.2 then { r.1 with objective_subproblem := 1000000000000 } else r.1
    match column_cost pd st2.solution_subproblem with
    | none => none
    | some c =>
      some ({ st2 with cost_column_k_person_p := c }, st2.objective_subproblem - st2.mu_p)

/-! ## `column_generation` -/

/-- Result of a loop that is run with a bound on the number of iterations. -/
inductive Outcome (α : Type) where
  | done (a : α)
  | undefined
  | out_of_fuel
deriving DecidableEq, Repr

/-- The statements both column-generation methods execute for a person whose flag
`solve_subproblem_p[person]` is set: clear the flag, reprice, solve the pricing problem,
and add the column when the reduced cost is below `-reduced_cost_tolerance_LP`. The
result carries the reduced cost. -/
def price_person (pd : Problem_Data) (cpx : CPX_Codes) (orc : Oracle) (st : State)
    (person : Nat) : Option (State × ℚ) :=
  if person < st.solve_subproblem_p.length then
    let st1 : State := { st with solve_subproblem_p := st.solve_subproblem_p.set person false }
    match change_coefficients_subproblem pd st1 person with
    | none => none
    | some st2 =>
      match solve_subproblem pd cpx orc st2 person with
      | none => none
      | some (st3, reduced_cost) =>
        let st4 : State := { st3 with log := st3.log ++ [Event.priced person] }
        if reduced_cost < -reduced_cost_tolerance_LP then
          match add_column_to_master pd
              { st4 with nb_columns_added_total := st4.nb_columns_added_total + 1 } person with
          | none => none
          | some st5 =>
            some ({ st5 with solve_subproblem_p := st5.solve_subproblem_p.set person true,
                             log := st5.log ++ [Event.column_added person] }, reduced_cost)
        else some (st4, reduced_cost)
  else none

/-- The `for (p ...)` loop of method 1 over the remaining people. -/
def cg_sweep (pd : Problem_Data) (cpx : CPX_Codes) (orc : Oracle) :
    List Nat → State → Bool → Option (State × Bool)
  | [], st, LP_optimum_found => some (st, LP_optimum_found)
  | p :: rest, st, LP_optimum_found =>
    match st.solve_subproblem_p[p]? with
    | none => none
    | some false => cg_sweep pd cpx orc rest st LP_optimum_found
    | some true =>
      match price_person pd cpx orc st p with
      | none => none
      | some (st1, reduced_cost) =>
        cg_sweep pd cpx orc rest st1
          (if reduced_cost < -reduced_cost_tolerance_LP then false else LP_optimum_found)

/-- The master solve inside the loops, with the call recorded. -/
def solve_master_logged (cpx : CPX_Codes) (orc : Oracle) (st : State) : State × ℚ :=
  let r := solve_masterproblem cpx orc st
  ({ r.1 with log := r.1.log ++ [Event.master_solved] }, r.2)

/-- The `while` loop of method 1 (`one_column_per_person`). -/
def cg_method1 (pd : Problem_Data) (cpx : CPX_Codes) (orc : Oracle) :
    Nat → State → Outcome (State × ℚ)
  | 0, _ => Outcome.out_of_fuel
  | fuel + 1, st =>
    let r := solve_master_logged cpx orc { st with iterations_CG := st.iterations_CG + 1 }
    let st2 : State := { r.1 with clock_checks := r.1.clock_checks + 1 }
    if orc.time_exceeded r.1.clock_checks then Outcome.done (st2, r.2)
    else
      match cg_sweep pd cpx orc (List.range pd.nb_people) st2 true with
      | none => Outcome.undefined
      | some (st3, LP_optimum_found) =>
        if LP_optimum_found then Outcome.done (st3, r.2)
        else cg_method1 pd cpx orc fuel st3

/-- The `do ... while (reduced_cost > -reduced_cost_tolerance_LP)` loop of method 2; the
result carries `person`, `last_person_improved` and `LP_optimum_found`. -/
def cg_inner2 (pd : Problem_Data) (cpx : CPX_Codes) (orc : Oracle) :
    Nat → State → Nat → Nat → ℚ → Outcome (State × Nat × Nat × Bool)
  | 0, _, _, _, _ => Outcome.out_of_fuel
  | fuel + 1, st, person, last_person_improved, reduced_cost =>
    match st.solve_subproblem_p[person]? with
    | none => Outcome.undefined
    | some flag =>
      let step : Option (State × ℚ × Nat) :=
        if flag then
          match price_person pd cpx orc st person with
          | none => none
          | some (st1, rc) =>
            some (st1, rc,
              if rc < -reduced_cost_tolerance_LP then person else last_person_improved)
        else some (st, reduced_cost, last_person_improved)
      match step with
      | none => Outcome.undefined
      | some (st1, rc, last1) =>
        let person1 := if person + 1 ≥ pd.nb_people then 0 else person + 1
        if person1 = last1 then Outcome.done (st1, person1, last1, true)
        else if rc > -reduced_cost_tolerance_LP then
          cg_inner2 pd cpx orc fuel st1 person1 last1 rc
        else Outcome.done (st1, person1, last1, false)

/-- The `while` loop of method 2 (`one_column_person_p_and_reoptimize`); `obj_master_LP`
is the value of that variable at the loop head. -/
def cg_method2 (pd : Problem_Data) (cpx : CPX_Codes) (orc : Oracle) :
    Nat → State → Nat → Nat → ℚ → Outcome (State × ℚ)
  | 0, _, _, _, _ => Outcome.out_of_fuel
  | fuel + 1, st, person, last_person_improved, obj_master_LP =>
    let st1 : State := { st with iterations_CG := st.iterations_CG + 1,
                                 clock_checks := st.clock_checks + 1 }
    if orc.time_exceeded st.clock_checks then Outcome.done (st1, obj_master_LP)
    else
      let r := solve_master_logged cpx orc st1
      match cg_inner2 pd cpx orc (pd.nb_people + 1) r.1 person last_person_improved 999999 with
      | Outcome.done (st2, person1, last1, LP_optimum_found) =>
        if LP_optimum_found then Outcome.done (st2, r.2)
        else cg_method2 pd cpx orc fuel st2 person1 last1 r.2
      | Outcome.undefined => Outcome.undefined
      | Outcome.out_of_fuel => Outcome.out_of_fuel

/-- `Diving_Column_Generation::column_generation` (timing statistics left out). -/
def column_generation (pd : Problem_Data) (cpx : CPX_Codes) (orc : Oracle)
    (column_generation_method : Column_Generation_Method) (fuel : Nat) (st : State) :
    Outcome (State × ℚ) :=
  let r :=
    match column_generation_method with
    | Column_Generation_Method.one_column_per_person => cg_method1 pd cpx orc fuel st
    | Column_Generation_Method.one_column_person_p_and_reoptimize =>
      cg_method2 pd cpx orc fuel st 0 0 (10 ^ 100)
  match r with
  | Outcome.done (st1, obj_master_LP) =>
    if st1.first_call_CG then
      Outcome.done ({ st1 with lowerbound_root_node := obj_master_LP, first_call_CG := false },
        obj_master_LP)
    else Outcome.done (st1, obj_master_LP)
  | Outcome.undefined => Outcome.undefined
  | Outcome.out_of_fuel => Outcome.out_of_fuel

/-! ## `diving_heuristic` and `run_algorithm` -/

/-- Step (7) of a dive level: the flag of `p` is cleared exactly when `p` occurs in
`fixed_people`. -/
def reset_flags (pd : Problem_Data) (st : State) : Option State :=
  if pd.nb_people ≤ st.solve_subproblem_p.length then
    let flags := (List.range pd.nb_people).foldl
      (fun flags p => flags.set p (!st.fixed_people.contains p)) st.solve_subproblem_p
    some { st with solve_subproblem_p := flags }
  else none

/-- Steps (3)-(7) of a dive level: select the branching variables, fix them in the
master, remove the other columns of the fixed people, reset the flags. -/
def dive_step (pd : Problem_Data) (branching_method_diving : Branching_Method_Diving)
    (branching_threshold_diving : ℚ) (st : State) : Option State :=
  match find_branching_variables pd branching_method_diving branching_threshold_diving st with
  | none => none
  | some st1 =>
    let st2 := add_branching_restrictions { st1 with log := st1.log ++ [Event.branched] }
    match remove_columns_that_violate_branching_restrictions st2 with
    | none => none
    | some st3 => reset_flags pd st3

/-- The divisor `nb_people - fixed_people.size()` of step (8) of a dive level: the `int`
`nb_people` is converted to `size_t` and the subtraction is done in `size_t`, that is
modulo `2^64`. -/
def node_budget_divisor (pd : Problem_Data) (st : State) : Nat :=
  (pd.nb_people % 2 ^ 64 + (2 ^ 64 - st.fixed_people.length % 2 ^ 64)) % 2 ^ 64

/-- Step (8) of a dive level, `allowed_computation_time_node = (allowed_computation_time -
elapsed_time_total) / (nb_people - fixed_people.size())`: the new value of the budget;
`none` when the divisor is 0 (the quotient of the doubles is then an infinity or a NaN,
not a number of seconds). -/
def allowed_computation_time_node (pd : Problem_Data)
    (allowed_computation_time elapsed_time_total : ℚ) (st : State) : Option ℚ :=
  if node_budget_divisor pd st = 0 then none
  else some ((allowed_computation_time - elapsed_time_total) / node_budget_divisor pd st)

/-- The `while (true)` loop of `diving_heuristic`. -/
def diving_loop (pd : Problem_Data) (cpx : CPX_Codes) (orc : Oracle)
    (column_generation_method : Column_Generation_Method)
    (branching_method_diving : Branching_Method_Diving) (branching_threshold_diving : ℚ)
    (cg_fuel : Nat) : Nat → State → Outcome State
  | 0, _ => Outcome.out_of_fuel
  | fuel + 1, st =>
    match column_generation pd cpx orc column_generation_method cg_fuel st with
    | Outcome.undefined => Outcome.undefined
    | Outcome.out_of_fuel => Outcome.out_of_fuel
    | Outcome.done (st1, _) =>
      match is_solution_fractional st1 with
      | none => Outcome.undefined
      | some false =>
        match fix_residual_schedule pd st1 with
        | none => Outcome.undefined
        | some st2 =>
          match save_solution pd st2 with
          | none => Outcome.undefined
          | some st3 => Outcome.done { st3 with log := st3.log ++ [Event.solution_saved] }
      | some true =>
        match dive_step pd branching_method_diving branching_threshold_diving st1 with
        | none => Outcome.undefined
        | some st2 =>
          diving_loop pd cpx orc column_generation_method branching_method_diving
            branching_threshold_diving cg_fuel fuel st2

/-- `Diving_Column_Generation::diving_heuristic`. -/
def diving_heuristic (pd : Problem_Data) (cpx : CPX_Codes) (orc : Oracle)
    (column_generation_method : Column_Generation_Method)
    (branching_method_diving : Branching_Method_Diving) (branching_threshold_diving : ℚ)
    (cg_fuel fuel : Nat) (st : State) : Outcome State :=
  diving_loop pd cpx orc column_generation_method branching_method_diving
    branching_threshold_diving cg_fuel fuel
    { st with solve_subproblem_p := st.solve_subproblem_p ++ List.replicate pd.nb_people true }

/-- The object after construction, `build_master_problem`, the `build_subproblem_problem`
calls and `create_cplex_arrays`. Members without an initialiser, and the arrays that are
allocated without being filled, hold zeros here. -/
def initial_state (pd : Problem_Data) (master : CpxLP) : State :=
  { masterproblem := master, status := 0, solstat := 0, objective_master := 0,
    objective_subproblem := 0, solution_master := [], dual_var_master := [],
    cost_column_k_person_p := 0, mu_p := 0,
    solution_subproblem := List.replicate (numcols_subproblem pd) 0,
    solve_subproblem_p := [], current_columns := [], fixed_columns := [],
    fixed_indices_cplex := [], fixed_people := [], nb_people_fixed_current_iteration := 0,
    nb_calls_CG := 0, nb_branching_dec := 0, algorithm_failed := false,
    algorithm_solution_status := "", solution := [], nb_columns_added_total := 0,
    objective_best_solution := 10 ^ 20,
    values_coef := List.replicate pd.tds 0,
    subproblems := List.replicate pd.nb_people (subproblem_objective pd),
    first_call_CG := true, iterations_CG := 0, lowerbound_root_node := 0,
    clock_checks := 0, log := [] }

/-- `Diving_Column_Generation::run_algorithm` (output left out). -/
def run_algorithm (pd : Problem_Data) (cpx : CPX_Codes) (orc : Oracle)
    (column_generation_method : Column_Generation_Method)
    (branching_method_diving : Branching_Method_Diving) (branching_threshold_diving : ℚ)
    (cg_fuel fuel : Nat) : Outcome State :=
  match build_master_problem pd with
  | none => Outcome.undefined
  | some master =>
    if (List.range pd.nb_people).all (fun p => (build_subproblem_problem pd p).isSome) then
      diving_heuristic pd cpx orc column_generation_method branching_method_diving
        branching_threshold_diving cg_fuel fuel (initial_state pd master)
    else Outcome.undefined

/-! ## Specification vocabulary for the branching functions -/

/-- Every generated column of the master has a record of its name in `current_columns`
(`add_column_to_master` creates both, and records are never erased). -/
def PoolKnowsMaster (pd : Problem_Data) (st : State) : Prop :=
  ∀ i, firstGenerated pd ≤ i → ∀ c, st.masterproblem.cols[i]? = some c →
    ∃ r ∈ st.current_columns, r.name = c.name

/-- The record of master column `i`: the first record of `current_columns` that has the
name of that column. -/
def record_of (st : State) (i : Nat) : Option Column :=
  match CPXgetcolname st.masterproblem i with
  | none => none
  | some column_name => st.current_columns.find? (fun r => decide (r.name = column_name))

/-- The master indices among `l` whose value lies strictly between the threshold and
`1 - fractionality_tolerance_master`. -/
def selectedAbove (branching_threshold_diving : ℚ) (st : State) (l : List Nat) : List Nat :=
  l.filter fun i =>
    match st.solution_master[i]? with
    | some v => decide (v < 1 - fractionality_tolerance_master ∧ v > branching_threshold_diving)
    | none => false

/-- The state after the branching decisions for the master indices `sel` have been
appended to the four branching lists. -/
def pushAll (st : State) (sel : List Nat) : State :=
  { st with
    fixed_indices_cplex := st.fixed_indices_cplex ++ sel,
    fixed_people := st.fixed_people ++ (sel.filterMap (record_of st)).map (fun r => r.person),
    nb_people_fixed_current_iteration := st.nb_people_fixed_current_iteration + sel.length,
    fixed_columns := st.fixed_columns ++ sel.filterMap (record_of st) }

/-! ## Specification vocabulary for the pruning of columns -/

/-- The columns fixed at the current dive level: the last
`nb_people_fixed_current_iteration` entries of `fixed_columns`. -/
def newlyFixed (st : State) : List Column :=
  st.fixed_columns.drop (st.fixed_columns.length - st.nb_people_fixed_current_iteration)

/-- The test of `remove_columns_that_violate_branching_restrictions` for a record `cc`:
some newly fixed column has the same person and another name. -/
def violates (newly : List Column) (cc : Column) : Bool :=
  newly.any fun fc => decide (cc.person = fc.person ∧ cc.name ≠ fc.name)

/-- A master column is pruned when a record of the pool with its name violates the
branching restrictions. -/
def pruned (pool newly : List Column) (mc : CpxCol) : Bool :=
  pool.any fun cc => decide (cc.name = mc.name) && violates newly cc

/-- The names of the columns of a CPLEX problem. -/
def colNames (lp : CpxLP) : List String := lp.cols.map fun c => c.name

/-- The master indices among `l` whose value is at least
`1 - fractionality_tolerance_master`. -/
def selectedOne (st : State) (l : List Nat) : List Nat :=
  l.filter fun i =>
    match st.solution_master[i]? with
    | some v => decide (v ≥ 1 - fractionality_tolerance_master)
    | none => false

/-! ## Specification vocabulary for `save_solution` -/

/-- Some fixed column of person `p` has coefficient 1 at `(t,d,s)`. -/
def covers (pd : Problem_Data) (fixed : List Column) (p t d s : Nat) : Prop :=
  ∃ col ∈ fixed, col.person = p ∧ col.a_tds[tdsIndex pd (t, d, s)]? = some 1

/-- Every entry of a coefficient vector is 0 or 1. -/
def binary_vector (a_tds : List Int) : Prop :=
  ∀ (k : Nat) (v : Int), a_tds[k]? = some v → v = 0 ∨ v = 1

/-- Row (2.1) of the pricing problem for every day, read on a coefficient vector: the
night, morning and afternoon entries of a day, summed over all tasks, are at most 1. -/
def one_shift_per_day (pd : Problem_Data) (a_tds : List Int) : Prop :=
  ∀ d, d < pd.nb_days →
    (∑ t in Finset.range pd.nb_tasks,
      (a_tds.getD (tdsIndex pd (t, d, 0)) 0 + a_tds.getD (tdsIndex pd (t, d, 1)) 0 +
        a_tds.getD (tdsIndex pd (t, d, 2)) 0)) ≤ 1

/-! ## Specification vocabulary for the master constraint matrix -/

/-- The coefficient of column `c` in row `row`: the sum of its entries for that row. -/
def coef (c : CpxCol) (row : Nat) : ℚ :=
  ((c.coefs.filter fun e => decide (e.1 = row)).map fun e => e.2).sum

/-- The entry of the constraint matrix of `lp` in row `i` and column `j` (0 when the
column does not exist). -/
def matrixEntry (lp : CpxLP) (i j : Nat) : ℚ :=
  match lp.cols[j]? with
  | some c => coef c i
  | none => 0

/-- The left-hand side of row `i` at the point `x`. -/
def row_activity (lp : CpxLP) (x : List ℚ) (i : Nat) : ℚ :=
  ∑ j in Finset.range lp.cols.length, matrixEntry lp i j * x.getD j 0

/-- The point `x` satisfies the bounds of every column and every row of `lp`. -/
def Feasible (lp : CpxLP) (x : List ℚ) : Prop :=
  x.length = lp.cols.length ∧
  (∀ (j : Nat) (c : CpxCol), lp.cols[j]? = some c →
    c.lb ≤ x.getD j 0 ∧ ∀ u, c.ub = some u → x.getD j 0 ≤ u) ∧
  (∀ (i : Nat) (r : CpxRow), lp.rows[i]? = some r →
    (r.sense = 'E' → row_activity lp x i = r.rhs) ∧
    (r.sense = 'L' → row_activity lp x i ≤ r.rhs) ∧
    (r.sense = 'G' → row_activity lp x i ≥ r.rhs))

/-- Column `j` has coefficient 1 in a branching row (a row after the coverage and the
convexity rows). -/
def fixedCol (pd : Problem_Data) (lp : CpxLP) (j : Nat) : Bool :=
  (List.range lp.rows.length).any fun i =>
    decide (pd.tds + pd.nb_people ≤ i) && decide (matrixEntry lp i j = 1)

/-- Some generated column of person `p` is fixed by a branching row. -/
def personFixed (pd : Problem_Data) (lp : CpxLP) (p : Nat) : Bool :=
  (List.range lp.cols.length).any fun j =>
    decide (firstGenerated pd ≤ j) && decide (matrixEntry lp (pd.tds + p) j = 1) &&
      fixedCol pd lp j

/-- The supply of slot `i` by the fixed generated columns. -/
def fixedSupply (pd : Problem_Data) (lp : CpxLP) (i : Nat) : ℚ :=
  ∑ j in Finset.range lp.cols.length,
    if firstGenerated pd ≤ j ∧ fixedCol pd lp j = true then matrixEntry lp i j else 0

/-- The right-hand side of row `i` (0 when the row does not exist). -/
def rowRhs (lp : CpxLP) (i : Nat) : ℚ :=
  match lp.rows[i]? with
  | some r => r.rhs
  | none => 0

/-- A point of the master polyhedron: every fixed generated column at 1, every other
generated column at 0, the super column of a person at 1 unless one of the person's
columns is fixed, and the slack variables of a slot at the excess and the shortage of
the fixed supply against the demand. -/
def canonicalPoint (pd : Problem_Data) (lp : CpxLP) : List ℚ :=
  (List.range lp.cols.length).map fun j =>
    if j < pd.tds then max (fixedSupply pd lp j - rowRhs lp j) 0
    else if j < 2 * pd.tds then
      max (rowRhs lp (j - pd.tds) - fixedSupply pd lp (j - pd.tds)) 0
    else if j < firstGenerated pd then
      (if personFixed pd lp (j - 2 * pd.tds) = true then 0 else 1)
    else if fixedCol pd lp j = true then 1 else 0

/-- The shape of the master problem: the `Y_REplus`, `Y_REmin` and super columns come
first and the generated columns after them; all rows are equalities; the coverage row of
a slot has -1 on its `Y_REplus`, +1 on its `Y_REmin`, 0 on the other initial columns, 0 or
1 on a generated column and the demand as right-hand side; the convexity row of a person
has 1 on the person's super column and on the person's generated columns; every later
row is a branching row `z = 1` for one generated column that is present; and at most
one column per person is fixed by branching rows. -/
structure MasterShape (pd : Problem_Data) (lp : CpxLP) : Prop where
  cols_len : firstGenerated pd ≤ lp.cols.length
  no_future : ∀ i j, lp.rows.length ≤ i → matrixEntry lp i j = 0
  bounds_slack : ∀ (j : Nat) (c : CpxCol), j < 2 * pd.tds → lp.cols[j]? = some c →
    c.lb = 0 ∧ c.ub = none
  bounds_assign : ∀ (j : Nat) (c : CpxCol), 2 * pd.tds ≤ j → lp.cols[j]? = some c →
    c.lb = 0 ∧ c.ub = some 1
  rows_E : ∀ (i : Nat) (r : CpxRow), lp.rows[i]? = some r → r.sense = 'E'
  rhs_cov : ∀ (t d s : Nat) (r : CpxRow), t < pd.nb_tasks → d < pd.nb_days → s < pd.nb_shifts →
    lp.rows[tdsIndex pd (t, d, s)]? = some r → r.rhs = pd.shift_demands t d s
  rhs_one : ∀ (i : Nat) (r : CpxRow), pd.tds ≤ i → lp.rows[i]? = some r → r.rhs = 1
  cov_init : ∀ i j, i < pd.tds → i < lp.rows.length → j < firstGenerated pd →
    matrixEntry lp i j = if j = i then -1 else if j = pd.tds + i then 1 else 0
  cov_gen : ∀ i j, i < pd.tds → firstGenerated pd ≤ j →
    matrixEntry lp i j = 0 ∨ matrixEntry lp i j = 1
  conv_init : ∀ p j, p < pd.nb_people → pd.tds + p < lp.rows.length →
    j < firstGenerated pd →
    matrixEntry lp (pd.tds + p) j = if j = 2 * pd.tds + p then 1 else 0
  conv_gen : ∀ j, firstGenerated pd ≤ j → j < lp.cols.length →
    ∃ p, p < pd.nb_people ∧ ∀ q, q < pd.nb_people →
      matrixEntry lp (pd.tds + q) j = if q = p then 1 else 0
  br_init : ∀ i j, pd.tds + pd.nb_people ≤ i → j < firstGenerated pd →
    matrixEntry lp i j = 0
  br_gen : ∀ i, pd.tds + pd.nb_people ≤ i → i < lp.rows.length →
    ∃ j, firstGenerated pd ≤ j ∧ j < lp.cols.length ∧ matrixEntry lp i j = 1 ∧
      ∀ k, k ≠ j → matrixEntry lp i k = 0
  one_fixed : ∀ j1 j2 p, firstGenerated pd ≤ j1 → firstGenerated pd ≤ j2 →
    p < pd.nb_people → matrixEntry lp (pd.tds + p) j1 = 1 →
    matrixEntry lp (pd.tds + p) j2 = 1 → fixedCol pd lp j1 = true →
    fixedCol pd lp j2 = true → j1 = j2

/-- The masters that the algorithm can produce from the initial master `lp0` of an
instance: by `add_column_to_master` for a person of the instance and a pricing solution
whose work entries are 0 or 1; by the statement of `add_branching_restrictions` for one
master index, a generated column of a person none of whose columns is fixed yet; and by
`CPXdelcols` for a generated column that is not fixed. -/
inductive MasterReachable (pd : Problem_Data) (lp0 : CpxLP) : CpxLP → Prop where
  | initial : MasterReachable pd lp0 lp0
  | add_column (st st1 : State) (person : Nat) :
      MasterReachable pd lp0 st.masterproblem → person < pd.nb_people →
      (∀ k, k < pd.tds → ∃ v, st.solution_subproblem[k]? = some v ∧ (v = 0 ∨ v = 1)) →
      add_column_to_master pd st person = some st1 →
      MasterReachable pd lp0 st1.masterproblem
  | branch (lp : CpxLP) (i : Nat) (rowname : String) :
      MasterReachable pd lp0 lp → firstGenerated pd ≤ i → i < lp.cols.length →
      (∀ p j, p < pd.nb_people → matrixEntry lp (pd.tds + p) i = 1 →
        firstGenerated pd ≤ j → matrixEntry lp (pd.tds + p) j = 1 →
        fixedCol pd lp j = false) →
      MasterReachable pd lp0 (CPXaddrows lp 1 'E' [(i, 1)] rowname)
  | delete (lp : CpxLP) (j : Nat) :
      MasterReachable pd lp0 lp → firstGenerated pd ≤ j → fixedCol pd lp j = false →
      MasterReachable pd lp0 (CPXdelcols lp j)

/-- The initial point named in the specification: overstaffing 0, understaffing equal
to the demand, every super column at 1. -/
def initialPoint (pd : Problem_Data) : List ℚ :=
  List.replicate pd.tds 0 ++
    (tdsLoop pd 0 pd.nb_tasks).map (fun x => (pd.shift_demands x.1 x.2.1 x.2.2 : ℚ)) ++
    List.replicate pd.nb_people 1

/-- The coefficient that the sparse row `mat` gives to column `j`. -/
def matCoef (mat : List (Nat × ℚ)) (j : Nat) : ℚ :=
  ((mat.filter fun e => decide (e.1 = j)).map fun e => e.2).sum

/-! ## Specification vocabulary for the pricing step -/

/-- The pricing MIP did not end with an optimal status, or the solution query returned
a nonzero status code. -/
def mip_not_optimal (cpx : CPX_Codes) (ans : MIPAnswer) : Prop :=
  ans.status ≠ 0 ∨ (ans.solstat ≠ cpx.CPXMIP_OPTIMAL ∧ ans.solstat ≠ cpx.CPXMIP_OPTIMAL_TOL)

/-! ## Specification vocabulary for the rows of the master -/

/-- The coverage row that `build_master_problem` creates for the slot `x = (t, d, s)`:
named after the slot, an equality with the demand as right-hand side. -/
def coverage_row (pd : Problem_Data) (x : Nat × Nat × Nat) : CpxRow :=
  ⟨name_tds (if x.1 < pd.nb_tasks_CODU then "Coverage_constraint_CODU_task_"
      else "Coverage_constraint_ambulances_task_") "_day_" "_shift_" x, 'E',
    pd.shift_demands x.1 x.2.1 x.2.2⟩

/-- The convexity row that `build_master_problem` creates for person `p`. -/
def convexity_row (p : Nat) : CpxRow := ⟨"One_column_for_person_" ++ toString (p + 1), 'E', 1⟩

/-- The masters that arise from the master `lp0` by any number of calls of
`add_column_to_master`, `add_branching_restrictions` and
`remove_columns_that_violate_branching_restrictions`, in any state of the object. -/
inductive MasterEvolved (pd : Problem_Data) (lp0 : CpxLP) : CpxLP → Prop where
  | initial : MasterEvolved pd lp0 lp0
  | add_column (st st1 : State) (person : Nat) :
      MasterEvolved pd lp0 st.masterproblem →
      add_column_to_master pd st person = some st1 →
      MasterEvolved pd lp0 st1.masterproblem
  | branch (st : State) :
      MasterEvolved pd lp0 st.masterproblem →
      MasterEvolved pd lp0 (add_branching_restrictions st).masterproblem
  | remove (st st1 : State) :
      MasterEvolved pd lp0 st.masterproblem →
      remove_columns_that_violate_branching_restrictions st = some st1 →
      MasterEvolved pd lp0 st1.masterproblem

/-! ## Specification vocabulary for the rows of the pricing problem -/

/-- Row `i` of `lp` holds at the point `x` (in the sense of its `sense` character). -/
def RowHolds (lp : CpxLP) (x : List ℚ) (i : Nat) : Prop :=
  ∀ r : CpxRow, lp.rows[i]? = some r →
    (r.sense = 'E' → row_activity lp x i = r.rhs) ∧
    (r.sense = 'L' → row_activity lp x i ≤ r.rhs) ∧
    (r.sense = 'G' → row_activity lp x i ≥ r.rhs)

/-- The left-hand side of a sparse row at the point `x`. -/
def rowValue (mat : List (Nat × ℚ)) (x : List ℚ) : ℚ :=
  (mat.map fun e => e.2 * x.getD e.1 0).sum

/-- The row that a `CPXaddrows` call creates. -/
def RowCall.row (r : RowCall) : CpxRow := ⟨r.name, r.sense, r.rhs⟩

/-- The assignments, summed over all tasks, in the three consecutive shifts `w`, `w + 1`,
`w + 2` of the chronological sequence of shifts (shift `s` of day `d` has number
`d * nb_shifts + s`). -/
def windowSum (pd : Problem_Data) (x : List ℚ) (w : Nat) : ℚ :=
  ∑ t in Finset.range pd.nb_tasks,
    (x.getD (t * pd.nb_days * pd.nb_shifts + w) 0 +
      x.getD (t * pd.nb_days * pd.nb_shifts + (w + 1)) 0 +
      x.getD (t * pd.nb_days * pd.nb_shifts + (w + 2)) 0)

/-- The window that row `k` of constraint set 2 restricts: the rows (2.1) come first, then
the rows (2.2), then the rows (2.3). -/
def windowOfRow (pd : Problem_Data) (k : Nat) : Nat :=
  if k < pd.nb_days then 3 * k
  else if k < 2 * pd.nb_days - 1 then 3 * (k - pd.nb_days) + 1
  else 3 * (k - (2 * pd.nb_days - 1)) + 2

/-- The number of assignments on day `d`, summed over all tasks and shifts. -/
def workedOn (pd : Problem_Data) (x : List ℚ) (d : Nat) : ℚ :=
  ∑ t in Finset.range pd.nb_tasks, ∑ s in Finset.range pd.nb_shifts,
    x.getD (t * pd.nb_days * pd.nb_shifts + d * pd.nb_shifts + s) 0

/-- The rows that `build_subproblem_problem` adds before the row of constraint set 7. -/
def rows_before_set_7 (pd : Problem_Data) (person : Nat) : List RowCall :=
  constraint_set_2_1 pd ++ constraint_set_2_2 pd ++ constraint_set_2_3 pd ++
    constraint_set_3 pd person ++ constraint_set_4 pd person ++ constraint_set_5 pd person

/-- Index of the row of constraint set 7 ("at_least_one_Sunday_off") in the pricing
problem of a person. -/
def sundayRowIndex (pd : Problem_Data) (person : Nat) : Nat :=
  (rows_before_set_7 pd person).length

/-- The rows that `build_subproblem_problem` adds before the rows of constraint set 12. -/
def rows_before_set_12 (pd : Problem_Data) (person : Nat) : List RowCall :=
  rows_before_set_7 pd person ++ [constraint_set_7 pd] ++ constraint_set_8 pd ++
    [constraint_set_9 pd]

/-- Index of the row of constraint set 12 for group `g` in the pricing problem. -/
def groupRowIndex (pd : Problem_Data) (person g : Nat) : Nat :=
  (rows_before_set_12 pd person).length + g

/-- Index of the column `Y_G_g` of the pricing problem. -/
def groupDeviationIndex (pd : Problem_Data) (g : Nat) : Nat :=
  pd.nb_tasks * pd.nb_days * pd.nb_shifts + 2 * pd.nb_weekends + 2 + g

/-- The number of assignments to tasks that do not belong to group `g`. -/
def assignmentsOutsideGroup (pd : Problem_Data) (x : List ℚ) (g : Nat) : ℚ :=
  ∑ t in Finset.range pd.nb_tasks,
    if pd.group_task g t then 0
    else ∑ d in Finset.range pd.nb_days, ∑ s in Finset.range pd.nb_shifts,
      x.getD (t * pd.nb_days * pd.nb_shifts + d * pd.nb_shifts + s) 0

/-- The number of assignments to tasks that belong to group `g`. -/
def assignmentsInGroup (pd : Problem_Data) (x : List ℚ) (g : Nat) : ℚ :=
  ∑ t in Finset.range pd.nb_tasks,
    if pd.group_task g t then
      ∑ d in Finset.range pd.nb_days, ∑ s in Finset.range pd.nb_shifts,
        x.getD (t * pd.nb_days * pd.nb_shifts + d * pd.nb_shifts + s) 0
    else 0

/-- The row created by a `CPXaddrows` call holds at the point `x`. -/
def RowCall.holds (r : RowCall) (x : List ℚ) : Prop :=
  (r.sense = 'E' → rowValue r.mat x = r.rhs) ∧
  (r.sense = 'L' → rowValue r.mat x ≤ r.rhs) ∧
  (r.sense = 'G' → rowValue r.mat x ≥ r.rhs)

instance RowCall.decidableHolds (r : RowCall) (x : List ℚ) : Decidable (r.holds x) := by
  unfold RowCall.holds
  infer_instance

/-- The bounds of the columns hold at the point `x`, column by column. -/
def bounds_hold (cols : List CpxCol) (x : List ℚ) : Bool :=
  (cols.zip x).all fun cx =>
    decide (cx.1.lb ≤ cx.2) &&
      (match cx.1.ub with
       | some u => decide (cx.2 ≤ u)
       | none => true)

/-! ## Specification vocabulary for the column-generation loops -/

/-- The answer of the pricing MIP of person `p` when it is repriced with the duals held
in the state: the objective is that of the person's pricing problem with the first
`nb_tasks*nb_days*nb_shifts` coefficients replaced by minus the coverage duals, the
cutoff is the dual of the person's convexity row. -/
def pricing_answer (pd : Problem_Data) (orc : Oracle) (st : State) (p : Nat) : MIPAnswer :=
  orc.mipopt p
    (CPXchgobj (st.subproblems.getD p []) ((st.dual_var_master.take pd.tds).map fun v => -v))
    (st.dual_var_master.getD (pd.tds + p) 0)

/-- The reduced cost that `solve_subproblem` returns for person `p` when the person is
priced with the duals held in the state: the objective of the pricing MIP when it ended
optimally, `10^12` otherwise, minus the dual of the convexity row. -/
def reduced_cost_for (pd : Problem_Data) (cpx : CPX_Codes) (orc : Oracle) (st : State)
    (p : Nat) : ℚ :=
  (if (pricing_answer pd orc st p).status = 0 ∧
      ((pricing_answer pd orc st p).solstat = cpx.CPXMIP_OPTIMAL ∨
        (pricing_answer pd orc st p).solstat = cpx.CPXMIP_OPTIMAL_TOL)
    then (pricing_answer pd orc st p).objval else 1000000000000) -
    st.dual_var_master.getD (pd.tds + p) 0

/-- The events that one pass of the `for` loop of method 1 over person `p` logs, from the
state at the start of the sweep: nothing when the flag of `p` is not set, else the
pricing and, when the reduced cost is below `-0.001`, the admission of a column. -/
def sweep_events (pd : Problem_Data) (cpx : CPX_Codes) (orc : Oracle) (st : State)
    (p : Nat) : List Event :=
  if st.solve_subproblem_p[p]? = some true then
    [Event.priced p] ++
      (if reduced_cost_for pd cpx orc st p < -(1 / 1000) then [Event.column_added p] else [])
  else []

/-- The state at the start of the `for` loop of a round of method 1: the iteration is
counted, the master has been solved (and the solve logged) and the elapsed time has been
compared with the allowed time; with the objective that `solve_masterproblem` returned. -/
def cg_round_start (cpx : CPX_Codes) (orc : Oracle) (st : State) : State × ℚ :=
  let r := solve_master_logged cpx orc { st with iterations_CG := st.iterations_CG + 1 }
  ({ r.1 with clock_checks := r.1.clock_checks + 1 }, r.2)

/-- The rounds of a call of `column_generation` as recorded in the log: the events after
each master solve, up to the next one. -/
def rounds (log : List Event) : List (List Event) :=
  (log.splitOn Event.master_solved).tail

/-- The people that the cursor of method 2 visits in `k` steps from `person`, with the
wrap to 0 at `nb_people`. -/
def pass_people (pd : Problem_Data) (person k : Nat) : List Nat :=
  (List.range k).map fun i => (person + i) % pd.nb_people

/-- The events that a pass of the `do` loop of method 2 over the people `l` logs when no
column is admitted, from the state at the start of the pass: the pricing of those whose
flag is set. -/
def pass_events (st : State) (l : List Nat) : List Event :=
  (l.filter fun q => st.solve_subproblem_p[q]? = some true).map Event.priced

/-- The state at the start of the `do` loop of a round of method 2: the iteration is
counted, the elapsed time has been compared with the allowed time and the master has been
solved (and the solve logged); with the objective that `solve_masterproblem` returned. -/
def cg_round_start2 (cpx : CPX_Codes) (orc : Oracle) (st : State) : State × ℚ :=
  solve_master_logged cpx orc
    { st with iterations_CG := st.iterations_CG + 1, clock_checks := st.clock_checks + 1 }

/-- The events of a log after its last admission of a column (the whole log when no
column was admitted). -/
def after_last_admission (log : List Event) : List Event :=
  (log.reverse.takeWhile fun e =>
    match e with
    | Event.column_added _ => false
    | _ => true).reverse

/-! ## Specification vocabulary for the time budget of a dive level -/

/-- The people of the instance that do not occur in `fixed_people`. -/
def unfixed_people (pd : Problem_Data) (st : State) : List Nat :=
  (List.range pd.nb_people).filter fun p => !st.fixed_people.contains p

/-! ## Specification vocabulary for the objective of the master -/

/-- The objective coefficient of column `j` (0 when the column does not exist). -/
def objCoef (lp : CpxLP) (j : Nat) : ℚ :=
  match lp.cols[j]? with
  | some c => c.obj
  | none => 0

/-- The value of the objective function of `lp` at the point `x`. -/
def objective_value (lp : CpxLP) (x : List ℚ) : ℚ :=
  ∑ j in Finset.range lp.cols.length, objCoef lp j * x.getD j 0

/-- The master `lp1` is a restriction of the master `lp`: every feasible point of `lp1`
has a feasible point of `lp` with the same objective value. -/
def Restricts (lp1 lp : CpxLP) : Prop :=
  ∀ x, Feasible lp1 x → ∃ y, Feasible lp y ∧ objective_value lp y = objective_value lp1 x

/-- The reduced cost of the column `c` for the row multipliers `pi_`: the objective
coefficient minus the multipliers' combination of the column's matrix entries. -/
def column_reduced_cost (pi_ : List ℚ) (c : CpxCol) : ℚ :=
  c.obj - (c.coefs.map fun e => if e.2 = 0 then 0 else e.2 * pi_.getD e.1 0).sum

/-- The check of `optimality_certificate` for a column `c` with value `v`, in a problem
with `m` rows: the entries of the column lie in these rows, the value is within the
bounds, and the reduced cost is 0, or it is positive with the column at its lower bound,
or negative with the column at its upper bound. -/
def column_certified (m : Nat) (pi_ : List ℚ) (c : CpxCol) (v : ℚ) : Bool :=
  (c.coefs.all fun e => decide (e.1 < m)) && decide (c.lb ≤ v) &&
    (c.ub.all fun u => decide (v ≤ u)) &&
    (decide (column_reduced_cost pi_ c = 0) ||
      (decide (0 < column_reduced_cost pi_ c) && decide (v = c.lb)) ||
      (decide (column_reduced_cost pi_ c < 0) && decide (c.ub = some v)))

/-- The left-hand side of row `i` at the point `x`, summed over the columns with a
nonzero value. -/
def row_activity_nonzero (lp : CpxLP) (x : List ℚ) (i : Nat) : ℚ :=
  (List.zipWith (fun c v => if v = 0 then 0 else coef c i * v) lp.cols x).sum

/-- A check that `x` and `pi_` are an optimal primal and dual solution of `lp`, for a
problem with equality rows only: `x` has one value per column; every column passes
`column_certified`; every row is an equality and holds at `x`. -/
def optimality_certificate (lp : CpxLP) (x pi_ : List ℚ) : Bool :=
  decide (x.length = lp.cols.length) &&
  (List.zipWith (column_certified lp.rows.length pi_) lp.cols x).all id &&
  (List.zipWith (fun r i => decide (r.sense = 'E') && decide (row_activity_nonzero lp x i = r.rhs))
    lp.rows (List.range lp.rows.length)).all id

/-! ## Specification vocabulary for the cost of a column -/

/-- The penalty cost of a pricing solution `x` as the specification states it: the
weekend weight times the weekend deviations over and under, the weights of the hours
over and under, and per group the weight of the group (CODU below `nb_groups_CODU`,
ambulance otherwise) times the deviation of that group; each variable at the position
at which `build_subproblem_problem` created it. -/
def penalty_cost (pd : Problem_Data) (x : List ℚ) : ℚ :=
  pd.obj_weight_Y_W * ((List.range pd.nb_weekends).map fun w =>
      x.getD (pd.tds + w) 0 + x.getD (pd.tds + pd.nb_weekends + w) 0).sum +
    pd.obj_weight_Y_Hplus * x.getD (pd.tds + 2 * pd.nb_weekends) 0 +
    pd.obj_weight_Y_Hmin * x.getD (pd.tds + 2 * pd.nb_weekends + 1) 0 +
    ((List.range pd.nb_groups).map fun g =>
      (if g < pd.nb_groups_CODU then (pd.obj_weight_Y_G_CODU : ℚ)
        else pd.obj_weight_Y_G_ambulances) *
        x.getD (pd.tds + 2 * pd.nb_weekends + 2 + g) 0).sum

/-- The objective function with the coefficients `obj`, evaluated at the point `x`. -/
def objective_at (obj x : List ℚ) : ℚ :=
  ((List.range obj.length).map fun k => obj.getD k 0 * x.getD k 0).sum

/-- The dual values of the coverage rows times the work entries of `x`. -/
def dual_work (pd : Problem_Data) (dual x : List ℚ) : ℚ :=
  ((List.range pd.tds).map fun k => dual.getD k 0 * x.getD k 0).sum

/-- The objective coefficients of the pricing problem of a person after
`change_coefficients_subproblem`: minus the dual value on the work variables, the
coefficients `sub` had on the later variables. -/
def repriced (pd : Problem_Data) (dual sub : List ℚ) : List ℚ :=
  (dual.take pd.tds).map (fun v => -v) ++ sub.drop pd.tds

/-- The terms `b[k] * x[off + k]` added up over the positions of `b`. -/
def shifted_sum (b x : List ℚ) (off : Nat) : ℚ :=
  ((List.range b.length).map fun k => b.getD k 0 * x.getD (off + k) 0).sum

/-! ## Specification vocabulary for the people the pricing leaves alone -/

/-- Between the states `st` and `st'` person `p` was neither priced nor given a column:
the calls logged in between contain no pricing call and no column addition for `p`, the
pool holds the same records of `p`, and the flag of `p` and the list of fixed people are
as before. -/
def untouched (p : Nat) (st st' : State) : Prop :=
  st'.solve_subproblem_p[p]? = st.solve_subproblem_p[p]? ∧
  st'.fixed_people = st.fixed_people ∧
  (st'.current_columns.filter fun c => decide (c.person = p)) =
    (st.current_columns.filter fun c => decide (c.person = p)) ∧
  ∃ new, st'.log = st.log ++ new ∧ Event.priced p ∉ new ∧ Event.column_added p ∉ new

/-! ## Specification vocabulary for the assign-variables of a person -/

/-- The person of the generated master column `i`: the person of its record in the
pool. -/
def column_person (st : State) (i : Nat) : Option Nat :=
  (record_of st i).map fun r => r.person

/-- The master indices of the generated columns of person `p`. -/
def person_columns (pd : Problem_Data) (st : State) (p : Nat) : List Nat :=
  (generatedIndices pd st).filter fun i => decide (column_person st i = some p)

/-- The values of the assign-variables of person `p` in the master solution: the super
column of `p` first, then the generated columns of `p`. -/
def person_assign_values (pd : Problem_Data) (st : State) (p : Nat) : List ℚ :=
  st.solution_master.getD (2 * pd.tds + p) 0 ::
    (person_columns pd st p).map fun i => st.solution_master.getD i 0

/-- In the master solution the assign-variables of every person are non-negative and
sum to 1. -/
def convex_solution (pd : Problem_Data) (st : State) : Prop :=
  ∀ p, p < pd.nb_people →
    (∀ v ∈ person_assign_values pd st p, 0 ≤ v) ∧ (person_assign_values pd st p).sum = 1

/-! ## Specification vocabulary for the dive levels -/

/-- A small instance: 1 person, 1 task, 1 day, 3 shifts, demand 1 in every shift, the
default objective weights of `Problem_Data.cpp`. -/
def toyData : Problem_Data :=
  { nb_shifts := 3, nb_people := 1, nb_tasks := 1, nb_tasks_CODU := 1, nb_days := 1,
    nb_groups := 1, nb_groups_CODU := 1, nb_weekends := 0, start_day := 0, nb_holidays := 0,
    person_group := fun _ _ => true, person_task := fun _ _ => true,
    group_task := fun _ _ => true, shift_demands := fun _ _ _ => 1,
    task_durations := fun _ => 8,
    obj_weight_Y_REplus := 10, obj_weight_Y_REmin_CODU := 100,
    obj_weight_Y_REmin_amb := 1000, obj_weight_Y_Hplus := 1, obj_weight_Y_Hmin := 1,
    obj_weight_Y_W := 10, obj_weight_Y_G_CODU := 10, obj_weight_Y_G_ambulances := 20 }

/-- A master with the seven initial columns of `toyData` (three `Y_REplus`, three
`Y_REmin`, one super column), named as `build_master_problem` names them. -/
def toyMaster : CpxLP :=
  { cols := [⟨"Y_REplus_1_1_1", 10, 0, none, [(0, -1)]⟩, ⟨"Y_REplus_1_1_2", 10, 0, none, [(1, -1)]⟩,
             ⟨"Y_REplus_1_1_3", 10, 0, none, [(2, -1)]⟩, ⟨"Y_REmin_1_1_1", 100, 0, none, [(0, 1)]⟩,
             ⟨"Y_REmin_1_1_2", 100, 0, none, [(1, 1)]⟩, ⟨"Y_REmin_1_1_3", 100, 0, none, [(2, 1)]⟩,
             ⟨"z_1_0", 10000, 0, some 1, [(0, 0), (1, 0), (2, 0), (3, 1)]⟩],
    rows := [⟨"Coverage_constraint_CODU_task_1_day_1_shift_1", 'E', 1⟩,
             ⟨"Coverage_constraint_CODU_task_1_day_1_shift_2", 'E', 1⟩,
             ⟨"Coverage_constraint_CODU_task_1_day_1_shift_3", 'E', 1⟩,
             ⟨"One_column_for_person_1", 'E', 1⟩] }

/-- A state whose master solution has every assign-variable at 1 and the overstaffing
variable of the first slot at 1/2. -/
def slackFractionalState : State :=
  { initial_state toyData toyMaster with solution_master := [1 / 2, 0, 0, 3 / 2, 1, 1, 1] }

/-- The same state with that overstaffing variable at 0. -/
def slackIntegralState : State :=
  { initial_state toyData toyMaster with solution_master := [0, 0, 0, 1, 1, 1, 1] }

/-- An instance with 2 people, 1 task, 1 day, 3 shifts and demand 1 in every shift. -/
def duoData : Problem_Data :=
  { nb_shifts := 3, nb_people := 2, nb_tasks := 1, nb_tasks_CODU := 1, nb_days := 1,
    nb_groups := 1, nb_groups_CODU := 1, nb_weekends := 0, start_day := 0, nb_holidays := 0,
    person_group := fun _ _ => true, person_task := fun _ _ => true,
    group_task := fun _ _ => true, shift_demands := fun _ _ _ => 1,
    task_durations := fun _ => 8,
    obj_weight_Y_REplus := 10, obj_weight_Y_REmin_CODU := 100,
    obj_weight_Y_REmin_amb := 1000, obj_weight_Y_Hplus := 1, obj_weight_Y_Hmin := 1,
    obj_weight_Y_W := 10, obj_weight_Y_G_CODU := 10, obj_weight_Y_G_ambulances := 20 }

/-- The master of `duoData` after four columns have been generated: `z_1_1` and `z_1_3`
for the first person, `z_2_2` and `z_2_4` for the second. Rows 0-2 are the coverage
rows, rows 3-4 the convexity rows. -/
def duoMaster : CpxLP :=
  { cols := [⟨"Y_REplus_1_1_1", 10, 0, none, [(0, -1)]⟩, ⟨"Y_REplus_1_1_2", 10, 0, none, [(1, -1)]⟩,
             ⟨"Y_REplus_1_1_3", 10, 0, none, [(2, -1)]⟩, ⟨"Y_REmin_1_1_1", 100, 0, none, [(0, 1)]⟩,
             ⟨"Y_REmin_1_1_2", 100, 0, none, [(1, 1)]⟩, ⟨"Y_REmin_1_1_3", 100, 0, none, [(2, 1)]⟩,
             ⟨"z_1_0", 10000, 0, some 1, [(0, 0), (1, 0), (2, 0), (3, 1)]⟩,
             ⟨"z_2_0", 10000, 0, some 1, [(0, 0), (1, 0), (2, 0), (4, 1)]⟩,
             ⟨"z_1_1", 0, 0, some 1, [(0, 1), (1, 0), (2, 0), (3, 1)]⟩,
             ⟨"z_2_2", 0, 0, some 1, [(0, 0), (1, 1), (2, 0), (4, 1)]⟩,
             ⟨"z_1_3", 0, 0, some 1, [(0, 0), (1, 0), (2, 1), (3, 1)]⟩,
             ⟨"z_2_4", 0, 0, some 1, [(0, 0), (1, 0), (2, 1), (4, 1)]⟩],
    rows := [⟨"Coverage_constraint_CODU_task_1_day_1_shift_1", 'E', 1⟩,
             ⟨"Coverage_constraint_CODU_task_1_day_1_shift_2", 'E', 1⟩,
             ⟨"Coverage_constraint_CODU_task_1_day_1_shift_3", 'E', 1⟩,
             ⟨"One_column_for_person_1", 'E', 1⟩, ⟨"One_column_for_person_2", 'E', 1⟩] }

/-- The records of the four generated columns of `duoMaster`. -/
def duoColumns : List Column :=
  [⟨0, "z_1_1", 0, [1, 0, 0]⟩, ⟨1, "z_2_2", 0, [0, 1, 0]⟩, ⟨0, "z_1_3", 0, [0, 0, 1]⟩,
   ⟨1, "z_2_4", 0, [0, 0, 1]⟩]

/-- A state with a fractional master solution: `z_1_1 = 0.7`, `z_1_3 = 0.3`,
`z_2_2 = z_2_4 = 0.5`. -/
def duoFractionalState : State :=
  { initial_state duoData duoMaster with
    current_columns := duoColumns,
    solve_subproblem_p := [true, true],
    solution_master := [0, 0, 0, 3 / 10, 1 / 2, 1 / 5, 0, 0, 7 / 10, 1 / 2, 3 / 10, 1 / 2] }

/-- The state `duoFractionalState` after `z_1_1` (master index 8, first person) has been
selected for branching and fixed in the master. -/
def duoBranchedState : State :=
  add_branching_restrictions
    { duoFractionalState with
      fixed_indices_cplex := [8], fixed_people := [0],
      nb_people_fixed_current_iteration := 1,
      fixed_columns := [⟨0, "z_1_1", 0, [1, 0, 0]⟩] }

/-- A state with an integral master solution (`z_1_1 = z_2_2 = 1`, the third slot
understaffed) and a stale entry in `fixed_columns`. -/
def duoIntegralState : State :=
  { initial_state duoData duoMaster with
    current_columns := duoColumns,
    solve_subproblem_p := [true, true],
    fixed_columns := [⟨1, "z_2_4", 0, [0, 0, 1]⟩],
    objective_master := 100,
    solution_master := [0, 0, 0, 0, 0, 1, 0, 0, 1, 1, 0, 0] }

/-- The state `duoIntegralState` after `fix_residual_schedule`: the fixed columns are
`z_1_1` (first person, night shift) and `z_2_2` (second person, morning shift). -/
def duoFixedState : State :=
  { duoIntegralState with
    fixed_columns := [⟨0, "z_1_1", 0, [1, 0, 0]⟩, ⟨1, "z_2_2", 0, [0, 1, 0]⟩] }

/-- The state `duoFractionalState` after a pricing problem returned the schedule
"afternoon shift only" with cost 3 for the second person. -/
def duoPricedState : State :=
  { duoFractionalState with
    nb_calls_CG := 4,
    cost_column_k_person_p := 3,
    solution_subproblem := [0, 0, 1, 3, 0, 0] }

/-- The result of a bounded run, when it ended. -/
def Outcome.result {α : Type} : Outcome α → Option α
  | Outcome.done a => some a
  | Outcome.undefined => none
  | Outcome.out_of_fuel => none

/-- An oracle whose every LP solve of the master reports `CPX_STAT_INFEASIBLE` (solution
arrays filled with zeros), whose pricing MIP always finds the schedule "night shift
only" with objective -1, and whose clock exceeds the allowed time from the second
comparison on. -/
def infeasibleMasterOracle : Oracle :=
  { lpopt := fun _ => ⟨0, 3, 0, fun _ => 0, fun _ => 0⟩,
    mipopt := fun _ _ _ => ⟨0, 101, -1, fun i => if i = 0 then 1 else 0⟩,
    time_exceeded := fun n => decide (1 ≤ n) }

/-- An oracle whose pricing MIP hits its time limit without an incumbent
(`CPXMIP_TIME_LIM_INFEAS`, and `CPXsolution` fails with error 1217). -/
def failingPricingOracle : Oracle :=
  { lpopt := fun _ => ⟨0, 1, 300, fun i => if 3 ≤ i ∧ i < 7 then 1 else 0,
      fun i => if i < 3 then 100 else 0⟩,
    mipopt := fun _ _ _ => ⟨1217, 108, 0, fun _ => 0⟩,
    time_exceeded := fun _ => false }

/-- The state of `toyData` after the first master solve under `failingPricingOracle`. -/
def toySolvedState : State :=
  (solve_masterproblem cplexCodes failingPricingOracle
    { initial_state toyData toyMaster with solve_subproblem_p := [true] }).1

/-- An instance with 2 people, 1 task and the 6 days Monday to Saturday (no Sunday),
demand 1 in every shift; only the first person can perform the task. -/
def hexData : Problem_Data :=
  { nb_shifts := 3, nb_people := 2, nb_tasks := 1, nb_tasks_CODU := 1, nb_days := 6,
    nb_groups := 1, nb_groups_CODU := 1, nb_weekends := 0, start_day := 0, nb_holidays := 0,
    person_group := fun _ _ => true, person_task := fun p _ => decide (p = 0),
    group_task := fun _ _ => true, shift_demands := fun _ _ _ => 1,
    task_durations := fun _ => 8,
    obj_weight_Y_REplus := 10, obj_weight_Y_REmin_CODU := 100,
    obj_weight_Y_REmin_amb := 1000, obj_weight_Y_Hplus := 1, obj_weight_Y_Hmin := 1,
    obj_weight_Y_W := 10, obj_weight_Y_G_CODU := 10, obj_weight_Y_G_ambulances := 20 }

/-- The only work pattern that satisfies the rows of the pricing problem of the first
person of `hexData`: night, night, morning, morning, afternoon, afternoon; 48 hours
against a target of 30 (`Y_Hplus = 18`). -/
def hexSchedule : List ℚ :=
  [1, 0, 0, 1, 0, 0, 0, 1, 0, 0, 1, 0, 0, 0, 1, 0, 0, 1, 18, 0, 0]

/-- An exact solver for `hexData`: the optimal primal and dual solution of the initial
master (38 columns) and of the master with the column of `hexSchedule`; the pricing
problem of the first person returns `hexSchedule` with its objective value, that of the
second person is infeasible (`CPXMIP_INFEASIBLE`, and `CPXsolution` fails with error
1217). -/
def hexOracle : Oracle :=
  { lpopt := fun lp =>
      if lp.cols.length = 38 then
        ⟨0, 1, 21800, fun j => if 18 ≤ j then 1 else 0, fun i => if i < 18 then 100 else 10000⟩
      else
        ⟨0, 1, 11218,
          fun j => if j < 18 then 0 else if j < 36 then 1 - hexSchedule.getD (j - 18) 0
            else if j = 36 then 0 else 1,
          fun i => if i < 18 then 100 else if i = 18 then -582 else 10000⟩,
    mipopt := fun p obj _ =>
      if p = 0 then
        ⟨0, 101, (List.zipWith (fun c v => c * v) obj hexSchedule).sum,
          fun i => hexSchedule.getD i 0⟩
      else ⟨1217, 103, 0, fun _ => 0⟩,
    time_exceeded := fun _ => false }

/-- The state of `hexData` at the start of `diving_heuristic`. -/
def hexRootState : State :=
  { initial_state hexData ((build_master_problem hexData).getD CPXcreateprob) with
    solve_subproblem_p := [true, true] }

/-- The state of `hexData` after the first master solve under `hexOracle`. -/
def hexSolvedState : State := (solve_masterproblem cplexCodes hexOracle hexRootState).1

/-- The state `hexSolvedState` after the pricing problem of the first person returned
`hexSchedule` (cost 18). -/
def hexPricedState : State :=
  { hexSolvedState with solution_subproblem := hexSchedule, cost_column_k_person_p := 18 }

/-- The state `hexPricedState` after `add_column_to_master` for the first person. -/
def hexColumnState : State :=
  (add_column_to_master hexData hexPricedState 0).getD hexPricedState

/-- An instance with one person, one task and a horizon of 42 days that starts on a
Monday: the Sundays are the days 6, 13, 20, 27, 34, 41. -/
def sunData : Problem_Data :=
  { nb_shifts := 3, nb_people := 1, nb_tasks := 1, nb_tasks_CODU := 1, nb_days := 42,
    nb_groups := 1, nb_groups_CODU := 1, nb_weekends := 6, start_day := 0, nb_holidays := 0,
    person_group := fun _ _ => true, person_task := fun _ _ => true,
    group_task := fun _ _ => true, shift_demands := fun _ _ _ => 1,
    task_durations := fun _ => 8,
    obj_weight_Y_REplus := 10, obj_weight_Y_REmin_CODU := 100,
    obj_weight_Y_REmin_amb := 1000, obj_weight_Y_Hplus := 1, obj_weight_Y_Hmin := 1,
    obj_weight_Y_W := 10, obj_weight_Y_G_CODU := 10, obj_weight_Y_G_ambulances := 20 }

/-- A point of the pricing problem of `sunData` (141 columns): the night shift on the
first four Sundays (days 6, 13, 20, 27) and nothing else. -/
def sunSchedule : List ℚ :=
  (List.range 141).map fun j => if j = 18 ∨ j = 39 ∨ j = 60 ∨ j = 81 then 1 else 0

/-- An instance with one person, one task and a horizon of 28 days that starts on a
Monday: the Sundays are the days 6, 13, 20, 27. -/
def monthData : Problem_Data :=
  { sunData with nb_days := 28, nb_weekends := 4 }

/-- A point of the pricing problem of `monthData` (95 columns): the night shift on the
first three Sundays (days 6, 13, 20) and nothing else. -/
def monthSchedule : List ℚ :=
  (List.range 95).map fun j => if j = 18 ∨ j = 39 ∨ j = 60 then 1 else 0

/-- An instance with one person, two tasks and two groups on the 6 days Monday to
Saturday: the person belongs to the first group only, the first task belongs to the
first group and the second task to the second group. -/
def grpData : Problem_Data :=
  { nb_shifts := 3, nb_people := 1, nb_tasks := 2, nb_tasks_CODU := 1, nb_days := 6,
    nb_groups := 2, nb_groups_CODU := 1, nb_weekends := 0, start_day := 0, nb_holidays := 0,
    person_group := fun _ g => decide (g = 0), person_task := fun _ _ => true,
    group_task := fun g t => decide (g = t), shift_demands := fun _ _ _ => 1,
    task_durations := fun _ => 8,
    obj_weight_Y_REplus := 10, obj_weight_Y_REmin_CODU := 100,
    obj_weight_Y_REmin_amb := 1000, obj_weight_Y_Hplus := 1, obj_weight_Y_Hmin := 1,
    obj_weight_Y_W := 10, obj_weight_Y_G_CODU := 10, obj_weight_Y_G_ambulances := 20 }

/-- A point of the pricing problem of `grpData` (40 columns): the second task in the
night shift of day 0, the first task on the other days (night, morning, morning,
afternoon, afternoon), `Y_Hplus = 18`, `Y_G_1 = 1`, `Y_G_2 = 0`. -/
def grpSchedule : List ℚ :=
  (List.range 40).map fun j =>
    if j = 3 ∨ j = 7 ∨ j = 10 ∨ j = 14 ∨ j = 17 ∨ j = 18 then 1
    else if j = 36 then 18 else if j = 38 then 1 else 0

/-- The state of `hexData` at the head of the second round of method 2 under `hexOracle`:
the first round solved the master, priced the first person and admitted the column of
`hexSchedule`. -/
def hexAdmittedState : State :=
  ((cg_inner2 hexData cplexCodes hexOracle 3
    (cg_round_start2 cplexCodes hexOracle hexRootState).1 0 0 999999).result.map
      fun r => r.1).getD hexRootState

/-- The state `duoFractionalState` after a dive step with the largest-fractional rule:
the first person has been fixed to `z_1_1`. -/
def duoDivedState : State :=
  (dive_step duoData Branching_Method_Diving.largest_fractional_variable 0
    duoFractionalState).getD duoFractionalState

/-- The state of `duoData` at the second dive level: `duoDivedState` with the master
solution `z_1_1 = 1` and `z_2_2 = z_2_4 = 0.5`. -/
def duoSecondLevelState : State :=
  { duoDivedState with
    solution_master := [0, 0, 0, 0, 1 / 2, 1 / 2, 0, 0, 1, 1 / 2, 1 / 2] }

/-- An instance with 3 people, 3 tasks and the 6 days Monday to Saturday (no Sunday);
everybody can perform every task; every task needs one person in the night shift of the
days 0 and 1, in the morning shift of the days 2 and 3 and in the afternoon shift of the
days 4 and 5, and nobody at other times. -/
def trioData : Problem_Data :=
  { hexData with
    nb_people := 3, nb_tasks := 3, nb_tasks_CODU := 3,
    person_task := fun _ _ => true,
    shift_demands := fun _ d s => if s = d / 2 then 1 else 0 }

/-- The triple `(t, d, s)` at position `i` of the loop nest over the slots of `trioData`. -/
def trioTriple (i : Nat) : Nat × Nat × Nat := (i / 18, i % 18 / 3, i % 3)

/-- The master that `build_master_problem` creates for `trioData`, written out: the 54
`Y_REplus` columns, the 54 `Y_REmin` columns and the 3 super columns, the 54 coverage
rows and the 3 convexity rows. -/
def trioMaster : CpxLP :=
  { cols :=
      ((List.range 54).map fun i =>
        (⟨name_tds "Y_REplus_" "_" "_" (trioTriple i), 10, 0, none, [(i, -1)]⟩ : CpxCol)) ++
      ((List.range 54).map fun i =>
        (⟨name_tds "Y_REmin_" "_" "_" (trioTriple i), 100, 0, none, [(i, 1)]⟩ : CpxCol)) ++
      ((List.range 3).map fun p =>
        (⟨name_z p 0, 10000, 0, some 1,
          ((List.range 54).map fun i => (i, (0 : ℚ))) ++ [(54 + p, 1)]⟩ : CpxCol)),
    rows :=
      ((List.range 54).map fun i =>
        (⟨name_tds "Coverage_constraint_CODU_task_" "_day_" "_shift_" (trioTriple i), 'E',
          if i % 3 = i % 18 / 3 / 2 then 1 else 0⟩ : CpxRow)) ++
      ((List.range 3).map fun p =>
        (⟨"One_column_for_person_" ++ toString (p + 1), 'E', 1⟩ : CpxRow)) }

/-- The pricing solution "task `t` on all six days" of `trioData`, in the shifts night,
night, morning, morning, afternoon, afternoon, with `Y_Hplus = 18`. -/
def trioUniform (t : Nat) : List ℚ :=
  (List.range 57).map fun j =>
    if j < 54 then (if j % 18 % 3 = j % 18 / 3 / 2 ∧ j / 18 = t then 1 else 0)
    else if j = 54 then 18 else 0

/-- The solver `hexOracle` with a clock that exceeds the allowed time at the second
comparison only. -/
def hexTimedOracle : Oracle := { hexOracle with time_exceeded := fun n => decide (n = 1) }

/-- The solver `hexOracle` with a clock that exceeds the allowed time at every
comparison. -/
def hexLateOracle : Oracle := { hexOracle with time_exceeded := fun _ => true }

/-- The instance `hexData` with the first person only. -/
def soloData : Problem_Data := { hexData with nb_people := 1 }

/-- An exact solver for the initial master of `soloData` (37 columns: understaffing 1 in
every slot, the super column at 1, objective 11800, duals 100 and 10000); the pricing
problem returns `hexSchedule` with its objective value. -/
def soloOracle : Oracle :=
  { lpopt := fun _ =>
      ⟨0, 1, 11800, fun j => if 18 ≤ j then 1 else 0, fun i => if i < 18 then 100 else 10000⟩,
    mipopt := hexOracle.mipopt,
    time_exceeded := fun _ => false }

/-- The state of `soloData` at the start of `diving_heuristic`. -/
def soloRootState : State :=
  { initial_state soloData ((build_master_problem soloData).getD CPXcreateprob) with
    solve_subproblem_p := [true] }

/-- What the caller of `column_generation` sees: the returned value, the number of
columns of the master, the number of entries of `solution_master`, the verdict of
`is_solution_fractional` (`none`: it reads outside the array) and the calls made. -/
def call_summary (o : Outcome (State × ℚ)) :
    Option (ℚ × Nat × Nat × Option Bool × List Event) :=
  o.result.map fun r => (r.2, CPXgetnumcols r.1.masterproblem, r.1.solution_master.length,
    is_solution_fractional r.1, r.1.log)

/-- The solver `hexOracle` with a pricing solve that stops at its time limit with the
incumbent `hexSchedule` (`CPXMIP_TIME_LIM_FEAS`). -/
def hexTimeLimitOracle : Oracle :=
  { hexOracle with
    mipopt := fun _ obj _ =>
      ⟨0, 107, (List.zipWith (fun c v => c * v) obj hexSchedule).sum,
        fun i => hexSchedule.getD i 0⟩ }

/-- A solver for the master of `duoDivedState`: the answer `z_1_1 = z_2_2 = 1` with the
third slot understaffed (objective 100); every pricing problem is infeasible, as it is
for a horizon of one day. -/
def duoDoneOracle : Oracle :=
  { lpopt := fun _ =>
      ⟨0, 1, 100, fun j => if j = 5 ∨ j = 8 ∨ j = 9 then 1 else 0,
        fun i => if i = 2 then 100 else 0⟩,
    mipopt := fun _ _ _ => ⟨1217, 103, 0, fun _ => 0⟩,
    time_exceeded := fun _ => false }

/-- The state in which the dive from `duoDivedState` ends under `duoDoneOracle`. -/
def duoFinalState : State :=
  match diving_loop duoData cplexCodes duoDoneOracle
      Column_Generation_Method.one_column_per_person
      Branching_Method_Diving.largest_fractional_variable 0 10 5 duoDivedState with
  | Outcome.done s => s
  | _ => duoDivedState

/-- The master `toyMaster` with 1000 generated columns `z_1_1, ..., z_1_1000` of the only
person of `toyData`. -/
def milliMaster : CpxLP :=
  { toyMaster with
    cols := toyMaster.cols ++ (List.range' 1 1000).map fun k =>
      (⟨name_z 0 k, 0, 0, some 1, [(3, 1)]⟩ : CpxCol) }

/-- The records of the generated columns of `milliMaster`. -/
def milliColumns : List Column :=
  (List.range' 1 1000).map fun k => (⟨0, name_z 0 k, 0, [0, 0, 0]⟩ : Column)

/-- The point "understaffing 1 in every slot, the super column at 0, every generated
column at 0.001" of `milliMaster`. -/
def milliSolution : List ℚ := [0, 0, 0, 1, 1, 1, 0] ++ List.replicate 1000 (1 / 1000)

/-- A state of `toyData` with the master `milliMaster`, the records of its generated
columns in the pool, and the master solution `milliSolution`. -/
def milliState : State :=
  { initial_state toyData milliMaster with
    current_columns := milliColumns,
    solution_master := milliSolution }

/-- The state `duoIntegralState` with the non-optimal slack values "overstaffing and
understaffing of the first slot both 1/2": every row and every bound of the master
still holds, `z_1_1 = z_2_2 = 1`. -/
def duoSlackState : State :=
  { duoIntegralState with
    solution_master := [1 / 2, 0, 0, 1 / 2, 0, 1, 0, 0, 1, 1, 0, 0] }

theorem is_solution_fractional_loop_some (sol : List ℚ) (l : List Nat)
    (h : ∀ i ∈ l, i < sol.length) :
    is_solution_fractional_loop sol l = some false ∨
      is_solution_fractional_loop sol l = some true := by
  induction l with
  | nil => left; rfl
  | cons i rest ih =>
    have hi : i < sol.length := h i (List.mem_cons_self _ _)
    have hr : ∀ j ∈ rest, j < sol.length := fun j hj => h j (List.mem_cons_of_mem _ hj)
    simp only [is_solution_fractional_loop, List.getElem?_eq_getElem hi]
    split
    · right; rfl
    · exact ih hr

theorem is_solution_fractional_loop_false_iff (sol : List ℚ) (l : List Nat)
    (h : ∀ i ∈ l, i < sol.length) :
    is_solution_fractional_loop sol l = some false ↔
      ∀ i ∈ l, ∀ v, sol[i]? = some v →
        v ≤ fractionality_tolerance_master ∨ 1 - fractionality_tolerance_master ≤ v := by
  induction l with
  | nil => simp [is_solution_fractional_loop]
  | cons i rest ih =>
    have hi : i < sol.length := h i (List.mem_cons_self _ _)
    have hr : ∀ j ∈ rest, j < sol.length := fun j hj => h j (List.mem_cons_of_mem _ hj)
    simp only [is_solution_fractional_loop, List.getElem?_eq_getElem hi]
    split
    · rename_i hfrac
      constructor
      · intro hc; cases hc
      · intro hall
        have := hall i (List.mem_cons_self _ _) sol[i] (List.getElem?_eq_getElem hi)
        rcases this with h1 | h1
        · exact absurd hfrac.1 (not_lt.mpr h1)
        · exact absurd hfrac.2 (not_lt.mpr h1)
    · rename_i hfrac
      rw [ih hr]
      constructor
      · intro hall j hj v hv
        rcases List.mem_cons.mp hj with rfl | hj
        · rw [List.getElem?_eq_getElem hi] at hv
          cases hv
          by_contra hcon
          push_neg at hcon
          exact hfrac ⟨hcon.1, hcon.2⟩
        · exact hall j hj v hv
      · intro hall j hj v hv
        exact hall j (List.mem_cons_of_mem _ hj) v hv

/-- C1 (as amended). With one solution value per master column, `is_solution_fractional`
returns a verdict, and the verdict is "integral" exactly when no master variable at all
(overstaffing and understaffing variables included, not only the assign-variables) has
a value strictly between 0.001 and 1 - 0.001; for a value in [0,1] that is the same as
lying within 0.001 of 0 or of 1. -/
theorem is_solution_fractional_integral_iff (st : State)
    (hlen : st.solution_master.length = CPXgetnumcols st.masterproblem) :
    (is_solution_fractional st = some false ∨ is_solution_fractional st = some true) ∧
    (is_solution_fractional st = some false ↔
      ∀ i, i < CPXgetnumcols st.masterproblem → ∀ v, st.solution_master[i]? = some v →
        v ≤ fractionality_tolerance_master ∨ 1 - fractionality_tolerance_master ≤ v) ∧
    (∀ v : ℚ, 0 ≤ v → v ≤ 1 →
      ((v ≤ fractionality_tolerance_master ∨ 1 - fractionality_tolerance_master ≤ v) ↔
        (|v - 0| ≤ fractionality_tolerance_master ∨
          |v - 1| ≤ fractionality_tolerance_master))) := by
  have hr : ∀ i ∈ List.range (CPXgetnumcols st.masterproblem), i < st.solution_master.length := by
    intro i hi
    rw [hlen]
    exact List.mem_range.mp hi
  refine ⟨is_solution_fractional_loop_some _ _ hr, ?_, ?_⟩
  · unfold is_solution_fractional
    rw [is_solution_fractional_loop_false_iff _ _ hr]
    constructor
    · intro h i hi v hv
      exact h i (List.mem_range.mpr hi) v hv
    · intro h i hi v hv
      exact h i (List.mem_range.mp hi) v hv
  · intro v h0 h1
    have e1 : |v - 0| = v := by rw [sub_zero, abs_of_nonneg h0]
    have e2 : |v - 1| = 1 - v := by
      rw [abs_of_nonpos (by linarith)]
      ring
    rw [e1, e2]
    constructor
    · rintro (h | h)
      · left; exact h
      · right; linarith
    · rintro (h | h)
      · left; exact h
      · right; linarith

/-- Witness for C1 (as amended): the state `slackIntegralState`. -/
theorem is_solution_fractional_integral_iff_witness :
    slackIntegralState.solution_master.length = CPXgetnumcols slackIntegralState.masterproblem ∧
    (is_solution_fractional slackIntegralState = some false ↔
      ∀ i, i < CPXgetnumcols slackIntegralState.masterproblem →
        ∀ v, slackIntegralState.solution_master[i]? = some v →
          v ≤ fractionality_tolerance_master ∨ 1 - fractionality_tolerance_master ≤ v) :=
  ⟨by decide, (is_solution_fractional_integral_iff slackIntegralState (by decide)).2.1⟩

/-- C1 (counterexample). In `slackFractionalState` every assign-variable (the super
column, index 6) has value 1, yet the verdict is "fractional", because the overstaffing
variable at index 0 has value 1/2; with that variable at 0 and everything else equal
(`slackIntegralState`) the verdict is "integral". So the verdict is not determined by
the assign-variables, and the slack variables do influence it. -/
theorem is_solution_fractional_slack_counterexample :
    (∀ i, 2 * toyData.tds ≤ i → i < CPXgetnumcols slackFractionalState.masterproblem →
      ∀ v, slackFractionalState.solution_master[i]? = some v →
        |v - 0| ≤ fractionality_tolerance_master ∨ |v - 1| ≤ fractionality_tolerance_master) ∧
    is_solution_fractional slackFractionalState = some true ∧
    is_solution_fractional slackIntegralState = some false ∧
    (∀ i, 2 * toyData.tds ≤ i →
      slackFractionalState.solution_master[i]? = slackIntegralState.solution_master[i]?) := by
  refine ⟨?_, ?_, ?_, ?_⟩
  · intro i h1 h2 v hv
    have h3 : i = 6 := by
      have : toyData.tds = 3 := by decide
      have : CPXgetnumcols slackFractionalState.masterproblem = 7 := by decide
      omega
    subst h3
    right
    have : slackFractionalState.solution_master[6]? = some 1 := rfl
    rw [this] at hv
    cases hv
    norm_num [fractionality_tolerance_master]
  · decide!
  · decide!
  · intro i h1
    have h6 : 6 ≤ i := by
      have : toyData.tds = 3 := by decide
      omega
    obtain ⟨k, rfl⟩ : ∃ k, i = k + 6 := ⟨i - 6, by omega⟩
    simp [slackFractionalState, slackIntegralState]

/-! ## `find_branching_variables` -/

theorem find_column_loop_some (column_name : String) (cols : List Column) (k : Nat)
    (h : ∃ r ∈ cols, r.name = column_name) :
    ∃ m c, find_column_loop column_name cols k = some (k + m, c) ∧ cols[m]? = some c ∧
      cols.find? (fun r => decide (r.name = column_name)) = some c := by
  induction cols generalizing k with
  | nil => obtain ⟨r, hr, _⟩ := h; cases hr
  | cons c cs ih =>
    by_cases hc : c.name = column_name
    · exact ⟨0, c, by simp [find_column_loop, hc], by simp, by simp [List.find?, hc]⟩
    · have h2 : ∃ r ∈ cs, r.name = column_name := by
        obtain ⟨r, hr, hn⟩ := h
        rcases List.mem_cons.mp hr with rfl | hr
        · exact absurd hn hc
        · exact ⟨r, hr, hn⟩
      obtain ⟨m, c2, h3, h4, h5⟩ := ih (k + 1) h2
      refine ⟨m + 1, c2, ?_, ?_, ?_⟩
      · simp only [find_column_loop, hc, if_false]
        rw [h3]
        congr 2
        omega
      · simpa using h4
      · simp [List.find?, hc, h5]

theorem select_column_spec (pd : Problem_Data) (st : State) (hres : PoolKnowsMaster pd st)
    (i : Nat) (h1 : firstGenerated pd ≤ i) (h2 : i < CPXgetnumcols st.masterproblem)
    (loc : BranchLocals) :
    ∃ j r, select_column st i loc =
        some { loc with cplex_index := some i, column_index := some j,
                        branching_person := some r.person } ∧
      st.current_columns[j]? = some r ∧ record_of st i = some r := by
  have h3 : st.masterproblem.cols[i]? = some st.masterproblem.cols[i] :=
    List.getElem?_eq_getElem h2
  obtain ⟨m, c, h4, h5, h6⟩ :=
    find_column_loop_some st.masterproblem.cols[i].name st.current_columns 0
      (hres i h1 _ h3)
  refine ⟨m, c, ?_, h5, ?_⟩
  · simp only [select_column, CPXgetcolname, h3, Option.map_some', h4, Nat.zero_add]
  · simp only [record_of, CPXgetcolname, h3, Option.map_some', h6]

theorem push_fixed_spec (st : State) (loc : BranchLocals) (i j : Nat) (r : Column)
    (h1 : loc.cplex_index = some i) (h2 : loc.column_index = some j)
    (h3 : loc.branching_person = some r.person) (h4 : st.current_columns[j]? = some r)
    (h5 : record_of st i = some r) :
    push_fixed st loc = some (pushAll st [i]) := by
  simp [push_fixed, h1, h2, h3, h4, pushAll, h5]

theorem pushAll_fields (st : State) (sel : List Nat) :
    (pushAll st sel).masterproblem = st.masterproblem ∧
    (pushAll st sel).current_columns = st.current_columns ∧
    (pushAll st sel).solution_master = st.solution_master := ⟨rfl, rfl, rfl⟩

theorem record_of_pushAll (st : State) (sel : List Nat) :
    record_of (pushAll st sel) = record_of st := by
  funext i
  rfl

theorem pushAll_pushAll (st : State) (s1 s2 : List Nat) :
    pushAll (pushAll st s1) s2 = pushAll st (s1 ++ s2) := by
  have h := record_of_pushAll st s1
  simp only [pushAll] at h ⊢
  simp only [h, List.filterMap_append, List.map_append, List.append_assoc,
    List.length_append, Nat.add_assoc]

theorem PoolKnowsMaster_pushAll (pd : Problem_Data) (st : State) (sel : List Nat)
    (h : PoolKnowsMaster pd st) : PoolKnowsMaster pd (pushAll st sel) := h

theorem threshold_loop_spec (pd : Problem_Data) (beta : ℚ) (l : List Nat) :
    ∀ (st : State) (loc : BranchLocals) (n : Nat), PoolKnowsMaster pd st →
      (∀ i ∈ l, firstGenerated pd ≤ i ∧ i < CPXgetnumcols st.masterproblem ∧
        i < st.solution_master.length) →
      ∃ loc1, threshold_loop beta l st loc n =
          some (pushAll st (selectedAbove beta st l), loc1, n + (selectedAbove beta st l).length) ∧
        (selectedAbove beta st l = [] → loc1 = loc) := by
  induction l with
  | nil =>
    intro st loc n _ _
    exact ⟨loc, by simp [threshold_loop, selectedAbove, pushAll], fun _ => rfl⟩
  | cons i rest ih =>
    intro st loc n hres hl
    obtain ⟨hi1, hi2, hi3⟩ := hl i (List.mem_cons_self _ _)
    have hrest : ∀ j ∈ rest, firstGenerated pd ≤ j ∧ j < CPXgetnumcols st.masterproblem ∧
        j < st.solution_master.length := fun j hj => hl j (List.mem_cons_of_mem _ hj)
    have hv : st.solution_master[i]? = some st.solution_master[i] :=
      List.getElem?_eq_getElem hi3
    by_cases hsel : st.solution_master[i] < 1 - fractionality_tolerance_master ∧
        st.solution_master[i] > beta
    · obtain ⟨j, r, hs1, hs2, hs3⟩ := select_column_spec pd st hres i hi1 hi2 loc
      have hp := push_fixed_spec st
        { loc with cplex_index := some i, column_index := some j,
                   branching_person := some r.person } i j r rfl rfl rfl hs2 hs3
      obtain ⟨loc1, e1, _⟩ := ih (pushAll st [i])
        { loc with cplex_index := some i, column_index := some j,
                   branching_person := some r.person } (n + 1)
        (PoolKnowsMaster_pushAll pd st [i] hres) hrest
      refine ⟨loc1, ?_, ?_⟩
      · have hsa : selectedAbove beta st (i :: rest) = i :: selectedAbove beta st rest := by
          simp [selectedAbove, hv, hsel]
        have hsb : selectedAbove beta (pushAll st [i]) rest = selectedAbove beta st rest := rfl
        rw [hsa]
        simp only [threshold_loop, hv, hsel, and_self, if_true, hs1, hp]
        rw [e1, hsb, pushAll_pushAll]
        simp only [List.singleton_append, List.length_cons]
        congr 3
        omega
      · intro hempty
        have hsa : selectedAbove beta st (i :: rest) = i :: selectedAbove beta st rest := by
          simp [selectedAbove, hv, hsel]
        rw [hsa] at hempty
        cases hempty
    · obtain ⟨loc1, e1, e2⟩ := ih st loc n hres hrest
      have hsa : selectedAbove beta st (i :: rest) = selectedAbove beta st rest := by
        simp only [selectedAbove, List.filter_cons, hv]
        simp [hsel]
      refine ⟨loc1, ?_, ?_⟩
      · rw [hsa]
        simp only [threshold_loop, hv, hsel, if_false]
        exact e1
      · rw [hsa]
        exact e2

theorem largest_loop_spec (pd : Problem_Data) (st : State) (hres : PoolKnowsMaster pd st)
    (hlen : st.solution_master.length = CPXgetnumcols st.masterproblem) :
    ∀ (n a : Nat) (loc : BranchLocals), firstGenerated pd ≤ a →
      a + n ≤ CPXgetnumcols st.masterproblem →
      ∃ loc1, largest_loop st (List.range' a n) loc = some loc1 ∧
        (∀ j w, a ≤ j → j < a + n → st.solution_master[j]? = some w →
          w < 1 - fractionality_tolerance_master → w ≤ loc1.z_val_current_highest_frac_col) ∧
        loc.z_val_current_highest_frac_col ≤ loc1.z_val_current_highest_frac_col ∧
        (loc1 = loc ∨
          ∃ i k r, a ≤ i ∧ i < a + n ∧
            st.solution_master[i]? = some loc1.z_val_current_highest_frac_col ∧
            loc1.z_val_current_highest_frac_col < 1 - fractionality_tolerance_master ∧
            loc.z_val_current_highest_frac_col < loc1.z_val_current_highest_frac_col ∧
            (∀ j w, a ≤ j → j < i → st.solution_master[j]? = some w →
              w < 1 - fractionality_tolerance_master →
              w < loc1.z_val_current_highest_frac_col) ∧
            loc1.cplex_index = some i ∧ loc1.column_index = some k ∧
            loc1.branching_person = some r.person ∧
            st.current_columns[k]? = some r ∧ record_of st i = some r) := by
  intro n
  induction n with
  | zero =>
    intro a loc _ _
    refine ⟨loc, by simp [largest_loop], ?_, le_refl _, Or.inl rfl⟩
    intro j w h1 h2
    omega
  | succ n ih =>
    intro a loc ha hn
    have ha2 : a < st.solution_master.length := by omega
    have hv : st.solution_master[a]? = some st.solution_master[a] :=
      List.getElem?_eq_getElem ha2
    rw [List.range'_succ]
    by_cases hsel : st.solution_master[a] < 1 - fractionality_tolerance_master ∧
        st.solution_master[a] > loc.z_val_current_highest_frac_col
    · obtain ⟨k, r, hs1, hs2, hs3⟩ := select_column_spec pd st hres a ha (by omega) loc
      obtain ⟨loc1, e1, e2, e3, e4⟩ := ih (a + 1)
        { cplex_index := some a, column_index := some k,
          branching_person := some r.person,
          z_val_current_highest_frac_col := st.solution_master[a] } (by omega) (by omega)
      refine ⟨loc1, ?_, ?_, ?_, ?_⟩
      · simp only [largest_loop, hv, hsel, and_self, if_true, hs1]
        exact e1
      · intro j w h1 h2 h3 h4
        rcases Nat.eq_or_lt_of_le h1 with h5 | h5
        · subst h5
          rw [hv] at h3
          cases h3
          exact e3
        · exact e2 j w (by omega) (by omega) h3 h4
      · exact le_trans (le_of_lt hsel.2) e3
      · right
        rcases e4 with e4 | ⟨i, k2, r2, f1, f2, f3, f4, f5, f6, f7, f8, f9, f10, f11⟩
        · subst e4
          exact ⟨a, k, r, le_refl _, by omega, hv, hsel.1, hsel.2,
            fun j w h1 h2 => by omega, rfl, rfl, rfl, hs2, hs3⟩
        · refine ⟨i, k2, r2, by omega, by omega, f3, f4, lt_trans hsel.2 f5, ?_,
            f7, f8, f9, f10, f11⟩
          intro j w h1 h2 h3 h4
          rcases Nat.eq_or_lt_of_le h1 with h5 | h5
          · subst h5
            rw [hv] at h3
            cases h3
            exact f5
          · exact f6 j w (by omega) h2 h3 h4
    · obtain ⟨loc1, e1, e2, e3, e4⟩ := ih (a + 1) loc (by omega) (by omega)
      have hhead : ∀ w, st.solution_master[a]? = some w →
          w < 1 - fractionality_tolerance_master →
          w ≤ loc.z_val_current_highest_frac_col := by
        intro w h3 h4
        rw [hv] at h3
        cases h3
        by_contra hcon
        exact hsel ⟨h4, not_le.mp hcon⟩
      refine ⟨loc1, ?_, ?_, e3, ?_⟩
      · simp only [largest_loop, hv, hsel, if_false]
        exact e1
      · intro j w h1 h2 h3 h4
        rcases Nat.eq_or_lt_of_le h1 with h5 | h5
        · subst h5
          exact le_trans (hhead w h3 h4) e3
        · exact e2 j w (by omega) (by omega) h3 h4
      · rcases e4 with e4 | ⟨i, k2, r2, f1, f2, f3, f4, f5, f6, f7, f8, f9, f10, f11⟩
        · left; exact e4
        · right
          refine ⟨i, k2, r2, by omega, by omega, f3, f4, f5, ?_, f7, f8, f9, f10, f11⟩
          intro j w h1 h2 h3 h4
          rcases Nat.eq_or_lt_of_le h1 with h5 | h5
          · subst h5
            exact lt_of_le_of_lt (hhead w h3 h4) f5
          · exact f6 j w (by omega) h2 h3 h4

theorem mem_generatedIndices (pd : Problem_Data) (st : State) (i : Nat) :
    i ∈ generatedIndices pd st ↔
      firstGenerated pd ≤ i ∧ i < CPXgetnumcols st.masterproblem := by
  simp only [generatedIndices, List.mem_range', Nat.one_mul]
  constructor
  · rintro ⟨k, hk, rfl⟩
    omega
  · rintro ⟨h1, h2⟩
    exact ⟨i - firstGenerated pd, by omega, by omega⟩

theorem selectedAbove_eq_nil_iff (beta : ℚ) (st : State) (l : List Nat) :
    selectedAbove beta st l = [] ↔
      ∀ i ∈ l, ∀ w, st.solution_master[i]? = some w →
        ¬ (beta < w ∧ w < 1 - fractionality_tolerance_master) := by
  simp only [selectedAbove, List.filter_eq_nil_iff]
  constructor
  · intro h i hi w hw hc
    have := h i hi
    rw [hw] at this
    simp at this
    exact absurd hc.1 (not_lt.mpr (this hc.2))
  · intro h i hi
    cases hw : st.solution_master[i]? with
    | none => simp
    | some w =>
      have := h i hi w hw
      simp only [decide_eq_true_eq]
      intro hc
      exact this ⟨hc.2, hc.1⟩

theorem duoFractionalState_pool : PoolKnowsMaster duoData duoFractionalState := by
  intro i hi c hc
  have h8 : 8 ≤ i := hi
  have hlt : i < 12 := by
    by_contra hcon
    have : duoFractionalState.masterproblem.cols[i]? = none :=
      List.getElem?_eq_none (by
        have : duoFractionalState.masterproblem.cols.length = 12 := rfl
        omega)
    rw [this] at hc
    cases hc
  have hcases : i = 8 ∨ i = 9 ∨ i = 10 ∨ i = 11 := by omega
  rcases hcases with rfl | rfl | rfl | rfl <;>
  · have hc2 := hc
    simp only [duoFractionalState, initial_state, duoMaster] at hc2
    cases hc2
    simp [duoFractionalState, duoColumns]

/-- C2. Under the value-above-threshold policy with threshold β, when at least one
generated assign-variable has a value strictly between β and 1 - 0.001 (and every
generated master column has its record in the pool, the solution vector having one
entry per master column), `find_branching_variables` returns, and the list of master
indices it fixes is strictly increasing (so each index occurs once) and contains a
master index exactly when that index belongs to a generated column whose value lies
strictly between β and 1 - 0.001; the counter equals the number of these indices, and
the records and people appended to `fixed_columns` and `fixed_people` are those of
exactly these columns, in the same order. -/
theorem find_branching_variables_threshold (pd : Problem_Data) (st : State) (beta : ℚ)
    (hlen : st.solution_master.length = CPXgetnumcols st.masterproblem)
    (hres : PoolKnowsMaster pd st)
    (hex : ∃ i v, firstGenerated pd ≤ i ∧ i < CPXgetnumcols st.masterproblem ∧
      st.solution_master[i]? = some v ∧ beta < v ∧ v < 1 - fractionality_tolerance_master) :
    ∃ st1, find_branching_variables pd Branching_Method_Diving.value_above_threshold beta st
        = some st1 ∧
      st1.fixed_indices_cplex.Pairwise (· < ·) ∧
      (∀ i, i ∈ st1.fixed_indices_cplex ↔
        firstGenerated pd ≤ i ∧ i < CPXgetnumcols st.masterproblem ∧
          ∃ v, st.solution_master[i]? = some v ∧ beta < v ∧
            v < 1 - fractionality_tolerance_master) ∧
      st1.nb_people_fixed_current_iteration = st1.fixed_indices_cplex.length ∧
      st1.fixed_columns = st.fixed_columns ++ st1.fixed_indices_cplex.filterMap (record_of st) ∧
      st1.fixed_people = st.fixed_people ++
        (st1.fixed_indices_cplex.filterMap (record_of st)).map (fun r => r.person) ∧
      st1.masterproblem = st.masterproblem ∧ st1.current_columns = st.current_columns := by
  let st0 : State := { st with fixed_indices_cplex := [], nb_people_fixed_current_iteration := 0 }
  have hres0 : PoolKnowsMaster pd st0 := hres
  have hl : ∀ i ∈ generatedIndices pd st0, firstGenerated pd ≤ i ∧
      i < CPXgetnumcols st0.masterproblem ∧ i < st0.solution_master.length := by
    intro i hi
    have := (mem_generatedIndices pd st0 i).mp hi
    exact ⟨this.1, this.2, by rw [show st0.solution_master.length = _ from hlen]; exact this.2⟩
  obtain ⟨loc1, e1, _⟩ := threshold_loop_spec pd beta (generatedIndices pd st0) st0 initLocals 0
    hres0 hl
  have hmem : ∀ i, i ∈ selectedAbove beta st0 (generatedIndices pd st0) ↔
      firstGenerated pd ≤ i ∧ i < CPXgetnumcols st.masterproblem ∧
        ∃ v, st.solution_master[i]? = some v ∧ beta < v ∧
          v < 1 - fractionality_tolerance_master := by
    intro i
    simp only [selectedAbove, List.mem_filter, mem_generatedIndices]
    constructor
    · rintro ⟨⟨h1, h2⟩, h3⟩
      refine ⟨h1, h2, ?_⟩
      have hs : st0.solution_master = st.solution_master := rfl
      rw [hs] at h3
      generalize st.solution_master[i]? = o at h3 ⊢
      cases o with
      | none => cases h3
      | some v =>
        simp only [decide_eq_true_eq] at h3
        exact ⟨v, rfl, h3.2, h3.1⟩
    · rintro ⟨h1, h2, v, hv, h3, h4⟩
      refine ⟨⟨h1, h2⟩, ?_⟩
      rw [show st0.solution_master[i]? = some v from hv]
      simp only [decide_eq_true_eq]
      exact ⟨h4, h3⟩
  have hne : (selectedAbove beta st0 (generatedIndices pd st0)).length ≠ 0 := by
    obtain ⟨i, v, h1, h2, h3, h4, h5⟩ := hex
    have : i ∈ selectedAbove beta st0 (generatedIndices pd st0) :=
      (hmem i).mpr ⟨h1, h2, v, h3, h4, h5⟩
    intro h0
    rw [List.length_eq_zero] at h0
    rw [h0] at this
    cases this
  refine ⟨pushAll st0 (selectedAbove beta st0 (generatedIndices pd st0)), ?_, ?_, ?_, ?_, ?_, ?_,
    rfl, rfl⟩
  · simp only [find_branching_variables]
    rw [e1]
    simp only [Nat.zero_add, hne, if_false]
  · simp only [pushAll, List.nil_append, selectedAbove]
    exact List.Pairwise.filter _ (List.pairwise_lt_range' _ _)
  · intro i
    simp only [pushAll, List.nil_append]
    exact hmem i
  · simp [pushAll, st0]
  · simp only [pushAll, List.nil_append]
    rfl
  · simp only [pushAll, List.nil_append]
    rfl

/-- Witness for C2 (scenario 3): with β = 0.6 and the master solution of
`duoFractionalState`, whose only generated variable above 0.6 is `z_1_1 = 0.7` at master
index 8, exactly that variable is fixed. -/
theorem find_branching_variables_threshold_witness :
    ∃ st1, find_branching_variables duoData Branching_Method_Diving.value_above_threshold
        (6 / 10) duoFractionalState = some st1 ∧
      st1.fixed_indices_cplex.Pairwise (· < ·) ∧
      (∀ i, i ∈ st1.fixed_indices_cplex ↔
        firstGenerated duoData ≤ i ∧ i < CPXgetnumcols duoFractionalState.masterproblem ∧
          ∃ v, duoFractionalState.solution_master[i]? = some v ∧ 6 / 10 < v ∧
            v < 1 - fractionality_tolerance_master) ∧
      st1.nb_people_fixed_current_iteration = st1.fixed_indices_cplex.length ∧
      st1.fixed_columns = duoFractionalState.fixed_columns ++
        st1.fixed_indices_cplex.filterMap (record_of duoFractionalState) ∧
      st1.fixed_people = duoFractionalState.fixed_people ++
        (st1.fixed_indices_cplex.filterMap (record_of duoFractionalState)).map
          (fun r => r.person) ∧
      st1.masterproblem = duoFractionalState.masterproblem ∧
      st1.current_columns = duoFractionalState.current_columns :=
  find_branching_variables_threshold duoData duoFractionalState (6 / 10) (by decide)
    duoFractionalState_pool
    ⟨8, 7 / 10, by decide, by decide, rfl, by norm_num,
      by norm_num [fractionality_tolerance_master]⟩

/-- C3. Whenever some generated assign-variable has a value strictly between 0 and
1 - 0.001 (every generated master column having its record in the pool, the solution
vector having one entry per master column), the largest-fractional-variable policy
returns and fixes exactly one master index `i`: a generated column with value `v`,
`0 < v < 1 - 0.001`, such that no generated variable with value below 1 - 0.001 has a
larger value, and every such variable with a smaller master index has a strictly
smaller value (ties go to the lowest index); its record and person are appended to
`fixed_columns` and `fixed_people`. When no generated variable lies strictly between β
and 1 - 0.001, the value-above-threshold policy returns the very same state. -/
theorem find_branching_variables_largest (pd : Problem_Data) (st : State) (beta : ℚ)
    (hlen : st.solution_master.length = CPXgetnumcols st.masterproblem)
    (hres : PoolKnowsMaster pd st)
    (hex : ∃ i v, firstGenerated pd ≤ i ∧ i < CPXgetnumcols st.masterproblem ∧
      st.solution_master[i]? = some v ∧ 0 < v ∧ v < 1 - fractionality_tolerance_master) :
    ∃ st1 i v r,
      find_branching_variables pd Branching_Method_Diving.largest_fractional_variable beta st
        = some st1 ∧
      st1.fixed_indices_cplex = [i] ∧ st1.nb_people_fixed_current_iteration = 1 ∧
      record_of st i = some r ∧
      st1.fixed_columns = st.fixed_columns ++ [r] ∧
      st1.fixed_people = st.fixed_people ++ [r.person] ∧
      firstGenerated pd ≤ i ∧ i < CPXgetnumcols st.masterproblem ∧
      st.solution_master[i]? = some v ∧ 0 < v ∧ v < 1 - fractionality_tolerance_master ∧
      (∀ j w, firstGenerated pd ≤ j → j < CPXgetnumcols st.masterproblem →
        st.solution_master[j]? = some w → w < 1 - fractionality_tolerance_master → w ≤ v) ∧
      (∀ j w, firstGenerated pd ≤ j → j < i →
        st.solution_master[j]? = some w → w < 1 - fractionality_tolerance_master → w < v) ∧
      ((∀ j w, firstGenerated pd ≤ j → j < CPXgetnumcols st.masterproblem →
          st.solution_master[j]? = some w →
          ¬ (beta < w ∧ w < 1 - fractionality_tolerance_master)) →
        find_branching_variables pd Branching_Method_Diving.value_above_threshold beta st
          = some st1) := by
  let st0 : State := { st with fixed_indices_cplex := [], nb_people_fixed_current_iteration := 0 }
  have hres0 : PoolKnowsMaster pd st0 := hres
  have hlen0 : st0.solution_master.length = CPXgetnumcols st0.masterproblem := hlen
  by_cases hge : firstGenerated pd ≤ CPXgetnumcols st.masterproblem
  swap
  · obtain ⟨i, v, h1, h2, _⟩ := hex
    omega
  obtain ⟨loc1, e1, e2, _, e4⟩ := largest_loop_spec pd st0 hres0 hlen0
    (CPXgetnumcols st.masterproblem - firstGenerated pd) (firstGenerated pd) initLocals
    (le_refl _) (by show _ ≤ CPXgetnumcols st.masterproblem; omega)
  have hend : firstGenerated pd + (CPXgetnumcols st.masterproblem - firstGenerated pd)
      = CPXgetnumcols st.masterproblem := by omega
  rw [hend] at e2 e4
  rcases e4 with e4 | ⟨i, k, r, f1, f2, f3, f4, f5, f6, f7, f8, f9, f10, f11⟩
  · exfalso
    obtain ⟨i, v, h1, h2, h3, h4, h5⟩ := hex
    have := e2 i v h1 h2 h3 h5
    rw [e4] at this
    exact absurd h4 (not_lt.mpr this)
  · have hpush : push_fixed st0 loc1 = some (pushAll st0 [i]) :=
      push_fixed_spec st0 loc1 i k r f7 f8 f9 f10 f11
    have hgen : generatedIndices pd st0 = List.range' (firstGenerated pd)
        (CPXgetnumcols st.masterproblem - firstGenerated pd) := rfl
    have hrec : record_of st0 i = some r := f11
    refine ⟨pushAll st0 [i], i, loc1.z_val_current_highest_frac_col, r, ?_, ?_, ?_, f11, ?_, ?_,
      f1, f2, f3, f5, f4, e2, f6, ?_⟩
    · simp only [find_branching_variables]
      rw [hgen, e1]
      exact hpush
    · simp [pushAll, st0]
    · simp [pushAll, st0]
    · simp [pushAll, hrec, st0]
    · simp [pushAll, hrec, st0]
    · intro hnone
      have hl : ∀ j ∈ generatedIndices pd st0, firstGenerated pd ≤ j ∧
          j < CPXgetnumcols st0.masterproblem ∧ j < st0.solution_master.length := by
        intro j hj
        have := (mem_generatedIndices pd st0 j).mp hj
        exact ⟨this.1, this.2, by rw [hlen0]; exact this.2⟩
      obtain ⟨loc2, g1, g2⟩ := threshold_loop_spec pd beta (generatedIndices pd st0) st0
        initLocals 0 hres0 hl
      have hempty : selectedAbove beta st0 (generatedIndices pd st0) = [] := by
        rw [selectedAbove_eq_nil_iff]
        intro j hj w hw
        have := (mem_generatedIndices pd st0 j).mp hj
        exact hnone j w this.1 this.2 hw
      have hloc2 := g2 hempty
      rw [hempty] at g1
      have hp0 : pushAll st0 [] = st0 := by
        simp [pushAll]
      rw [hp0, hloc2] at g1
      simp only [find_branching_variables]
      rw [g1]
      simp only [List.length_nil, Nat.add_zero, if_true]
      rw [hgen, e1]
      exact hpush

/-- Witness for C3 (scenario 4): in `duoFractionalState` the generated variable
`z_1_1 = 0.7` at master index 8 lies strictly between 0 and 1 - 0.001; the threshold
used is β = 0.9. -/
theorem find_branching_variables_largest_witness :
    ∃ st1 i v r,
      find_branching_variables duoData Branching_Method_Diving.largest_fractional_variable
        (9 / 10) duoFractionalState = some st1 ∧
      st1.fixed_indices_cplex = [i] ∧ st1.nb_people_fixed_current_iteration = 1 ∧
      record_of duoFractionalState i = some r ∧
      st1.fixed_columns = duoFractionalState.fixed_columns ++ [r] ∧
      st1.fixed_people = duoFractionalState.fixed_people ++ [r.person] ∧
      firstGenerated duoData ≤ i ∧ i < CPXgetnumcols duoFractionalState.masterproblem ∧
      duoFractionalState.solution_master[i]? = some v ∧ 0 < v ∧
      v < 1 - fractionality_tolerance_master ∧
      (∀ j w, firstGenerated duoData ≤ j →
        j < CPXgetnumcols duoFractionalState.masterproblem →
        duoFractionalState.solution_master[j]? = some w →
        w < 1 - fractionality_tolerance_master → w ≤ v) ∧
      (∀ j w, firstGenerated duoData ≤ j → j < i →
        duoFractionalState.solution_master[j]? = some w →
        w < 1 - fractionality_tolerance_master → w < v) ∧
      ((∀ j w, firstGenerated duoData ≤ j →
          j < CPXgetnumcols duoFractionalState.masterproblem →
          duoFractionalState.solution_master[j]? = some w →
          ¬ (9 / 10 < w ∧ w < 1 - fractionality_tolerance_master)) →
        find_branching_variables duoData Branching_Method_Diving.value_above_threshold
          (9 / 10) duoFractionalState = some st1) :=
  find_branching_variables_largest duoData duoFractionalState (9 / 10) (by decide)
    duoFractionalState_pool
    ⟨8, 7 / 10, by decide, by decide, rfl, by norm_num,
      by norm_num [fractionality_tolerance_master]⟩

/-- Scenarios 3 and 4 evaluated on `duoFractionalState`: with β = 0.6 the threshold
policy fixes master index 8 only (`z_1_1 = 0.7`); with β = 0.9 it falls back to the
largest fractional variable, again index 8, as the largest-fractional policy does. -/
theorem find_branching_variables_scenarios :
    (find_branching_variables duoData Branching_Method_Diving.value_above_threshold
        (6 / 10) duoFractionalState).map (fun s => s.fixed_indices_cplex) = some [8] ∧
    (find_branching_variables duoData Branching_Method_Diving.value_above_threshold
        (9 / 10) duoFractionalState).map (fun s => s.fixed_indices_cplex) = some [8] ∧
    (find_branching_variables duoData Branching_Method_Diving.largest_fractional_variable
        (9 / 10) duoFractionalState).map (fun s => s.fixed_indices_cplex) = some [8] := by
  decide!

/-! ## `remove_columns_that_violate_branching_restrictions` -/

theorem eraseIdx_findIdx_name (cols : List CpxCol) (n : String)
    (hnd : (cols.map fun c => c.name).Nodup) :
    cols.eraseIdx (cols.findIdx fun c => c.name == n) =
      cols.filter fun c => decide (c.name ≠ n) := by
  induction cols with
  | nil => rfl
  | cons c cs ih =>
    rw [List.map_cons, List.nodup_cons] at hnd
    by_cases hc : c.name = n
    · have h1 : (c :: cs).findIdx (fun c => c.name == n) = 0 := by
        simp [List.findIdx_cons, hc]
      rw [h1, List.eraseIdx_cons_zero, List.filter_cons]
      simp only [hc, ne_eq, not_true_eq_false, decide_False, Bool.false_eq_true, if_false]
      symm
      rw [List.filter_eq_self]
      intro a ha
      simp only [decide_eq_true_eq]
      intro hcon
      apply hnd.1
      rw [hc, ← hcon]
      exact List.mem_map_of_mem _ ha
    · have hb : (c.name == n) = false := by simp [hc]
      have h1 : (c :: cs).findIdx (fun c => c.name == n) =
          cs.findIdx (fun c => c.name == n) + 1 := by
        simp [List.findIdx_cons, hb]
      rw [h1, List.eraseIdx_cons_succ, List.filter_cons, ih hnd.2]
      simp [hc]

theorem delete_named_cols (lp : CpxLP) (n : String) (hnd : (colNames lp).Nodup) :
    (match CPXgetcolindex lp n with
      | some k => CPXdelcols lp k
      | none => lp) =
    { lp with cols := lp.cols.filter fun c => decide (c.name ≠ n) } := by
  have h := eraseIdx_findIdx_name lp.cols n hnd
  unfold CPXgetcolindex
  by_cases hk : (lp.cols.findIdx fun c => c.name == n) < lp.cols.length
  · simp only [hk, if_true, CPXdelcols, h]
  · simp only [hk, if_false]
    rw [← h, List.eraseIdx_of_length_le (not_lt.mp hk)]

theorem nodup_filter_names (lp : CpxLP) (p : CpxCol → Bool) (hnd : (colNames lp).Nodup) :
    (colNames { lp with cols := lp.cols.filter p }).Nodup := by
  unfold colNames at hnd ⊢
  exact List.Nodup.sublist (List.Sublist.map _ (List.filter_sublist _)) hnd

theorem remove_columns_inner_spec (fixed : List Column) (cc : Column) (js : List Nat) :
    ∀ lp : CpxLP, (∀ j ∈ js, j < fixed.length) → (colNames lp).Nodup →
      ∃ lp1, remove_columns_inner fixed cc js lp = some lp1 ∧ lp1.rows = lp.rows ∧
        ((∃ j ∈ js, ∃ fc, fixed[fixed.length - 1 - j]? = some fc ∧
            cc.person = fc.person ∧ cc.name ≠ fc.name) →
          lp1.cols = lp.cols.filter fun c => decide (c.name ≠ cc.name)) ∧
        ((¬ ∃ j ∈ js, ∃ fc, fixed[fixed.length - 1 - j]? = some fc ∧
            cc.person = fc.person ∧ cc.name ≠ fc.name) → lp1.cols = lp.cols) := by
  induction js with
  | nil =>
    intro lp _ _
    refine ⟨lp, rfl, rfl, ?_, fun _ => rfl⟩
    rintro ⟨j, hj, _⟩
    cases hj
  | cons j rest ih =>
    intro lp hjs hnd
    have hj : j < fixed.length := hjs j (List.mem_cons_self _ _)
    have hrest : ∀ i ∈ rest, i < fixed.length := fun i hi => hjs i (List.mem_cons_of_mem _ hi)
    have hidx : fixed.length - 1 - j < fixed.length := by omega
    have hget : fixed[fixed.length - 1 - j]? = some fixed[fixed.length - 1 - j] :=
      List.getElem?_eq_getElem hidx
    by_cases hcond : cc.person = fixed[fixed.length - 1 - j].person ∧
        cc.name ≠ fixed[fixed.length - 1 - j].name
    · have hdel := delete_named_cols lp cc.name hnd
      obtain ⟨lp1, e1, e2, e3, e4⟩ :=
        ih { lp with cols := lp.cols.filter fun c => decide (c.name ≠ cc.name) } hrest
          (nodup_filter_names lp _ hnd)
      have hcols : lp1.cols = lp.cols.filter fun c => decide (c.name ≠ cc.name) := by
        by_cases hhit : ∃ j ∈ rest, ∃ fc, fixed[fixed.length - 1 - j]? = some fc ∧
            cc.person = fc.person ∧ cc.name ≠ fc.name
        · rw [e3 hhit]
          simp only [List.filter_filter, Bool.and_self]
        · exact e4 hhit
      refine ⟨lp1, ?_, e2, fun _ => hcols, ?_⟩
      · simp only [remove_columns_inner, hj, if_true, hget]
        rw [if_pos hcond]
        cases hg : CPXgetcolindex lp cc.name with
        | none =>
          rw [hg] at hdel
          simp only at hdel ⊢
          rw [hdel]
          exact e1
        | some k =>
          rw [hg] at hdel
          simp only at hdel ⊢
          rw [hdel]
          exact e1
      · intro hno
        exact absurd ⟨j, List.mem_cons_self _ _, _, hget, hcond.1, hcond.2⟩ hno
    · obtain ⟨lp1, e1, e2, e3, e4⟩ := ih lp hrest hnd
      refine ⟨lp1, ?_, e2, ?_, ?_⟩
      · simp only [remove_columns_inner, hj, if_true, hget]
        rw [if_neg hcond]
        exact e1
      · rintro ⟨i, hi, fc, h1, h2⟩
        rcases List.mem_cons.mp hi with rfl | hi
        · rw [hget] at h1
          cases h1
          exact absurd h2 hcond
        · exact e3 ⟨i, hi, fc, h1, h2⟩
      · intro hno
        apply e4
        rintro ⟨i, hi, fc, h1, h2⟩
        exact hno ⟨i, List.mem_cons_of_mem _ hi, fc, h1, h2⟩

theorem violates_iff_range (st : State)
    (hnb : st.nb_people_fixed_current_iteration ≤ st.fixed_columns.length) (cc : Column) :
    violates (newlyFixed st) cc = true ↔
      ∃ j ∈ List.range st.nb_people_fixed_current_iteration, ∃ fc,
        st.fixed_columns[st.fixed_columns.length - 1 - j]? = some fc ∧
          cc.person = fc.person ∧ cc.name ≠ fc.name := by
  simp only [violates, List.any_eq_true, decide_eq_true_eq, newlyFixed, List.mem_range]
  constructor
  · rintro ⟨fc, hfc, h⟩
    obtain ⟨i, hi⟩ := List.mem_iff_getElem?.mp hfc
    rw [List.getElem?_drop] at hi
    have hlt : st.fixed_columns.length - st.nb_people_fixed_current_iteration + i <
        st.fixed_columns.length := by
      by_contra hcon
      rw [List.getElem?_eq_none (not_lt.mp hcon)] at hi
      cases hi
    refine ⟨st.nb_people_fixed_current_iteration - 1 - i, by omega, fc, ?_, h⟩
    rw [← hi]
    congr 1
    omega
  · rintro ⟨j, hj, fc, h1, h2⟩
    refine ⟨fc, ?_, h2⟩
    rw [List.mem_iff_getElem?]
    refine ⟨st.nb_people_fixed_current_iteration - 1 - j, ?_⟩
    rw [List.getElem?_drop, ← h1]
    congr 1
    omega

theorem remove_columns_outer_spec (st : State)
    (hnb : st.nb_people_fixed_current_iteration ≤ st.fixed_columns.length)
    (pool : List Column) :
    ∀ lp : CpxLP, (colNames lp).Nodup →
      ∃ lp1, remove_columns_outer st.fixed_columns st.nb_people_fixed_current_iteration
          pool lp = some lp1 ∧ lp1.rows = lp.rows ∧
        lp1.cols = lp.cols.filter fun mc => !pruned pool (newlyFixed st) mc := by
  induction pool with
  | nil =>
    intro lp _
    exact ⟨lp, rfl, rfl, by simp [pruned]⟩
  | cons cc rest ih =>
    intro lp hnd
    obtain ⟨lp1, e1, e2, e3, e4⟩ := remove_columns_inner_spec st.fixed_columns cc
      (List.range st.nb_people_fixed_current_iteration) lp
      (fun j hj => by have := List.mem_range.mp hj; omega) hnd
    have hcols1 : lp1.cols = lp.cols.filter fun c =>
        !(decide (cc.name = c.name) && violates (newlyFixed st) cc) := by
      by_cases hv : violates (newlyFixed st) cc = true
      · rw [e3 ((violates_iff_range st hnb cc).mp hv)]
        apply List.filter_congr
        intro c _
        simp only [hv, Bool.and_true, ne_eq, decide_not]
        congr 2
        exact propext ⟨fun h => h.symm, fun h => h.symm⟩
      · rw [e4 (fun h => hv ((violates_iff_range st hnb cc).mpr h))]
        simp only [Bool.not_eq_true] at hv
        simp [hv]
    have hnd1 : (colNames lp1).Nodup := by
      have := nodup_filter_names lp
        (fun c => !(decide (cc.name = c.name) && violates (newlyFixed st) cc)) hnd
      unfold colNames at this ⊢
      rw [hcols1]
      exact this
    obtain ⟨lp2, g1, g2, g3⟩ := ih lp1 hnd1
    refine ⟨lp2, ?_, by rw [g2, e2], ?_⟩
    · simp only [remove_columns_outer, e1]
      exact g1
    · rw [g3, hcols1, List.filter_filter]
      apply List.filter_congr
      intro c _
      simp only [pruned, List.any_cons, Bool.not_or]
      rw [Bool.and_comm]

/-- C4. Let `c` be a column fixed at the current dive level (one of the last
`nb_people_fixed_current_iteration` entries of `fixed_columns`), `p` its person, and let
`c` be the only column `p` was fixed to at this level. With distinct column names in
the master and in the pool, `c` a record of the pool and `c` present in the master,
`remove_columns_that_violate_branching_restrictions` returns, and afterwards no record
of the pool that belongs to `p` and has another name than `c` names a column of the
master, while the column named like `c` is still in the master. Rows and pool are
unchanged and no column is added. -/
theorem remove_columns_keeps_only_fixed_column (st : State) (c : Column)
    (hnb : st.nb_people_fixed_current_iteration ≤ st.fixed_columns.length)
    (hnd : (colNames st.masterproblem).Nodup)
    (hpool : (st.current_columns.map fun r => r.name).Nodup)
    (hc : c ∈ newlyFixed st) (hcp : c ∈ st.current_columns)
    (hcm : c.name ∈ colNames st.masterproblem)
    (huniq : ∀ fc ∈ newlyFixed st, fc.person = c.person → fc.name = c.name) :
    ∃ st1, remove_columns_that_violate_branching_restrictions st = some st1 ∧
      (∀ r ∈ st.current_columns, r.person = c.person → r.name ≠ c.name →
        r.name ∉ colNames st1.masterproblem) ∧
      c.name ∈ colNames st1.masterproblem ∧
      (∀ mc ∈ st1.masterproblem.cols, mc ∈ st.masterproblem.cols) ∧
      st1.masterproblem.rows = st.masterproblem.rows ∧
      st1.current_columns = st.current_columns := by
  obtain ⟨lp1, e1, e2, e3⟩ := remove_columns_outer_spec st hnb st.current_columns
    st.masterproblem hnd
  refine ⟨{ st with masterproblem := lp1 }, ?_, ?_, ?_, ?_, e2, rfl⟩
  · simp only [remove_columns_that_violate_branching_restrictions, e1]
  · intro r hr hp hn hmem
    simp only [colNames, e3, List.mem_map, List.mem_filter] at hmem
    obtain ⟨mc, ⟨_, hnot⟩, hname⟩ := hmem
    have hpr : pruned st.current_columns (newlyFixed st) mc = true := by
      simp only [pruned, List.any_eq_true, Bool.and_eq_true, decide_eq_true_eq]
      refine ⟨r, hr, hname.symm, ?_⟩
      simp only [violates, List.any_eq_true, decide_eq_true_eq]
      exact ⟨c, hc, hp, hn⟩
    rw [hpr] at hnot
    cases hnot
  · simp only [colNames, List.mem_map] at hcm ⊢
    obtain ⟨mc, hmc, hname⟩ := hcm
    refine ⟨mc, ?_, hname⟩
    rw [e3, List.mem_filter]
    refine ⟨hmc, ?_⟩
    rw [Bool.not_eq_true']
    by_contra hcon
    rw [Bool.not_eq_false] at hcon
    simp only [pruned, List.any_eq_true, Bool.and_eq_true, decide_eq_true_eq] at hcon
    obtain ⟨cc, hcc, hccname, hviol⟩ := hcon
    have hcceq : cc = c := by
      have hinj := List.inj_on_of_nodup_map hpool
      exact hinj hcc hcp (by rw [hccname, hname])
    subst hcceq
    simp only [violates, List.any_eq_true, decide_eq_true_eq] at hviol
    obtain ⟨fc, hfc, hper, hne⟩ := hviol
    exact hne (huniq fc hfc hper.symm).symm
  · intro mc hmc
    rw [e3] at hmc
    exact (List.mem_filter.mp hmc).1

/-- Witness for C4: in `duoBranchedState` the first person was fixed to `z_1_1`. -/
theorem remove_columns_keeps_only_fixed_column_witness :
    ∃ st1, remove_columns_that_violate_branching_restrictions duoBranchedState = some st1 ∧
      (∀ r ∈ duoBranchedState.current_columns, r.person = 0 → r.name ≠ "z_1_1" →
        r.name ∉ colNames st1.masterproblem) ∧
      "z_1_1" ∈ colNames st1.masterproblem ∧
      (∀ mc ∈ st1.masterproblem.cols, mc ∈ duoBranchedState.masterproblem.cols) ∧
      st1.masterproblem.rows = duoBranchedState.masterproblem.rows ∧
      st1.current_columns = duoBranchedState.current_columns :=
  remove_columns_keeps_only_fixed_column duoBranchedState ⟨0, "z_1_1", 0, [1, 0, 0]⟩
    (by decide) (by decide) (by decide) (by decide!) (by decide!) (by decide)
    (by decide!)

/-- The pruning evaluated on `duoBranchedState`: of the four generated columns only
`z_1_3`, the other column of the first person, leaves the master. -/
theorem remove_columns_example :
    (remove_columns_that_violate_branching_restrictions duoBranchedState).map
      (fun s => colNames s.masterproblem) =
    some ["Y_REplus_1_1_1", "Y_REplus_1_1_2", "Y_REplus_1_1_3", "Y_REmin_1_1_1",
      "Y_REmin_1_1_2", "Y_REmin_1_1_3", "z_1_0", "z_2_0", "z_1_1", "z_2_2", "z_2_4"] := by
  decide!

/-! ## `fix_residual_schedule` -/

theorem record_of_spec (pd : Problem_Data) (st : State) (hres : PoolKnowsMaster pd st)
    (i : Nat) (h1 : firstGenerated pd ≤ i) (h2 : i < CPXgetnumcols st.masterproblem) :
    ∃ j r mc, find_column_loop mc.name st.current_columns 0 = some (j, r) ∧
      st.masterproblem.cols[i]? = some mc ∧ st.current_columns[j]? = some r ∧
      record_of st i = some r ∧ r.name = mc.name ∧ r ∈ st.current_columns := by
  have h3 : st.masterproblem.cols[i]? = some st.masterproblem.cols[i] :=
    List.getElem?_eq_getElem h2
  obtain ⟨m, c, h4, h5, h6⟩ :=
    find_column_loop_some st.masterproblem.cols[i].name st.current_columns 0
      (hres i h1 _ h3)
  refine ⟨m, c, st.masterproblem.cols[i], ?_, h3, h5, ?_, ?_, ?_⟩
  · rw [h4, Nat.zero_add]
  · simp only [record_of, CPXgetcolname, h3, Option.map_some', h6]
  · have := List.find?_some h6
    simpa using this
  · exact List.mem_of_find?_eq_some h6

theorem fix_residual_loop_spec (pd : Problem_Data) (st : State)
    (hres : PoolKnowsMaster pd st) (l : List Nat) :
    ∀ (ci : Option Nat) (fixed : List Column),
      (∀ i ∈ l, firstGenerated pd ≤ i ∧ i < CPXgetnumcols st.masterproblem ∧
        i < st.solution_master.length) →
      fix_residual_loop st l ci fixed =
        some (fixed ++ (selectedOne st l).filterMap (record_of st)) := by
  induction l with
  | nil =>
    intro ci fixed _
    simp [fix_residual_loop, selectedOne]
  | cons i rest ih =>
    intro ci fixed hl
    obtain ⟨hi1, hi2, hi3⟩ := hl i (List.mem_cons_self _ _)
    have hrest : ∀ j ∈ rest, firstGenerated pd ≤ j ∧ j < CPXgetnumcols st.masterproblem ∧
        j < st.solution_master.length := fun j hj => hl j (List.mem_cons_of_mem _ hj)
    have hv : st.solution_master[i]? = some st.solution_master[i] :=
      List.getElem?_eq_getElem hi3
    by_cases hsel : st.solution_master[i] ≥ 1 - fractionality_tolerance_master
    · obtain ⟨j, r, mc, f1, f2, f3, f4, _, _⟩ := record_of_spec pd st hres i hi1 hi2
      have hsa : selectedOne st (i :: rest) = i :: selectedOne st rest := by
        simp only [selectedOne, List.filter_cons, hv]
        rw [if_pos (decide_eq_true hsel)]
      have hname : CPXgetcolname st.masterproblem i = some mc.name := by
        simp [CPXgetcolname, f2]
      rw [hsa]
      simp only [fix_residual_loop, hv, hsel, if_true, hname, f1, f3]
      rw [ih _ _ hrest]
      simp [List.filterMap_cons, f4]
    · have hsa : selectedOne st (i :: rest) = selectedOne st rest := by
        simp only [selectedOne, List.filter_cons, hv]
        rw [if_neg (fun h => hsel (of_decide_eq_true h))]
      rw [hsa]
      simp only [fix_residual_loop, hv, hsel, if_false]
      exact ih _ _ hrest

/-- C5. With one solution value per master column and a record in the pool for every
generated master column (in particular after column generation ended with an integral
master solution), `fix_residual_schedule` returns; the new `fixed_columns` does not
depend on the old one and consists of exactly one record for every generated master
column whose value is at least 1 - 0.001, in increasing order of the master index: the
list `sel` of these indices is strictly increasing, contains an index exactly when it
is the index of a generated column with such a value, and `fixed_columns` is the list of
the records of `sel`, each being the first record of the pool that carries the name of
its master column. Nothing else in the state changes. -/
theorem fix_residual_schedule_spec (pd : Problem_Data) (st : State)
    (hlen : st.solution_master.length = CPXgetnumcols st.masterproblem)
    (hres : PoolKnowsMaster pd st) :
    ∃ st1 sel, fix_residual_schedule pd st = some st1 ∧
      st1 = { st with fixed_columns := st1.fixed_columns } ∧
      sel.Pairwise (· < ·) ∧
      (∀ i, i ∈ sel ↔ firstGenerated pd ≤ i ∧ i < CPXgetnumcols st.masterproblem ∧
        ∃ v, st.solution_master[i]? = some v ∧ v ≥ 1 - fractionality_tolerance_master) ∧
      List.Forall₂ (fun i r => record_of st i = some r ∧ r ∈ st.current_columns ∧
        ∃ mc, st.masterproblem.cols[i]? = some mc ∧ r.name = mc.name) sel st1.fixed_columns := by
  have hl : ∀ i ∈ generatedIndices pd st, firstGenerated pd ≤ i ∧
      i < CPXgetnumcols st.masterproblem ∧ i < st.solution_master.length := by
    intro i hi
    have := (mem_generatedIndices pd st i).mp hi
    exact ⟨this.1, this.2, by rw [hlen]; exact this.2⟩
  have e := fix_residual_loop_spec pd st hres (generatedIndices pd st) none [] hl
  have hmem : ∀ i, i ∈ selectedOne st (generatedIndices pd st) ↔
      firstGenerated pd ≤ i ∧ i < CPXgetnumcols st.masterproblem ∧
        ∃ v, st.solution_master[i]? = some v ∧ v ≥ 1 - fractionality_tolerance_master := by
    intro i
    simp only [selectedOne, List.mem_filter, mem_generatedIndices]
    constructor
    · rintro ⟨⟨h1, h2⟩, h3⟩
      refine ⟨h1, h2, ?_⟩
      generalize st.solution_master[i]? = o at h3 ⊢
      cases o with
      | none => cases h3
      | some v =>
        simp only [decide_eq_true_eq] at h3
        exact ⟨v, rfl, h3⟩
    · rintro ⟨h1, h2, v, hv, h3⟩
      refine ⟨⟨h1, h2⟩, ?_⟩
      rw [hv]
      simp only [decide_eq_true_eq]
      exact h3
  refine ⟨{ st with fixed_columns :=
      (selectedOne st (generatedIndices pd st)).filterMap (record_of st) },
    selectedOne st (generatedIndices pd st), ?_, rfl, ?_, hmem, ?_⟩
  · simp only [fix_residual_schedule, e, List.nil_append]
  · exact List.Pairwise.filter _ (List.pairwise_lt_range' _ _)
  · have hall : ∀ i ∈ selectedOne st (generatedIndices pd st),
        firstGenerated pd ≤ i ∧ i < CPXgetnumcols st.masterproblem := by
      intro i hi
      have := (hmem i).mp hi
      exact ⟨this.1, this.2.1⟩
    generalize selectedOne st (generatedIndices pd st) = sel at hall
    induction sel with
    | nil => exact List.Forall₂.nil
    | cons i rest ih =>
      obtain ⟨h1, h2⟩ := hall i (List.mem_cons_self _ _)
      obtain ⟨j, r, mc, _, f2, _, f4, f5, f6⟩ := record_of_spec pd st hres i h1 h2
      simp only [List.filterMap_cons, f4]
      exact List.Forall₂.cons ⟨f4, f6, mc, f2, f5⟩
        (ih (fun k hk => hall k (List.mem_cons_of_mem _ hk)))

theorem duoIntegralState_pool : PoolKnowsMaster duoData duoIntegralState :=
  duoFractionalState_pool

/-- Witness for C5: the integral state `duoIntegralState`. -/
theorem fix_residual_schedule_spec_witness :
    is_solution_fractional duoIntegralState = some false ∧
    ∃ st1 sel, fix_residual_schedule duoData duoIntegralState = some st1 ∧
      st1 = { duoIntegralState with fixed_columns := st1.fixed_columns } ∧
      sel.Pairwise (· < ·) ∧
      (∀ i, i ∈ sel ↔ firstGenerated duoData ≤ i ∧
        i < CPXgetnumcols duoIntegralState.masterproblem ∧
        ∃ v, duoIntegralState.solution_master[i]? = some v ∧
          v ≥ 1 - fractionality_tolerance_master) ∧
      List.Forall₂ (fun i r => record_of duoIntegralState i = some r ∧
        r ∈ duoIntegralState.current_columns ∧
        ∃ mc, duoIntegralState.masterproblem.cols[i]? = some mc ∧ r.name = mc.name)
        sel st1.fixed_columns :=
  ⟨by decide!, fix_residual_schedule_spec duoData duoIntegralState (by decide)
    duoIntegralState_pool⟩

/-- The function evaluated on `duoIntegralState`: the stale entry `z_2_4` is gone, the
records of `z_1_1` and `z_2_2` are the fixed columns. -/
theorem fix_residual_schedule_example :
    (fix_residual_schedule duoData duoIntegralState).map (fun s => s.fixed_columns) =
      some [⟨0, "z_1_1", 0, [1, 0, 0]⟩, ⟨1, "z_2_2", 0, [0, 1, 0]⟩] := by
  decide!

/-! ## Index arithmetic -/

theorem pair_index_lt (m n a b : Nat) (ha : a < m) (hb : b < n) : a * n + b < m * n := by
  have h1 : a * n + n ≤ m * n := by
    have : (a + 1) * n ≤ m * n := Nat.mul_le_mul_right n ha
    rw [Nat.add_mul, Nat.one_mul] at this
    exact this
  omega

theorem pair_index_inj (n a b a1 b1 : Nat) (hb : b < n) (hb1 : b1 < n)
    (h : a * n + b = a1 * n + b1) : a = a1 ∧ b = b1 := by
  have hn : 0 < n := by omega
  have h1 : (a * n + b) / n = a := by
    rw [Nat.mul_comm, Nat.mul_add_div hn, Nat.div_eq_of_lt hb, Nat.add_zero]
  have h2 : (a1 * n + b1) / n = a1 := by
    rw [Nat.mul_comm, Nat.mul_add_div hn, Nat.div_eq_of_lt hb1, Nat.add_zero]
  have h3 : a = a1 := by rw [← h1, ← h2, h]
  subst h3
  exact ⟨rfl, by omega⟩

theorem triple_index_lt (m D S a d s : Nat) (ha : a < m) (hd : d < D) (hs : s < S) :
    a * D * S + d * S + s < m * D * S := by
  have h1 := pair_index_lt D S d s hd hs
  have h2 := pair_index_lt m (D * S) a (d * S + s) ha h1
  rw [Nat.mul_assoc, Nat.mul_assoc, Nat.add_assoc]
  exact h2

theorem triple_index_inj (D S a d s a1 d1 s1 : Nat) (hd : d < D) (hs : s < S)
    (hd1 : d1 < D) (hs1 : s1 < S)
    (h : a * D * S + d * S + s = a1 * D * S + d1 * S + s1) :
    a = a1 ∧ d = d1 ∧ s = s1 := by
  rw [Nat.mul_assoc, Nat.mul_assoc, Nat.add_assoc, Nat.add_assoc] at h
  have h1 := pair_index_inj (D * S) a (d * S + s) a1 (d1 * S + s1)
    (pair_index_lt D S d s hd hs) (pair_index_lt D S d1 s1 hd1 hs1) h
  have h2 := pair_index_inj S d s d1 s1 hs hs1 h1.2
  exact ⟨h1.1, h2.1, h2.2⟩

theorem tdsIndex_lt (pd : Problem_Data) (t d s : Nat) (ht : t < pd.nb_tasks)
    (hd : d < pd.nb_days) (hs : s < pd.nb_shifts) : tdsIndex pd (t, d, s) < pd.tds :=
  triple_index_lt pd.nb_tasks pd.nb_days pd.nb_shifts t d s ht hd hs

/-! ## `save_solution` -/

theorem save_solution_mark_spec (pd : Problem_Data) (col : Column) (ks : List Nat) :
    ∀ temp : List Int,
      (∀ k ∈ ks, k < col.a_tds.length ∧ col.person * pd.tds + k < temp.length) →
      ∃ temp1, save_solution_mark pd col ks temp = some temp1 ∧
        temp1.length = temp.length ∧
        ∀ idx, ((∃ k ∈ ks, col.a_tds[k]? = some 1 ∧ idx = col.person * pd.tds + k) →
            temp1[idx]? = some 1) ∧
          ((¬ ∃ k ∈ ks, col.a_tds[k]? = some 1 ∧ idx = col.person * pd.tds + k) →
            temp1[idx]? = temp[idx]?) := by
  induction ks with
  | nil =>
    intro temp _
    refine ⟨temp, rfl, rfl, fun idx => ⟨?_, fun _ => rfl⟩⟩
    rintro ⟨k, hk, _⟩
    cases hk
  | cons k rest ih =>
    intro temp hks
    obtain ⟨hk1, hk2⟩ := hks k (List.mem_cons_self _ _)
    have hv : col.a_tds[k]? = some col.a_tds[k] := List.getElem?_eq_getElem hk1
    by_cases ha : col.a_tds[k] = 1
    · have hrest : ∀ j ∈ rest, j < col.a_tds.length ∧
          col.person * pd.tds + j < (temp.set (col.person * pd.tds + k) 1).length := by
        intro j hj
        rw [List.length_set]
        exact hks j (List.mem_cons_of_mem _ hj)
      obtain ⟨temp1, e1, e2, e3⟩ := ih (temp.set (col.person * pd.tds + k) 1) hrest
      refine ⟨temp1, ?_, by rw [e2, List.length_set], ?_⟩
      · simp only [save_solution_mark, hv, ha, if_true, hk2]
        exact e1
      · intro idx
        by_cases hhit : ∃ j ∈ rest, col.a_tds[j]? = some 1 ∧ idx = col.person * pd.tds + j
        · exact ⟨fun _ => (e3 idx).1 hhit, fun hno => absurd
            (by obtain ⟨j, hj, h⟩ := hhit; exact ⟨j, List.mem_cons_of_mem _ hj, h⟩) hno⟩
        · constructor
          · rintro ⟨j, hj, h1, h2⟩
            rcases List.mem_cons.mp hj with rfl | hj
            · rw [(e3 idx).2 hhit, h2, List.getElem?_set]
              simp [hk2]
            · exact absurd ⟨j, hj, h1, h2⟩ hhit
          · intro hno
            rw [(e3 idx).2 hhit, List.getElem?_set]
            have hne : col.person * pd.tds + k ≠ idx := by
              intro heq
              exact hno ⟨k, List.mem_cons_self _ _, by rw [hv, ha], heq.symm⟩
            simp [hne]
    · have hrest : ∀ j ∈ rest, j < col.a_tds.length ∧
          col.person * pd.tds + j < temp.length :=
        fun j hj => hks j (List.mem_cons_of_mem _ hj)
      obtain ⟨temp1, e1, e2, e3⟩ := ih temp hrest
      refine ⟨temp1, ?_, e2, ?_⟩
      · simp only [save_solution_mark, hv, ha, if_false]
        exact e1
      · intro idx
        constructor
        · rintro ⟨j, hj, h1, h2⟩
          rcases List.mem_cons.mp hj with rfl | hj
          · rw [hv] at h1
            exact absurd (Option.some.inj h1) ha
          · exact (e3 idx).1 ⟨j, hj, h1, h2⟩
        · intro hno
          apply (e3 idx).2
          rintro ⟨j, hj, h⟩
          exact hno ⟨j, List.mem_cons_of_mem _ hj, h⟩

theorem save_solution_temp_spec (pd : Problem_Data) (cols : List Column) :
    ∀ temp : List Int, temp.length = pd.nb_people * pd.tds →
      (∀ col ∈ cols, col.person < pd.nb_people ∧ pd.tds ≤ col.a_tds.length) →
      ∃ temp1, save_solution_temp pd cols temp = some temp1 ∧
        temp1.length = temp.length ∧
        ∀ idx, ((∃ col ∈ cols, ∃ k, k < pd.tds ∧ col.a_tds[k]? = some 1 ∧
              idx = col.person * pd.tds + k) → temp1[idx]? = some 1) ∧
          ((¬ ∃ col ∈ cols, ∃ k, k < pd.tds ∧ col.a_tds[k]? = some 1 ∧
              idx = col.person * pd.tds + k) → temp1[idx]? = temp[idx]?) := by
  induction cols with
  | nil =>
    intro temp _ _
    refine ⟨temp, rfl, rfl, fun idx => ⟨?_, fun _ => rfl⟩⟩
    rintro ⟨c, hc, _⟩
    cases hc
  | cons col rest ih =>
    intro temp hlen hwf
    obtain ⟨hp, ha⟩ := hwf col (List.mem_cons_self _ _)
    have hks : ∀ k ∈ List.range pd.tds, k < col.a_tds.length ∧
        col.person * pd.tds + k < temp.length := by
      intro k hk
      have hk2 := List.mem_range.mp hk
      exact ⟨by omega, by rw [hlen]; exact pair_index_lt _ _ _ _ hp hk2⟩
    obtain ⟨temp1, e1, e2, e3⟩ := save_solution_mark_spec pd col (List.range pd.tds) temp hks
    obtain ⟨temp2, g1, g2, g3⟩ := ih temp1 (by rw [e2, hlen])
      (fun c hc => hwf c (List.mem_cons_of_mem _ hc))
    refine ⟨temp2, ?_, by rw [g2, e2], ?_⟩
    · simp only [save_solution_temp, e1]
      exact g1
    · intro idx
      by_cases hhit : ∃ c ∈ rest, ∃ k, k < pd.tds ∧ c.a_tds[k]? = some 1 ∧
          idx = c.person * pd.tds + k
      · exact ⟨fun _ => (g3 idx).1 hhit, fun hno => absurd
          (by obtain ⟨c, hc, h⟩ := hhit; exact ⟨c, List.mem_cons_of_mem _ hc, h⟩) hno⟩
      · constructor
        · rintro ⟨c, hc, k, hk, h1, h2⟩
          rcases List.mem_cons.mp hc with rfl | hc
          · rw [(g3 idx).2 hhit]
            exact (e3 idx).1 ⟨k, List.mem_range.mpr hk, h1, h2⟩
          · exact absurd ⟨c, hc, k, hk, h1, h2⟩ hhit
        · intro hno
          rw [(g3 idx).2 hhit]
          apply (e3 idx).2
          rintro ⟨k, hk, h1, h2⟩
          exact hno ⟨col, List.mem_cons_self _ _, k, List.mem_range.mp hk, h1, h2⟩

theorem save_solution_tasks_spec (pd : Problem_Data) (temp : List Int) (p d s : Nat)
    (ts : List Nat) :
    ∀ sol : List Int, ts.Pairwise (· < ·) →
      (∀ t ∈ ts, p * pd.tds + t * pd.nb_days * pd.nb_shifts + d * pd.nb_shifts + s
        < temp.length) →
      p * pd.nb_days * pd.nb_shifts + d * pd.nb_shifts + s < sol.length →
      ∃ sol1, save_solution_tasks pd temp p d s ts sol = some sol1 ∧
        sol1.length = sol.length ∧
        (∀ q, q ≠ p * pd.nb_days * pd.nb_shifts + d * pd.nb_shifts + s →
          sol1[q]? = sol[q]?) ∧
        ((∀ t ∈ ts, temp[p * pd.tds + t * pd.nb_days * pd.nb_shifts + d * pd.nb_shifts + s]?
            ≠ some 1) →
          sol1[p * pd.nb_days * pd.nb_shifts + d * pd.nb_shifts + s]? =
            sol[p * pd.nb_days * pd.nb_shifts + d * pd.nb_shifts + s]?) ∧
        (∀ t ∈ ts,
          temp[p * pd.tds + t * pd.nb_days * pd.nb_shifts + d * pd.nb_shifts + s]? = some 1 →
          (∀ t1 ∈ ts,
            temp[p * pd.tds + t1 * pd.nb_days * pd.nb_shifts + d * pd.nb_shifts + s]? = some 1 →
            t1 ≤ t) →
          sol1[p * pd.nb_days * pd.nb_shifts + d * pd.nb_shifts + s]? = some (t : Int)) := by
  induction ts with
  | nil =>
    intro sol _ _ _
    refine ⟨sol, rfl, rfl, fun _ _ => rfl, fun _ => rfl, ?_⟩
    intro t ht
    cases ht
  | cons t0 rest ih =>
    intro sol hpw htemp hq
    have hpw2 := List.pairwise_cons.mp hpw
    have ht0 := htemp t0 (List.mem_cons_self _ _)
    have hrest : ∀ t ∈ rest,
        p * pd.tds + t * pd.nb_days * pd.nb_shifts + d * pd.nb_shifts + s < temp.length :=
      fun t ht => htemp t (List.mem_cons_of_mem _ ht)
    have hv := List.getElem?_eq_getElem ht0
    by_cases ha : temp[p * pd.tds + t0 * pd.nb_days * pd.nb_shifts + d * pd.nb_shifts + s] = 1
    · obtain ⟨sol1, e1, e2, e3, e4, e5⟩ :=
        ih (sol.set (p * pd.nb_days * pd.nb_shifts + d * pd.nb_shifts + s) (t0 : Int))
          hpw2.2 hrest (by rw [List.length_set]; exact hq)
      refine ⟨sol1, ?_, by rw [e2, List.length_set], ?_, ?_, ?_⟩
      · simp only [save_solution_tasks, hv, ha, if_true, hq]
        exact e1
      · intro q hne
        rw [e3 q hne, List.getElem?_set]
        simp [Ne.symm hne]
      · intro hno
        exact absurd (by rw [hv, ha]) (hno t0 (List.mem_cons_self _ _))
      · intro t ht hhit hmax
        rcases List.mem_cons.mp ht with rfl | ht
        · have hnone : ∀ t1 ∈ rest,
              temp[p * pd.tds + t1 * pd.nb_days * pd.nb_shifts + d * pd.nb_shifts + s]?
                ≠ some 1 := by
            intro t1 ht1 hcon
            have h1 := hmax t1 (List.mem_cons_of_mem _ ht1) hcon
            have h2 := hpw2.1 t1 ht1
            omega
          rw [e4 hnone, List.getElem?_set]
          simp [hq]
        · exact e5 t ht hhit (fun t1 ht1 h => hmax t1 (List.mem_cons_of_mem _ ht1) h)
    · obtain ⟨sol1, e1, e2, e3, e4, e5⟩ := ih sol hpw2.2 hrest hq
      refine ⟨sol1, ?_, e2, e3, ?_, ?_⟩
      · simp only [save_solution_tasks, hv, ha, if_false]
        exact e1
      · intro hno
        exact e4 (fun t ht => hno t (List.mem_cons_of_mem _ ht))
      · intro t ht hhit hmax
        rcases List.mem_cons.mp ht with rfl | ht
        · rw [hv] at hhit
          exact absurd (Option.some.inj hhit) ha
        · exact e5 t ht hhit (fun t1 ht1 h => hmax t1 (List.mem_cons_of_mem _ ht1) h)

theorem mem_pdsLoop (pd : Problem_Data) (x : Nat × Nat × Nat) :
    x ∈ pdsLoop pd ↔ x.1 < pd.nb_people ∧ x.2.1 < pd.nb_days ∧ x.2.2 < pd.nb_shifts := by
  obtain ⟨p, d, s⟩ := x
  simp only [pdsLoop, List.mem_flatMap, List.mem_map, List.mem_range, Prod.mk.injEq]
  constructor
  · rintro ⟨p1, hp, d1, hd, s1, hs, rfl, rfl, rfl⟩
    exact ⟨hp, hd, hs⟩
  · rintro ⟨hp, hd, hs⟩
    exact ⟨p, hp, d, hd, s, hs, rfl, rfl, rfl⟩

theorem pdsLoop_nodup (pd : Problem_Data) : (pdsLoop pd).Nodup := by
  unfold pdsLoop
  refine List.nodup_flatMap.2 ⟨fun p _ => List.nodup_flatMap.2 ⟨fun d _ => ?_, ?_⟩, ?_⟩
  · refine List.Nodup.map ?_ (List.nodup_range _)
    intro s1 s2 h
    simp only [Prod.mk.injEq] at h
    exact h.2.2
  · refine List.Nodup.pairwise_of_forall_ne (List.nodup_range _) ?_
    intro d1 _ d2 _ hne
    simp only [Function.onFun]
    intro x h1 h2
    simp only [List.mem_map] at h1 h2
    obtain ⟨s1, _, rfl⟩ := h1
    obtain ⟨s2, _, h3⟩ := h2
    simp only [Prod.mk.injEq] at h3
    exact hne h3.2.1.symm
  · refine List.Nodup.pairwise_of_forall_ne (List.nodup_range _) ?_
    intro p1 _ p2 _ hne
    simp only [Function.onFun]
    intro x h1 h2
    simp only [List.mem_flatMap, List.mem_map] at h1 h2
    obtain ⟨d1, _, s1, _, rfl⟩ := h1
    obtain ⟨d2, _, s2, _, h3⟩ := h2
    simp only [Prod.mk.injEq] at h3
    exact hne h3.1.symm

theorem save_solution_fill_spec (pd : Problem_Data) (temp : List Int)
    (htemp : temp.length = pd.nb_people * pd.tds) (xs : List (Nat × Nat × Nat)) :
    ∀ sol : List Int, xs.Nodup →
      (∀ x ∈ xs, x.1 < pd.nb_people ∧ x.2.1 < pd.nb_days ∧ x.2.2 < pd.nb_shifts) →
      sol.length = pd.nb_people * pd.nb_days * pd.nb_shifts →
      ∃ sol1, save_solution_fill pd temp xs sol = some sol1 ∧ sol1.length = sol.length ∧
        (∀ q, (∀ x ∈ xs, q ≠ x.1 * pd.nb_days * pd.nb_shifts + x.2.1 * pd.nb_shifts + x.2.2) →
          sol1[q]? = sol[q]?) ∧
        ∀ x ∈ xs,
          ((∀ t, t < pd.nb_tasks →
              temp[x.1 * pd.tds + t * pd.nb_days * pd.nb_shifts + x.2.1 * pd.nb_shifts + x.2.2]?
                ≠ some 1) →
            sol1[x.1 * pd.nb_days * pd.nb_shifts + x.2.1 * pd.nb_shifts + x.2.2]? =
              sol[x.1 * pd.nb_days * pd.nb_shifts + x.2.1 * pd.nb_shifts + x.2.2]?) ∧
          (∀ t, t < pd.nb_tasks →
            temp[x.1 * pd.tds + t * pd.nb_days * pd.nb_shifts + x.2.1 * pd.nb_shifts + x.2.2]?
              = some 1 →
            (∀ t1, t1 < pd.nb_tasks →
              temp[x.1 * pd.tds + t1 * pd.nb_days * pd.nb_shifts + x.2.1 * pd.nb_shifts + x.2.2]?
                = some 1 → t1 ≤ t) →
            sol1[x.1 * pd.nb_days * pd.nb_shifts + x.2.1 * pd.nb_shifts + x.2.2]? =
              some (t : Int)) := by
  induction xs with
  | nil =>
    intro sol _ _ _
    refine ⟨sol, rfl, rfl, fun _ _ => rfl, ?_⟩
    intro x hx
    cases hx
  | cons x0 rest ih =>
    intro sol hnd hval hlen
    have hnd2 := List.nodup_cons.mp hnd
    obtain ⟨hp0, hd0, hs0⟩ := hval x0 (List.mem_cons_self _ _)
    have hvalrest : ∀ x ∈ rest, x.1 < pd.nb_people ∧ x.2.1 < pd.nb_days ∧
        x.2.2 < pd.nb_shifts := fun x hx => hval x (List.mem_cons_of_mem _ hx)
    have hq0 : x0.1 * pd.nb_days * pd.nb_shifts + x0.2.1 * pd.nb_shifts + x0.2.2 < sol.length := by
      rw [hlen]
      exact triple_index_lt _ _ _ _ _ _ hp0 hd0 hs0
    have htidx : ∀ t ∈ List.range pd.nb_tasks,
        x0.1 * pd.tds + t * pd.nb_days * pd.nb_shifts + x0.2.1 * pd.nb_shifts + x0.2.2
          < temp.length := by
      intro t ht
      rw [htemp]
      have h1 := tdsIndex_lt pd t x0.2.1 x0.2.2 (List.mem_range.mp ht) hd0 hs0
      have h2 := pair_index_lt pd.nb_people pd.tds x0.1 _ hp0 h1
      simp only [tdsIndex] at h2
      omega
    obtain ⟨sol1, e1, e2, e3, e4, e5⟩ := save_solution_tasks_spec pd temp x0.1 x0.2.1 x0.2.2
      (List.range pd.nb_tasks) sol (List.pairwise_lt_range _) htidx hq0
    obtain ⟨sol2, g1, g2, g3, g4⟩ := ih sol1 hnd2.2 hvalrest (by rw [e2, hlen])
    have hq0rest : ∀ x ∈ rest,
        x0.1 * pd.nb_days * pd.nb_shifts + x0.2.1 * pd.nb_shifts + x0.2.2 ≠
          x.1 * pd.nb_days * pd.nb_shifts + x.2.1 * pd.nb_shifts + x.2.2 := by
      intro x hx heq
      obtain ⟨_, hd, hs⟩ := hvalrest x hx
      have := triple_index_inj _ _ _ _ _ _ _ _ hd0 hs0 hd hs heq
      apply hnd2.1
      have hx0 : x0 = x := by
        obtain ⟨a, b, c⟩ := x0
        obtain ⟨a1, b1, c1⟩ := x
        simp only at this
        rw [this.1, this.2.1, this.2.2]
      rw [hx0]
      exact hx
    refine ⟨sol2, ?_, by rw [g2, e2], ?_, ?_⟩
    · simp only [save_solution_fill, e1]
      exact g1
    · intro q hq
      rw [g3 q (fun x hx => hq x (List.mem_cons_of_mem _ hx)),
        e3 q (hq x0 (List.mem_cons_self _ _))]
    · intro x hx
      rcases List.mem_cons.mp hx with rfl | hx
      · rw [g3 _ hq0rest]
        exact ⟨fun hno => e4 (fun t ht => hno t (List.mem_range.mp ht)),
          fun t ht hhit hmax => e5 t (List.mem_range.mpr ht) hhit
            (fun t1 ht1 h => hmax t1 (List.mem_range.mp ht1) h)⟩
      · have hne := (hq0rest x hx).symm
        obtain ⟨h1, h2⟩ := g4 x hx
        rw [e3 _ hne] at h1
        exact ⟨h1, h2⟩

theorem temp_entry_iff_covers (pd : Problem_Data) (fixed : List Column) (temp1 : List Int)
    (h : ∀ idx, ((∃ col ∈ fixed, ∃ k, k < pd.tds ∧ col.a_tds[k]? = some 1 ∧
            idx = col.person * pd.tds + k) → temp1[idx]? = some 1) ∧
        ((¬ ∃ col ∈ fixed, ∃ k, k < pd.tds ∧ col.a_tds[k]? = some 1 ∧
            idx = col.person * pd.tds + k) →
          temp1[idx]? = (List.replicate (pd.nb_people * pd.tds) (0 : Int))[idx]?))
    (p t d s : Nat) (ht : t < pd.nb_tasks) (hd : d < pd.nb_days)
    (hs : s < pd.nb_shifts) :
    temp1[p * pd.tds + t * pd.nb_days * pd.nb_shifts + d * pd.nb_shifts + s]? = some 1 ↔
      covers pd fixed p t d s := by
  have hk := tdsIndex_lt pd t d s ht hd hs
  have hidx : p * pd.tds + t * pd.nb_days * pd.nb_shifts + d * pd.nb_shifts + s =
      p * pd.tds + tdsIndex pd (t, d, s) := by
    simp only [tdsIndex]
    omega
  rw [hidx]
  constructor
  · intro h1
    by_contra hno
    have hno2 : ¬ ∃ col ∈ fixed, ∃ k, k < pd.tds ∧ col.a_tds[k]? = some 1 ∧
        p * pd.tds + tdsIndex pd (t, d, s) = col.person * pd.tds + k := by
      rintro ⟨col, hcol, k, hk2, ha, heq⟩
      have := pair_index_inj pd.tds p _ col.person k hk hk2 heq
      apply hno
      refine ⟨col, hcol, this.1.symm, ?_⟩
      rw [this.2]
      exact ha
    rw [(h _).2 hno2, List.getElem?_replicate] at h1
    split at h1
    · cases h1
    · cases h1
  · rintro ⟨col, hcol, hp, ha⟩
    apply (h _).1
    exact ⟨col, hcol, tdsIndex pd (t, d, s), hk, ha, by rw [hp]⟩

/-- C6. For fixed columns whose person is a person of the instance and whose
coefficient vector has an entry for every slot, and a master objective that rounds to
an `int`, `save_solution` returns a vector of length nb_people·nb_days·nb_shifts. For
every person `p`, day `d`, shift `s` the entry at p·nb_days·nb_shifts + d·nb_shifts + s
is -1 when no fixed column of `p` has coefficient 1 at any `(t,d,s)`, and otherwise it is
the largest task `t` for which some fixed column of `p` has coefficient 1 at `(t,d,s)`.
That task is the only one when there are three shifts, every fixed column is a 0/1
vector satisfying the one-shift-per-day row of each day, and no person has two fixed
columns. -/
theorem save_solution_spec (pd : Problem_Data) (st : State)
    (hwf : ∀ col ∈ st.fixed_columns, col.person < pd.nb_people ∧ pd.tds ≤ col.a_tds.length)
    (hobj : (double_to_int (st.objective_master + 1 / 2)).isSome = true) :
    ∃ st1, save_solution pd st = some st1 ∧
      st1.solution.length = pd.nb_people * pd.nb_days * pd.nb_shifts ∧
      ∀ p d s, p < pd.nb_people → d < pd.nb_days → s < pd.nb_shifts →
        ((∀ t, t < pd.nb_tasks → ¬ covers pd st.fixed_columns p t d s) →
          st1.solution[p * pd.nb_days * pd.nb_shifts + d * pd.nb_shifts + s]? = some (-1)) ∧
        (∀ t, t < pd.nb_tasks → covers pd st.fixed_columns p t d s →
          (∀ t1, t1 < pd.nb_tasks → covers pd st.fixed_columns p t1 d s → t1 ≤ t) →
          st1.solution[p * pd.nb_days * pd.nb_shifts + d * pd.nb_shifts + s]? =
            some (t : Int)) ∧
        (pd.nb_shifts = 3 →
          (∀ col ∈ st.fixed_columns, binary_vector col.a_tds ∧
            one_shift_per_day pd col.a_tds) →
          (∀ c1 ∈ st.fixed_columns, ∀ c2 ∈ st.fixed_columns,
            c1.person = c2.person → c1 = c2) →
          ∀ t t1, t < pd.nb_tasks → t1 < pd.nb_tasks →
            covers pd st.fixed_columns p t d s → covers pd st.fixed_columns p t1 d s →
            t = t1) := by
  obtain ⟨z, hz⟩ := Option.isSome_iff_exists.mp hobj
  obtain ⟨temp1, e1, e2, e3⟩ := save_solution_temp_spec pd st.fixed_columns
    (List.replicate (pd.nb_people * pd.tds) 0) (List.length_replicate _ _) hwf
  have htemp : temp1.length = pd.nb_people * pd.tds := by
    rw [e2, List.length_replicate]
  obtain ⟨sol1, g1, g2, _, g4⟩ := save_solution_fill_spec pd temp1 htemp (pdsLoop pd)
    (List.replicate (pd.nb_people * pd.nb_days * pd.nb_shifts) (-1)) (pdsLoop_nodup pd)
    (fun x hx => (mem_pdsLoop pd x).mp hx) (List.length_replicate _ _)
  refine ⟨{ st with objective_best_solution := z, solution := sol1 }, ?_, ?_, ?_⟩
  · simp only [save_solution, hz, e1, g1]
  · show sol1.length = _
    rw [g2, List.length_replicate]
  · intro p d s hp hd hs
    have hx : (p, d, s) ∈ pdsLoop pd := (mem_pdsLoop pd (p, d, s)).mpr ⟨hp, hd, hs⟩
    obtain ⟨h1, h2⟩ := g4 (p, d, s) hx
    have hq : p * pd.nb_days * pd.nb_shifts + d * pd.nb_shifts + s <
        pd.nb_people * pd.nb_days * pd.nb_shifts := triple_index_lt _ _ _ _ _ _ hp hd hs
    refine ⟨?_, ?_, ?_⟩
    · intro hno
      show sol1[_]? = _
      have := h1 (fun t ht hcon =>
        hno t ht ((temp_entry_iff_covers pd st.fixed_columns temp1 e3 p t d s ht hd hs).mp hcon))
      simp only at this
      rw [this, List.getElem?_replicate, if_pos hq]
    · intro t ht hcov hmax
      show sol1[_]? = _
      exact h2 t ht
        ((temp_entry_iff_covers pd st.fixed_columns temp1 e3 p t d s ht hd hs).mpr hcov)
        (fun t1 ht1 hcon => hmax t1 ht1
          ((temp_entry_iff_covers pd st.fixed_columns temp1 e3 p t1 d s ht1 hd hs).mp hcon))
    · intro hS hrule huniq t t1 ht ht1 hc hc1
      obtain ⟨c, hcm, hcp, hca⟩ := hc
      obtain ⟨c1, hcm1, hcp1, hca1⟩ := hc1
      have hcc : c = c1 := huniq c hcm c1 hcm1 (by rw [hcp, hcp1])
      subst hcc
      by_contra hne
      obtain ⟨hbin, hday⟩ := hrule c hcm
      have hsum := hday d hd
      have hnonneg : ∀ k, 0 ≤ c.a_tds.getD k 0 := by
        intro k
        rw [List.getD_eq_getElem?_getD]
        cases hk : c.a_tds[k]? with
        | none => simp
        | some v =>
          rcases hbin k v hk with rfl | rfl <;> simp
      have hterm : ∀ u, u < pd.nb_tasks → c.a_tds[tdsIndex pd (u, d, s)]? = some 1 →
          1 ≤ c.a_tds.getD (tdsIndex pd (u, d, 0)) 0 + c.a_tds.getD (tdsIndex pd (u, d, 1)) 0 +
            c.a_tds.getD (tdsIndex pd (u, d, 2)) 0 := by
        intro u _ hu
        have h0 := hnonneg (tdsIndex pd (u, d, 0))
        have h1 := hnonneg (tdsIndex pd (u, d, 1))
        have h2 := hnonneg (tdsIndex pd (u, d, 2))
        have hone : c.a_tds.getD (tdsIndex pd (u, d, s)) 0 = 1 := by
          rw [List.getD_eq_getElem?_getD, hu]
          rfl
        have hs3 : s = 0 ∨ s = 1 ∨ s = 2 := by omega
        rcases hs3 with rfl | rfl | rfl <;> omega
      have hsub : ({t, t1} : Finset Nat) ⊆ Finset.range pd.nb_tasks := by
        intro u hu
        simp only [Finset.mem_insert, Finset.mem_singleton] at hu
        rcases hu with rfl | rfl <;> simp [ht, ht1]
      have hle := Finset.sum_le_sum_of_subset_of_nonneg hsub
        (f := fun u => c.a_tds.getD (tdsIndex pd (u, d, 0)) 0 +
          c.a_tds.getD (tdsIndex pd (u, d, 1)) 0 + c.a_tds.getD (tdsIndex pd (u, d, 2)) 0)
        (fun u _ _ => by
          have h0 := hnonneg (tdsIndex pd (u, d, 0))
          have h1 := hnonneg (tdsIndex pd (u, d, 1))
          have h2 := hnonneg (tdsIndex pd (u, d, 2))
          dsimp only
          omega)
      rw [Finset.sum_pair hne] at hle
      have a1 := hterm t ht hca
      have a2 := hterm t1 ht1 hca1
      simp only at hle
      omega

/-- Witness for C6: the two fixed columns of `duoFixedState`. -/
theorem save_solution_spec_witness :
    ∃ st1, save_solution duoData duoFixedState = some st1 ∧
      st1.solution.length = duoData.nb_people * duoData.nb_days * duoData.nb_shifts ∧
      ∀ p d s, p < duoData.nb_people → d < duoData.nb_days → s < duoData.nb_shifts →
        ((∀ t, t < duoData.nb_tasks → ¬ covers duoData duoFixedState.fixed_columns p t d s) →
          st1.solution[p * duoData.nb_days * duoData.nb_shifts + d * duoData.nb_shifts + s]?
            = some (-1)) ∧
        (∀ t, t < duoData.nb_tasks → covers duoData duoFixedState.fixed_columns p t d s →
          (∀ t1, t1 < duoData.nb_tasks →
            covers duoData duoFixedState.fixed_columns p t1 d s → t1 ≤ t) →
          st1.solution[p * duoData.nb_days * duoData.nb_shifts + d * duoData.nb_shifts + s]?
            = some (t : Int)) ∧
        (duoData.nb_shifts = 3 →
          (∀ col ∈ duoFixedState.fixed_columns, binary_vector col.a_tds ∧
            one_shift_per_day duoData col.a_tds) →
          (∀ c1 ∈ duoFixedState.fixed_columns, ∀ c2 ∈ duoFixedState.fixed_columns,
            c1.person = c2.person → c1 = c2) →
          ∀ t t1, t < duoData.nb_tasks → t1 < duoData.nb_tasks →
            covers duoData duoFixedState.fixed_columns p t d s →
            covers duoData duoFixedState.fixed_columns p t1 d s → t = t1) :=
  save_solution_spec duoData duoFixedState (by decide) (by decide!)

/-- The function evaluated on `duoFixedState`: person 1 works the task in the night
shift, person 2 in the morning shift, and nobody in the afternoon shift. -/
theorem save_solution_example :
    (save_solution duoData duoFixedState).map (fun s => s.solution) =
      some [0, -1, -1, -1, 0, -1] := by
  decide!

/-! ## `add_column_to_master` -/

theorem flatMap_range_pairs (m n : Nat) :
    (List.range n).flatMap (fun a => (List.range m).map fun b => a * m + b) =
      List.range (n * m) := by
  induction n with
  | zero => simp
  | succ n ih =>
    rw [List.range_succ, List.flatMap_append, ih]
    simp only [List.flatMap_cons, List.flatMap_nil, List.append_nil]
    rw [Nat.succ_mul, List.range_eq_range' (n := n * m + m), Nat.add_comm (n * m) m,
      ← List.range'_append 0 (n * m) m 1, ← List.range_eq_range']
    congr 1
    rw [List.range_eq_range', List.map_add_range']
    simp

theorem tdsLoop_map_index (pd : Problem_Data) :
    (tdsLoop pd 0 pd.nb_tasks).map (tdsIndex pd) = List.range pd.tds := by
  have hinner : ∀ t, ((List.range pd.nb_days).flatMap fun d =>
      (List.range pd.nb_shifts).map fun s => tdsIndex pd (t, d, s)) =
      (List.range (pd.nb_days * pd.nb_shifts)).map fun j => t * (pd.nb_days * pd.nb_shifts) + j := by
    intro t
    rw [← flatMap_range_pairs pd.nb_shifts pd.nb_days, List.map_flatMap]
    apply List.flatMap_congr
    intro d _
    rw [List.map_map]
    apply List.map_congr_left
    intro s _
    simp only [tdsIndex, Function.comp]
    rw [Nat.mul_assoc, Nat.add_assoc]
  unfold tdsLoop Problem_Data.tds
  rw [Nat.sub_zero, ← List.range_eq_range', List.map_flatMap, Nat.mul_assoc,
    ← flatMap_range_pairs (pd.nb_days * pd.nb_shifts) pd.nb_tasks]
  apply List.flatMap_congr
  intro t _
  rw [List.map_flatMap, ← hinner t]
  apply List.flatMap_congr
  intro d _
  rw [List.map_map]
  rfl

theorem double_to_int_zero : double_to_int (0 + 1 / 10) = some 0 := by
  have h : ⌊((0 : ℚ) + 1 / 10)⌋ = 0 := by
    rw [Int.floor_eq_iff]
    norm_num
  have hz : (if (0 : ℚ) ≤ 0 + 1 / 10 then ⌊((0 : ℚ) + 1 / 10)⌋ else ⌈((0 : ℚ) + 1 / 10)⌉) = 0 := by
    rw [if_pos (by norm_num), h]
  simp only [double_to_int, hz]
  decide

theorem double_to_int_one : double_to_int (1 + 1 / 10) = some 1 := by
  have h : ⌊((1 : ℚ) + 1 / 10)⌋ = 1 := by
    rw [Int.floor_eq_iff]
    norm_num
  have hz : (if (0 : ℚ) ≤ 1 + 1 / 10 then ⌊((1 : ℚ) + 1 / 10)⌋ else ⌈((1 : ℚ) + 1 / 10)⌉) = 1 := by
    rw [if_pos (by norm_num), h]
  simp only [double_to_int, hz]
  decide

theorem add_column_entries_spec (pd : Problem_Data) (sol : List ℚ)
    (xs : List (Nat × Nat × Nat)) :
    ∀ (mat : List (Nat × ℚ)) (a : List Int),
      (∀ x ∈ xs, ∃ v, sol[tdsIndex pd x]? = some v ∧ (v = 0 ∨ v = 1)) →
      mat.length + xs.length ≤ matCapacityColumn →
      add_column_entries pd sol xs mat a =
        some (mat ++ xs.map (fun x => (tdsIndex pd x, sol.getD (tdsIndex pd x) 0)),
          a ++ xs.map (fun x => if sol.getD (tdsIndex pd x) 0 = 1 then 1 else 0)) := by
  induction xs with
  | nil =>
    intro mat a _ _
    simp [add_column_entries]
  | cons x rest ih =>
    intro mat a h01 hcap
    obtain ⟨v, hv, hv01⟩ := h01 x (List.mem_cons_self _ _)
    have hlt : mat.length < matCapacityColumn := by
      simp only [List.length_cons] at hcap
      omega
    have hgetD : sol.getD (tdsIndex pd x) 0 = v := by
      rw [List.getD_eq_getElem?_getD, hv]
      rfl
    have hrest := ih (mat ++ [(tdsIndex pd x, v)])
      (a ++ [if v = 1 then 1 else 0])
      (fun y hy => h01 y (List.mem_cons_of_mem _ hy))
      (by simp only [List.length_append, List.length_cons, List.length_nil] at hcap ⊢; omega)
    have hconv : double_to_int (v + 1 / 10) = some (if v = 1 then 1 else 0) := by
      rcases hv01 with rfl | rfl
      · rw [double_to_int_zero]
        norm_num
      · rw [double_to_int_one]
        norm_num
    simp only [add_column_entries, hlt, if_true, hv, hconv]
    rw [hrest]
    simp only [List.map_cons, hgetD, List.append_assoc, List.singleton_append]

theorem coef_entries_range (n : Nat) (f : Nat → ℚ) (extra : List (Nat × ℚ)) (k : Nat)
    (hk : k < n) (hextra : ∀ e ∈ extra, e.1 ≠ k) :
    coef ⟨"", 0, 0, none, (List.range n).map (fun i => (i, f i)) ++ extra⟩ k = f k := by
  have h1 : ((List.range n).map (fun i => (i, f i))).filter (fun e => decide (e.1 = k)) =
      [(k, f k)] := by
    induction n with
    | zero => omega
    | succ n ih =>
      rw [List.range_succ, List.map_append, List.filter_append]
      rcases Nat.eq_or_lt_of_le (Nat.le_of_lt_succ hk) with h | h
      · subst h
        have : ((List.range k).map (fun i => (i, f i))).filter (fun e => decide (e.1 = k)) = [] := by
          rw [List.filter_eq_nil_iff]
          intro e he
          simp only [List.mem_map, List.mem_range] at he
          obtain ⟨i, hi, rfl⟩ := he
          simp only [decide_eq_true_eq]
          omega
        rw [this]
        simp
      · rw [ih h]
        have : n ≠ k := by omega
        simp [this]
  have h2 : extra.filter (fun e => decide (e.1 = k)) = [] := by
    rw [List.filter_eq_nil_iff]
    intro e he
    simp only [decide_eq_true_eq]
    exact hextra e he
  simp only [coef, List.filter_append, h1, h2]
  simp

theorem coef_congr (c1 c2 : CpxCol) (h : c1.coefs = c2.coefs) (row : Nat) :
    coef c1 row = coef c2 row := by
  simp only [coef, h]

/-- C7. Let the first nb_tasks·nb_days·nb_shifts entries of the pricing solution (the
work variables) each be 0 or 1, let that number be below the capacity 20000 of the
scratch arrays, and let the master have the convexity row of the person. Then
`add_column_to_master` returns; it appends one record to the pool and one column to the
master (rows unchanged). The record carries the priced person, the computed column cost
and the name of the new master column; its vector `a_tds` has length
nb_tasks·nb_days·nb_shifts and its entry at t·nb_days·nb_shifts + d·nb_shifts + s is 1
when the work variable of `(t,d,s)` is 1 and 0 otherwise. The master column has objective
coefficient equal to the cost, bounds 0 and 1, coefficient 1 in the convexity row of the
person, and in the coverage row of every `(t,d,s)` the value of the work variable,
which is the entry of `a_tds`. -/
theorem add_column_to_master_spec (pd : Problem_Data) (st : State) (person : Nat)
    (hsol : ∀ k, k < pd.tds →
      ∃ v, st.solution_subproblem[k]? = some v ∧ (v = 0 ∨ v = 1))
    (hcap : pd.tds < matCapacityColumn)
    (hrows : pd.tds + person < CPXgetnumrows st.masterproblem) :
    ∃ st1 rec mc, add_column_to_master pd st person = some st1 ∧
      st1.current_columns = st.current_columns ++ [rec] ∧
      st1.masterproblem.cols = st.masterproblem.cols ++ [mc] ∧
      st1.masterproblem.rows = st.masterproblem.rows ∧
      rec.person = person ∧ rec.cost = st.cost_column_k_person_p ∧
      rec.name = name_z person (st.nb_calls_CG + 1) ∧ mc.name = rec.name ∧
      mc.obj = st.cost_column_k_person_p ∧ mc.lb = 0 ∧ mc.ub = some 1 ∧
      rec.a_tds.length = pd.nb_tasks * pd.nb_days * pd.nb_shifts ∧
      (∀ t d s, t < pd.nb_tasks → d < pd.nb_days → s < pd.nb_shifts →
        ∃ v, st.solution_subproblem[t * pd.nb_days * pd.nb_shifts + d * pd.nb_shifts + s]?
            = some v ∧
          rec.a_tds[t * pd.nb_days * pd.nb_shifts + d * pd.nb_shifts + s]? =
            some (if v = 1 then 1 else 0) ∧
          coef mc (t * pd.nb_days * pd.nb_shifts + d * pd.nb_shifts + s) = v ∧
          coef mc (t * pd.nb_days * pd.nb_shifts + d * pd.nb_shifts + s) =
            ((rec.a_tds.getD (t * pd.nb_days * pd.nb_shifts + d * pd.nb_shifts + s) 0 : Int) : ℚ)) ∧
      coef mc (pd.nb_tasks * pd.nb_days * pd.nb_shifts + person) = 1 := by
  have hloop : ∀ x ∈ tdsLoop pd 0 pd.nb_tasks,
      ∃ v, st.solution_subproblem[tdsIndex pd x]? = some v ∧ (v = 0 ∨ v = 1) := by
    intro x hx
    have : tdsIndex pd x ∈ (tdsLoop pd 0 pd.nb_tasks).map (tdsIndex pd) :=
      List.mem_map_of_mem _ hx
    rw [tdsLoop_map_index] at this
    exact hsol _ (List.mem_range.mp this)
  have hlen : (tdsLoop pd 0 pd.nb_tasks).length = pd.tds := by
    have := congrArg List.length (tdsLoop_map_index pd)
    simpa using this
  have hent := add_column_entries_spec pd st.solution_subproblem (tdsLoop pd 0 pd.nb_tasks)
    [] [] hloop (by rw [hlen]; simp only [List.length_nil]; omega)
  have hmat : (tdsLoop pd 0 pd.nb_tasks).map
      (fun x => (tdsIndex pd x, st.solution_subproblem.getD (tdsIndex pd x) 0)) =
      (List.range pd.tds).map (fun k => (k, st.solution_subproblem.getD k 0)) := by
    rw [← tdsLoop_map_index, List.map_map]
    rfl
  have ha : (tdsLoop pd 0 pd.nb_tasks).map
      (fun x => if st.solution_subproblem.getD (tdsIndex pd x) 0 = 1 then (1 : Int) else 0) =
      (List.range pd.tds).map
        (fun k => if st.solution_subproblem.getD k 0 = 1 then (1 : Int) else 0) := by
    rw [← tdsLoop_map_index, List.map_map]
    rfl
  rw [hmat, ha] at hent
  simp only [List.nil_append] at hent
  have hall : (((List.range pd.tds).map (fun k => (k, st.solution_subproblem.getD k 0)) ++
      [(pd.tds + person, (1 : ℚ))]).all
      (fun e => decide (e.1 < st.masterproblem.rows.length))) = true := by
    rw [List.all_eq_true]
    intro e he
    simp only [decide_eq_true_eq]
    simp only [CPXgetnumrows] at hrows
    rcases List.mem_append.mp he with he | he
    · simp only [List.mem_map, List.mem_range] at he
      obtain ⟨k, hk, rfl⟩ := he
      simp only
      omega
    · simp only [List.mem_singleton] at he
      subst he
      exact hrows
  refine ⟨{ st with
      nb_calls_CG := st.nb_calls_CG + 1,
      masterproblem := CPXaddcols st.masterproblem st.cost_column_k_person_p
        ((List.range pd.tds).map (fun k => (k, st.solution_subproblem.getD k 0)) ++
          [(pd.tds + person, 1)]) 0 (some 1) (name_z person (st.nb_calls_CG + 1)),
      current_columns := st.current_columns ++
        [{ person := person, name := name_z person (st.nb_calls_CG + 1),
           cost := st.cost_column_k_person_p,
           a_tds := (List.range pd.tds).map
             (fun k => if st.solution_subproblem.getD k 0 = 1 then (1 : Int) else 0) }] },
    ⟨person, name_z person (st.nb_calls_CG + 1), st.cost_column_k_person_p,
      (List.range pd.tds).map
        (fun k => if st.solution_subproblem.getD k 0 = 1 then (1 : Int) else 0)⟩,
    ⟨name_z person (st.nb_calls_CG + 1), st.cost_column_k_person_p, 0, some 1,
      (List.range pd.tds).map (fun k => (k, st.solution_subproblem.getD k 0)) ++
        [(pd.tds + person, 1)]⟩, ?_, rfl, ?_, ?_, rfl, rfl, rfl, rfl, rfl, rfl, rfl, ?_, ?_, ?_⟩
  · simp only [add_column_to_master, hent, List.length_map, List.length_range, hcap, if_true]
  · simp only [CPXaddcols, hall, if_true]
  · simp only [CPXaddcols, hall, if_true]
  · simp only [List.length_map, List.length_range, Problem_Data.tds]
  · intro t d s ht hd hs
    have hk := tdsIndex_lt pd t d s ht hd hs
    simp only [tdsIndex] at hk
    obtain ⟨v, hv, _⟩ := hsol _ hk
    have hgetD : st.solution_subproblem.getD
        (t * pd.nb_days * pd.nb_shifts + d * pd.nb_shifts + s) 0 = v := by
      rw [List.getD_eq_getElem?_getD, hv]
      rfl
    have hcoef : coef ⟨name_z person (st.nb_calls_CG + 1), st.cost_column_k_person_p, 0, some 1,
        (List.range pd.tds).map (fun k => (k, st.solution_subproblem.getD k 0)) ++
          [(pd.tds + person, 1)]⟩ (t * pd.nb_days * pd.nb_shifts + d * pd.nb_shifts + s) = v := by
      have h1 := coef_entries_range pd.tds (fun k => st.solution_subproblem.getD k 0)
        [(pd.tds + person, 1)] (t * pd.nb_days * pd.nb_shifts + d * pd.nb_shifts + s) hk
        (by
          intro e he
          simp only [List.mem_singleton] at he
          subst he
          simp only
          omega)
      have h2 := coef_congr
        ⟨name_z person (st.nb_calls_CG + 1), st.cost_column_k_person_p, 0, some 1,
          (List.range pd.tds).map (fun k => (k, st.solution_subproblem.getD k 0)) ++
            [(pd.tds + person, 1)]⟩
        ⟨"", 0, 0, none,
          (List.range pd.tds).map (fun k => (k, st.solution_subproblem.getD k 0)) ++
            [(pd.tds + person, 1)]⟩ rfl
        (t * pd.nb_days * pd.nb_shifts + d * pd.nb_shifts + s)
      rw [h2]
      exact h1.trans hgetD
    refine ⟨v, hv, ?_, hcoef, ?_⟩
    · simp only [List.getElem?_map, List.getElem?_range hk, Option.map_some', hgetD]
    · rw [hcoef]
      have hget : ((List.range pd.tds).map
          (fun k => if st.solution_subproblem.getD k 0 = 1 then (1 : Int) else 0)).getD
          (t * pd.nb_days * pd.nb_shifts + d * pd.nb_shifts + s) 0 =
          if v = 1 then 1 else 0 := by
        rw [List.getD_eq_getElem?_getD, List.getElem?_map, List.getElem?_range hk]
        simp only [Option.map_some', hgetD, Option.getD_some]
      rw [hget]
      obtain ⟨_, hv2, hv01⟩ := hsol _ hk
      rw [hv] at hv2
      cases hv2
      rcases hv01 with h0 | h1
      · rw [h0]
        norm_num
      · rw [h1]
        norm_num
  · have hfil : ((List.range pd.tds).map
        (fun k => (k, st.solution_subproblem.getD k 0))).filter
        (fun e => decide (e.1 = pd.nb_tasks * pd.nb_days * pd.nb_shifts + person)) = [] := by
      rw [List.filter_eq_nil_iff]
      intro e he
      simp only [List.mem_map, List.mem_range] at he
      obtain ⟨k, hk, rfl⟩ := he
      simp only [decide_eq_true_eq, Problem_Data.tds] at hk ⊢
      omega
    simp only [coef, List.filter_append, hfil, List.nil_append]
    simp [Problem_Data.tds]

/-- Witness for C7: the pricing solution of `duoPricedState` for the second person. -/
theorem add_column_to_master_spec_witness :
    ∃ st1 rec mc, add_column_to_master duoData duoPricedState 1 = some st1 ∧
      st1.current_columns = duoPricedState.current_columns ++ [rec] ∧
      st1.masterproblem.cols = duoPricedState.masterproblem.cols ++ [mc] ∧
      st1.masterproblem.rows = duoPricedState.masterproblem.rows ∧
      rec.person = 1 ∧ rec.cost = duoPricedState.cost_column_k_person_p ∧
      rec.name = name_z 1 (duoPricedState.nb_calls_CG + 1) ∧ mc.name = rec.name ∧
      mc.obj = duoPricedState.cost_column_k_person_p ∧ mc.lb = 0 ∧ mc.ub = some 1 ∧
      rec.a_tds.length = duoData.nb_tasks * duoData.nb_days * duoData.nb_shifts ∧
      (∀ t d s, t < duoData.nb_tasks → d < duoData.nb_days → s < duoData.nb_shifts →
        ∃ v, duoPricedState.solution_subproblem[
              t * duoData.nb_days * duoData.nb_shifts + d * duoData.nb_shifts + s]? = some v ∧
          rec.a_tds[t * duoData.nb_days * duoData.nb_shifts + d * duoData.nb_shifts + s]? =
            some (if v = 1 then 1 else 0) ∧
          coef mc (t * duoData.nb_days * duoData.nb_shifts + d * duoData.nb_shifts + s) = v ∧
          coef mc (t * duoData.nb_days * duoData.nb_shifts + d * duoData.nb_shifts + s) =
            ((rec.a_tds.getD
              (t * duoData.nb_days * duoData.nb_shifts + d * duoData.nb_shifts + s) 0 : Int) : ℚ)) ∧
      coef mc (duoData.nb_tasks * duoData.nb_days * duoData.nb_shifts + 1) = 1 :=
  add_column_to_master_spec duoData duoPricedState 1
    (by
      intro k hk
      have h3 : k < 3 := hk
      have hcases : k = 0 ∨ k = 1 ∨ k = 2 := by omega
      rcases hcases with rfl | rfl | rfl
      · exact ⟨0, rfl, Or.inl rfl⟩
      · exact ⟨0, rfl, Or.inl rfl⟩
      · exact ⟨1, rfl, Or.inr rfl⟩)
    (by decide) (by decide)

/-- The function evaluated on `duoPricedState`: the new record is `z_2_5` with the
vector (0,0,1) and the cost 3. -/
theorem add_column_to_master_example :
    (add_column_to_master duoData duoPricedState 1).map
      (fun s => (s.current_columns.getLast?, s.masterproblem.cols.getLast?)) =
    some (some ⟨1, "z_2_5", 3, [0, 0, 1]⟩,
      some ⟨"z_2_5", 3, 0, some 1, [(0, 0), (1, 0), (2, 1), (4, 1)]⟩) := by
  decide!

/-! ## Feasibility of the master problem -/

theorem fixedCol_iff (pd : Problem_Data) (lp : CpxLP) (j : Nat) :
    fixedCol pd lp j = true ↔
      ∃ i, pd.tds + pd.nb_people ≤ i ∧ i < lp.rows.length ∧ matrixEntry lp i j = 1 := by
  simp only [fixedCol, List.any_eq_true, List.mem_range, Bool.and_eq_true, decide_eq_true_eq]
  constructor
  · rintro ⟨i, h1, h2, h3⟩
    exact ⟨i, h2, h1, h3⟩
  · rintro ⟨i, h1, h2, h3⟩
    exact ⟨i, h2, h1, h3⟩

theorem personFixed_iff (pd : Problem_Data) (lp : CpxLP) (p : Nat) :
    personFixed pd lp p = true ↔
      ∃ j, j < lp.cols.length ∧ firstGenerated pd ≤ j ∧
        matrixEntry lp (pd.tds + p) j = 1 ∧ fixedCol pd lp j = true := by
  simp only [personFixed, List.any_eq_true, List.mem_range, Bool.and_eq_true,
    decide_eq_true_eq]
  constructor
  · rintro ⟨j, h1, ⟨h2, h3⟩, h4⟩
    exact ⟨j, h1, h2, h3, h4⟩
  · rintro ⟨j, h1, h2, h3, h4⟩
    exact ⟨j, h1, ⟨h2, h3⟩, h4⟩

theorem canonicalPoint_getD (pd : Problem_Data) (lp : CpxLP) (j : Nat)
    (hj : j < lp.cols.length) :
    (canonicalPoint pd lp).getD j 0 =
      if j < pd.tds then max (fixedSupply pd lp j - rowRhs lp j) 0
      else if j < 2 * pd.tds then
        max (rowRhs lp (j - pd.tds) - fixedSupply pd lp (j - pd.tds)) 0
      else if j < firstGenerated pd then
        (if personFixed pd lp (j - 2 * pd.tds) = true then 0 else 1)
      else if fixedCol pd lp j = true then 1 else 0 := by
  rw [List.getD_eq_getElem?_getD]
  simp only [canonicalPoint, List.getElem?_map, List.getElem?_range hj, Option.map_some',
    Option.getD_some]

theorem sum_single_range (n a : Nat) (c : ℚ) (ha : a < n) :
    (∑ j in Finset.range n, if j = a then c else 0) = c := by
  rw [Finset.sum_ite_eq' (Finset.range n) a (fun _ => c)]
  simp [ha]

theorem matrixEntry_of_ge (lp : CpxLP) (i j : Nat) (h : lp.cols.length ≤ j) :
    matrixEntry lp i j = 0 := by
  simp only [matrixEntry, List.getElem?_eq_none h]

theorem canonicalPoint_feasible (pd : Problem_Data) (lp : CpxLP) (hs : MasterShape pd lp) :
    Feasible lp (canonicalPoint pd lp) := by
  have hfg : firstGenerated pd = 2 * pd.tds + pd.nb_people := rfl
  refine ⟨by simp [canonicalPoint], ?_, ?_⟩
  · intro j c hc
    have hj : j < lp.cols.length := by
      by_contra hcon
      rw [List.getElem?_eq_none (not_lt.mp hcon)] at hc
      cases hc
    rw [canonicalPoint_getD pd lp j hj]
    by_cases h1 : j < 2 * pd.tds
    · obtain ⟨hlb, hub⟩ := hs.bounds_slack j c h1 hc
      rw [hlb, hub]
      refine ⟨?_, fun u hu => by cases hu⟩
      by_cases h2 : j < pd.tds
      · simp only [h2, if_true]
        exact le_max_right _ _
      · have h3 : j < 2 * pd.tds := h1
        simp only [h2, if_false, h3, if_true]
        exact le_max_right _ _
    · obtain ⟨hlb, hub⟩ := hs.bounds_assign j c (not_lt.mp h1) hc
      have h2 : ¬ j < pd.tds := by omega
      rw [hlb, hub]
      simp only [h2, h1, if_false]
      refine ⟨?_, fun u hu => ?_⟩
      · split_ifs <;> norm_num
      · cases hu
        split_ifs <;> norm_num
  · intro i r hr
    have hi : i < lp.rows.length := by
      by_contra hcon
      rw [List.getElem?_eq_none (not_lt.mp hcon)] at hr
      cases hr
    have hE := hs.rows_E i r hr
    refine ⟨fun _ => ?_, fun h => by rw [hE] at h; exact absurd h (by decide),
      fun h => by rw [hE] at h; exact absurd h (by decide)⟩
    have hrhs : rowRhs lp i = r.rhs := by simp only [rowRhs, hr]
    have hgen : ∀ j, j < lp.cols.length → firstGenerated pd ≤ j →
        (canonicalPoint pd lp).getD j 0 = if fixedCol pd lp j = true then 1 else 0 := by
      intro j hj hge
      rw [canonicalPoint_getD pd lp j hj]
      have h1 : ¬ j < pd.tds := by omega
      have h2 : ¬ j < 2 * pd.tds := by omega
      have h3 : ¬ j < firstGenerated pd := by omega
      simp only [h1, h2, h3, if_false]
    by_cases hcov : i < pd.tds
    · -- coverage row
      have hi1 : i < lp.cols.length := by have := hs.cols_len; omega
      have hi2 : pd.tds + i < lp.cols.length := by have := hs.cols_len; omega
      have hterm : ∀ j ∈ Finset.range lp.cols.length,
          matrixEntry lp i j * (canonicalPoint pd lp).getD j 0 =
            (if j = i then -(canonicalPoint pd lp).getD i 0 else 0) +
            (if j = pd.tds + i then (canonicalPoint pd lp).getD (pd.tds + i) 0 else 0) +
            (if firstGenerated pd ≤ j ∧ fixedCol pd lp j = true then matrixEntry lp i j
              else 0) := by
        intro j hj
        have hj2 := Finset.mem_range.mp hj
        by_cases hjg : j < firstGenerated pd
        · have h3 : ¬ (firstGenerated pd ≤ j ∧ fixedCol pd lp j = true) := fun h => by omega
          rw [if_neg h3, hs.cov_init i j hcov hi hjg]
          by_cases ha : j = i
          · rw [ha]
            have hb : ¬ i = pd.tds + i := by omega
            simp only [if_true, if_neg hb]
            ring
          · by_cases hb : j = pd.tds + i
            · rw [hb]
              have hc : ¬ pd.tds + i = i := by omega
              simp only [if_true, if_neg hc]
              ring
            · simp only [if_neg ha, if_neg hb]
              ring
        · have ha : ¬ j = i := by omega
          have hb : ¬ j = pd.tds + i := by omega
          have hge : firstGenerated pd ≤ j := by omega
          rw [hgen j hj2 hge]
          by_cases hf : fixedCol pd lp j = true
          · have hc : firstGenerated pd ≤ j ∧ fixedCol pd lp j = true := ⟨hge, hf⟩
            simp only [if_neg ha, if_neg hb, if_pos hf, if_pos hc]
            ring
          · have hc : ¬ (firstGenerated pd ≤ j ∧ fixedCol pd lp j = true) := fun h => hf h.2
            simp only [if_neg ha, if_neg hb, if_neg hf, if_neg hc]
            ring
      unfold row_activity
      rw [Finset.sum_congr rfl hterm, Finset.sum_add_distrib, Finset.sum_add_distrib,
        sum_single_range _ _ _ hi1, sum_single_range _ _ _ hi2,
        canonicalPoint_getD pd lp i hi1, canonicalPoint_getD pd lp (pd.tds + i) hi2]
      have h1 : ¬ pd.tds + i < pd.tds := by omega
      have h2 : pd.tds + i < 2 * pd.tds := by omega
      have h3 : pd.tds + i - pd.tds = i := by omega
      simp only [hcov, if_true, h1, if_false, h2, h3, hrhs]
      change -max (fixedSupply pd lp i - r.rhs) 0 + max (r.rhs - fixedSupply pd lp i) 0 +
        fixedSupply pd lp i = r.rhs
      rcases le_total (fixedSupply pd lp i) r.rhs with hle | hle
      · rw [max_eq_right (by linarith), max_eq_left (by linarith)]
        ring
      · rw [max_eq_left (by linarith), max_eq_right (by linarith)]
        ring
    · by_cases hconv : i < pd.tds + pd.nb_people
      · -- convexity row of person p
        obtain ⟨p, rfl⟩ : ∃ p, i = pd.tds + p := ⟨i - pd.tds, by omega⟩
        have hp : p < pd.nb_people := by omega
        have hsup : 2 * pd.tds + p < lp.cols.length := by have := hs.cols_len; omega
        rw [hs.rhs_one _ r (by omega) hr]
        have hterm : ∀ j ∈ Finset.range lp.cols.length,
            matrixEntry lp (pd.tds + p) j * (canonicalPoint pd lp).getD j 0 =
              (if j = 2 * pd.tds + p then (canonicalPoint pd lp).getD (2 * pd.tds + p) 0
                else 0) +
              (if firstGenerated pd ≤ j ∧ matrixEntry lp (pd.tds + p) j = 1 ∧
                  fixedCol pd lp j = true then 1 else 0) := by
          intro j hj
          have hj2 := Finset.mem_range.mp hj
          by_cases hjg : j < firstGenerated pd
          · have h3 : ¬ (firstGenerated pd ≤ j ∧ matrixEntry lp (pd.tds + p) j = 1 ∧
                fixedCol pd lp j = true) := fun h => by omega
            rw [if_neg h3, hs.conv_init p j hp hi hjg]
            by_cases ha : j = 2 * pd.tds + p
            · rw [ha]
              simp only [if_true]
              ring
            · simp only [if_neg ha]
              ring
          · have hge : firstGenerated pd ≤ j := by omega
            have ha : ¬ j = 2 * pd.tds + p := by omega
            rw [hgen j hj2 hge]
            obtain ⟨q, _, hq2⟩ := hs.conv_gen j hge hj2
            have hA := hq2 p hp
            by_cases hpq : p = q
            · rw [if_pos hpq] at hA
              by_cases hf : fixedCol pd lp j = true
              · have hc : firstGenerated pd ≤ j ∧ matrixEntry lp (pd.tds + p) j = 1 ∧
                    fixedCol pd lp j = true := ⟨hge, hA, hf⟩
                rw [if_pos hc, if_neg ha, if_pos hf, hA]
                ring
              · have hc : ¬ (firstGenerated pd ≤ j ∧ matrixEntry lp (pd.tds + p) j = 1 ∧
                    fixedCol pd lp j = true) := fun h => hf h.2.2
                simp only [if_neg ha, if_neg hf, if_neg hc]
                ring
            · rw [if_neg hpq] at hA
              have hc : ¬ (firstGenerated pd ≤ j ∧ matrixEntry lp (pd.tds + p) j = 1 ∧
                  fixedCol pd lp j = true) := by
                intro h
                rw [hA] at h
                exact absurd h.2.1 (by norm_num)
              rw [if_neg hc, if_neg ha, hA]
              ring
        unfold row_activity
        rw [Finset.sum_congr rfl hterm, Finset.sum_add_distrib,
          sum_single_range _ _ _ hsup, canonicalPoint_getD pd lp _ hsup]
        have h1 : ¬ 2 * pd.tds + p < pd.tds := by omega
        have h2 : ¬ 2 * pd.tds + p < 2 * pd.tds := by omega
        have h3 : 2 * pd.tds + p < firstGenerated pd := by omega
        have h4 : 2 * pd.tds + p - 2 * pd.tds = p := by omega
        simp only [h1, h2, h3, h4, if_true, if_false]
        by_cases hpf : personFixed pd lp p = true
        · obtain ⟨j0, g1, g2, g3, g4⟩ := (personFixed_iff pd lp p).mp hpf
          have hsum : (∑ j in Finset.range lp.cols.length,
              if firstGenerated pd ≤ j ∧ matrixEntry lp (pd.tds + p) j = 1 ∧
                fixedCol pd lp j = true then (1 : ℚ) else 0) = 1 := by
            rw [Finset.sum_eq_single j0]
            · simp [g2, g3, g4]
            · intro j _ hne
              rw [if_neg]
              rintro ⟨k1, k2, k3⟩
              exact hne (hs.one_fixed j j0 p k1 g2 hp k2 g3 k3 g4)
            · intro hnot
              exact absurd (Finset.mem_range.mpr g1) hnot
          rw [hsum]
          simp [hpf]
        · have hsum : (∑ j in Finset.range lp.cols.length,
              if firstGenerated pd ≤ j ∧ matrixEntry lp (pd.tds + p) j = 1 ∧
                fixedCol pd lp j = true then (1 : ℚ) else 0) = 0 := by
            apply Finset.sum_eq_zero
            intro j hj
            rw [if_neg]
            rintro ⟨k1, k2, k3⟩
            exact hpf ((personFixed_iff pd lp p).mpr ⟨j, Finset.mem_range.mp hj, k1, k2, k3⟩)
          rw [hsum]
          simp [hpf]
      · -- branching row
        have hge : pd.tds + pd.nb_people ≤ i := by omega
        rw [hs.rhs_one _ r (by omega) hr]
        obtain ⟨j0, g1, g2, g3, g4⟩ := hs.br_gen i hge hi
        unfold row_activity
        rw [Finset.sum_eq_single j0]
        · rw [g3, hgen j0 g2 g1]
          have : fixedCol pd lp j0 = true := (fixedCol_iff pd lp j0).mpr ⟨i, hge, hi, g3⟩
          simp [this]
        · intro j _ hne
          rw [g4 j hne]
          ring
        · intro hnot
          exact absurd (Finset.mem_range.mpr g2) hnot

/-! ### The effect of the CPLEX routines on the constraint matrix -/

theorem coef_append (c : CpxCol) (extra : List (Nat × ℚ)) (i : Nat) :
    coef { c with coefs := c.coefs ++ extra } i =
      coef c i + ((extra.filter fun e => decide (e.1 = i)).map fun e => e.2).sum := by
  simp only [coef, List.filter_append, List.map_append, List.sum_append]

theorem fold_addEntry_getElem (r : Nat) (mat : List (Nat × ℚ)) :
    ∀ (cols : List CpxCol) (j : Nat),
      (mat.foldl (fun cs e => addEntry cs r e.1 e.2) cols)[j]? =
        (cols[j]?).map fun c => { c with coefs := c.coefs ++
          (mat.filter fun e => decide (e.1 = j)).map fun e => (r, e.2) } := by
  induction mat with
  | nil =>
    intro cols j
    simp only [List.foldl_nil, List.filter_nil, List.map_nil, List.append_nil]
    generalize cols[j]? = o
    cases o <;> rfl
  | cons e rest ih =>
    intro cols j
    simp only [List.foldl_cons]
    rw [ih, addEntry, List.getElem?_modify]
    cases h : cols[j]? with
    | none => simp
    | some c =>
      by_cases he : e.1 = j
      · simp [he, List.filter_cons]
      · simp [he, List.filter_cons]

theorem fold_addEntry_length (r : Nat) (mat : List (Nat × ℚ)) :
    ∀ cols : List CpxCol,
      (mat.foldl (fun cs e => addEntry cs r e.1 e.2) cols).length = cols.length := by
  induction mat with
  | nil => intro cols; rfl
  | cons e rest ih =>
    intro cols
    simp only [List.foldl_cons]
    rw [ih, addEntry, List.length_modify]

theorem CPXaddrows_rows (lp : CpxLP) (rhs : ℚ) (sense : Char) (mat : List (Nat × ℚ))
    (rowname : String) (hall : ∀ e ∈ mat, e.1 < lp.cols.length) :
    (CPXaddrows lp rhs sense mat rowname).rows = lp.rows ++ [⟨rowname, sense, rhs⟩] ∧
    (CPXaddrows lp rhs sense mat rowname).cols.length = lp.cols.length := by
  have h : mat.all (fun e => decide (e.1 < lp.cols.length)) = true := by
    rw [List.all_eq_true]
    intro e he
    simp only [decide_eq_true_eq]
    exact hall e he
  simp only [CPXaddrows, h, if_true, fold_addEntry_length, and_self]

theorem CPXaddrows_col (lp : CpxLP) (rhs : ℚ) (sense : Char) (mat : List (Nat × ℚ))
    (rowname : String) (hall : ∀ e ∈ mat, e.1 < lp.cols.length) (j : Nat) :
    (CPXaddrows lp rhs sense mat rowname).cols[j]? =
      (lp.cols[j]?).map fun c => { c with coefs := c.coefs ++
        (mat.filter fun e => decide (e.1 = j)).map fun e => (lp.rows.length, e.2) } := by
  have h : mat.all (fun e => decide (e.1 < lp.cols.length)) = true := by
    rw [List.all_eq_true]
    intro e he
    simp only [decide_eq_true_eq]
    exact hall e he
  simp only [CPXaddrows, h, if_true, fold_addEntry_getElem]

theorem sum_filter_row (r : Nat) (l : List (Nat × ℚ)) (i : Nat) :
    (((l.map fun e => (r, e.2)).filter fun e => decide (e.1 = i)).map fun e => e.2).sum =
      if i = r then (l.map fun e => e.2).sum else 0 := by
  induction l with
  | nil => simp
  | cons e rest ih =>
    by_cases h : i = r
    · subst h
      simp only [List.map_cons, List.filter_cons, decide_True, if_true, List.sum_cons]
      rw [ih]
      simp
    · have h2 : ¬ r = i := fun h3 => h h3.symm
      simp only [List.map_cons, List.filter_cons, h2, decide_False, Bool.false_eq_true,
        if_false]
      rw [ih, if_neg h, if_neg h]

theorem matrixEntry_addrows (lp : CpxLP) (rhs : ℚ) (sense : Char) (mat : List (Nat × ℚ))
    (rowname : String) (hall : ∀ e ∈ mat, e.1 < lp.cols.length) (i j : Nat) :
    matrixEntry (CPXaddrows lp rhs sense mat rowname) i j =
      matrixEntry lp i j +
        if i = lp.rows.length ∧ j < lp.cols.length then matCoef mat j else 0 := by
  simp only [matrixEntry, CPXaddrows_col lp rhs sense mat rowname hall j]
  by_cases hj : j < lp.cols.length
  · rw [List.getElem?_eq_getElem hj]
    simp only [Option.map_some']
    rw [coef_append, sum_filter_row]
    by_cases hi : i = lp.rows.length
    · simp only [hi, hj, and_self, if_true, matCoef]
    · simp only [hi, false_and, if_false]
  · rw [List.getElem?_eq_none (not_lt.mp hj)]
    simp [hj]

theorem CPXaddrows_bounds (lp : CpxLP) (rhs : ℚ) (sense : Char) (mat : List (Nat × ℚ))
    (rowname : String) (hall : ∀ e ∈ mat, e.1 < lp.cols.length) (j : Nat) (c1 : CpxCol)
    (h : (CPXaddrows lp rhs sense mat rowname).cols[j]? = some c1) :
    ∃ c, lp.cols[j]? = some c ∧ c1.lb = c.lb ∧ c1.ub = c.ub ∧ c1.name = c.name := by
  rw [CPXaddrows_col lp rhs sense mat rowname hall j] at h
  cases hc : lp.cols[j]? with
  | none => rw [hc] at h; cases h
  | some c =>
    rw [hc] at h
    simp only [Option.map_some', Option.some.injEq] at h
    subst h
    exact ⟨c, rfl, rfl, rfl, rfl⟩

theorem fixedCol_false_of_few_rows (pd : Problem_Data) (lp : CpxLP) (j : Nat)
    (h : lp.rows.length ≤ pd.tds + pd.nb_people) : fixedCol pd lp j = false := by
  rw [← Bool.not_eq_true, fixedCol_iff]
  rintro ⟨i, h1, h2, _⟩
  omega

theorem getElem?_append_singleton {α : Type} (l : List α) (a : α) (i : Nat) (b : α)
    (h : (l ++ [a])[i]? = some b) : l[i]? = some b ∨ (i = l.length ∧ b = a) := by
  by_cases hi : i < l.length
  · rw [List.getElem?_append_left hi] at h
    exact Or.inl h
  · rw [List.getElem?_append_right (not_lt.mp hi)] at h
    right
    have : i - l.length = 0 := by
      by_contra hne
      obtain ⟨k, hk⟩ : ∃ k, i - l.length = k + 1 := ⟨i - l.length - 1, by omega⟩
      rw [hk] at h
      simp at h
    rw [this] at h
    simp only [List.getElem?_cons_zero, Option.some.injEq] at h
    exact ⟨by omega, h.symm⟩

theorem flatMap_range'_pairs (m n : Nat) :
    ∀ a, (List.range' a n).flatMap (fun t => (List.range m).map fun b => t * m + b) =
      List.range' (a * m) (n * m) := by
  induction n with
  | zero => intro a; simp
  | succ n ih =>
    intro a
    rw [List.range'_succ, List.flatMap_cons, ih (a + 1)]
    have e1 : (List.range m).map (fun b => a * m + b) = List.range' (a * m) m := by
      rw [List.range_eq_range', List.map_add_range']
      simp
    have e2 : (a + 1) * m = a * m + 1 * m := by ring
    have e3 : (n + 1) * m = n * m + m := by ring
    rw [e1, e2, List.range'_append, e3]

theorem tdsLoop_map_index_general (pd : Problem_Data) (t0 t1 : Nat) :
    (tdsLoop pd t0 t1).map (tdsIndex pd) =
      List.range' (t0 * (pd.nb_days * pd.nb_shifts)) ((t1 - t0) * (pd.nb_days * pd.nb_shifts)) := by
  have hinner : ∀ t, ((List.range pd.nb_days).flatMap fun d =>
      (List.range pd.nb_shifts).map fun s => tdsIndex pd (t, d, s)) =
      (List.range (pd.nb_days * pd.nb_shifts)).map fun j => t * (pd.nb_days * pd.nb_shifts) + j := by
    intro t
    rw [← flatMap_range_pairs pd.nb_shifts pd.nb_days, List.map_flatMap]
    apply List.flatMap_congr
    intro d _
    rw [List.map_map]
    apply List.map_congr_left
    intro s _
    simp only [tdsIndex, Function.comp]
    rw [Nat.mul_assoc, Nat.add_assoc]
  unfold tdsLoop
  rw [List.map_flatMap, ← flatMap_range'_pairs (pd.nb_days * pd.nb_shifts) (t1 - t0) t0]
  apply List.flatMap_congr
  intro t _
  rw [List.map_flatMap, ← hinner t]
  apply List.flatMap_congr
  intro d _
  rw [List.map_map]
  rfl

theorem mem_tdsLoop (pd : Problem_Data) (t0 t1 : Nat) (x : Nat × Nat × Nat)
    (h : x ∈ tdsLoop pd t0 t1) :
    t0 ≤ x.1 ∧ x.1 < t1 ∧ x.2.1 < pd.nb_days ∧ x.2.2 < pd.nb_shifts := by
  obtain ⟨t, d, s⟩ := x
  simp only [tdsLoop, List.mem_flatMap, List.mem_map, List.mem_range, List.mem_range',
    Prod.mk.injEq] at h
  obtain ⟨t', ⟨k, hk, rfl⟩, d', hd, s', hs, rfl, rfl, rfl⟩ := h
  simp only
  omega

theorem foldl_newcols {α : Type} (mk : α → CpxCol) (xs : List α) :
    ∀ lp : CpxLP,
      xs.foldl (fun lp x => CPXnewcols lp (mk x).obj (mk x).lb (mk x).ub (mk x).name) lp =
        { cols := lp.cols ++ xs.map (fun x => ⟨(mk x).name, (mk x).obj, (mk x).lb, (mk x).ub, []⟩),
          rows := lp.rows } := by
  induction xs with
  | nil => intro lp; simp
  | cons x rest ih =>
    intro lp
    simp only [List.foldl_cons]
    rw [ih]
    simp [CPXnewcols, List.append_assoc]

theorem master_variables_eq (pd : Problem_Data) :
    master_variables pd =
      { cols :=
          (tdsLoop pd 0 pd.nb_tasks).map (fun x =>
            (⟨name_tds "Y_REplus_" "_" "_" x, pd.obj_weight_Y_REplus, 0, none, []⟩ : CpxCol)) ++
          (tdsLoop pd 0 pd.nb_tasks).map (fun x =>
            (⟨name_tds "Y_REmin_" "_" "_" x,
              if x.1 < pd.nb_tasks_CODU then pd.obj_weight_Y_REmin_CODU
              else pd.obj_weight_Y_REmin_amb, 0, none, []⟩ : CpxCol)) ++
          (List.range pd.nb_people).map (fun p =>
            (⟨name_z p 0, obj_value_super_column, 0, some 1, []⟩ : CpxCol)),
        rows := [] } := by
  unfold master_variables
  have h1 := foldl_newcols (fun x : Nat × Nat × Nat =>
    (⟨name_tds "Y_REplus_" "_" "_" x, pd.obj_weight_Y_REplus, 0, none, []⟩ : CpxCol))
    (tdsLoop pd 0 pd.nb_tasks) CPXcreateprob
  have h2 := foldl_newcols (fun x : Nat × Nat × Nat =>
    (⟨name_tds "Y_REmin_" "_" "_" x,
      if x.1 < pd.nb_tasks_CODU then pd.obj_weight_Y_REmin_CODU
      else pd.obj_weight_Y_REmin_amb, 0, none, []⟩ : CpxCol))
    (tdsLoop pd 0 pd.nb_tasks)
  have h3 := foldl_newcols (fun p : Nat =>
    (⟨name_z p 0, obj_value_super_column, 0, some 1, []⟩ : CpxCol)) (List.range pd.nb_people)
  simp only at h1 h2 h3
  dsimp only
  rw [h1, h2, h3]
  simp [CPXcreateprob, List.append_assoc]

theorem tdsLoop_length (pd : Problem_Data) : (tdsLoop pd 0 pd.nb_tasks).length = pd.tds := by
  have := congrArg List.length (tdsLoop_map_index pd)
  simpa using this

theorem matCoef_append (l1 l2 : List (Nat × ℚ)) (j : Nat) :
    matCoef (l1 ++ l2) j = matCoef l1 j + matCoef l2 j := by
  simp only [matCoef, List.filter_append, List.map_append, List.sum_append]

theorem matCoef_zero (l : List (Nat × ℚ)) (j : Nat) (h : ∀ e ∈ l, e.2 = 0) :
    matCoef l j = 0 := by
  unfold matCoef
  apply List.sum_eq_zero
  intro v hv
  simp only [List.mem_map, List.mem_filter] at hv
  obtain ⟨e, ⟨he, _⟩, rfl⟩ := hv
  exact h e he

theorem matCoef_singleton (a : Nat) (v : ℚ) (j : Nat) :
    matCoef [(a, v)] j = if j = a then v else 0 := by
  by_cases h : a = j
  · subst h
    simp [matCoef]
  · have h2 : ¬ j = a := fun h3 => h h3.symm
    simp [matCoef, h, h2]

theorem matCoef_coverage (pd : Problem_Data) (x : Nat × Nat × Nat) (j : Nat) :
    matCoef (coverage_entries pd x) j =
      (if j = tdsIndex pd x then -1 else 0) + (if j = pd.tds + tdsIndex pd x then 1 else 0) := by
  unfold coverage_entries
  rw [matCoef_append, matCoef_zero _ _ (by
    intro e he
    simp only [List.mem_map] at he
    obtain ⟨p, _, rfl⟩ := he
    rfl)]
  have : [(tdsIndex pd x, (-1 : ℚ)), (pd.tds + tdsIndex pd x, 1)] =
      [(tdsIndex pd x, (-1 : ℚ))] ++ [(pd.tds + tdsIndex pd x, 1)] := rfl
  rw [this, matCoef_append, matCoef_singleton, matCoef_singleton]
  ring

/-! ### The shape of the master built by `build_master_problem` -/

theorem shape_of_empty (pd : Problem_Data) (lp : CpxLP) (hrows : lp.rows = [])
    (hlen : lp.cols.length = firstGenerated pd)
    (hcoefs : ∀ c ∈ lp.cols, c.coefs = [] ∧ c.lb = 0)
    (hub1 : ∀ (j : Nat) (c : CpxCol), j < 2 * pd.tds → lp.cols[j]? = some c → c.ub = none)
    (hub2 : ∀ (j : Nat) (c : CpxCol), 2 * pd.tds ≤ j → lp.cols[j]? = some c → c.ub = some 1) :
    MasterShape pd lp := by
  have hA : ∀ i j, matrixEntry lp i j = 0 := by
    intro i j
    unfold matrixEntry
    cases h : lp.cols[j]? with
    | none => rfl
    | some c =>
      have := (hcoefs c (List.getElem?_mem h)).1
      simp [coef, this]
  have hfix : ∀ j, fixedCol pd lp j = false := fun j =>
    fixedCol_false_of_few_rows pd lp j (by rw [hrows]; simp)
  exact
    { cols_len := by rw [hlen]
      no_future := fun i j _ => hA i j
      bounds_slack := fun j c hj hc =>
        ⟨(hcoefs c (List.getElem?_mem hc)).2, hub1 j c hj hc⟩
      bounds_assign := fun j c hj hc =>
        ⟨(hcoefs c (List.getElem?_mem hc)).2, hub2 j c hj hc⟩
      rows_E := fun i r hr => by rw [hrows] at hr; simp at hr
      rhs_cov := fun t d s r _ _ _ hr => by rw [hrows] at hr; simp at hr
      rhs_one := fun i r _ hr => by rw [hrows] at hr; simp at hr
      cov_init := fun i j _ hi _ => by rw [hrows] at hi; simp at hi
      cov_gen := fun i j _ _ => Or.inl (hA i j)
      conv_init := fun p j _ hi _ => by rw [hrows] at hi; simp at hi
      conv_gen := fun j h1 h2 => by omega
      br_init := fun i j _ _ => hA i j
      br_gen := fun i _ hi => by rw [hrows] at hi; simp at hi
      one_fixed := fun j1 j2 p _ _ _ _ _ h _ => by rw [hfix j1] at h; cases h }

theorem master_variables_shape (pd : Problem_Data) :
    MasterShape pd (master_variables pd) ∧ (master_variables pd).rows.length = 0 ∧
      (master_variables pd).cols.length = firstGenerated pd := by
  have hlen : (master_variables pd).cols.length = firstGenerated pd := by
    rw [master_variables_eq]
    simp only [List.length_append, List.length_map, tdsLoop_length, List.length_range,
      firstGenerated]
    omega
  refine ⟨shape_of_empty pd _ (by rw [master_variables_eq]) hlen ?_ ?_ ?_,
    by rw [master_variables_eq]; rfl, hlen⟩
  · intro c hc
    rw [master_variables_eq] at hc
    simp only [List.mem_append, List.mem_map] at hc
    rcases hc with (⟨x, _, rfl⟩ | ⟨x, _, rfl⟩) | ⟨p, _, rfl⟩ <;> exact ⟨rfl, rfl⟩
  · intro j c hj hc
    rw [master_variables_eq] at hc
    simp only at hc
    rw [List.getElem?_append_left (by
      simp only [List.length_append, List.length_map, tdsLoop_length]
      omega)] at hc
    have := List.getElem?_mem hc
    simp only [List.mem_append, List.mem_map] at this
    rcases this with ⟨x, _, rfl⟩ | ⟨x, _, rfl⟩ <;> rfl
  · intro j c hj hc
    rw [master_variables_eq] at hc
    simp only at hc
    rw [List.getElem?_append_right (by
      simp only [List.length_append, List.length_map, tdsLoop_length]
      omega)] at hc
    have := List.getElem?_mem hc
    simp only [List.mem_map] at this
    obtain ⟨p, _, rfl⟩ := this
    rfl

theorem shape_add_coverage_row (pd : Problem_Data) (lp : CpxLP) (x : Nat × Nat × Nat)
    (rowname : String) (hs : MasterShape pd lp) (hcols : lp.cols.length = firstGenerated pd)
    (hx : x.1 < pd.nb_tasks ∧ x.2.1 < pd.nb_days ∧ x.2.2 < pd.nb_shifts)
    (hk : lp.rows.length = tdsIndex pd x) :
    MasterShape pd (CPXaddrows lp (pd.shift_demands x.1 x.2.1 x.2.2) 'E'
      (coverage_entries pd x) rowname) ∧
    (CPXaddrows lp (pd.shift_demands x.1 x.2.1 x.2.2) 'E'
      (coverage_entries pd x) rowname).rows.length = lp.rows.length + 1 ∧
    (CPXaddrows lp (pd.shift_demands x.1 x.2.1 x.2.2) 'E'
      (coverage_entries pd x) rowname).cols.length = firstGenerated pd := by
  have hklt : tdsIndex pd x < pd.tds := tdsIndex_lt pd x.1 x.2.1 x.2.2 hx.1 hx.2.1 hx.2.2
  have hall : ∀ e ∈ coverage_entries pd x, e.1 < lp.cols.length := by
    intro e he
    rw [hcols]
    simp only [coverage_entries, List.mem_append, List.mem_map, List.mem_range,
      List.mem_cons, List.mem_singleton, List.not_mem_nil, or_false] at he
    simp only [firstGenerated]
    rcases he with ⟨p, hp, rfl⟩ | rfl | rfl <;> simp only <;> omega
  obtain ⟨hrows, hlen⟩ := CPXaddrows_rows lp (pd.shift_demands x.1 x.2.1 x.2.2) 'E'
    (coverage_entries pd x) rowname hall
  have hA := matrixEntry_addrows lp (pd.shift_demands x.1 x.2.1 x.2.2) 'E'
    (coverage_entries pd x) rowname hall
  have hrl : (CPXaddrows lp (pd.shift_demands x.1 x.2.1 x.2.2) 'E'
      (coverage_entries pd x) rowname).rows.length = lp.rows.length + 1 := by
    rw [hrows]
    simp
  have hfix : ∀ j, fixedCol pd (CPXaddrows lp (pd.shift_demands x.1 x.2.1 x.2.2) 'E'
      (coverage_entries pd x) rowname) j = false := fun j =>
    fixedCol_false_of_few_rows pd _ j (by rw [hrl, hk]; omega)
  have hold : ∀ i j, i ≠ lp.rows.length →
      matrixEntry (CPXaddrows lp (pd.shift_demands x.1 x.2.1 x.2.2) 'E'
        (coverage_entries pd x) rowname) i j = matrixEntry lp i j := by
    intro i j hne
    rw [hA, if_neg (fun h => hne h.1), add_zero]
  refine ⟨?_, hrl, by rw [hlen, hcols]⟩
  exact
    { cols_len := by rw [hlen]; exact hs.cols_len
      no_future := fun i j hi => by
        rw [hrl] at hi
        rw [hold i j (by omega)]
        exact hs.no_future i j (by omega)
      bounds_slack := fun j c hj hc => by
        obtain ⟨c0, h0, h1, h2, _⟩ := CPXaddrows_bounds lp _ _ _ _ hall j c hc
        rw [h1, h2]
        exact hs.bounds_slack j c0 hj h0
      bounds_assign := fun j c hj hc => by
        obtain ⟨c0, h0, h1, h2, _⟩ := CPXaddrows_bounds lp _ _ _ _ hall j c hc
        rw [h1, h2]
        exact hs.bounds_assign j c0 hj h0
      rows_E := fun i r hr => by
        rw [hrows] at hr
        rcases getElem?_append_singleton _ _ _ _ hr with h | ⟨_, rfl⟩
        · exact hs.rows_E i r h
        · rfl
      rhs_cov := fun t d s r ht hd hs2 hr => by
        rw [hrows] at hr
        rcases getElem?_append_singleton _ _ _ _ hr with h | ⟨h1, rfl⟩
        · exact hs.rhs_cov t d s r ht hd hs2 h
        · rw [hk] at h1
          have := triple_index_inj pd.nb_days pd.nb_shifts t d s x.1 x.2.1 x.2.2 hd hs2
            hx.2.1 hx.2.2 h1
          simp only
          rw [this.1, this.2.1, this.2.2]
      rhs_one := fun i r hi hr => by
        rw [hrows] at hr
        rcases getElem?_append_singleton _ _ _ _ hr with h | ⟨h1, rfl⟩
        · exact hs.rhs_one i r hi h
        · omega
      cov_init := fun i j hi hi2 hj => by
        rw [hrl] at hi2
        by_cases hnew : i = lp.rows.length
        · rw [hA, hs.no_future i j (by omega), if_pos ⟨hnew, by rw [hcols]; exact hj⟩,
            matCoef_coverage, zero_add, ← hk, ← hnew]
          by_cases ha : j = i
          · have hb : ¬ j = pd.tds + i := by omega
            rw [if_pos ha, if_neg hb, if_pos ha]
            ring
          · rw [if_neg ha, if_neg ha]
            ring
        · rw [hold i j hnew]
          exact hs.cov_init i j hi (by omega) hj
      cov_gen := fun i j _ hj => by
        left
        exact matrixEntry_of_ge _ i j (by rw [hlen, hcols]; exact hj)
      conv_init := fun p j _ hi _ => by rw [hrl] at hi; omega
      conv_gen := fun j h1 h2 => by rw [hlen, hcols] at h2; omega
      br_init := fun i j hi hj => by
        rw [hold i j (by omega)]
        exact hs.br_init i j hi hj
      br_gen := fun i hi hi2 => by rw [hrl] at hi2; omega
      one_fixed := fun j1 j2 p _ _ _ _ _ h _ => by rw [hfix j1] at h; cases h }

theorem shape_add_convexity_row (pd : Problem_Data) (lp : CpxLP) (p : Nat)
    (rowname : String) (hs : MasterShape pd lp) (hcols : lp.cols.length = firstGenerated pd)
    (hp : p < pd.nb_people) (hk : lp.rows.length = pd.tds + p) :
    MasterShape pd (CPXaddrows lp 1 'E' [(2 * pd.tds + p, 1)] rowname) ∧
    (CPXaddrows lp 1 'E' [(2 * pd.tds + p, 1)] rowname).rows.length = lp.rows.length + 1 ∧
    (CPXaddrows lp 1 'E' [(2 * pd.tds + p, 1)] rowname).cols.length = firstGenerated pd := by
  have hall : ∀ e ∈ [(2 * pd.tds + p, (1 : ℚ))], e.1 < lp.cols.length := by
    intro e he
    rw [hcols]
    simp only [List.mem_singleton] at he
    subst he
    simp only [firstGenerated]
    omega
  obtain ⟨hrows, hlen⟩ := CPXaddrows_rows lp 1 'E' [(2 * pd.tds + p, 1)] rowname hall
  have hA := matrixEntry_addrows lp 1 'E' [(2 * pd.tds + p, 1)] rowname hall
  have hrl : (CPXaddrows lp 1 'E' [(2 * pd.tds + p, 1)] rowname).rows.length =
      lp.rows.length + 1 := by
    rw [hrows]
    simp
  have hfix : ∀ j, fixedCol pd (CPXaddrows lp 1 'E' [(2 * pd.tds + p, 1)] rowname) j = false :=
    fun j => fixedCol_false_of_few_rows pd _ j (by rw [hrl, hk]; omega)
  have hold : ∀ i j, i ≠ lp.rows.length →
      matrixEntry (CPXaddrows lp 1 'E' [(2 * pd.tds + p, 1)] rowname) i j =
        matrixEntry lp i j := by
    intro i j hne
    rw [hA, if_neg (fun h => hne h.1), add_zero]
  refine ⟨?_, hrl, by rw [hlen, hcols]⟩
  exact
    { cols_len := by rw [hlen]; exact hs.cols_len
      no_future := fun i j hi => by
        rw [hrl] at hi
        rw [hold i j (by omega)]
        exact hs.no_future i j (by omega)
      bounds_slack := fun j c hj hc => by
        obtain ⟨c0, h0, h1, h2, _⟩ := CPXaddrows_bounds lp _ _ _ _ hall j c hc
        rw [h1, h2]
        exact hs.bounds_slack j c0 hj h0
      bounds_assign := fun j c hj hc => by
        obtain ⟨c0, h0, h1, h2, _⟩ := CPXaddrows_bounds lp _ _ _ _ hall j c hc
        rw [h1, h2]
        exact hs.bounds_assign j c0 hj h0
      rows_E := fun i r hr => by
        rw [hrows] at hr
        rcases getElem?_append_singleton _ _ _ _ hr with h | ⟨_, rfl⟩
        · exact hs.rows_E i r h
        · rfl
      rhs_cov := fun t d s r ht hd hs2 hr => by
        rw [hrows] at hr
        rcases getElem?_append_singleton _ _ _ _ hr with h | ⟨h1, rfl⟩
        · exact hs.rhs_cov t d s r ht hd hs2 h
        · have := tdsIndex_lt pd t d s ht hd hs2
          omega
      rhs_one := fun i r hi hr => by
        rw [hrows] at hr
        rcases getElem?_append_singleton _ _ _ _ hr with h | ⟨h1, rfl⟩
        · exact hs.rhs_one i r hi h
        · rfl
      cov_init := fun i j hi hi2 hj => by
        rw [hold i j (by omega)]
        exact hs.cov_init i j hi (by omega) hj
      cov_gen := fun i j _ hj => by
        left
        exact matrixEntry_of_ge _ i j (by rw [hlen, hcols]; exact hj)
      conv_init := fun q j hq hi hj => by
        rw [hrl] at hi
        by_cases hnew : pd.tds + q = lp.rows.length
        · have hqp : q = p := by omega
          subst hqp
          rw [hA, hs.no_future _ j (by omega), if_pos ⟨hnew, by rw [hcols]; exact hj⟩,
            matCoef_singleton, zero_add]
        · rw [hold _ j hnew]
          exact hs.conv_init q j hq (by omega) hj
      conv_gen := fun j h1 h2 => by rw [hlen, hcols] at h2; omega
      br_init := fun i j hi hj => by
        rw [hold i j (by omega)]
        exact hs.br_init i j hi hj
      br_gen := fun i hi hi2 => by rw [hrl] at hi2; omega
      one_fixed := fun j1 j2 q _ _ _ _ _ h _ => by rw [hfix j1] at h; cases h }

theorem add_coverage_rows_shape (pd : Problem_Data) (pre : String)
    (hcap : pd.nb_people + 2 ≤ matCapacityMaster) (xs : List (Nat × Nat × Nat)) :
    ∀ (lp : CpxLP) (k : Nat), MasterShape pd lp → lp.cols.length = firstGenerated pd →
      lp.rows.length = k → xs.map (tdsIndex pd) = List.range' k xs.length →
      (∀ x ∈ xs, x.1 < pd.nb_tasks ∧ x.2.1 < pd.nb_days ∧ x.2.2 < pd.nb_shifts) →
      ∃ lp1, add_coverage_rows pd pre xs lp = some lp1 ∧ MasterShape pd lp1 ∧
        lp1.cols.length = firstGenerated pd ∧ lp1.rows.length = k + xs.length := by
  induction xs with
  | nil =>
    intro lp k hs hc hk _ _
    exact ⟨lp, rfl, hs, hc, by simpa using hk⟩
  | cons x rest ih =>
    intro lp k hs hc hk hidx hval
    simp only [List.map_cons, List.length_cons, List.range'_succ, List.cons.injEq] at hidx
    obtain ⟨h1, h2, h3⟩ := shape_add_coverage_row pd lp x (name_tds pre "_day_" "_shift_" x)
      hs hc (hval x (List.mem_cons_self _ _)) (by rw [hk, hidx.1])
    obtain ⟨lp1, e1, e2, e3, e4⟩ := ih _ (k + 1) h1 h3 (by rw [h2, hk]) hidx.2
      (fun y hy => hval y (List.mem_cons_of_mem _ hy))
    refine ⟨lp1, ?_, e2, e3, by rw [e4, List.length_cons]; omega⟩
    simp only [add_coverage_rows, hcap, if_true]
    exact e1

theorem add_convexity_rows_shape (pd : Problem_Data) (n : Nat) :
    ∀ (lp : CpxLP) (p0 : Nat), MasterShape pd lp → lp.cols.length = firstGenerated pd →
      lp.rows.length = pd.tds + p0 → p0 + n ≤ pd.nb_people →
      MasterShape pd ((List.range' p0 n).foldl
        (fun lp p => CPXaddrows lp 1 'E' [(2 * pd.tds + p, 1)]
          ("One_column_for_person_" ++ toString (p + 1))) lp) ∧
      ((List.range' p0 n).foldl
        (fun lp p => CPXaddrows lp 1 'E' [(2 * pd.tds + p, 1)]
          ("One_column_for_person_" ++ toString (p + 1))) lp).cols.length = firstGenerated pd ∧
      ((List.range' p0 n).foldl
        (fun lp p => CPXaddrows lp 1 'E' [(2 * pd.tds + p, 1)]
          ("One_column_for_person_" ++ toString (p + 1))) lp).rows.length =
        pd.tds + p0 + n := by
  induction n with
  | zero =>
    intro lp p0 hs hc hk _
    exact ⟨hs, hc, hk⟩
  | succ n ih =>
    intro lp p0 hs hc hk hle
    obtain ⟨h1, h2, h3⟩ := shape_add_convexity_row pd lp p0
      ("One_column_for_person_" ++ toString (p0 + 1)) hs hc (by omega) hk
    have := ih _ (p0 + 1) h1 h3 (by rw [h2, hk]; omega) (by omega)
    rw [List.range'_succ, List.foldl_cons]
    refine ⟨this.1, this.2.1, ?_⟩
    rw [this.2.2]
    omega

theorem build_master_problem_shape (pd : Problem_Data)
    (hC : pd.nb_tasks_CODU ≤ pd.nb_tasks) (hcap : pd.nb_people + 2 ≤ matCapacityMaster) :
    ∃ lp0, build_master_problem pd = some lp0 ∧ MasterShape pd lp0 ∧
      lp0.cols.length = firstGenerated pd ∧ lp0.rows.length = pd.tds + pd.nb_people := by
  obtain ⟨hs0, hr0, hc0⟩ := master_variables_shape pd
  have hidx1 := tdsLoop_map_index_general pd 0 pd.nb_tasks_CODU
  have hlen1 : (tdsLoop pd 0 pd.nb_tasks_CODU).length =
      pd.nb_tasks_CODU * (pd.nb_days * pd.nb_shifts) := by
    have := congrArg List.length hidx1
    simpa using this
  obtain ⟨lp4, e1, e2, e3, e4⟩ := add_coverage_rows_shape pd "Coverage_constraint_CODU_task_"
    hcap (tdsLoop pd 0 pd.nb_tasks_CODU) (master_variables pd) 0 hs0 hc0 hr0
    (by rw [hidx1, hlen1]; simp)
    (fun x hx => by
      have := mem_tdsLoop pd _ _ x hx
      exact ⟨by omega, this.2.2.1, this.2.2.2⟩)
  have hidx2 := tdsLoop_map_index_general pd pd.nb_tasks_CODU pd.nb_tasks
  have hlen2 : (tdsLoop pd pd.nb_tasks_CODU pd.nb_tasks).length =
      (pd.nb_tasks - pd.nb_tasks_CODU) * (pd.nb_days * pd.nb_shifts) := by
    have := congrArg List.length hidx2
    simpa using this
  obtain ⟨lp5, g1, g2, g3, g4⟩ := add_coverage_rows_shape pd
    "Coverage_constraint_ambulances_task_" hcap (tdsLoop pd pd.nb_tasks_CODU pd.nb_tasks)
    lp4 (0 + (tdsLoop pd 0 pd.nb_tasks_CODU).length) e2 e3 e4
    (by rw [hidx2, hlen2, hlen1]; simp)
    (fun x hx => by
      have := mem_tdsLoop pd _ _ x hx
      exact ⟨this.2.1, this.2.2.1, this.2.2.2⟩)
  have htot : lp5.rows.length = pd.tds + 0 := by
    rw [g4, hlen1, hlen2, Problem_Data.tds, Nat.mul_assoc, Nat.zero_add, Nat.add_zero,
      ← Nat.add_mul]
    congr 1
    omega
  have h := add_convexity_rows_shape pd pd.nb_people lp5 0 g2 g3 htot (by omega)
  refine ⟨add_convexity_rows pd lp5, ?_, ?_, ?_, ?_⟩
  · simp only [build_master_problem, e1, g1]
  · unfold add_convexity_rows
    rw [List.range_eq_range']
    exact h.1
  · unfold add_convexity_rows
    rw [List.range_eq_range']
    exact h.2.1
  · unfold add_convexity_rows
    rw [List.range_eq_range', h.2.2]
    omega

/-! ### The operations of the algorithm preserve the shape -/

theorem matrixEntry_append_col (lp lp1 : CpxLP) (mc : CpxCol)
    (hcols : lp1.cols = lp.cols ++ [mc]) (i j : Nat) :
    matrixEntry lp1 i j =
      if j < lp.cols.length then matrixEntry lp i j
      else if j = lp.cols.length then coef mc i else 0 := by
  unfold matrixEntry
  rw [hcols]
  by_cases h1 : j < lp.cols.length
  · rw [List.getElem?_append_left h1, if_pos h1]
  · rw [if_neg h1]
    by_cases h2 : j = lp.cols.length
    · subst h2
      rw [List.getElem?_append_right (le_refl _)]
      simp
    · have h3 : (lp.cols ++ [mc]).length ≤ j := by
        simp only [List.length_append, List.length_singleton]
        omega
      rw [if_neg h2, List.getElem?_eq_none h3]

theorem fixedCol_congr (pd : Problem_Data) (lp lp1 : CpxLP) (j j1 : Nat)
    (hrows : lp1.rows.length = lp.rows.length)
    (h : ∀ i, matrixEntry lp1 i j1 = matrixEntry lp i j) :
    fixedCol pd lp1 j1 = fixedCol pd lp j := by
  simp only [fixedCol, hrows, h]

theorem shape_append_col (pd : Problem_Data) (lp lp1 : CpxLP) (mc : CpxCol) (person : Nat)
    (hs : MasterShape pd lp) (hrows : lp1.rows = lp.rows) (hcols : lp1.cols = lp.cols ++ [mc])
    (hlb : mc.lb = 0) (hub : mc.ub = some 1) (hp : person < pd.nb_people)
    (hrow : pd.tds + person < lp.rows.length)
    (hcv : ∀ i, i < pd.tds → coef mc i = 0 ∨ coef mc i = 1)
    (hcc : ∀ i, pd.tds ≤ i → coef mc i = if i = pd.tds + person then 1 else 0) :
    MasterShape pd lp1 := by
  have hA := matrixEntry_append_col lp lp1 mc hcols
  have hlen : lp1.cols.length = lp.cols.length + 1 := by rw [hcols]; simp
  have hfg := hs.cols_len
  have hold : ∀ i j, j < lp.cols.length → matrixEntry lp1 i j = matrixEntry lp i j := by
    intro i j hj
    rw [hA, if_pos hj]
  have hnew : ∀ i, matrixEntry lp1 i lp.cols.length = coef mc i := by
    intro i
    rw [hA, if_neg (lt_irrefl _), if_pos rfl]
  have hfixold : ∀ j, j < lp.cols.length → fixedCol pd lp1 j = fixedCol pd lp j := fun j hj =>
    fixedCol_congr pd lp lp1 j j (by rw [hrows]) (fun i => hold i j hj)
  have hfixnew : ∀ j, lp.cols.length ≤ j → fixedCol pd lp1 j = false := by
    intro j hj
    rw [← Bool.not_eq_true, fixedCol_iff]
    rintro ⟨i, h1, _, h3⟩
    rw [hA, if_neg (by omega)] at h3
    by_cases h4 : j = lp.cols.length
    · rw [if_pos h4, hcc i (by omega), if_neg (by omega)] at h3
      exact absurd h3 (by norm_num)
    · rw [if_neg h4] at h3
      exact absurd h3 (by norm_num)
  have hcolget : ∀ (j : Nat) (c : CpxCol), lp1.cols[j]? = some c →
      lp.cols[j]? = some c ∨ (j = lp.cols.length ∧ c = mc) := by
    intro j c hc
    rw [hcols] at hc
    exact getElem?_append_singleton _ _ _ _ hc
  exact
    { cols_len := by omega
      no_future := fun i j hi => by
        rw [hrows] at hi
        rw [hA]
        by_cases h1 : j < lp.cols.length
        · rw [if_pos h1]
          exact hs.no_future i j hi
        · rw [if_neg h1]
          by_cases h2 : j = lp.cols.length
          · rw [if_pos h2, hcc i (by omega), if_neg (by omega)]
          · rw [if_neg h2]
      bounds_slack := fun j c hj hc => by
        rcases hcolget j c hc with h | ⟨h, _⟩
        · exact hs.bounds_slack j c hj h
        · simp only [firstGenerated] at hfg
          omega
      bounds_assign := fun j c hj hc => by
        rcases hcolget j c hc with h | ⟨_, rfl⟩
        · exact hs.bounds_assign j c hj h
        · exact ⟨hlb, hub⟩
      rows_E := fun i r hr => hs.rows_E i r (by rw [← hrows]; exact hr)
      rhs_cov := fun t d s r ht hd hs2 hr =>
        hs.rhs_cov t d s r ht hd hs2 (by rw [← hrows]; exact hr)
      rhs_one := fun i r hi hr => hs.rhs_one i r hi (by rw [← hrows]; exact hr)
      cov_init := fun i j hi hi2 hj => by
        rw [hold i j (by omega)]
        exact hs.cov_init i j hi (by rw [← hrows]; exact hi2) hj
      cov_gen := fun i j hi hj => by
        rw [hA]
        by_cases h1 : j < lp.cols.length
        · rw [if_pos h1]
          exact hs.cov_gen i j hi hj
        · rw [if_neg h1]
          by_cases h2 : j = lp.cols.length
          · rw [if_pos h2]
            exact hcv i hi
          · rw [if_neg h2]
            exact Or.inl rfl
      conv_init := fun p j hp2 hi hj => by
        rw [hold _ j (by omega)]
        exact hs.conv_init p j hp2 (by rw [← hrows]; exact hi) hj
      conv_gen := fun j h1 h2 => by
        by_cases h3 : j < lp.cols.length
        · obtain ⟨p, hp1, hp2⟩ := hs.conv_gen j h1 h3
          exact ⟨p, hp1, fun q hq => by rw [hold _ j h3]; exact hp2 q hq⟩
        · have h4 : j = lp.cols.length := by omega
          subst h4
          refine ⟨person, hp, fun q _ => ?_⟩
          rw [hnew, hcc _ (by omega)]
          by_cases h5 : q = person
          · rw [if_pos h5, if_pos (by omega)]
          · rw [if_neg h5, if_neg (by omega)]
      br_init := fun i j hi hj => by
        rw [hold i j (by omega)]
        exact hs.br_init i j hi hj
      br_gen := fun i hi hi2 => by
        rw [hrows] at hi2
        obtain ⟨j0, g1, g2, g3, g4⟩ := hs.br_gen i hi hi2
        refine ⟨j0, g1, by omega, by rw [hold i j0 g2]; exact g3, fun k hk => ?_⟩
        rw [hA]
        by_cases h1 : k < lp.cols.length
        · rw [if_pos h1]
          exact g4 k hk
        · rw [if_neg h1]
          by_cases h2 : k = lp.cols.length
          · rw [if_pos h2, hcc i (by omega), if_neg (by omega)]
          · rw [if_neg h2]
      one_fixed := fun j1 j2 p h1 h2 hp2 h3 h4 h5 h6 => by
        have k1 : j1 < lp.cols.length := by
          by_contra hcon
          rw [hfixnew j1 (by omega)] at h5
          cases h5
        have k2 : j2 < lp.cols.length := by
          by_contra hcon
          rw [hfixnew j2 (by omega)] at h6
          cases h6
        rw [hold _ j1 k1] at h3
        rw [hold _ j2 k2] at h4
        rw [hfixold j1 k1] at h5
        rw [hfixold j2 k2] at h6
        exact hs.one_fixed j1 j2 p h1 h2 hp2 h3 h4 h5 h6 }

theorem add_column_entries_length (pd : Problem_Data) (sol : List ℚ)
    (xs : List (Nat × Nat × Nat)) :
    ∀ (mat : List (Nat × ℚ)) (a : List Int) (mat1 : List (Nat × ℚ)) (a1 : List Int),
      add_column_entries pd sol xs mat a = some (mat1, a1) →
      mat1.length = mat.length + xs.length := by
  induction xs with
  | nil =>
    intro mat a mat1 a1 h
    simp only [add_column_entries, Option.some.injEq, Prod.mk.injEq] at h
    rw [← h.1]
    rfl
  | cons x rest ih =>
    intro mat a mat1 a1 h
    simp only [add_column_entries] at h
    split at h
    · split at h
      · cases h
      · split at h
        · cases h
        · have := ih _ _ _ _ h
          simp only [List.length_append, List.length_cons, List.length_nil] at this ⊢
          omega
    · cases h

theorem add_column_to_master_master (pd : Problem_Data) (st st1 : State) (person : Nat)
    (hsol : ∀ k, k < pd.tds →
      ∃ v, st.solution_subproblem[k]? = some v ∧ (v = 0 ∨ v = 1))
    (h : add_column_to_master pd st person = some st1) :
    st1.masterproblem = CPXaddcols st.masterproblem st.cost_column_k_person_p
      ((List.range pd.tds).map (fun k => (k, st.solution_subproblem.getD k 0)) ++
        [(pd.tds + person, 1)]) 0 (some 1) (name_z person (st.nb_calls_CG + 1)) := by
  have hcap : pd.tds < matCapacityColumn := by
    simp only [add_column_to_master] at h
    split at h
    · cases h
    · rename_i mat a heq
      have hl := add_column_entries_length pd _ _ _ _ _ _ heq
      rw [tdsLoop_length] at hl
      split at h
      · rename_i hlt
        simp only [List.length_nil] at hl
        omega
      · cases h
  have hloop : ∀ x ∈ tdsLoop pd 0 pd.nb_tasks,
      ∃ v, st.solution_subproblem[tdsIndex pd x]? = some v ∧ (v = 0 ∨ v = 1) := by
    intro x hx
    have : tdsIndex pd x ∈ (tdsLoop pd 0 pd.nb_tasks).map (tdsIndex pd) :=
      List.mem_map_of_mem _ hx
    rw [tdsLoop_map_index] at this
    exact hsol _ (List.mem_range.mp this)
  have hent := add_column_entries_spec pd st.solution_subproblem (tdsLoop pd 0 pd.nb_tasks)
    [] [] hloop (by rw [tdsLoop_length]; simp only [List.length_nil]; omega)
  have hmat : (tdsLoop pd 0 pd.nb_tasks).map
      (fun x => (tdsIndex pd x, st.solution_subproblem.getD (tdsIndex pd x) 0)) =
      (List.range pd.tds).map (fun k => (k, st.solution_subproblem.getD k 0)) := by
    rw [← tdsLoop_map_index, List.map_map]
    rfl
  rw [hmat] at hent
  simp only [List.nil_append] at hent
  simp only [add_column_to_master, hent, List.length_map, List.length_range, hcap, if_true,
    Option.some.injEq] at h
  rw [← h]

theorem coef_new_column (n person : Nat) (f : Nat → ℚ) (name : String) (obj : ℚ) (i : Nat) :
    coef ⟨name, obj, 0, some 1, (List.range n).map (fun k => (k, f k)) ++ [(n + person, 1)]⟩ i =
      if i < n then f i else if i = n + person then 1 else 0 := by
  by_cases hi : i < n
  · have h2 := coef_congr
      ⟨name, obj, 0, some 1, (List.range n).map (fun k => (k, f k)) ++ [(n + person, 1)]⟩
      ⟨"", 0, 0, none, (List.range n).map (fun k => (k, f k)) ++ [(n + person, 1)]⟩ rfl i
    rw [if_pos hi, h2]
    exact coef_entries_range n f _ i hi (by
      intro e he
      simp only [List.mem_singleton] at he
      subst he
      simp only
      omega)
  · rw [if_neg hi]
    have hfil : ((List.range n).map (fun k => (k, f k))).filter
        (fun e => decide (e.1 = i)) = [] := by
      rw [List.filter_eq_nil_iff]
      intro e he
      simp only [List.mem_map, List.mem_range] at he
      obtain ⟨k, hk, rfl⟩ := he
      simp only [decide_eq_true_eq]
      omega
    simp only [coef, List.filter_append, hfil, List.nil_append]
    by_cases h2 : i = n + person
    · rw [if_pos h2, h2]
      simp
    · rw [if_neg h2]
      have h3 : ¬ n + person = i := fun h => h2 h.symm
      simp [h3]

theorem shape_branch_row (pd : Problem_Data) (lp : CpxLP) (i0 : Nat) (rowname : String)
    (hs : MasterShape pd lp) (hR : pd.tds + pd.nb_people ≤ lp.rows.length)
    (h1 : firstGenerated pd ≤ i0) (h2 : i0 < lp.cols.length)
    (hcond : ∀ p j, p < pd.nb_people → matrixEntry lp (pd.tds + p) i0 = 1 →
      firstGenerated pd ≤ j → matrixEntry lp (pd.tds + p) j = 1 →
      fixedCol pd lp j = false) :
    MasterShape pd (CPXaddrows lp 1 'E' [(i0, 1)] rowname) ∧
    (CPXaddrows lp 1 'E' [(i0, 1)] rowname).rows.length = lp.rows.length + 1 := by
  have hall : ∀ e ∈ [(i0, (1 : ℚ))], e.1 < lp.cols.length := by
    intro e he
    simp only [List.mem_singleton] at he
    subst he
    exact h2
  obtain ⟨hrows, hlen⟩ := CPXaddrows_rows lp 1 'E' [(i0, 1)] rowname hall
  have hA := matrixEntry_addrows lp 1 'E' [(i0, 1)] rowname hall
  have hrl : (CPXaddrows lp 1 'E' [(i0, 1)] rowname).rows.length = lp.rows.length + 1 := by
    rw [hrows]
    simp
  have hold : ∀ i j, i ≠ lp.rows.length →
      matrixEntry (CPXaddrows lp 1 'E' [(i0, 1)] rowname) i j = matrixEntry lp i j := by
    intro i j hne
    rw [hA, if_neg (fun h => hne h.1), add_zero]
  have hnewrow : ∀ j, matrixEntry (CPXaddrows lp 1 'E' [(i0, 1)] rowname) lp.rows.length j =
      if j = i0 then 1 else 0 := by
    intro j
    rw [hA, hs.no_future _ j (le_refl _), zero_add, matCoef_singleton]
    by_cases hj : j = i0
    · rw [if_pos ⟨rfl, by rw [hj]; exact h2⟩]
    · by_cases hj2 : j < lp.cols.length
      · rw [if_pos ⟨rfl, hj2⟩]
      · rw [if_neg (fun h => hj2 h.2), if_neg hj]
  have hfix : ∀ j, fixedCol pd (CPXaddrows lp 1 'E' [(i0, 1)] rowname) j = true ↔
      (fixedCol pd lp j = true ∨ j = i0) := by
    intro j
    rw [fixedCol_iff, fixedCol_iff, hrl]
    constructor
    · rintro ⟨i, k1, k2, k3⟩
      by_cases hi : i = lp.rows.length
      · subst hi
        rw [hnewrow] at k3
        by_cases hj : j = i0
        · exact Or.inr hj
        · rw [if_neg hj] at k3
          exact absurd k3 (by norm_num)
      · rw [hold i j hi] at k3
        exact Or.inl ⟨i, k1, by omega, k3⟩
    · rintro (⟨i, k1, k2, k3⟩ | rfl)
      · exact ⟨i, k1, by omega, by rw [hold i j (by omega)]; exact k3⟩
      · exact ⟨lp.rows.length, hR, by omega, by rw [hnewrow, if_pos rfl]⟩
  refine ⟨?_, hrl⟩
  exact
    { cols_len := by rw [hlen]; exact hs.cols_len
      no_future := fun i j hi => by
        rw [hrl] at hi
        rw [hold i j (by omega)]
        exact hs.no_future i j (by omega)
      bounds_slack := fun j c hj hc => by
        obtain ⟨c0, h0, k1, k2, _⟩ := CPXaddrows_bounds lp _ _ _ _ hall j c hc
        rw [k1, k2]
        exact hs.bounds_slack j c0 hj h0
      bounds_assign := fun j c hj hc => by
        obtain ⟨c0, h0, k1, k2, _⟩ := CPXaddrows_bounds lp _ _ _ _ hall j c hc
        rw [k1, k2]
        exact hs.bounds_assign j c0 hj h0
      rows_E := fun i r hr => by
        rw [hrows] at hr
        rcases getElem?_append_singleton _ _ _ _ hr with h | ⟨_, rfl⟩
        · exact hs.rows_E i r h
        · rfl
      rhs_cov := fun t d s r ht hd hs2 hr => by
        rw [hrows] at hr
        rcases getElem?_append_singleton _ _ _ _ hr with h | ⟨k1, rfl⟩
        · exact hs.rhs_cov t d s r ht hd hs2 h
        · have := tdsIndex_lt pd t d s ht hd hs2
          omega
      rhs_one := fun i r hi hr => by
        rw [hrows] at hr
        rcases getElem?_append_singleton _ _ _ _ hr with h | ⟨k1, rfl⟩
        · exact hs.rhs_one i r hi h
        · rfl
      cov_init := fun i j hi hi2 hj => by
        rw [hold i j (by omega)]
        exact hs.cov_init i j hi (by omega) hj
      cov_gen := fun i j hi hj => by
        rw [hold i j (by omega)]
        exact hs.cov_gen i j hi hj
      conv_init := fun p j hp hi hj => by
        rw [hold _ j (by omega)]
        exact hs.conv_init p j hp (by omega) hj
      conv_gen := fun j k1 k2 => by
        rw [hlen] at k2
        obtain ⟨p, hp1, hp2⟩ := hs.conv_gen j k1 k2
        exact ⟨p, hp1, fun q hq => by rw [hold _ j (by omega)]; exact hp2 q hq⟩
      br_init := fun i j hi hj => by
        by_cases hnew : i = lp.rows.length
        · subst hnew
          rw [hnewrow, if_neg (by omega)]
        · rw [hold i j hnew]
          exact hs.br_init i j hi hj
      br_gen := fun i hi hi2 => by
        rw [hrl] at hi2
        by_cases hnew : i = lp.rows.length
        · subst hnew
          refine ⟨i0, h1, by rw [hlen]; exact h2, by rw [hnewrow, if_pos rfl], fun k hk => ?_⟩
          rw [hnewrow, if_neg hk]
        · obtain ⟨j0, g1, g2, g3, g4⟩ := hs.br_gen i hi (by omega)
          exact ⟨j0, g1, by rw [hlen]; exact g2, by rw [hold i j0 hnew]; exact g3,
            fun k hk => by rw [hold i k hnew]; exact g4 k hk⟩
      one_fixed := fun j1 j2 p k1 k2 hp k3 k4 k5 k6 => by
        rw [hold _ j1 (by omega)] at k3
        rw [hold _ j2 (by omega)] at k4
        rcases (hfix j1).mp k5 with f1 | f1
        · rcases (hfix j2).mp k6 with f2 | f2
          · exact hs.one_fixed j1 j2 p k1 k2 hp k3 k4 f1 f2
          · subst f2
            have := hcond p j1 hp k4 k1 k3
            rw [this] at f1
            cases f1
        · subst f1
          rcases (hfix j2).mp k6 with f2 | f2
          · have := hcond p j2 hp k3 k2 k4
            rw [this] at f2
            cases f2
          · exact f2.symm }

theorem matrixEntry_delcols (lp : CpxLP) (k : Nat) (i j : Nat) :
    matrixEntry (CPXdelcols lp k) i j =
      matrixEntry lp i (if j < k then j else j + 1) := by
  simp only [matrixEntry, CPXdelcols, List.getElem?_eraseIdx]
  by_cases h : j < k
  · simp only [h, if_true]
  · simp only [h, if_false]

theorem shape_delete_col (pd : Problem_Data) (lp : CpxLP) (k : Nat)
    (hs : MasterShape pd lp) (hk : firstGenerated pd ≤ k)
    (hnf : fixedCol pd lp k = false) :
    MasterShape pd (CPXdelcols lp k) ∧ (CPXdelcols lp k).rows = lp.rows := by
  refine ⟨?_, rfl⟩
  by_cases hlen : lp.cols.length ≤ k
  · have : CPXdelcols lp k = lp := by
      simp only [CPXdelcols, List.eraseIdx_of_length_le hlen]
    rw [this]
    exact hs
  · have hklt : k < lp.cols.length := by omega
    have hA := matrixEntry_delcols lp k
    have hcl : (CPXdelcols lp k).cols.length = lp.cols.length - 1 := by
      simp only [CPXdelcols, List.length_eraseIdx, hklt, if_true]
    have hfg := hs.cols_len
    have hfix : ∀ j, fixedCol pd (CPXdelcols lp k) j =
        fixedCol pd lp (if j < k then j else j + 1) := fun j =>
      fixedCol_congr pd lp _ _ j rfl (fun i => hA i j)
    have hcolget : ∀ (j : Nat) (c : CpxCol), (CPXdelcols lp k).cols[j]? = some c →
        lp.cols[if j < k then j else j + 1]? = some c := by
      intro j c hc
      simp only [CPXdelcols, List.getElem?_eraseIdx] at hc
      by_cases h : j < k
      · simp only [h, if_true] at hc ⊢
        exact hc
      · simp only [h, if_false] at hc ⊢
        exact hc
    exact
      { cols_len := by omega
        no_future := fun i j hi => by
          rw [hA]
          exact hs.no_future i _ hi
        bounds_slack := fun j c hj hc => by
          have := hcolget j c hc
          simp only [firstGenerated] at hk
          rw [if_pos (by omega)] at this
          exact hs.bounds_slack j c hj this
        bounds_assign := fun j c hj hc => by
          have := hcolget j c hc
          by_cases h : j < k
          · rw [if_pos h] at this
            exact hs.bounds_assign j c hj this
          · rw [if_neg h] at this
            exact hs.bounds_assign (j + 1) c (by omega) this
        rows_E := fun i r hr => hs.rows_E i r hr
        rhs_cov := fun t d s r ht hd hs2 hr => hs.rhs_cov t d s r ht hd hs2 hr
        rhs_one := fun i r hi hr => hs.rhs_one i r hi hr
        cov_init := fun i j hi hi2 hj => by
          rw [hA, if_pos (by omega)]
          exact hs.cov_init i j hi hi2 hj
        cov_gen := fun i j hi hj => by
          rw [hA]
          by_cases h : j < k
          · rw [if_pos h]
            exact hs.cov_gen i j hi hj
          · rw [if_neg h]
            exact hs.cov_gen i (j + 1) hi (by omega)
        conv_init := fun p j hp hi hj => by
          rw [hA, if_pos (by omega)]
          exact hs.conv_init p j hp hi hj
        conv_gen := fun j k1 k2 => by
          rw [hcl] at k2
          by_cases h : j < k
          · obtain ⟨p, hp1, hp2⟩ := hs.conv_gen j k1 (by omega)
            exact ⟨p, hp1, fun q hq => by rw [hA, if_pos h]; exact hp2 q hq⟩
          · obtain ⟨p, hp1, hp2⟩ := hs.conv_gen (j + 1) (by omega) (by omega)
            exact ⟨p, hp1, fun q hq => by rw [hA, if_neg h]; exact hp2 q hq⟩
        br_init := fun i j hi hj => by
          rw [hA, if_pos (by omega)]
          exact hs.br_init i j hi hj
        br_gen := fun i hi hi2 => by
          obtain ⟨j0, g1, g2, g3, g4⟩ := hs.br_gen i hi hi2
          have hj0k : j0 ≠ k := by
            intro heq
            have : fixedCol pd lp j0 = true := (fixedCol_iff pd lp j0).mpr ⟨i, hi, hi2, g3⟩
            rw [heq, hnf] at this
            cases this
          by_cases h : j0 < k
          · refine ⟨j0, g1, by omega, by rw [hA, if_pos h]; exact g3, fun m hm => ?_⟩
            rw [hA]
            apply g4
            by_cases h3 : m < k
            · rw [if_pos h3]
              exact hm
            · rw [if_neg h3]
              omega
          · refine ⟨j0 - 1, by omega, by omega, ?_, fun m hm => ?_⟩
            · rw [hA, if_neg (by omega)]
              have : j0 - 1 + 1 = j0 := by omega
              rw [this]
              exact g3
            · rw [hA]
              apply g4
              by_cases h3 : m < k
              · rw [if_pos h3]
                omega
              · rw [if_neg h3]
                omega
        one_fixed := fun j1 j2 p k1 k2 hp k3 k4 k5 k6 => by
          rw [hA] at k3 k4
          rw [hfix] at k5 k6
          have := hs.one_fixed (if j1 < k then j1 else j1 + 1) (if j2 < k then j2 else j2 + 1) p
            (by split_ifs <;> omega) (by split_ifs <;> omega) hp k3 k4 k5 k6
          have hne1 : (if j1 < k then j1 else j1 + 1) ≠ k := by
            intro heq
            rw [heq, hnf] at k5
            cases k5
          split_ifs at this hne1 <;> omega }

theorem reachable_shape (pd : Problem_Data) (lp0 : CpxLP) (hs0 : MasterShape pd lp0)
    (hr0 : pd.tds + pd.nb_people ≤ lp0.rows.length) (lp : CpxLP)
    (h : MasterReachable pd lp0 lp) :
    MasterShape pd lp ∧ pd.tds + pd.nb_people ≤ lp.rows.length := by
  induction h with
  | initial => exact ⟨hs0, hr0⟩
  | add_column st st1 person _ hp hsol hadd ih =>
    have hm := add_column_to_master_master pd st st1 person hsol hadd
    rw [hm]
    unfold CPXaddcols
    split
    · rename_i hall
      have hrow : pd.tds + person < st.masterproblem.rows.length := by
        rw [List.all_eq_true] at hall
        have := hall (pd.tds + person, 1) (by simp)
        simpa using this
      refine ⟨shape_append_col pd st.masterproblem _ _ person ih.1 rfl rfl rfl rfl hp hrow
        ?_ ?_, ih.2⟩
      · intro i hi
        rw [coef_new_column, if_pos hi]
        obtain ⟨v, hv, hv01⟩ := hsol i hi
        rw [List.getD_eq_getElem?_getD, hv]
        exact hv01
      · intro i hi
        rw [coef_new_column, if_neg (by omega)]
    · exact ih
  | branch lp1 i rowname _ h1 h2 hcond ih =>
    obtain ⟨k1, k2⟩ := shape_branch_row pd lp1 i rowname ih.1 ih.2 h1 h2 hcond
    exact ⟨k1, by rw [k2]; omega⟩
  | delete lp1 j _ h1 h2 ih =>
    obtain ⟨k1, k2⟩ := shape_delete_col pd lp1 j ih.1 h1 h2
    exact ⟨k1, by rw [k2]; exact ih.2⟩

theorem tdsLoop_getElem_index (pd : Problem_Data) (k : Nat) (x : Nat × Nat × Nat)
    (h : (tdsLoop pd 0 pd.nb_tasks)[k]? = some x) :
    tdsIndex pd x = k ∧ k < pd.tds ∧
      x.1 < pd.nb_tasks ∧ x.2.1 < pd.nb_days ∧ x.2.2 < pd.nb_shifts := by
  have hk : k < pd.tds := by
    by_contra hcon
    rw [List.getElem?_eq_none (by rw [tdsLoop_length]; omega)] at h
    cases h
  have h1 : ((tdsLoop pd 0 pd.nb_tasks).map (tdsIndex pd))[k]? = some (tdsIndex pd x) := by
    rw [List.getElem?_map, h]
    rfl
  rw [tdsLoop_map_index, List.getElem?_range hk] at h1
  have hm := mem_tdsLoop pd 0 pd.nb_tasks x (List.getElem?_mem h)
  exact ⟨(Option.some.inj h1).symm, hk, hm.2.1, hm.2.2.1, hm.2.2.2⟩

theorem canonicalPoint_initial (pd : Problem_Data) (lp0 : CpxLP) (hs : MasterShape pd lp0)
    (hcols : lp0.cols.length = firstGenerated pd)
    (hrows : lp0.rows.length = pd.tds + pd.nb_people)
    (hdem : ∀ t d s, 0 ≤ pd.shift_demands t d s) :
    canonicalPoint pd lp0 = initialPoint pd := by
  have hfix : ∀ j, fixedCol pd lp0 j = false := fun j =>
    fixedCol_false_of_few_rows pd lp0 j (by omega)
  have hsup : ∀ i, fixedSupply pd lp0 i = 0 := by
    intro i
    unfold fixedSupply
    apply Finset.sum_eq_zero
    intro j _
    rw [if_neg]
    rintro ⟨_, h⟩
    rw [hfix j] at h
    cases h
  have hpf : ∀ p, personFixed pd lp0 p = false := by
    intro p
    rw [← Bool.not_eq_true, personFixed_iff]
    rintro ⟨j, _, _, _, h⟩
    rw [hfix j] at h
    cases h
  have hrhs : ∀ k x, (tdsLoop pd 0 pd.nb_tasks)[k]? = some x →
      rowRhs lp0 k = pd.shift_demands x.1 x.2.1 x.2.2 := by
    intro k x hx
    obtain ⟨h1, h2, h3, h4, h5⟩ := tdsLoop_getElem_index pd k x hx
    have hk : k < lp0.rows.length := by omega
    have hr := List.getElem?_eq_getElem hk
    simp only [rowRhs, hr]
    have := hs.rhs_cov x.1 x.2.1 x.2.2 lp0.rows[k] h3 h4 h5 (by
      have hx2 : tdsIndex pd (x.1, x.2.1, x.2.2) = k := h1
      rw [hx2]
      exact hr)
    exact this
  apply List.ext_getElem?
  intro j
  by_cases hj : j < lp0.cols.length
  · have hL : (canonicalPoint pd lp0)[j]? = some ((canonicalPoint pd lp0).getD j 0) := by
      rw [List.getD_eq_getElem?_getD]
      have : j < (canonicalPoint pd lp0).length := by simpa [canonicalPoint] using hj
      rw [List.getElem?_eq_getElem this]
      rfl
    rw [hL, canonicalPoint_getD pd lp0 j hj]
    simp only [firstGenerated] at hcols
    unfold initialPoint
    by_cases h1 : j < pd.tds
    · rw [if_pos h1, hsup, List.append_assoc,
        List.getElem?_append_left (by rw [List.length_replicate]; exact h1),
        List.getElem?_replicate, if_pos h1]
      have hx : j < (tdsLoop pd 0 pd.nb_tasks).length := by rw [tdsLoop_length]; exact h1
      have := hrhs j _ (List.getElem?_eq_getElem hx)
      rw [this, max_eq_right]
      have hd := hdem (tdsLoop pd 0 pd.nb_tasks)[j].1 (tdsLoop pd 0 pd.nb_tasks)[j].2.1
        (tdsLoop pd 0 pd.nb_tasks)[j].2.2
      have hd2 : (0 : ℚ) ≤ (pd.shift_demands (tdsLoop pd 0 pd.nb_tasks)[j].1
        (tdsLoop pd 0 pd.nb_tasks)[j].2.1 (tdsLoop pd 0 pd.nb_tasks)[j].2.2 : ℚ) := by
        exact_mod_cast hd
      linarith
    · rw [if_neg h1]
      by_cases h2 : j < 2 * pd.tds
      · rw [if_pos h2, hsup, List.append_assoc,
          List.getElem?_append_right (by rw [List.length_replicate]; omega),
          List.length_replicate,
          List.getElem?_append_left (by rw [List.length_map, tdsLoop_length]; omega),
          List.getElem?_map]
        have hx : j - pd.tds < (tdsLoop pd 0 pd.nb_tasks).length := by
          rw [tdsLoop_length]; omega
        rw [List.getElem?_eq_getElem hx]
        have := hrhs (j - pd.tds) _ (List.getElem?_eq_getElem hx)
        rw [this, sub_zero, max_eq_left]
        · rfl
        · have hd := hdem (tdsLoop pd 0 pd.nb_tasks)[j - pd.tds].1
            (tdsLoop pd 0 pd.nb_tasks)[j - pd.tds].2.1 (tdsLoop pd 0 pd.nb_tasks)[j - pd.tds].2.2
          exact_mod_cast hd
      · have h3 : j < firstGenerated pd := by simp only [firstGenerated]; omega
        have h4 : (List.replicate pd.tds (0 : ℚ) ++ (tdsLoop pd 0 pd.nb_tasks).map
            (fun x => (pd.shift_demands x.1 x.2.1 x.2.2 : ℚ))).length = 2 * pd.tds := by
          rw [List.length_append, List.length_replicate, List.length_map, tdsLoop_length]
          omega
        have h5 : j - 2 * pd.tds < pd.nb_people := by omega
        rw [if_neg h2, if_pos h3, List.getElem?_append_right (by rw [h4]; omega), h4,
          List.getElem?_replicate, if_pos h5]
        have h6 : ¬ personFixed pd lp0 (j - 2 * pd.tds) = true := by
          rw [hpf]
          decide
        rw [if_neg h6]
  · have h7 : (canonicalPoint pd lp0).length ≤ j := by
      simp only [canonicalPoint, List.length_map, List.length_range]
      omega
    have h8 : (initialPoint pd).length ≤ j := by
      simp only [initialPoint, List.length_append, List.length_replicate, List.length_map,
        tdsLoop_length]
      simp only [firstGenerated] at hcols
      omega
    rw [List.getElem?_eq_none h7, List.getElem?_eq_none h8]

/-- C8. For every instance with non-negative demand (and nb_tasks_CODU ≤ nb_tasks, at most
99998 people, so that `build_master_problem` stays inside its scratch arrays) the master
built by `build_master_problem` is satisfied by the point with every overstaffing
variable at 0, every understaffing variable at the demand of its slot and every super
column at 1; and every master that the algorithm derives from it - by adding generated
0/1 columns, by adding branching rows that fix at most one column per person, and by
deleting generated columns that are not fixed - has a point satisfying all its rows
(coverage, convexity and branching equalities) and all its bounds. -/
theorem master_problem_feasible (pd : Problem_Data)
    (hdem : ∀ t d s, 0 ≤ pd.shift_demands t d s)
    (hC : pd.nb_tasks_CODU ≤ pd.nb_tasks)
    (hcap : pd.nb_people + 2 ≤ matCapacityMaster) :
    ∃ lp0, build_master_problem pd = some lp0 ∧ Feasible lp0 (initialPoint pd) ∧
      ∀ lp, MasterReachable pd lp0 lp → ∃ x, Feasible lp x := by
  obtain ⟨lp0, e1, e2, e3, e4⟩ := build_master_problem_shape pd hC hcap
  refine ⟨lp0, e1, ?_, ?_⟩
  · rw [← canonicalPoint_initial pd lp0 e2 e3 e4 hdem]
    exact canonicalPoint_feasible pd lp0 e2
  · intro lp hreach
    exact ⟨canonicalPoint pd lp,
      canonicalPoint_feasible pd lp (reachable_shape pd lp0 e2 (by omega) lp hreach).1⟩

/-- Witness for C8: the instance `duoData`. -/
theorem master_problem_feasible_witness :
    ∃ lp0, build_master_problem duoData = some lp0 ∧ Feasible lp0 (initialPoint duoData) ∧
      ∀ lp, MasterReachable duoData lp0 lp → ∃ x, Feasible lp x :=
  master_problem_feasible duoData (fun _ _ _ => (by decide : (0 : Int) ≤ 1)) (by decide)
    (by decide)

/-- Scenario 2 in the small: with one person and demand 1 in each of the three shifts of
a day (a person works at most one shift a day) the initial master of `toyData` is the
problem `toyMaster`, and it is satisfied with understaffing 1 in every slot. -/
theorem build_master_problem_toy :
    build_master_problem toyData = some toyMaster ∧
      initialPoint toyData = [0, 0, 0, 1, 1, 1, 1] := by
  decide!

/-! ## Master solves that report failure -/

/-- C9 (the code at the failing input). On `toyData` with an oracle whose master solves
all report `CPX_STAT_INFEASIBLE`, `run_algorithm` under method 1 does not stop at the
first master solve: it prices person 0, adds the column, solves the master again and
saves a solution. -/
theorem run_continues_after_infeasible_master :
    ((run_algorithm toyData cplexCodes infeasibleMasterOracle
        Column_Generation_Method.one_column_per_person
        Branching_Method_Diving.value_above_threshold (6 / 10) 5 5).result).map
      (fun s => (s.log, s.nb_columns_added_total, s.solution)) =
    some ([Event.master_solved, Event.priced 0, Event.column_added 0, Event.master_solved,
      Event.solution_saved], 1, [-1, -1, -1]) := by
  decide!

/-- The same under method 2, for the first call of `column_generation`: after the
infeasible master solve the person is priced and the column is added. -/
theorem column_generation_continues_after_infeasible_master :
    ((column_generation toyData cplexCodes infeasibleMasterOracle
        Column_Generation_Method.one_column_person_p_and_reoptimize 5
        { initial_state toyData toyMaster with solve_subproblem_p := [true] }).result).map
      (fun r => (r.1.log, r.1.nb_columns_added_total, r.1.algorithm_failed)) =
    some ([Event.master_solved, Event.priced 0, Event.column_added 0], 1, false) := by
  decide!

/-- The failure is detected and then ignored: `solve_masterproblem` sets
`algorithm_failed` and the status text, and returns the objective as usual. -/
theorem solve_masterproblem_sets_flag_only :
    (solve_masterproblem cplexCodes infeasibleMasterOracle
        (initial_state toyData toyMaster)).1.algorithm_failed = true ∧
    (solve_masterproblem cplexCodes infeasibleMasterOracle
        (initial_state toyData toyMaster)).1.algorithm_solution_status =
      "\nProblem is infeasible." := by
  decide!

/-! ## Pricing calls that do not end optimally -/

theorem keeps_ite (st : State) (c : Prop) [Decidable c] (a b : State)
    (ha : a = { st with algorithm_failed := a.algorithm_failed,
                        algorithm_solution_status := a.algorithm_solution_status })
    (hb : b = { st with algorithm_failed := b.algorithm_failed,
                        algorithm_solution_status := b.algorithm_solution_status }) :
    (if c then a else b) =
      { st with algorithm_failed := (if c then a else b).algorithm_failed,
                algorithm_solution_status := (if c then a else b).algorithm_solution_status } := by
  split
  · exact ha
  · exact hb

theorem check_solution_status_fields (cpx : CPX_Codes) (st : State) (integer : Bool)
    (status_ solstat_ : Int) :
    (check_solution_status cpx st integer status_ solstat_).1 =
      { st with
        algorithm_failed := (check_solution_status cpx st integer status_ solstat_).1.algorithm_failed,
        algorithm_solution_status :=
          (check_solution_status cpx st integer status_ solstat_).1.algorithm_solution_status } := by
  unfold check_solution_status
  by_cases hs : status_ ≠ 0
  · rw [if_pos hs]
  · rw [if_neg hs]
    dsimp only
    repeat' (first | rfl | apply keeps_ite)

theorem check_solution_status_mip_fail (cpx : CPX_Codes) (st : State) (status_ solstat_ : Int)
    (h : status_ ≠ 0 ∨ (solstat_ ≠ cpx.CPXMIP_OPTIMAL ∧ solstat_ ≠ cpx.CPXMIP_OPTIMAL_TOL)) :
    (check_solution_status cpx st true status_ solstat_).2 = false := by
  unfold check_solution_status
  by_cases hs : status_ ≠ 0
  · rw [if_pos hs]
  · rw [if_neg hs]
    rcases h with h | h
    · exact absurd h hs
    · have hne : ¬ (solstat_ = cpx.CPXMIP_OPTIMAL ∨ solstat_ = cpx.CPXMIP_OPTIMAL_TOL) := by
        rintro (h1 | h1)
        · exact h.1 h1
        · exact h.2 h1
      simp only [Bool.not_true, Bool.false_eq_true, if_false, if_neg hne]
      split_ifs <;> rfl

theorem cost_fold_some (sol : List ℚ) (w : ℚ) (idx : List Nat) :
    ∀ acc : ℚ, (∀ i ∈ idx, i < sol.length) →
      ∃ c, idx.foldl (fun (acc : Option ℚ) i =>
        match acc, sol[i]? with
        | some a, some v => some (a + w * v)
        | _, _ => none) (some acc) = some c := by
  induction idx with
  | nil => intro acc _; exact ⟨acc, rfl⟩
  | cons i rest ih =>
    intro acc h
    have hi := h i (List.mem_cons_self _ _)
    simp only [List.foldl_cons, List.getElem?_eq_getElem hi]
    exact ih _ (fun j hj => h j (List.mem_cons_of_mem _ hj))

theorem column_cost_some (pd : Problem_Data) (sol : List ℚ)
    (hlen : numcols_subproblem pd ≤ sol.length) (hG : pd.nb_groups_CODU ≤ pd.nb_groups) :
    ∃ c, column_cost pd sol = some c := by
  simp only [numcols_subproblem] at hlen
  obtain ⟨c1, h1⟩ := cost_fold_some sol pd.obj_weight_Y_W
    ((List.range (2 * pd.nb_weekends)).map (fun w => pd.tds + w)) 0 (by
      intro i hi
      simp only [List.mem_map, List.mem_range] at hi
      obtain ⟨w, hw, rfl⟩ := hi
      omega)
  have h2 : pd.tds + 2 * pd.nb_weekends < sol.length := by omega
  have h3 : pd.tds + 2 * pd.nb_weekends + 1 < sol.length := by omega
  obtain ⟨c4, h4⟩ := cost_fold_some sol pd.obj_weight_Y_G_CODU
    ((List.range pd.nb_groups_CODU).map (fun g => pd.tds + 2 * pd.nb_weekends + 2 + g))
    (c1 + pd.obj_weight_Y_Hplus * sol[pd.tds + 2 * pd.nb_weekends] +
      pd.obj_weight_Y_Hmin * sol[pd.tds + 2 * pd.nb_weekends + 1]) (by
      intro i hi
      simp only [List.mem_map, List.mem_range] at hi
      obtain ⟨g, hg, rfl⟩ := hi
      omega)
  obtain ⟨c5, h5⟩ := cost_fold_some sol pd.obj_weight_Y_G_ambulances
    ((List.range' pd.nb_groups_CODU (pd.nb_groups - pd.nb_groups_CODU)).map
      (fun g => pd.tds + 2 * pd.nb_weekends + 2 + g)) c4 (by
      intro i hi
      simp only [List.mem_map, List.mem_range'] at hi
      obtain ⟨g, ⟨k, hk, rfl⟩, rfl⟩ := hi
      omega)
  refine ⟨c5, ?_⟩
  simp only [column_cost, h1, List.getElem?_eq_getElem h2, List.getElem?_eq_getElem h3, h4, h5]

theorem solve_subproblem_not_optimal (pd : Problem_Data) (cpx : CPX_Codes) (orc : Oracle)
    (st : State) (person : Nat) (objcoef : List ℚ)
    (hsub : st.subproblems[person]? = some objcoef)
    (hlen : numcols_subproblem pd ≤ st.solution_subproblem.length)
    (hG : pd.nb_groups_CODU ≤ pd.nb_groups)
    (hfail : mip_not_optimal cpx (orc.mipopt person objcoef st.mu_p)) :
    ∃ st3, solve_subproblem pd cpx orc st person = some (st3, 1000000000000 - st.mu_p) ∧
      st3.masterproblem = st.masterproblem ∧ st3.current_columns = st.current_columns ∧
      st3.nb_columns_added_total = st.nb_columns_added_total ∧
      st3.nb_calls_CG = st.nb_calls_CG ∧ st3.log = st.log := by
  have hchk : (check_solution_status cpx
      (store_mip_answer pd st (orc.mipopt person objcoef st.mu_p)) true
      (store_mip_answer pd st (orc.mipopt person objcoef st.mu_p)).status
      (store_mip_answer pd st (orc.mipopt person objcoef st.mu_p)).solstat).2 = false :=
    check_solution_status_mip_fail cpx _ _ _ hfail
  have hfld := check_solution_status_fields cpx
    (store_mip_answer pd st (orc.mipopt person objcoef st.mu_p)) true
    (store_mip_answer pd st (orc.mipopt person objcoef st.mu_p)).status
    (store_mip_answer pd st (orc.mipopt person objcoef st.mu_p)).solstat
  have hsollen : numcols_subproblem pd ≤
      (store_mip_answer pd st (orc.mipopt person objcoef st.mu_p)).solution_subproblem.length := by
    simp only [store_mip_answer]
    split_ifs
    · simp
    · exact hlen
  obtain ⟨c, hc⟩ := column_cost_some pd _ hsollen hG
  have hsol := congrArg State.solution_subproblem hfld
  have hmu := congrArg State.mu_p hfld
  have hm := congrArg State.masterproblem hfld
  have hcur := congrArg State.current_columns hfld
  have hnb := congrArg State.nb_columns_added_total hfld
  have hcalls := congrArg State.nb_calls_CG hfld
  have hlog := congrArg State.log hfld
  simp only at hsol hmu hm hcur hnb hcalls hlog
  have hc2 : column_cost pd (check_solution_status cpx
      (store_mip_answer pd st (orc.mipopt person objcoef st.mu_p)) true
      (store_mip_answer pd st (orc.mipopt person objcoef st.mu_p)).status
      (store_mip_answer pd st (orc.mipopt person objcoef st.mu_p)).solstat).1.solution_subproblem
      = some c := by
    rw [hsol]
    exact hc
  refine ⟨{ (check_solution_status cpx
      (store_mip_answer pd st (orc.mipopt person objcoef st.mu_p)) true
      (store_mip_answer pd st (orc.mipopt person objcoef st.mu_p)).status
      (store_mip_answer pd st (orc.mipopt person objcoef st.mu_p)).solstat).1 with
      objective_subproblem := 1000000000000, cost_column_k_person_p := c }, ?_,
    hm, hcur, hnb, hcalls, hlog⟩
  simp only [solve_subproblem, hsub, hchk, Bool.not_false, if_true, hc2, hmu]
  rfl

/-- C10. Let the pricing MIP of person `p` not end with `CPXMIP_OPTIMAL` or
`CPXMIP_OPTIMAL_TOL`, or let the solution query return a nonzero code (the arrays of the
object being allocated). Then the pricing step of either column-generation policy sets
`mu_p` to the dual value `mu` of the person's convexity row and `solve_subproblem`
returns 10^12 - mu_p, leaving master, pool and counter as they are; and whenever
mu_p < 10^12 + 0.001 the whole pricing step returns with that reduced cost, admits no
column, and leaves the master, the column pool, the counter of added columns and the
counter of created columns unchanged (only the pricing call is logged). -/
theorem pricing_failure_admits_nothing (pd : Problem_Data) (cpx : CPX_Codes) (orc : Oracle)
    (st : State) (person : Nat)
    (hflag : person < st.solve_subproblem_p.length)
    (hdual : pd.tds + person < st.dual_var_master.length)
    (hvc : pd.tds ≤ st.values_coef.length)
    (hsub : person < st.subproblems.length)
    (hlen : numcols_subproblem pd ≤ st.solution_subproblem.length)
    (hG : pd.nb_groups_CODU ≤ pd.nb_groups)
    (hfail : ∀ objcoef cutoff, mip_not_optimal cpx (orc.mipopt person objcoef cutoff)) :
    ∃ st2 st3 mu, st.dual_var_master[pd.tds + person]? = some mu ∧
      change_coefficients_subproblem pd
        { st with solve_subproblem_p := st.solve_subproblem_p.set person false } person
        = some st2 ∧
      st2.mu_p = mu ∧
      solve_subproblem pd cpx orc st2 person = some (st3, 1000000000000 - mu) ∧
      st3.masterproblem = st.masterproblem ∧ st3.current_columns = st.current_columns ∧
      st3.nb_columns_added_total = st.nb_columns_added_total ∧
      (mu < 1000000000000 + reduced_cost_tolerance_LP →
        ∃ st4, price_person pd cpx orc st person = some (st4, 1000000000000 - mu) ∧
          st4.masterproblem = st.masterproblem ∧ st4.current_columns = st.current_columns ∧
          st4.nb_columns_added_total = st.nb_columns_added_total ∧
          st4.nb_calls_CG = st.nb_calls_CG ∧
          st4.log = st.log ++ [Event.priced person]) := by
  have hmu := List.getElem?_eq_getElem hdual
  have hlenle : pd.tds ≤ st.dual_var_master.length := by omega
  obtain ⟨st2, hcc, h1, h2, h3, h4, h5, h6, h7, h8⟩ : ∃ st2 : State,
      change_coefficients_subproblem pd
        { st with solve_subproblem_p := st.solve_subproblem_p.set person false } person
        = some st2 ∧ st2.mu_p = st.dual_var_master[pd.tds + person] ∧
      (∃ objcoef, st2.subproblems[person]? = some objcoef) ∧
      st2.solution_subproblem = st.solution_subproblem ∧
      st2.masterproblem = st.masterproblem ∧ st2.current_columns = st.current_columns ∧
      st2.nb_columns_added_total = st.nb_columns_added_total ∧
      st2.nb_calls_CG = st.nb_calls_CG ∧ st2.log = st.log := by
    have hsub1 := List.getElem?_eq_getElem hsub
    refine ⟨{ st with
        solve_subproblem_p := st.solve_subproblem_p.set person false,
        mu_p := st.dual_var_master[pd.tds + person],
        values_coef := (st.dual_var_master.take pd.tds).map (fun v => -v) ++
          st.values_coef.drop pd.tds,
        subproblems := st.subproblems.set person
          (CPXchgobj st.subproblems[person]
            (((st.dual_var_master.take pd.tds).map (fun v => -v) ++
              st.values_coef.drop pd.tds).take pd.tds)) }, ?_, ?_⟩
    · simp only [change_coefficients_subproblem, hmu, hlenle, hvc, and_self, if_true, hsub1]
    · refine ⟨rfl, ⟨CPXchgobj st.subproblems[person]
          (((st.dual_var_master.take pd.tds).map (fun v => -v) ++
            st.values_coef.drop pd.tds).take pd.tds), ?_⟩, rfl, rfl, rfl, rfl, rfl, rfl⟩
      simp only [List.getElem?_set, hsub, if_true]
  obtain ⟨objcoef, hobj⟩ := h2
  obtain ⟨st3, g1, g2, g3, g4, g5, g6⟩ := solve_subproblem_not_optimal pd cpx orc st2 person
    objcoef hobj (by rw [h3]; exact hlen) hG (hfail _ _)
  rw [h1] at g1
  refine ⟨st2, st3, st.dual_var_master[pd.tds + person], hmu, hcc, h1, g1, by rw [g2, h4],
    by rw [g3, h5], by rw [g4, h6], ?_⟩
  intro hbound
  have hnot : ¬ (1000000000000 - st.dual_var_master[pd.tds + person] <
      -reduced_cost_tolerance_LP) := by
    intro hcon
    linarith
  refine ⟨{ st3 with log := st3.log ++ [Event.priced person] }, ?_, by rw [← h4, ← g2],
    by rw [← h5, ← g3], by rw [← h6, ← g4], by rw [← h7, ← g5], ?_⟩
  · simp only [price_person, hflag, if_true, hcc, g1, hnot, if_false]
  · show st3.log ++ _ = _
    rw [g6, h8]

/-- Witness for C10: the pricing of person 0 of `toyData` in `toySolvedState`, where the
pricing MIP reaches its time limit without a solution. -/
theorem pricing_failure_admits_nothing_witness :
    ∃ st2 st3 mu, toySolvedState.dual_var_master[toyData.tds + 0]? = some mu ∧
      change_coefficients_subproblem toyData
        { toySolvedState with
          solve_subproblem_p := toySolvedState.solve_subproblem_p.set 0 false } 0
        = some st2 ∧
      st2.mu_p = mu ∧
      solve_subproblem toyData cplexCodes failingPricingOracle st2 0 =
        some (st3, 1000000000000 - mu) ∧
      st3.masterproblem = toySolvedState.masterproblem ∧
      st3.current_columns = toySolvedState.current_columns ∧
      st3.nb_columns_added_total = toySolvedState.nb_columns_added_total ∧
      (mu < 1000000000000 + reduced_cost_tolerance_LP →
        ∃ st4, price_person toyData cplexCodes failingPricingOracle toySolvedState 0 =
            some (st4, 1000000000000 - mu) ∧
          st4.masterproblem = toySolvedState.masterproblem ∧
          st4.current_columns = toySolvedState.current_columns ∧
          st4.nb_columns_added_total = toySolvedState.nb_columns_added_total ∧
          st4.nb_calls_CG = toySolvedState.nb_calls_CG ∧
          st4.log = toySolvedState.log ++ [Event.priced 0]) :=
  pricing_failure_admits_nothing toyData cplexCodes failingPricingOracle toySolvedState 0
    (by decide) (by decide) (by decide) (by decide) (by decide) (by decide)
    (fun _ _ => Or.inl (by decide : (1217 : Int) ≠ 0))

/-- The pricing step evaluated in `toySolvedState`: the reduced cost is 10^12 (the dual
of the convexity row is 0), no column is added. -/
theorem price_person_failure_example :
    (price_person toyData cplexCodes failingPricingOracle toySolvedState 0).map
      (fun r => (r.2, r.1.nb_columns_added_total, r.1.current_columns,
        r.1.masterproblem.cols.length)) =
    some (1000000000000, 0, [], 7) := by
  decide!

/-! ## The pricing step of the two column-generation methods -/

theorem change_coefficients_subproblem_frame (pd : Problem_Data) (st st2 : State) (person : Nat)
    (h : change_coefficients_subproblem pd st person = some st2) :
    st2 = { st with mu_p := st2.mu_p, values_coef := st2.values_coef,
                    subproblems := st2.subproblems } := by
  unfold change_coefficients_subproblem at h
  dsimp only at h
  split at h
  · cases h
  · split at h
    · split at h
      · cases h
      · simp only [Option.some.injEq] at h
        subst h
        rfl
    · cases h

theorem solve_subproblem_frame (pd : Problem_Data) (cpx : CPX_Codes) (orc : Oracle)
    (st st3 : State) (person : Nat) (rc : ℚ)
    (h : solve_subproblem pd cpx orc st person = some (st3, rc)) :
    st3 = { st with status := st3.status, solstat := st3.solstat,
                    objective_subproblem := st3.objective_subproblem,
                    solution_subproblem := st3.solution_subproblem,
                    algorithm_failed := st3.algorithm_failed,
                    algorithm_solution_status := st3.algorithm_solution_status,
                    cost_column_k_person_p := st3.cost_column_k_person_p } := by
  unfold solve_subproblem at h
  split at h
  · cases h
  · rename_i objcoef hsub
    dsimp only at h
    have hfld := check_solution_status_fields cpx
      (store_mip_answer pd st (orc.mipopt person objcoef st.mu_p)) true
      (store_mip_answer pd st (orc.mipopt person objcoef st.mu_p)).status
      (store_mip_answer pd st (orc.mipopt person objcoef st.mu_p)).solstat
    generalize (check_solution_status cpx
      (store_mip_answer pd st (orc.mipopt person objcoef st.mu_p)) true
      (store_mip_answer pd st (orc.mipopt person objcoef st.mu_p)).status
      (store_mip_answer pd st (orc.mipopt person objcoef st.mu_p)).solstat) = r at h hfld
    split at h
    · cases h
    · simp only [Option.some.injEq, Prod.mk.injEq] at h
      obtain ⟨h1, _⟩ := h
      subst h1
      rw [hfld]
      split <;> rfl

theorem add_column_to_master_frame (pd : Problem_Data) (st st5 : State) (person : Nat)
    (h : add_column_to_master pd st person = some st5) :
    st5 = { st with nb_calls_CG := st.nb_calls_CG + 1, masterproblem := st5.masterproblem,
                    current_columns := st5.current_columns } ∧
      st5.current_columns.length = st.current_columns.length + 1 := by
  unfold add_column_to_master at h
  dsimp only at h
  split at h
  · cases h
  · split at h
    · simp only [Option.some.injEq] at h
      subst h
      exact ⟨rfl, by simp⟩
    · cases h

/-- C11. Whenever the pricing step that both column-generation methods execute for a
flagged person ends, it ran `change_coefficients_subproblem` and `solve_subproblem`, and
with `rc` the reduced cost that `solve_subproblem` returned: `add_column_to_master` is
called (the counter `nb_calls_CG` of that function grows by one) exactly when
`rc < -0.001`, and `nb_columns_added_total` grows by exactly one exactly when
`rc < -0.001`; in that case the master and the pool are those that
`add_column_to_master` produced; for `rc ≥ -0.001` the counters, the master and the pool
are unchanged. The step is the body of the `for` loop of method 1 and of the `do` loop
of method 2 for a person whose flag is set. -/
theorem column_admitted_iff (pd : Problem_Data) (cpx : CPX_Codes) (orc : Oracle) (st : State)
    (person : Nat) (hdef : (price_person pd cpx orc st person).isSome = true) :
    ∃ st2 st3 st' rc,
      change_coefficients_subproblem pd
        { st with solve_subproblem_p := st.solve_subproblem_p.set person false } person
        = some st2 ∧
      solve_subproblem pd cpx orc st2 person = some (st3, rc) ∧
      price_person pd cpx orc st person = some (st', rc) ∧
      (rc < -(1 / 1000) ↔ st'.nb_calls_CG = st.nb_calls_CG + 1) ∧
      (rc < -(1 / 1000) ↔ st'.nb_columns_added_total = st.nb_columns_added_total + 1) ∧
      (rc < -(1 / 1000) →
        (∃ st5, add_column_to_master pd
            { st3 with log := st3.log ++ [Event.priced person],
                       nb_columns_added_total := st3.nb_columns_added_total + 1 } person
            = some st5 ∧
          st'.masterproblem = st5.masterproblem ∧ st'.current_columns = st5.current_columns) ∧
        st'.current_columns.length = st.current_columns.length + 1 ∧
        st'.log = st.log ++ [Event.priced person, Event.column_added person]) ∧
      (¬ rc < -(1 / 1000) →
        st'.nb_calls_CG = st.nb_calls_CG ∧
        st'.nb_columns_added_total = st.nb_columns_added_total ∧
        st'.masterproblem = st.masterproblem ∧ st'.current_columns = st.current_columns ∧
        st'.log = st.log ++ [Event.priced person]) ∧
      (∀ rest b, st.solve_subproblem_p[person]? = some true →
        cg_sweep pd cpx orc (person :: rest) st b =
          cg_sweep pd cpx orc rest st' (if rc < -(1 / 1000) then false else b)) ∧
      (∀ fuel last r0, st.solve_subproblem_p[person]? = some true →
        cg_inner2 pd cpx orc (fuel + 1) st person last r0 =
          if (if person + 1 ≥ pd.nb_people then 0 else person + 1) =
              (if rc < -(1 / 1000) then person else last) then
            Outcome.done (st', if person + 1 ≥ pd.nb_people then 0 else person + 1,
              if rc < -(1 / 1000) then person else last, true)
          else if rc > -(1 / 1000) then
            cg_inner2 pd cpx orc fuel st' (if person + 1 ≥ pd.nb_people then 0 else person + 1)
              (if rc < -(1 / 1000) then person else last) rc
          else
            Outcome.done (st', if person + 1 ≥ pd.nb_people then 0 else person + 1,
              if rc < -(1 / 1000) then person else last, false)) := by
  have htol : reduced_cost_tolerance_LP = 1 / 1000 := rfl
  cases hpp : price_person pd cpx orc st person with
  | none => rw [hpp] at hdef; cases hdef
  | some r =>
    obtain ⟨st', rc⟩ := r
    have hpp0 := hpp
    unfold price_person at hpp
    split at hpp
    · dsimp only at hpp
      split at hpp
      · cases hpp
      · rename_i st2 hcc
        split at hpp
        · cases hpp
        · rename_i st3 rc3 hss
          have f2 := change_coefficients_subproblem_frame pd _ st2 person hcc
          have f3 := solve_subproblem_frame pd cpx orc st2 st3 person rc3 hss
          have e1 : st3.nb_calls_CG = st.nb_calls_CG := by rw [f3, f2]
          have e2 : st3.nb_columns_added_total = st.nb_columns_added_total := by rw [f3, f2]
          have e3 : st3.masterproblem = st.masterproblem := by rw [f3, f2]
          have e4 : st3.current_columns = st.current_columns := by rw [f3, f2]
          have e5 : st3.log = st.log := by rw [f3, f2]
          rw [htol] at hpp
          by_cases hrc : rc3 < -(1 / 1000)
          · rw [if_pos hrc] at hpp
            split at hpp
            · cases hpp
            · rename_i st5 hadd
              simp only [Option.some.injEq, Prod.mk.injEq] at hpp
              obtain ⟨hst, hrc3⟩ := hpp
              subst hrc3
              obtain ⟨f5, l5⟩ := add_column_to_master_frame pd _ st5 person hadd
              have g1 : st'.nb_calls_CG = st.nb_calls_CG + 1 := by
                rw [← hst]; show st5.nb_calls_CG = _; rw [f5]; show st3.nb_calls_CG + 1 = _
                rw [e1]
              have g2 : st'.nb_columns_added_total = st.nb_columns_added_total + 1 := by
                rw [← hst]; show st5.nb_columns_added_total = _; rw [f5]
                show st3.nb_columns_added_total + 1 = _
                rw [e2]
              have g3 : st'.log = st.log ++ [Event.priced person, Event.column_added person] := by
                rw [← hst]; show st5.log ++ _ = _; rw [f5]
                show (st3.log ++ _) ++ _ = _
                rw [e5]; simp
              have g4 : st'.current_columns.length = st.current_columns.length + 1 := by
                rw [← hst]; show st5.current_columns.length = _; rw [l5]
                show st3.current_columns.length + 1 = _
                rw [e4]
              refine ⟨st2, st3, st', rc3, hcc, hss, rfl, ⟨fun _ => g1, fun _ => hrc⟩,
                ⟨fun _ => g2, fun _ => hrc⟩, fun _ => ⟨⟨st5, hadd, ?_, ?_⟩, g4, g3⟩,
                fun hn => absurd hrc hn, ?_, ?_⟩
              · rw [← hst]
              · rw [← hst]
              · intro rest b hflag
                rw [cg_sweep, hflag]
                simp only [hpp0, htol, if_pos hrc]
              · intro fuel last r0 hflag
                rw [cg_inner2, hflag]
                simp only [if_true, hpp0, htol, if_pos hrc]
          · rw [if_neg hrc] at hpp
            simp only [Option.some.injEq, Prod.mk.injEq] at hpp
            obtain ⟨hst, hrc3⟩ := hpp
            subst hrc3
            have g1 : st'.nb_calls_CG = st.nb_calls_CG := by
              rw [← hst]; exact e1
            have g2 : st'.nb_columns_added_total = st.nb_columns_added_total := by
              rw [← hst]; exact e2
            refine ⟨st2, st3, st', rc3, hcc, hss, rfl,
              ⟨fun h => absurd h hrc, fun h => by omega⟩,
              ⟨fun h => absurd h hrc, fun h => by omega⟩, fun h => absurd h hrc,
              fun _ => ⟨g1, g2, ?_, ?_, ?_⟩, ?_, ?_⟩
            · rw [← hst]; exact e3
            · rw [← hst]; exact e4
            · rw [← hst]; show st3.log ++ _ = _; rw [e5]
            · intro rest b hflag
              rw [cg_sweep, hflag]
              simp only [hpp0, htol, if_neg hrc]
            · intro fuel last r0 hflag
              rw [cg_inner2, hflag]
              simp only [if_true, hpp0, htol, if_neg hrc]
    · cases hpp

/-- Witness for C11: the pricing of the first person of `hexData` after the first master
solve; the reduced cost is -582 - 10000 and the column is admitted. -/
theorem column_admitted_iff_witness :
    ∃ st2 st3 st' rc,
      change_coefficients_subproblem hexData
        { hexSolvedState with solve_subproblem_p := hexSolvedState.solve_subproblem_p.set 0 false } 0
        = some st2 ∧
      solve_subproblem hexData cplexCodes hexOracle st2 0 = some (st3, rc) ∧
      price_person hexData cplexCodes hexOracle hexSolvedState 0 = some (st', rc) ∧
      (rc < -(1 / 1000) ↔ st'.nb_calls_CG = hexSolvedState.nb_calls_CG + 1) ∧
      (rc < -(1 / 1000) ↔
        st'.nb_columns_added_total = hexSolvedState.nb_columns_added_total + 1) ∧
      (rc < -(1 / 1000) →
        (∃ st5, add_column_to_master hexData
            { st3 with log := st3.log ++ [Event.priced 0],
                       nb_columns_added_total := st3.nb_columns_added_total + 1 } 0
            = some st5 ∧
          st'.masterproblem = st5.masterproblem ∧ st'.current_columns = st5.current_columns) ∧
        st'.current_columns.length = hexSolvedState.current_columns.length + 1 ∧
        st'.log = hexSolvedState.log ++ [Event.priced 0, Event.column_added 0]) ∧
      (¬ rc < -(1 / 1000) →
        st'.nb_calls_CG = hexSolvedState.nb_calls_CG ∧
        st'.nb_columns_added_total = hexSolvedState.nb_columns_added_total ∧
        st'.masterproblem = hexSolvedState.masterproblem ∧
        st'.current_columns = hexSolvedState.current_columns ∧
        st'.log = hexSolvedState.log ++ [Event.priced 0]) ∧
      (∀ rest b, hexSolvedState.solve_subproblem_p[0]? = some true →
        cg_sweep hexData cplexCodes hexOracle (0 :: rest) hexSolvedState b =
          cg_sweep hexData cplexCodes hexOracle rest st' (if rc < -(1 / 1000) then false else b)) ∧
      (∀ fuel last r0, hexSolvedState.solve_subproblem_p[0]? = some true →
        cg_inner2 hexData cplexCodes hexOracle (fuel + 1) hexSolvedState 0 last r0 =
          if (if 0 + 1 ≥ hexData.nb_people then 0 else 0 + 1) =
              (if rc < -(1 / 1000) then 0 else last) then
            Outcome.done (st', if 0 + 1 ≥ hexData.nb_people then 0 else 0 + 1,
              if rc < -(1 / 1000) then 0 else last, true)
          else if rc > -(1 / 1000) then
            cg_inner2 hexData cplexCodes hexOracle fuel st'
              (if 0 + 1 ≥ hexData.nb_people then 0 else 0 + 1)
              (if rc < -(1 / 1000) then 0 else last) rc
          else
            Outcome.done (st', if 0 + 1 ≥ hexData.nb_people then 0 else 0 + 1,
              if rc < -(1 / 1000) then 0 else last, false)) :=
  column_admitted_iff hexData cplexCodes hexOracle hexSolvedState 0 (by decide!)

/-- The pricing step evaluated for both people of `hexData` after the first master
solve: the first person has reduced cost -10582 and gets a column, the second person's
pricing problem is infeasible and nothing is added. -/
theorem price_person_hex_example :
    (price_person hexData cplexCodes hexOracle hexSolvedState 0).map
        (fun r => (r.2, r.1.nb_columns_added_total, r.1.nb_calls_CG,
          r.1.masterproblem.cols.length)) = some (-10582, 1, 1, 39) ∧
    (price_person hexData cplexCodes hexOracle hexSolvedState 1).map
        (fun r => (r.2, r.1.nb_columns_added_total, r.1.nb_calls_CG,
          r.1.masterproblem.cols.length)) = some (1000000000000 - 10000, 0, 0, 38) := by
  decide!

/-! ## The rows of the master and the duals read by `change_coefficients_subproblem` -/


theorem CPXaddrows_rows_kept (lp : CpxLP) (rhs : ℚ) (sense : Char) (mat : List (Nat × ℚ))
    (rowname : String) : lp.rows <+: (CPXaddrows lp rhs sense mat rowname).rows := by
  unfold CPXaddrows
  split
  · exact List.prefix_append _ _
  · exact List.prefix_refl _

theorem CPXaddcols_rows (lp : CpxLP) (obj : ℚ) (mat : List (Nat × ℚ)) (lb : ℚ)
    (ub : Option ℚ) (colname : String) :
    (CPXaddcols lp obj mat lb ub colname).rows = lp.rows := by
  unfold CPXaddcols
  split <;> rfl

theorem add_column_to_master_rows (pd : Problem_Data) (st st1 : State) (person : Nat)
    (h : add_column_to_master pd st person = some st1) :
    st1.masterproblem.rows = st.masterproblem.rows := by
  unfold add_column_to_master at h
  dsimp only at h
  split at h
  · cases h
  · split at h
    · simp only [Option.some.injEq] at h
      subst h
      exact CPXaddcols_rows _ _ _ _ _ _
    · cases h

theorem add_branching_restrictions_loop_rows (l : List Nat) :
    ∀ st : State, st.masterproblem.rows <+:
      (add_branching_restrictions_loop l st).masterproblem.rows := by
  induction l with
  | nil => intro st; exact List.prefix_refl _
  | cons i rest ih =>
    intro st
    rw [add_branching_restrictions_loop]
    exact List.IsPrefix.trans (CPXaddrows_rows_kept st.masterproblem 1 'E' [(i, 1)]
      ("Branching_Restriction_" ++ toString (st.nb_branching_dec + 1)))
      (ih { st with
        nb_branching_dec := st.nb_branching_dec + 1,
        masterproblem := CPXaddrows st.masterproblem 1 'E' [(i, 1)]
          ("Branching_Restriction_" ++ toString (st.nb_branching_dec + 1)) })

theorem remove_columns_inner_rows (fixed_columns : List Column) (cc : Column) (js : List Nat) :
    ∀ lp lp1, remove_columns_inner fixed_columns cc js lp = some lp1 → lp1.rows = lp.rows := by
  induction js with
  | nil =>
    intro lp lp1 h
    simp only [remove_columns_inner, Option.some.injEq] at h
    rw [← h]
  | cons j rest ih =>
    intro lp lp1 h
    rw [remove_columns_inner] at h
    split at h
    · split at h
      · cases h
      · split at h
        · split at h
          · exact (ih _ _ h).trans rfl
          · exact ih _ _ h
        · exact ih _ _ h
    · cases h

theorem remove_columns_outer_rows (fixed_columns : List Column) (nb : Nat) (ccs : List Column) :
    ∀ lp lp1, remove_columns_outer fixed_columns nb ccs lp = some lp1 → lp1.rows = lp.rows := by
  induction ccs with
  | nil =>
    intro lp lp1 h
    simp only [remove_columns_outer, Option.some.injEq] at h
    rw [← h]
  | cons cc rest ih =>
    intro lp lp1 h
    rw [remove_columns_outer] at h
    split at h
    · cases h
    · rename_i lp2 h2
      rw [ih _ _ h, remove_columns_inner_rows _ _ _ _ _ h2]

theorem evolved_rows_kept (pd : Problem_Data) (lp0 lp : CpxLP)
    (h : MasterEvolved pd lp0 lp) : lp0.rows <+: lp.rows := by
  induction h with
  | initial => exact List.prefix_refl _
  | add_column st st1 person _ hadd ih =>
    rw [add_column_to_master_rows pd st st1 person hadd]
    exact ih
  | branch st _ ih =>
    exact ih.trans (add_branching_restrictions_loop_rows _ st)
  | remove st st1 _ hrem ih =>
    unfold remove_columns_that_violate_branching_restrictions at hrem
    split at hrem
    · cases hrem
    · rename_i lp2 h2
      simp only [Option.some.injEq] at hrem
      subst hrem
      show lp0.rows <+: lp2.rows
      rw [remove_columns_outer_rows _ _ _ _ _ h2]
      exact ih

theorem add_coverage_rows_rows (pd : Problem_Data) (pre : String)
    (xs : List (Nat × Nat × Nat)) :
    ∀ lp lp1, add_coverage_rows pd pre xs lp = some lp1 →
      lp.cols.length = firstGenerated pd →
      (∀ x ∈ xs, x.1 < pd.nb_tasks ∧ x.2.1 < pd.nb_days ∧ x.2.2 < pd.nb_shifts) →
      lp1.cols.length = firstGenerated pd ∧
      lp1.rows = lp.rows ++ xs.map fun x =>
        (⟨name_tds pre "_day_" "_shift_" x, 'E', pd.shift_demands x.1 x.2.1 x.2.2⟩ : CpxRow) := by
  induction xs with
  | nil =>
    intro lp lp1 h hc _
    simp only [add_coverage_rows, Option.some.injEq] at h
    subst h
    exact ⟨hc, by simp⟩
  | cons x rest ih =>
    intro lp lp1 h hc hx
    rw [add_coverage_rows] at h
    split at h
    · have hx0 := hx x (List.mem_cons_self _ _)
      have hklt : tdsIndex pd x < pd.tds :=
        tdsIndex_lt pd x.1 x.2.1 x.2.2 hx0.1 hx0.2.1 hx0.2.2
      have hall : ∀ e ∈ coverage_entries pd x, e.1 < lp.cols.length := by
        intro e he
        rw [hc]
        simp only [coverage_entries, List.mem_append, List.mem_map, List.mem_range,
          List.mem_cons, List.mem_singleton, List.not_mem_nil, or_false] at he
        simp only [firstGenerated]
        rcases he with ⟨p, hp, rfl⟩ | rfl | rfl
        · simp only; omega
        · simp only; omega
        · simp only; omega
      obtain ⟨r1, r2⟩ := CPXaddrows_rows lp (pd.shift_demands x.1 x.2.1 x.2.2) 'E'
        (coverage_entries pd x) (name_tds pre "_day_" "_shift_" x) hall
      obtain ⟨g1, g2⟩ := ih _ lp1 h (by rw [r2, hc])
        (fun y hy => hx y (List.mem_cons_of_mem _ hy))
      refine ⟨g1, ?_⟩
      rw [g2, r1]
      simp
    · cases h

theorem add_convexity_rows_rows (pd : Problem_Data) (n : Nat) :
    ∀ (lp : CpxLP) (p0 : Nat), lp.cols.length = firstGenerated pd → p0 + n ≤ pd.nb_people →
      ((List.range' p0 n).foldl
        (fun lp p => CPXaddrows lp 1 'E' [(2 * pd.tds + p, 1)]
          ("One_column_for_person_" ++ toString (p + 1))) lp).rows =
        lp.rows ++ (List.range' p0 n).map convexity_row := by
  induction n with
  | zero => intro lp p0 _ _; simp
  | succ n ih =>
    intro lp p0 hc hp
    have hall : ∀ e ∈ [(2 * pd.tds + p0, (1 : ℚ))], e.1 < lp.cols.length := by
      intro e he
      rw [hc]
      simp only [List.mem_singleton] at he
      subst he
      simp only [firstGenerated]
      omega
    obtain ⟨r1, r2⟩ := CPXaddrows_rows lp 1 'E' [(2 * pd.tds + p0, 1)]
      ("One_column_for_person_" ++ toString (p0 + 1)) hall
    rw [List.range'_succ, List.foldl_cons, ih _ (p0 + 1) (by rw [r2, hc]) (by omega), r1]
    simp [convexity_row]

theorem tdsLoop_append (pd : Problem_Data) (c t : Nat) (h : c ≤ t) :
    tdsLoop pd 0 c ++ tdsLoop pd c t = tdsLoop pd 0 t := by
  unfold tdsLoop
  rw [← List.flatMap_append]
  congr 1
  have e : t - c + c = t := by omega
  have e2 := List.range'_append 0 c (t - c) 1
  simp only [Nat.one_mul, Nat.zero_add, e] at e2
  rw [Nat.sub_zero, Nat.sub_zero, e2]

theorem tdsLoop_getElem (pd : Problem_Data) (t d s : Nat) (ht : t < pd.nb_tasks)
    (hd : d < pd.nb_days) (hs : s < pd.nb_shifts) :
    (tdsLoop pd 0 pd.nb_tasks)[tdsIndex pd (t, d, s)]? = some (t, d, s) := by
  have hlt := tdsIndex_lt pd t d s ht hd hs
  have hlen : tdsIndex pd (t, d, s) < (tdsLoop pd 0 pd.nb_tasks).length := by
    rw [tdsLoop_length]; exact hlt
  rw [List.getElem?_eq_getElem hlen]
  obtain ⟨h1, _, h3, h4, h5⟩ := tdsLoop_getElem_index pd (tdsIndex pd (t, d, s)) _
    (List.getElem?_eq_getElem hlen)
  generalize (tdsLoop pd 0 pd.nb_tasks)[tdsIndex pd (t, d, s)] = x at h1 h3 h4 h5
  obtain ⟨t1, d1, s1⟩ := x
  simp only [tdsIndex] at h1
  simp only at h3 h4 h5
  obtain ⟨e1, e2, e3⟩ := triple_index_inj pd.nb_days pd.nb_shifts t1 d1 s1 t d s
    h4 h5 hd hs h1
  subst e1 e2 e3
  rfl

theorem build_master_problem_rows (pd : Problem_Data)
    (hC : pd.nb_tasks_CODU ≤ pd.nb_tasks) (hcap : pd.nb_people + 2 ≤ matCapacityMaster) :
    ∃ lp0, build_master_problem pd = some lp0 ∧
      lp0.rows = (tdsLoop pd 0 pd.nb_tasks).map (coverage_row pd) ++
        (List.range pd.nb_people).map convexity_row := by
  obtain ⟨hs0, hr0, hc0⟩ := master_variables_shape pd
  have hidx1 := tdsLoop_map_index_general pd 0 pd.nb_tasks_CODU
  have hlen1 : (tdsLoop pd 0 pd.nb_tasks_CODU).length =
      pd.nb_tasks_CODU * (pd.nb_days * pd.nb_shifts) := by
    have := congrArg List.length hidx1
    simpa using this
  have hv1 : ∀ x ∈ tdsLoop pd 0 pd.nb_tasks_CODU,
      x.1 < pd.nb_tasks ∧ x.2.1 < pd.nb_days ∧ x.2.2 < pd.nb_shifts := by
    intro x hx
    have := mem_tdsLoop pd 0 pd.nb_tasks_CODU x hx
    exact ⟨by omega, this.2.2.1, this.2.2.2⟩
  have hv2 : ∀ x ∈ tdsLoop pd pd.nb_tasks_CODU pd.nb_tasks,
      x.1 < pd.nb_tasks ∧ x.2.1 < pd.nb_days ∧ x.2.2 < pd.nb_shifts := by
    intro x hx
    have := mem_tdsLoop pd pd.nb_tasks_CODU pd.nb_tasks x hx
    exact ⟨this.2.1, this.2.2.1, this.2.2.2⟩
  obtain ⟨lp4, e1, _, e3, _⟩ := add_coverage_rows_shape pd "Coverage_constraint_CODU_task_"
    hcap (tdsLoop pd 0 pd.nb_tasks_CODU) (master_variables pd) 0 hs0 hc0 hr0
    (by rw [hidx1, hlen1]; simp) hv1
  obtain ⟨_, q1⟩ := add_coverage_rows_rows pd _ _ _ _ e1 hc0 hv1
  have hlp4 : ∃ lp5, add_coverage_rows pd "Coverage_constraint_ambulances_task_"
      (tdsLoop pd pd.nb_tasks_CODU pd.nb_tasks) lp4 = some lp5 := by
    have : ∀ (xs : List (Nat × Nat × Nat)) (lp : CpxLP),
        ∃ lp5, add_coverage_rows pd "Coverage_constraint_ambulances_task_" xs lp = some lp5 := by
      intro xs
      induction xs with
      | nil => intro lp; exact ⟨lp, rfl⟩
      | cons x rest ih =>
        intro lp
        rw [add_coverage_rows, if_pos hcap]
        exact ih _
    exact this _ _
  obtain ⟨lp5, e5⟩ := hlp4
  obtain ⟨c5, q5⟩ := add_coverage_rows_rows pd _ _ _ _ e5 e3 hv2
  refine ⟨add_convexity_rows pd lp5, ?_, ?_⟩
  · simp only [build_master_problem, e1, e5]
  · have hconv := add_convexity_rows_rows pd pd.nb_people lp5 0 c5 (by omega)
    rw [← List.range_eq_range'] at hconv
    unfold add_convexity_rows
    rw [hconv, q5, q1]
    have hm : (master_variables pd).rows = [] := by
      rw [master_variables_eq]
    rw [hm, List.nil_append, ← tdsLoop_append pd pd.nb_tasks_CODU pd.nb_tasks hC, List.map_append]
    congr 2
    · apply List.map_congr_left
      intro x hx
      have := mem_tdsLoop pd 0 pd.nb_tasks_CODU x hx
      simp only [coverage_row, this.2.1, if_true]
    · apply List.map_congr_left
      intro x hx
      have := mem_tdsLoop pd pd.nb_tasks_CODU pd.nb_tasks x hx
      have hnot : ¬ x.1 < pd.nb_tasks_CODU := by omega
      simp only [coverage_row, hnot, if_false]

theorem CPXchgobj_spec (sub values : List ℚ) (h : values.length ≤ sub.length) :
    (CPXchgobj sub values).length = sub.length ∧
    (∀ i, i < values.length → (CPXchgobj sub values)[i]? = values[i]?) ∧
    (∀ k, values.length ≤ k → (CPXchgobj sub values)[k]? = sub[k]?) := by
  simp only [CPXchgobj, if_pos h]
  refine ⟨by simp; omega, ?_, ?_⟩
  · intro i hi
    rw [List.getElem?_append_left hi]
  · intro k hk
    rw [List.getElem?_append_right hk, List.getElem?_drop]
    congr 1
    omega

/-- C12. Let `lp0` be the master built by `build_master_problem` (with
`nb_tasks_CODU ≤ nb_tasks`) and let the master of the state have evolved from it by any
number of calls of `add_column_to_master`, `add_branching_restrictions` and
`remove_columns_that_violate_branching_restrictions`, the dual array holding one value
per master row. Then `change_coefficients_subproblem` for person `p` returns, and for
every `t, d, s`: the master row at index `t*nb_days*nb_shifts + d*nb_shifts + s` is the
coverage row of `(t, d, s)`, and the objective coefficient of column
`t*nb_days*nb_shifts + d*nb_shifts + s` of the pricing problem of `p` is minus the dual
value of that row; the master row at index `nb_tasks*nb_days*nb_shifts + p` is the
convexity row of `p` and `mu_p` is its dual value; the objective coefficients of all
later columns (the penalty variables) and the pricing problems of the other people are
unchanged. -/
theorem change_coefficients_subproblem_spec (pd : Problem_Data) (lp0 : CpxLP) (st : State)
    (person : Nat) (sub : List ℚ)
    (hC : pd.nb_tasks_CODU ≤ pd.nb_tasks) (hcap : pd.nb_people + 2 ≤ matCapacityMaster)
    (hb : build_master_problem pd = some lp0)
    (hev : MasterEvolved pd lp0 st.masterproblem)
    (hdual : st.dual_var_master.length = CPXgetnumrows st.masterproblem)
    (hvc : pd.tds ≤ st.values_coef.length)
    (hp : person < pd.nb_people)
    (hsub : st.subproblems[person]? = some sub) (hlen : pd.tds ≤ sub.length) :
    ∃ st1 sub1, change_coefficients_subproblem pd st person = some st1 ∧
      st1.subproblems[person]? = some sub1 ∧
      (∀ t d s, t < pd.nb_tasks → d < pd.nb_days → s < pd.nb_shifts →
        st.masterproblem.rows[t * pd.nb_days * pd.nb_shifts + d * pd.nb_shifts + s]? =
          some (coverage_row pd (t, d, s)) ∧
        ∃ dual, st.dual_var_master[t * pd.nb_days * pd.nb_shifts + d * pd.nb_shifts + s]? =
            some dual ∧
          sub1[t * pd.nb_days * pd.nb_shifts + d * pd.nb_shifts + s]? = some (-dual)) ∧
      st.masterproblem.rows[pd.nb_tasks * pd.nb_days * pd.nb_shifts + person]? =
        some (convexity_row person) ∧
      st.dual_var_master[pd.nb_tasks * pd.nb_days * pd.nb_shifts + person]? = some st1.mu_p ∧
      sub1.length = sub.length ∧
      (∀ k, pd.nb_tasks * pd.nb_days * pd.nb_shifts ≤ k → sub1[k]? = sub[k]?) ∧
      (∀ q, q ≠ person → st1.subproblems[q]? = st.subproblems[q]?) := by
  obtain ⟨lp0', hb', hrows⟩ := build_master_problem_rows pd hC hcap
  rw [hb] at hb'
  simp only [Option.some.injEq] at hb'
  subst hb'
  obtain ⟨extra, hpre⟩ := evolved_rows_kept pd lp0 st.masterproblem hev
  have htds : pd.nb_tasks * pd.nb_days * pd.nb_shifts = pd.tds := rfl
  have hl0 : lp0.rows.length = pd.tds + pd.nb_people := by
    rw [hrows]
    simp only [List.length_append, List.length_map, tdsLoop_length, List.length_range]
  have hnum : pd.tds + pd.nb_people ≤ st.dual_var_master.length := by
    rw [hdual, CPXgetnumrows, ← hpre, List.length_append, hl0]
    omega
  have hrow : ∀ i, i < pd.tds + pd.nb_people → st.masterproblem.rows[i]? = lp0.rows[i]? := by
    intro i hi
    rw [← hpre, List.getElem?_append_left (by rw [hl0]; exact hi)]
  have hmu := List.getElem?_eq_getElem (show pd.tds + person < st.dual_var_master.length by omega)
  have hlenle : pd.tds ≤ st.dual_var_master.length := by omega
  have htake : (((st.dual_var_master.take pd.tds).map (fun v => -v) ++
      st.values_coef.drop pd.tds).take pd.tds) = (st.dual_var_master.take pd.tds).map (fun v => -v) := by
    rw [List.take_append_of_le_length (by simp [hlenle]), List.take_of_length_le (by simp)]
  have hvlen : ((st.dual_var_master.take pd.tds).map (fun v => -v)).length = pd.tds := by
    simp [hlenle]
  obtain ⟨c1, c2, c3⟩ := CPXchgobj_spec sub ((st.dual_var_master.take pd.tds).map (fun v => -v))
    (by rw [hvlen]; exact hlen)
  have hpl : person < st.subproblems.length := by
    by_contra hcon
    rw [List.getElem?_eq_none (not_lt.mp hcon)] at hsub
    cases hsub
  refine ⟨{ st with
      mu_p := st.dual_var_master[pd.tds + person],
      values_coef := (st.dual_var_master.take pd.tds).map (fun v => -v) ++
        st.values_coef.drop pd.tds,
      subproblems := st.subproblems.set person
        (CPXchgobj sub ((st.dual_var_master.take pd.tds).map (fun v => -v))) },
    CPXchgobj sub ((st.dual_var_master.take pd.tds).map (fun v => -v)), ?_, ?_, ?_, ?_, ?_,
    c1, ?_, ?_⟩
  · simp only [change_coefficients_subproblem, hmu, hlenle, hvc, and_self, if_true, hsub, htake]
  · simp only [List.getElem?_set, hpl, if_true]
  · intro t d s ht hd hs
    have hi := tdsIndex_lt pd t d s ht hd hs
    have hidx : t * pd.nb_days * pd.nb_shifts + d * pd.nb_shifts + s = tdsIndex pd (t, d, s) := rfl
    rw [hidx]
    have hbd : tdsIndex pd (t, d, s) < st.dual_var_master.length := by omega
    refine ⟨?_, st.dual_var_master[tdsIndex pd (t, d, s)],
      List.getElem?_eq_getElem hbd, ?_⟩
    · rw [hrow _ (by omega), hrows,
        List.getElem?_append_left (by simp only [List.length_map, tdsLoop_length]; exact hi),
        List.getElem?_map, tdsLoop_getElem pd t d s ht hd hs]
      rfl
    · rw [c2 _ (by rw [hvlen]; exact hi), List.getElem?_map, List.getElem?_take_of_lt hi,
        List.getElem?_eq_getElem (by omega)]
      rfl
  · rw [htds, hrow _ (by omega), hrows,
      List.getElem?_append_right (by simp only [List.length_map, tdsLoop_length]; omega)]
    simp only [List.length_map, tdsLoop_length, Nat.add_sub_cancel_left, List.getElem?_map,
      List.getElem?_range hp, Option.map_some']
  · exact hmu
  · intro k hk
    rw [htds] at hk
    exact c3 k (by rw [hvlen]; exact hk)
  · intro q hq
    show (st.subproblems.set person _)[q]? = _
    rw [List.getElem?_set_ne (fun h => hq h.symm)]

/-- Witness for C12: the master of `hexData` after the column of the first person has been
added, repriced for the second person. -/
theorem change_coefficients_subproblem_spec_witness :
    ∃ st1 sub1, change_coefficients_subproblem hexData hexColumnState 1 = some st1 ∧
      st1.subproblems[1]? = some sub1 ∧
      (∀ t d s, t < hexData.nb_tasks → d < hexData.nb_days → s < hexData.nb_shifts →
        hexColumnState.masterproblem.rows[
            t * hexData.nb_days * hexData.nb_shifts + d * hexData.nb_shifts + s]? =
          some (coverage_row hexData (t, d, s)) ∧
        ∃ dual, hexColumnState.dual_var_master[
            t * hexData.nb_days * hexData.nb_shifts + d * hexData.nb_shifts + s]? = some dual ∧
          sub1[t * hexData.nb_days * hexData.nb_shifts + d * hexData.nb_shifts + s]? =
            some (-dual)) ∧
      hexColumnState.masterproblem.rows[
          hexData.nb_tasks * hexData.nb_days * hexData.nb_shifts + 1]? =
        some (convexity_row 1) ∧
      hexColumnState.dual_var_master[
          hexData.nb_tasks * hexData.nb_days * hexData.nb_shifts + 1]? = some st1.mu_p ∧
      sub1.length = (subproblem_objective hexData).length ∧
      (∀ k, hexData.nb_tasks * hexData.nb_days * hexData.nb_shifts ≤ k →
        sub1[k]? = (subproblem_objective hexData)[k]?) ∧
      (∀ q, q ≠ 1 → st1.subproblems[q]? = hexColumnState.subproblems[q]?) :=
  change_coefficients_subproblem_spec hexData hexPricedState.masterproblem hexColumnState 1
    (subproblem_objective hexData) (by decide) (by decide) (by decide!)
    (MasterEvolved.add_column hexPricedState hexColumnState 0 MasterEvolved.initial (by decide!))
    (by decide!) (by decide!) (by decide) (by decide!) (by decide!)

/-- The repricing evaluated: with all coverage duals at 100 and the dual 10000 on the
convexity row of the second person, the objective of the pricing problem becomes -100 on
the 18 work variables and stays 1, 1, 10 on `Y_Hplus`, `Y_Hmin`, `Y_G_1`. -/
theorem change_coefficients_subproblem_example :
    (change_coefficients_subproblem hexData hexColumnState 1).map
        (fun s => (s.mu_p, s.subproblems[1]?)) =
      some ((10000 : ℚ), some ((List.replicate 18 (-100) ++ [1, 1, 10] : List ℚ))) := by
  decide!

/-! ## Rows added by a sequence of `CPXaddrows` calls -/


theorem CPXaddrows_cols_length (lp : CpxLP) (rhs : ℚ) (sense : Char) (mat : List (Nat × ℚ))
    (rowname : String) : (CPXaddrows lp rhs sense mat rowname).cols.length = lp.cols.length := by
  unfold CPXaddrows
  split
  · simp only [fold_addEntry_length]
  · rfl

theorem matrixEntry_addrows_old (lp : CpxLP) (rhs : ℚ) (sense : Char) (mat : List (Nat × ℚ))
    (rowname : String) (i j : Nat) (hi : i < lp.rows.length) :
    matrixEntry (CPXaddrows lp rhs sense mat rowname) i j = matrixEntry lp i j := by
  by_cases hall : ∀ e ∈ mat, e.1 < lp.cols.length
  · rw [matrixEntry_addrows lp rhs sense mat rowname hall]
    have : ¬ (i = lp.rows.length ∧ j < lp.cols.length) := by omega
    rw [if_neg this, add_zero]
  · have h : ¬ (mat.all (fun e => decide (e.1 < lp.cols.length)) = true) := by
      rw [List.all_eq_true]
      intro hcon
      apply hall
      intro e he
      simpa using hcon e he
    unfold CPXaddrows
    rw [if_neg h]

theorem add_row_calls_append (a b : List RowCall) (lp : CpxLP) :
    add_row_calls (a ++ b) lp = add_row_calls b (add_row_calls a lp) := by
  simp only [add_row_calls, List.foldl_append]

theorem add_row_calls_keeps (calls : List RowCall) :
    ∀ lp : CpxLP, (add_row_calls calls lp).cols.length = lp.cols.length ∧
      lp.rows <+: (add_row_calls calls lp).rows ∧
      ∀ i j, i < lp.rows.length →
        matrixEntry (add_row_calls calls lp) i j = matrixEntry lp i j := by
  induction calls with
  | nil => intro lp; exact ⟨rfl, List.prefix_refl _, fun _ _ _ => rfl⟩
  | cons r rest ih =>
    intro lp
    obtain ⟨h1, h2, h3⟩ := ih (CPXaddrows lp r.rhs r.sense r.mat r.name)
    have hp := CPXaddrows_rows_kept lp r.rhs r.sense r.mat r.name
    refine ⟨?_, ?_, ?_⟩
    · show (add_row_calls rest _).cols.length = _
      rw [h1, CPXaddrows_cols_length]
    · exact hp.trans h2
    · intro i j hi
      show matrixEntry (add_row_calls rest _) i j = _
      rw [h3 i j (lt_of_lt_of_le hi hp.length_le), matrixEntry_addrows_old _ _ _ _ _ _ _ hi]

theorem add_row_calls_valid (calls : List RowCall) :
    ∀ lp : CpxLP, (∀ r ∈ calls, ∀ e ∈ r.mat, e.1 < lp.cols.length) →
      (add_row_calls calls lp).rows = lp.rows ++ calls.map RowCall.row ∧
      ∀ k r j, calls[k]? = some r →
        matrixEntry (add_row_calls calls lp) (lp.rows.length + k) j =
          matrixEntry lp (lp.rows.length + k) j +
            if j < lp.cols.length then matCoef r.mat j else 0 := by
  induction calls with
  | nil =>
    intro lp _
    refine ⟨by simp [add_row_calls], ?_⟩
    intro k r j h
    simp at h
  | cons r0 rest ih =>
    intro lp hv
    have hall : ∀ e ∈ r0.mat, e.1 < lp.cols.length := hv r0 (List.mem_cons_self _ _)
    obtain ⟨r1, r2⟩ := CPXaddrows_rows lp r0.rhs r0.sense r0.mat r0.name hall
    obtain ⟨g1, g2⟩ := ih (CPXaddrows lp r0.rhs r0.sense r0.mat r0.name) (by
      intro r hr e he
      rw [r2]
      exact hv r (List.mem_cons_of_mem _ hr) e he)
    obtain ⟨_, _, k3⟩ := add_row_calls_keeps rest (CPXaddrows lp r0.rhs r0.sense r0.mat r0.name)
    refine ⟨?_, ?_⟩
    · show (add_row_calls rest _).rows = _
      rw [g1, r1]
      simp [RowCall.row]
    · intro k r j h
      show matrixEntry (add_row_calls rest _) _ j = _
      cases k with
      | zero =>
        simp only [List.getElem?_cons_zero, Option.some.injEq] at h
        subst h
        rw [Nat.add_zero, k3 _ _ (by rw [r1]; simp),
          matrixEntry_addrows lp r0.rhs r0.sense r0.mat r0.name hall]
        by_cases hj : j < lp.cols.length
        · simp [hj]
        · simp [hj]
      | succ k =>
        simp only [List.getElem?_cons_succ] at h
        have := g2 k r j h
        rw [r1, r2] at this
        simp only [List.length_append, List.length_singleton] at this
        rw [show lp.rows.length + (k + 1) = lp.rows.length + 1 + k by omega, this,
          matrixEntry_addrows lp r0.rhs r0.sense r0.mat r0.name hall]
        have hne : ¬ (lp.rows.length + 1 + k = lp.rows.length ∧ j < lp.cols.length) := by omega
        rw [if_neg hne, add_zero]

theorem sum_matCoef_mul (n : Nat) (f : Nat → ℚ) (mat : List (Nat × ℚ))
    (h : ∀ e ∈ mat, e.1 < n) :
    (∑ j in Finset.range n, matCoef mat j * f j) = (mat.map fun e => e.2 * f e.1).sum := by
  induction mat with
  | nil => simp [matCoef]
  | cons e rest ih =>
    have he := h e (List.mem_cons_self _ _)
    have hsplit : ∀ j, matCoef (e :: rest) j = (if j = e.1 then e.2 else 0) + matCoef rest j := by
      intro j
      have : e :: rest = [(e.1, e.2)] ++ rest := rfl
      rw [this, matCoef_append, matCoef_singleton]
    simp only [hsplit, add_mul, Finset.sum_add_distrib, List.map_cons, List.sum_cons]
    rw [ih (fun e1 h1 => h e1 (List.mem_cons_of_mem _ h1))]
    congr 1
    have : ∀ j, (if j = e.1 then e.2 else 0) * f j = if j = e.1 then e.2 * f e.1 else 0 := by
      intro j
      by_cases hj : j = e.1
      · simp [hj]
      · simp [hj]
    simp only [this]
    exact sum_single_range n e.1 _ he

/-- The rows created by a valid prefix of the calls that build a problem from fresh
variables: position, content and left-hand side. -/
theorem add_row_calls_row (a b : List RowCall) (lp : CpxLP) (x : List ℚ)
    (hrows : lp.rows = []) (hfresh : ∀ i j, matrixEntry lp i j = 0)
    (hv : ∀ r ∈ a, ∀ e ∈ r.mat, e.1 < lp.cols.length) (k : Nat) (r : RowCall)
    (hk : a[k]? = some r) :
    (add_row_calls (a ++ b) lp).rows[k]? = some r.row ∧
    row_activity (add_row_calls (a ++ b) lp) x k = rowValue r.mat x := by
  obtain ⟨g1, g2⟩ := add_row_calls_valid a lp hv
  obtain ⟨c1, c2, c3⟩ := add_row_calls_keeps b (add_row_calls a lp)
  obtain ⟨c0, _, _⟩ := add_row_calls_keeps a lp
  have hklt : k < a.length := by
    by_contra hcon
    rw [List.getElem?_eq_none (not_lt.mp hcon)] at hk
    cases hk
  rw [hrows, List.nil_append] at g1
  have hlen : k < (add_row_calls a lp).rows.length := by
    rw [g1, List.length_map]; exact hklt
  rw [add_row_calls_append]
  refine ⟨?_, ?_⟩
  · obtain ⟨extra, he⟩ := c2
    rw [← he, List.getElem?_append_left hlen, g1, List.getElem?_map, hk]
    rfl
  · unfold row_activity
    rw [c1, c0]
    have hent : ∀ j, matrixEntry (add_row_calls b (add_row_calls a lp)) k j =
        if j < lp.cols.length then matCoef r.mat j else 0 := by
      intro j
      rw [c3 k j hlen]
      have := g2 k r j hk
      rw [hrows] at this
      simp only [List.length_nil, Nat.zero_add] at this
      rw [this, hfresh, zero_add]
    have hs : (∑ j in Finset.range lp.cols.length,
        matrixEntry (add_row_calls b (add_row_calls a lp)) k j * x.getD j 0) =
        ∑ j in Finset.range lp.cols.length, matCoef r.mat j * x.getD j 0 := by
      apply Finset.sum_congr rfl
      intro j hj
      rw [hent j, if_pos (Finset.mem_range.mp hj)]
    rw [hs, sum_matCoef_mul _ _ _ (hv r (List.getElem?_mem hk))]
    rfl

/-! ## The pricing problem built by `build_subproblem_problem` -/


theorem subproblem_variables_eq (pd : Problem_Data) :
    subproblem_variables pd =
      { cols :=
          (tdsLoop pd 0 pd.nb_tasks).map (fun x =>
            (⟨name_tds "a_" "_" "_" x, 0, 0, some 1, []⟩ : CpxCol)) ++
          (List.range pd.nb_weekends).map (fun w =>
            (⟨"Y_Wplus_" ++ toString (w + 1), pd.obj_weight_Y_W, 0, none, []⟩ : CpxCol)) ++
          (List.range pd.nb_weekends).map (fun w =>
            (⟨"Y_Wmin_" ++ toString (w + 1), pd.obj_weight_Y_W, 0, none, []⟩ : CpxCol)) ++
          [⟨"Y_Hplus", pd.obj_weight_Y_Hplus, 0, none, []⟩,
           ⟨"Y_Hmin", pd.obj_weight_Y_Hmin, 0, none, []⟩] ++
          (List.range pd.nb_groups).map (fun g =>
            (⟨"Y_G_" ++ toString (g + 1),
              if g < pd.nb_groups_CODU then pd.obj_weight_Y_G_CODU
              else pd.obj_weight_Y_G_ambulances, 0, none, []⟩ : CpxCol)),
        rows := [] } := by
  unfold subproblem_variables
  have h1 := foldl_newcols (fun x : Nat × Nat × Nat =>
    (⟨name_tds "a_" "_" "_" x, 0, 0, some 1, []⟩ : CpxCol)) (tdsLoop pd 0 pd.nb_tasks)
    CPXcreateprob
  have h2 := foldl_newcols (fun w : Nat =>
    (⟨"Y_Wplus_" ++ toString (w + 1), pd.obj_weight_Y_W, 0, none, []⟩ : CpxCol))
    (List.range pd.nb_weekends)
  have h3 := foldl_newcols (fun w : Nat =>
    (⟨"Y_Wmin_" ++ toString (w + 1), pd.obj_weight_Y_W, 0, none, []⟩ : CpxCol))
    (List.range pd.nb_weekends)
  have h4 := foldl_newcols (fun g : Nat =>
    (⟨"Y_G_" ++ toString (g + 1),
      if g < pd.nb_groups_CODU then pd.obj_weight_Y_G_CODU
      else pd.obj_weight_Y_G_ambulances, 0, none, []⟩ : CpxCol)) (List.range pd.nb_groups)
  simp only at h1 h2 h3 h4
  dsimp only
  rw [h1, h2, h3, h4]
  simp [CPXcreateprob, CPXnewcols, List.append_assoc]

theorem subproblem_variables_spec (pd : Problem_Data) :
    (subproblem_variables pd).rows = [] ∧
    (subproblem_variables pd).cols.length = numcols_subproblem pd ∧
    ∀ i j, matrixEntry (subproblem_variables pd) i j = 0 := by
  refine ⟨by rw [subproblem_variables_eq], ?_, ?_⟩
  · rw [subproblem_variables_eq]
    simp only [List.length_append, List.length_map, tdsLoop_length, List.length_range,
      List.length_cons, List.length_nil, numcols_subproblem]
    omega
  · intro i j
    unfold matrixEntry
    cases h : (subproblem_variables pd).cols[j]? with
    | none => rfl
    | some c =>
      have hm := List.getElem?_mem h
      rw [subproblem_variables_eq] at hm
      have hc : c.coefs = [] := by
        simp only [List.mem_append, List.mem_map, List.mem_cons, List.mem_singleton,
          List.not_mem_nil, or_false] at hm
        rcases hm with (((⟨_, _, rfl⟩ | ⟨_, _, rfl⟩) | ⟨_, _, rfl⟩) | (rfl | rfl)) | ⟨_, _, rfl⟩ <;> rfl
      simp only [coef, hc, List.filter_nil, List.map_nil, List.sum_nil]

theorem sum_map_flatMap_range {α : Type} (n : Nat) (f : Nat → List α) (g : α → ℚ) :
    (((List.range n).flatMap f).map g).sum = ∑ t in Finset.range n, ((f t).map g).sum := by
  induction n with
  | zero => simp
  | succ n ih =>
    rw [List.range_succ, List.flatMap_append, List.map_append, List.sum_append, ih,
      Finset.sum_range_succ]
    simp

theorem build_subproblem_problem_eq (pd : Problem_Data) (person : Nat) (lp : CpxLP)
    (hb : build_subproblem_problem pd person = some lp) :
    lp = add_row_calls (subproblem_rows pd person) (subproblem_variables pd) ∧
      pd.start_day ≤ 6 := by
  unfold build_subproblem_problem at hb
  split at hb
  · rename_i h
    simp only [Option.some.injEq] at hb
    exact ⟨hb.symm, h.1⟩
  · cases hb

theorem three_entries_value (x : List ℚ) (a b c a1 b1 c1 : Nat) (ha : a = a1) (hb : b = b1)
    (hc : c = c1) :
    (([(a, (1 : ℚ)), (b, 1), (c, 1)].map fun e => e.2 * x.getD e.1 0).sum) =
      x.getD a1 0 + x.getD b1 0 + x.getD c1 0 := by
  subst ha hb hc
  simp only [List.map_cons, List.map_nil, List.sum_cons, List.sum_nil]
  ring

theorem constraint_set_2_rows (pd : Problem_Data) (x : List ℚ) (hS : pd.nb_shifts = 3)
    (hD : 1 ≤ pd.nb_days) (k : Nat) (hk : k < 3 * pd.nb_days - 2) :
    ∃ r, (constraint_set_2_1 pd ++ constraint_set_2_2 pd ++ constraint_set_2_3 pd)[k]? = some r ∧
      r.sense = 'L' ∧ r.rhs = 1 ∧ rowValue r.mat x = windowSum pd x (windowOfRow pd k) := by
  have l1 : (constraint_set_2_1 pd).length = pd.nb_days := by simp [constraint_set_2_1]
  have l2 : (constraint_set_2_2 pd).length = pd.nb_days - 1 := by simp [constraint_set_2_2]
  have l3 : (constraint_set_2_3 pd).length = pd.nb_days - 1 := by simp [constraint_set_2_3]
  by_cases h1 : k < pd.nb_days
  · refine ⟨row_2_1 pd k, ?_, rfl, rfl, ?_⟩
    · rw [List.append_assoc, List.getElem?_append_left (by rw [l1]; exact h1)]
      simp only [constraint_set_2_1, List.getElem?_map, List.getElem?_range h1, Option.map_some']
    · simp only [row_2_1, rowValue, windowSum, windowOfRow, if_pos h1]
      rw [sum_map_flatMap_range]
      apply Finset.sum_congr rfl
      intro t _
      apply three_entries_value <;>
        (simp only [tdsIndex, Shift.night, Shift.morning, Shift.afternoon, hS]; omega)
  · by_cases h2 : k < 2 * pd.nb_days - 1
    · have hd : k - pd.nb_days < pd.nb_days - 1 := by omega
      refine ⟨row_2_2 pd (k - pd.nb_days), ?_, rfl, rfl, ?_⟩
      · rw [List.getElem?_append_left (by rw [List.length_append, l1, l2]; omega),
          List.getElem?_append_right (by rw [l1]; omega), l1]
        simp only [constraint_set_2_2, List.getElem?_map, List.getElem?_range hd,
          Option.map_some']
      · simp only [row_2_2, rowValue, windowSum, windowOfRow, if_neg h1, if_pos h2]
        rw [sum_map_flatMap_range]
        apply Finset.sum_congr rfl
        intro t _
        apply three_entries_value <;>
          (simp only [tdsIndex, Shift.night, Shift.morning, Shift.afternoon, hS]; omega)
    · have hd : k - (2 * pd.nb_days - 1) < pd.nb_days - 1 := by omega
      refine ⟨row_2_3 pd (k - (2 * pd.nb_days - 1)), ?_, rfl, rfl, ?_⟩
      · rw [List.getElem?_append_right (by rw [List.length_append, l1, l2]; omega),
          List.length_append, l1, l2]
        have : k - (pd.nb_days + (pd.nb_days - 1)) = k - (2 * pd.nb_days - 1) := by omega
        rw [this]
        simp only [constraint_set_2_3, List.getElem?_map, List.getElem?_range hd,
          Option.map_some']
      · simp only [row_2_3, rowValue, windowSum, windowOfRow, if_neg h1, if_neg h2]
        rw [sum_map_flatMap_range]
        apply Finset.sum_congr rfl
        intro t _
        apply three_entries_value <;>
          (simp only [tdsIndex, Shift.night, Shift.morning, Shift.afternoon, hS]; omega)

theorem constraint_set_2_valid (pd : Problem_Data) (hS : pd.nb_shifts = 3) :
    ∀ r ∈ constraint_set_2_1 pd ++ constraint_set_2_2 pd ++ constraint_set_2_3 pd,
      ∀ e ∈ r.mat, e.1 < (subproblem_variables pd).cols.length := by
  intro r hr e he
  rw [(subproblem_variables_spec pd).2.1, numcols_subproblem]
  have hidx : ∀ t d s, t < pd.nb_tasks → d < pd.nb_days → s < 3 →
      tdsIndex pd (t, d, s) < pd.tds := by
    intro t d s ht hd hs
    exact tdsIndex_lt pd t d s ht hd (by omega)
  simp only [List.mem_append, constraint_set_2_1, constraint_set_2_2, constraint_set_2_3,
    List.mem_map, List.mem_range, row_2_1, row_2_2, row_2_3] at hr
  rcases hr with (⟨d, hd, rfl⟩ | ⟨d, hd, rfl⟩) | ⟨d, hd, rfl⟩ <;>
  · simp only [List.mem_flatMap, List.mem_range, List.mem_cons, List.mem_singleton,
      List.not_mem_nil, or_false] at he
    obtain ⟨t, ht, he⟩ := he
    rcases he with rfl | rfl | rfl <;>
    · have := hidx t
      simp only [Shift.night, Shift.morning, Shift.afternoon]
      first
        | exact Nat.lt_of_lt_of_le (this d _ ht (by omega) (by omega)) (by omega)
        | exact Nat.lt_of_lt_of_le (this (d + 1) _ ht (by omega) (by omega)) (by omega)

theorem window_is_row (pd : Problem_Data) (hD : 1 ≤ pd.nb_days) (w : Nat)
    (hw : w + 2 < 3 * pd.nb_days) :
    ∃ k, k < 3 * pd.nb_days - 2 ∧ windowOfRow pd k = w := by
  have h3 : w % 3 = 0 ∨ w % 3 = 1 ∨ w % 3 = 2 := by omega
  rcases h3 with h | h | h
  · refine ⟨w / 3, by omega, ?_⟩
    have : w / 3 < pd.nb_days := by omega
    simp only [windowOfRow, if_pos this]
    omega
  · refine ⟨pd.nb_days + w / 3, by omega, ?_⟩
    have h1 : ¬ (pd.nb_days + w / 3 < pd.nb_days) := by omega
    have h2 : pd.nb_days + w / 3 < 2 * pd.nb_days - 1 := by omega
    simp only [windowOfRow, if_neg h1, if_pos h2]
    omega
  · refine ⟨2 * pd.nb_days - 1 + w / 3, by omega, ?_⟩
    have h1 : ¬ (2 * pd.nb_days - 1 + w / 3 < pd.nb_days) := by omega
    have h2 : ¬ (2 * pd.nb_days - 1 + w / 3 < 2 * pd.nb_days - 1) := by omega
    simp only [windowOfRow, if_neg h1, if_neg h2]
    omega

theorem windowOfRow_lt (pd : Problem_Data) (k : Nat) (hk : k < 3 * pd.nb_days - 2) :
    windowOfRow pd k + 2 < 3 * pd.nb_days := by
  unfold windowOfRow
  split_ifs <;> omega

theorem constraint_set_2_holds (pd : Problem_Data) (person : Nat) (lp : CpxLP) (x : List ℚ)
    (hb : build_subproblem_problem pd person = some lp) (hS : pd.nb_shifts = 3)
    (hD : 1 ≤ pd.nb_days) (k : Nat) (hk : k < 3 * pd.nb_days - 2) :
    (∃ r, (constraint_set_2_1 pd ++ constraint_set_2_2 pd ++ constraint_set_2_3 pd)[k]? =
        some r ∧ lp.rows[k]? = some r.row) ∧
    (RowHolds lp x k ↔ windowSum pd x (windowOfRow pd k) ≤ 1) := by
  obtain ⟨hlp, _⟩ := build_subproblem_problem_eq pd person lp hb
  obtain ⟨v1, v2, v3⟩ := subproblem_variables_spec pd
  have hsplit : subproblem_rows pd person =
      (constraint_set_2_1 pd ++ constraint_set_2_2 pd ++ constraint_set_2_3 pd) ++
        (constraint_set_3 pd person ++ constraint_set_4 pd person ++
          constraint_set_5 pd person ++ [constraint_set_7 pd] ++ constraint_set_8 pd ++
          [constraint_set_9 pd] ++ constraint_set_12 pd person ++
          [constraint_set_13 pd person Shift.night "night",
           constraint_set_13 pd person Shift.morning "morning",
           constraint_set_13 pd person Shift.afternoon "afternoon"]) := by
    simp only [subproblem_rows, List.append_assoc]
  obtain ⟨r, h1, h3, h4, h5⟩ := constraint_set_2_rows pd x hS hD k hk
  obtain ⟨q1, q2⟩ := add_row_calls_row _ _ (subproblem_variables pd) x v1 v3
    (constraint_set_2_valid pd hS) k r h1
  rw [← hsplit, ← hlp] at q1 q2
  rw [h5] at q2
  refine ⟨⟨r, h1, q1⟩, ?_⟩
  unfold RowHolds
  rw [q1]
  constructor
  · intro h
    have := (h r.row rfl).2.1 h3
    rw [q2] at this
    exact le_trans this (le_of_eq h4)
  · intro h r1 hr1
    simp only [Option.some.injEq] at hr1
    subst hr1
    have hs : r.row.sense = 'L' := h3
    have hr : r.row.rhs = 1 := h4
    refine ⟨?_, ?_, ?_⟩
    · intro hE; rw [hs] at hE; exact absurd hE (by decide)
    · intro _; rw [q2, hr]; exact h
    · intro hG; rw [hs] at hG; exact absurd hG (by decide)

/-- C15. In the pricing problem built for a person (`nb_days ≥ 1`, three shifts a day)
the first `3 * nb_days - 2` rows are the rows of constraint sets (2.1), (2.2), (2.3),
and for every point `x` (in particular every 0/1 work vector) these rows all hold if
and only if every window of three consecutive shifts of the chronological sequence of
the `3 * nb_days` shifts contains at most one assignment, summed over all tasks; then
the person works at most one task-shift per day. -/
theorem rest_rows_iff_windows (pd : Problem_Data) (person : Nat) (lp : CpxLP) (x : List ℚ)
    (hb : build_subproblem_problem pd person = some lp) (hS : pd.nb_shifts = 3)
    (hD : 1 ≤ pd.nb_days) :
    lp.rows.take (3 * pd.nb_days - 2) =
      (constraint_set_2_1 pd ++ constraint_set_2_2 pd ++ constraint_set_2_3 pd).map
        RowCall.row ∧
    ((∀ i, i < 3 * pd.nb_days - 2 → RowHolds lp x i) ↔
      ∀ w, w + 2 < 3 * pd.nb_days → windowSum pd x w ≤ 1) ∧
    ((∀ i, i < 3 * pd.nb_days - 2 → RowHolds lp x i) →
      ∀ d, d < pd.nb_days →
        (∑ t in Finset.range pd.nb_tasks,
          (x.getD (t * pd.nb_days * pd.nb_shifts + d * pd.nb_shifts + Shift.night) 0 +
            x.getD (t * pd.nb_days * pd.nb_shifts + d * pd.nb_shifts + Shift.morning) 0 +
            x.getD (t * pd.nb_days * pd.nb_shifts + d * pd.nb_shifts + Shift.afternoon) 0))
          ≤ 1) := by
  have hlen : (constraint_set_2_1 pd ++ constraint_set_2_2 pd ++ constraint_set_2_3 pd).length =
      3 * pd.nb_days - 2 := by
    simp only [List.length_append, constraint_set_2_1, constraint_set_2_2, constraint_set_2_3,
      List.length_map, List.length_range]
    omega
  have hiff : (∀ i, i < 3 * pd.nb_days - 2 → RowHolds lp x i) ↔
      ∀ w, w + 2 < 3 * pd.nb_days → windowSum pd x w ≤ 1 := by
    constructor
    · intro h w hw
      obtain ⟨k, hk, rfl⟩ := window_is_row pd hD w hw
      exact (constraint_set_2_holds pd person lp x hb hS hD k hk).2.mp (h k hk)
    · intro h k hk
      exact (constraint_set_2_holds pd person lp x hb hS hD k hk).2.mpr
        (h _ (windowOfRow_lt pd k hk))
  refine ⟨?_, hiff, ?_⟩
  · apply List.ext_getElem?
    intro k
    by_cases hk : k < 3 * pd.nb_days - 2
    · obtain ⟨⟨r, h1, h2⟩, _⟩ := constraint_set_2_holds pd person lp x hb hS hD k hk
      rw [List.getElem?_take_of_lt hk, h2, List.getElem?_map, h1]
      rfl
    · rw [List.getElem?_eq_none (by rw [List.length_take]; omega),
        List.getElem?_eq_none (by rw [List.length_map, hlen]; omega)]
  · intro h d hd
    have := hiff.mp h (d * pd.nb_shifts) (by rw [hS]; omega)
    unfold windowSum at this
    simp only [Shift.night, Shift.morning, Shift.afternoon]
    simp only [Nat.add_assoc] at this ⊢
    exact this

/-- Witness for C15: the pricing problem of the first person of `hexData` at the point
`hexSchedule`. -/
theorem rest_rows_iff_windows_witness :
    ((build_subproblem_problem hexData 0).getD CPXcreateprob).rows.take (3 * hexData.nb_days - 2) =
      (constraint_set_2_1 hexData ++ constraint_set_2_2 hexData ++
        constraint_set_2_3 hexData).map RowCall.row ∧
    ((∀ i, i < 3 * hexData.nb_days - 2 →
        RowHolds ((build_subproblem_problem hexData 0).getD CPXcreateprob) hexSchedule i) ↔
      ∀ w, w + 2 < 3 * hexData.nb_days → windowSum hexData hexSchedule w ≤ 1) ∧
    ((∀ i, i < 3 * hexData.nb_days - 2 →
        RowHolds ((build_subproblem_problem hexData 0).getD CPXcreateprob) hexSchedule i) →
      ∀ d, d < hexData.nb_days →
        (∑ t in Finset.range hexData.nb_tasks,
          (hexSchedule.getD (t * hexData.nb_days * hexData.nb_shifts + d * hexData.nb_shifts +
              Shift.night) 0 +
            hexSchedule.getD (t * hexData.nb_days * hexData.nb_shifts + d * hexData.nb_shifts +
              Shift.morning) 0 +
            hexSchedule.getD (t * hexData.nb_days * hexData.nb_shifts + d * hexData.nb_shifts +
              Shift.afternoon) 0))
          ≤ 1) :=
  rest_rows_iff_windows hexData 0 ((build_subproblem_problem hexData 0).getD CPXcreateprob)
    hexSchedule (by decide!) (by decide) (by decide)

/-! ## The Sunday row of the pricing problem -/


theorem weekLoop_lt (d0 n d : Nat) (h : d ∈ weekLoop d0 n) : d < n := by
  simp only [weekLoop, List.mem_map, List.mem_range] at h
  obtain ⟨i, hi, rfl⟩ := h
  omega

theorem window_entries_valid (pd : Problem_Data) (days : List Nat) (v : ℚ)
    (hd : ∀ d ∈ days, d < pd.nb_days) :
    ∀ e ∈ window_entries pd days v, e.1 < pd.tds := by
  intro e he
  simp only [window_entries, List.mem_flatMap, List.mem_map, List.mem_range] at he
  obtain ⟨t, ht, d, hdm, s, hs, rfl⟩ := he
  exact tdsIndex_lt pd t d s ht (hd d hdm) hs

theorem sum_map_flatMap_list {α β : Type} (l : List α) (f : α → List β) (g : β → ℚ) :
    ((l.flatMap f).map g).sum = (l.map fun a => ((f a).map g).sum).sum := by
  induction l with
  | nil => simp
  | cons a rest ih =>
    rw [List.flatMap_cons, List.map_append, List.sum_append, ih]
    simp

theorem sum_map_range (n : Nat) (h : Nat → ℚ) :
    ((List.range n).map h).sum = ∑ i in Finset.range n, h i := by
  induction n with
  | zero => simp
  | succ n ih =>
    rw [List.range_succ, List.map_append, List.sum_append, ih, Finset.sum_range_succ]
    simp

theorem sum_list_comm (n : Nat) (l : List Nat) (F : Nat → Nat → ℚ) :
    (∑ t in Finset.range n, (l.map (F t)).sum) =
      (l.map fun d => ∑ t in Finset.range n, F t d).sum := by
  induction l with
  | nil => simp
  | cons d rest ih =>
    simp only [List.map_cons, List.sum_cons, Finset.sum_add_distrib, ih]

theorem rowValue_window_entries (pd : Problem_Data) (days : List Nat) (x : List ℚ) :
    rowValue (window_entries pd days 1) x = (days.map (workedOn pd x)).sum := by
  unfold rowValue window_entries
  rw [sum_map_flatMap_range]
  have h1 : ∀ t, ((days.flatMap fun d => (List.range pd.nb_shifts).map fun s =>
        (tdsIndex pd (t, d, s), (1 : ℚ))).map fun e => e.2 * x.getD e.1 0).sum =
      (days.map fun d => ∑ s in Finset.range pd.nb_shifts,
        x.getD (t * pd.nb_days * pd.nb_shifts + d * pd.nb_shifts + s) 0).sum := by
    intro t
    rw [sum_map_flatMap_list]
    congr 1
    apply List.map_congr_left
    intro d _
    rw [List.map_map, sum_map_range]
    apply Finset.sum_congr rfl
    intro s _
    simp only [Function.comp, tdsIndex, one_mul]
  simp only [h1]
  rw [sum_list_comm]
  rfl

theorem rows_before_set_7_valid (pd : Problem_Data) (person : Nat) (hS : pd.nb_shifts = 3) :
    ∀ r ∈ rows_before_set_7 pd person ++ [constraint_set_7 pd],
      ∀ e ∈ r.mat, e.1 < (subproblem_variables pd).cols.length := by
  intro r hr e he
  have h2 := constraint_set_2_valid pd hS
  have hn : pd.tds ≤ (subproblem_variables pd).cols.length := by
    rw [(subproblem_variables_spec pd).2.1, numcols_subproblem]
    omega
  simp only [rows_before_set_7, List.mem_append, List.mem_singleton] at hr
  rcases hr with (((((hr | hr) | hr) | hr) | hr) | hr) | hr
  · exact h2 r (by simp only [List.mem_append]; exact Or.inl (Or.inl hr)) e he
  · exact h2 r (by simp only [List.mem_append]; exact Or.inl (Or.inr hr)) e he
  · exact h2 r (by simp only [List.mem_append]; exact Or.inr hr) e he
  · simp only [constraint_set_3, List.mem_map, List.mem_filter] at hr
    obtain ⟨y, ⟨hy, _⟩, rfl⟩ := hr
    simp only [List.mem_singleton] at he
    subst he
    have := mem_tdsLoop pd 0 pd.nb_tasks y hy
    exact Nat.lt_of_lt_of_le (tdsIndex_lt pd y.1 y.2.1 y.2.2 this.2.1 this.2.2.1 this.2.2.2) hn
  · simp only [constraint_set_4, List.mem_map, List.mem_range] at hr
    obtain ⟨r0, hr0, rfl⟩ := hr
    refine Nat.lt_of_lt_of_le (window_entries_valid pd _ 1 ?_ e he) hn
    intro d hd
    simp only [List.mem_range'_1] at hd
    omega
  · simp only [constraint_set_5, List.mem_map, List.mem_range] at hr
    obtain ⟨r0, hr0, rfl⟩ := hr
    refine Nat.lt_of_lt_of_le (window_entries_valid pd _ 1 ?_ e he) hn
    intro d hd
    simp only [List.mem_range'_1] at hd
    omega
  · subst hr
    refine Nat.lt_of_lt_of_le (window_entries_valid pd _ 1 ?_ e he) hn
    intro d hd
    exact weekLoop_lt _ _ d hd

theorem build_subproblem_problem_some (pd : Problem_Data) (person : Nat)
    (h : pd.start_day ≤ 6 ∧
      (subproblem_rows pd person).all
        (fun r => decide (r.mat.length ≤ matCapacitySubproblem)) = true) :
    build_subproblem_problem pd person =
      some (add_row_calls (subproblem_rows pd person) (subproblem_variables pd)) := by
  unfold build_subproblem_problem
  rw [if_pos h]

theorem sunday_row_holds (pd : Problem_Data) (person : Nat) (lp : CpxLP) (x : List ℚ)
    (hb : build_subproblem_problem pd person = some lp) (hS : pd.nb_shifts = 3) :
    lp.rows[sundayRowIndex pd person]? = some (constraint_set_7 pd).row ∧
    (RowHolds lp x (sundayRowIndex pd person) ↔
      ((sundays pd).map (workedOn pd x)).sum ≤ ((3 * pd.nb_weekends / 4 : Nat) : ℚ)) := by
  obtain ⟨hlp, _⟩ := build_subproblem_problem_eq pd person lp hb
  obtain ⟨v1, v2, v3⟩ := subproblem_variables_spec pd
  have hsplit : subproblem_rows pd person =
      (rows_before_set_7 pd person ++ [constraint_set_7 pd]) ++
        (constraint_set_8 pd ++ [constraint_set_9 pd] ++ constraint_set_12 pd person ++
          [constraint_set_13 pd person Shift.night "night",
           constraint_set_13 pd person Shift.morning "morning",
           constraint_set_13 pd person Shift.afternoon "afternoon"]) := by
    simp only [subproblem_rows, rows_before_set_7, List.append_assoc]
  have hget : (rows_before_set_7 pd person ++ [constraint_set_7 pd])[sundayRowIndex pd person]? =
      some (constraint_set_7 pd) := by
    rw [sundayRowIndex, List.getElem?_append_right (le_refl _)]
    simp
  obtain ⟨q1, q2⟩ := add_row_calls_row _ _ (subproblem_variables pd) x v1 v3
    (rows_before_set_7_valid pd person hS) _ _ hget
  rw [← hsplit, ← hlp] at q1 q2
  have hval : row_activity lp x (sundayRowIndex pd person) =
      ((sundays pd).map (workedOn pd x)).sum := by
    rw [q2]
    exact rowValue_window_entries pd (sundays pd) x
  refine ⟨q1, ?_⟩
  unfold RowHolds
  rw [q1]
  constructor
  · intro h
    have := (h _ rfl).2.1 rfl
    rw [hval] at this
    exact this
  · intro h r1 hr1
    simp only [Option.some.injEq] at hr1
    subst hr1
    refine ⟨?_, ?_, ?_⟩
    · intro hE
      have : (constraint_set_7 pd).row.sense = 'L' := rfl
      rw [this] at hE
      exact absurd hE (by decide)
    · intro _; rw [hval]; exact h
    · intro hG
      have : (constraint_set_7 pd).row.sense = 'L' := rfl
      rw [this] at hG
      exact absurd hG (by decide)

theorem list_sum_eq_range (l : List ℚ) :
    l.sum = ∑ i in Finset.range l.length, l.getD i 0 := by
  induction l with
  | nil => simp
  | cons a rest ih =>
    rw [List.sum_cons, List.length_cons, Finset.sum_range_succ', ih]
    simp [add_comm]

theorem four_consecutive_le_sum (l : List ℚ) (hnn : ∀ v ∈ l, 0 ≤ v) (k : Nat)
    (hk : k + 3 < l.length) :
    l.getD k 0 + l.getD (k + 1) 0 + l.getD (k + 2) 0 + l.getD (k + 3) 0 ≤ l.sum := by
  rw [list_sum_eq_range]
  have hsub : Finset.Ico k (k + 4) ⊆ Finset.range l.length := by
    intro i hi
    simp only [Finset.mem_Ico] at hi
    simp only [Finset.mem_range]
    omega
  have hle := Finset.sum_le_sum_of_subset_of_nonneg (f := fun i => l.getD i 0) hsub (by
    intro i hi _
    simp only [Finset.mem_range] at hi
    show 0 ≤ l.getD i 0
    rw [List.getD_eq_getElem?_getD, List.getElem?_eq_getElem hi]
    exact hnn _ (List.getElem_mem _))
  have he : (∑ i in Finset.Ico k (k + 4), l.getD i 0) =
      l.getD k 0 + l.getD (k + 1) 0 + l.getD (k + 2) 0 + l.getD (k + 3) 0 := by
    rw [Finset.sum_Ico_eq_sum_range]
    have : k + 4 - k = 4 := by omega
    rw [this]
    simp only [Finset.sum_range_succ, Finset.sum_range_zero, zero_add, Nat.add_zero]
  rw [← he]
  exact hle

theorem workedOn_nonneg (pd : Problem_Data) (x : List ℚ)
    (hx : ∀ (j : Nat) (v : ℚ), x[j]? = some v → v = 0 ∨ v = 1) (d : Nat) :
    0 ≤ workedOn pd x d := by
  unfold workedOn
  apply Finset.sum_nonneg
  intro t _
  apply Finset.sum_nonneg
  intro s _
  rw [List.getD_eq_getElem?_getD]
  cases h : x[t * pd.nb_days * pd.nb_shifts + d * pd.nb_shifts + s]? with
  | none => simp
  | some v =>
    rcases hx _ v h with rfl | rfl <;> simp

theorem indicator_binary (n : Nat) (p : Nat → Prop) [DecidablePred p] :
    ∀ (j : Nat) (v : ℚ),
      ((List.range n).map fun j => if p j then (1 : ℚ) else 0)[j]? = some v → v = 0 ∨ v = 1 := by
  intro j v hv
  simp only [List.getElem?_map] at hv
  cases hr : (List.range n)[j]? with
  | none => rw [hr] at hv; cases hv
  | some i =>
    rw [hr] at hv
    simp only [Option.map_some', Option.some.injEq] at hv
    subst hv
    split_ifs
    · exact Or.inr rfl
    · exact Or.inl rfl

/-- C16 (as the code has it). The row of constraint set 7 of the pricing problem holds at
a point exactly when the assignments on all Sundays of the horizon together are at most
`3 * nb_weekends / 4` (integer division); the Sundays are the days `6 - start_day`,
`13 - start_day`, ... below `nb_days`. With `nb_weekends` the number of Sundays, as
`input` computes it, a 0/1 schedule that satisfies the row on a horizon with at most five
Sundays works at most 3 of every 4 consecutive Sundays. -/
theorem sunday_row_spec (pd : Problem_Data) (person : Nat) (lp : CpxLP) (x : List ℚ)
    (hb : build_subproblem_problem pd person = some lp) (hS : pd.nb_shifts = 3)
    (hx : ∀ (j : Nat) (v : ℚ), x[j]? = some v → v = 0 ∨ v = 1) :
    lp.rows[sundayRowIndex pd person]? = some (constraint_set_7 pd).row ∧
    (RowHolds lp x (sundayRowIndex pd person) ↔
      ((sundays pd).map (workedOn pd x)).sum ≤ ((3 * pd.nb_weekends / 4 : Nat) : ℚ)) ∧
    (pd.nb_weekends = input_nb_weekends pd.start_day pd.nb_days → pd.nb_weekends ≤ 5 →
      RowHolds lp x (sundayRowIndex pd person) →
      ∀ k, k + 3 < (sundays pd).length →
        workedOn pd x ((sundays pd).getD k 0) + workedOn pd x ((sundays pd).getD (k + 1) 0) +
          workedOn pd x ((sundays pd).getD (k + 2) 0) +
          workedOn pd x ((sundays pd).getD (k + 3) 0) ≤ 3) := by
  obtain ⟨h1, h2⟩ := sunday_row_holds pd person lp x hb hS
  refine ⟨h1, h2, ?_⟩
  intro hw h5 hrow k hk
  have htot := h2.mp hrow
  have hfour := four_consecutive_le_sum ((sundays pd).map (workedOn pd x)) (by
    intro v hv
    simp only [List.mem_map] at hv
    obtain ⟨d, _, rfl⟩ := hv
    exact workedOn_nonneg pd x hx d) k (by rw [List.length_map]; exact hk)
  have hgd : ∀ i, i < (sundays pd).length →
      ((sundays pd).map (workedOn pd x)).getD i 0 = workedOn pd x ((sundays pd).getD i 0) := by
    intro i hi
    rw [List.getD_eq_getElem?_getD, List.getD_eq_getElem?_getD, List.getElem?_map,
      List.getElem?_eq_getElem hi]
    rfl
  rw [hgd k (by omega), hgd (k + 1) (by omega), hgd (k + 2) (by omega),
    hgd (k + 3) (by omega)] at hfour
  have hb3 : ((3 * pd.nb_weekends / 4 : Nat) : ℚ) ≤ 3 := by
    have : 3 * pd.nb_weekends / 4 ≤ 3 := by omega
    exact_mod_cast this
  linarith

/-- Witness for C16: the 28-day horizon of `monthData` with the schedule
`monthSchedule`. -/
theorem sunday_row_spec_witness :
    (add_row_calls (subproblem_rows monthData 0) (subproblem_variables monthData)).rows[
        sundayRowIndex monthData 0]? = some (constraint_set_7 monthData).row ∧
    (RowHolds (add_row_calls (subproblem_rows monthData 0) (subproblem_variables monthData))
        monthSchedule (sundayRowIndex monthData 0) ↔
      ((sundays monthData).map (workedOn monthData monthSchedule)).sum ≤
        ((3 * monthData.nb_weekends / 4 : Nat) : ℚ)) ∧
    (monthData.nb_weekends = input_nb_weekends monthData.start_day monthData.nb_days →
      monthData.nb_weekends ≤ 5 →
      RowHolds (add_row_calls (subproblem_rows monthData 0) (subproblem_variables monthData))
        monthSchedule (sundayRowIndex monthData 0) →
      ∀ k, k + 3 < (sundays monthData).length →
        workedOn monthData monthSchedule ((sundays monthData).getD k 0) +
          workedOn monthData monthSchedule ((sundays monthData).getD (k + 1) 0) +
          workedOn monthData monthSchedule ((sundays monthData).getD (k + 2) 0) +
          workedOn monthData monthSchedule ((sundays monthData).getD (k + 3) 0) ≤ 3) :=
  sunday_row_spec monthData 0 _ monthSchedule
    (build_subproblem_problem_some monthData 0 (by decide!)) (by decide)
    (indicator_binary 95 (fun j => j = 18 ∨ j = 39 ∨ j = 60))

/-- C16 (counterexample to the claim as stated). On the 42-day horizon of `sunData` (six
Sundays, right-hand side `3 * 6 / 4 = 4`) the 0/1 schedule `sunSchedule` satisfies the row
of constraint set 7 and all rows of constraint set 2 (so at most one shift a day), and
works all of the four consecutive Sundays 6, 13, 20, 27. -/
theorem sunday_row_four_sundays_counterexample :
    ∃ lp, build_subproblem_problem sunData 0 = some lp ∧
      sunData.nb_weekends = input_nb_weekends sunData.start_day sunData.nb_days ∧
      (∀ (j : Nat) (v : ℚ), sunSchedule[j]? = some v → v = 0 ∨ v = 1) ∧
      RowHolds lp sunSchedule (sundayRowIndex sunData 0) ∧
      (∀ i, i < 3 * sunData.nb_days - 2 → RowHolds lp sunSchedule i) ∧
      ¬ (∀ k, k + 3 < (sundays sunData).length →
        workedOn sunData sunSchedule ((sundays sunData).getD k 0) +
          workedOn sunData sunSchedule ((sundays sunData).getD (k + 1) 0) +
          workedOn sunData sunSchedule ((sundays sunData).getD (k + 2) 0) +
          workedOn sunData sunSchedule ((sundays sunData).getD (k + 3) 0) ≤ 3) := by
  have hb := build_subproblem_problem_some sunData 0 (by decide!)
  refine ⟨_, hb, by decide, ?_, ?_, ?_, ?_⟩
  · exact indicator_binary 141 (fun j => j = 18 ∨ j = 39 ∨ j = 60 ∨ j = 81)
  · exact (sunday_row_holds sunData 0 _ sunSchedule hb (by decide)).2.mpr (by decide!)
  · intro i hi
    have hall : ∀ i, i < 3 * sunData.nb_days - 2 →
        windowSum sunData sunSchedule (windowOfRow sunData i) ≤ 1 := by decide!
    exact (constraint_set_2_holds sunData 0 _ sunSchedule hb (by decide) (by decide) i hi).2.mpr
      (hall i hi)
  · intro h
    have := h 0 (by decide)
    exact absurd this (by decide!)

/-- The Sunday row evaluated: on `monthData` the bound is 3 and `monthSchedule` works 3
Sundays; on `sunData` the bound is 4 and `sunSchedule` works 4 Sundays. -/
theorem sunday_row_example :
    (constraint_set_7 monthData).rhs = 3 ∧
    ((sundays monthData).map (workedOn monthData monthSchedule)).sum = 3 ∧
    (constraint_set_7 sunData).rhs = 4 ∧
    ((sundays sunData).map (workedOn sunData sunSchedule)).sum = 4 := by
  decide!

/-! ## The group rows of the pricing problem -/


theorem sum_map_filter_ite {α : Type} (l : List α) (p : α → Bool) (f : α → ℚ) :
    ((l.filter p).map f).sum = (l.map fun a => if p a then f a else 0).sum := by
  induction l with
  | nil => simp
  | cons a rest ih =>
    by_cases h : p a
    · simp [List.filter_cons, h, ih]
    · simp [List.filter_cons, h, ih]

theorem sum_tdsLoop (pd : Problem_Data) (F : Nat × Nat × Nat → ℚ) :
    ((tdsLoop pd 0 pd.nb_tasks).map F).sum =
      ∑ t in Finset.range pd.nb_tasks, ∑ d in Finset.range pd.nb_days,
        ∑ s in Finset.range pd.nb_shifts, F (t, d, s) := by
  unfold tdsLoop
  rw [Nat.sub_zero, ← List.range_eq_range', sum_map_flatMap_range]
  apply Finset.sum_congr rfl
  intro t _
  rw [sum_map_flatMap_range]
  apply Finset.sum_congr rfl
  intro d _
  rw [List.map_map, sum_map_range]
  rfl

theorem rowValue_append (m1 m2 : List (Nat × ℚ)) (x : List ℚ) :
    rowValue (m1 ++ m2) x = rowValue m1 x + rowValue m2 x := by
  simp only [rowValue, List.map_append, List.sum_append]

theorem rowValue_row_12 (pd : Problem_Data) (person g : Nat) (x : List ℚ) :
    rowValue (row_12 pd person g).mat x =
      (if pd.person_group person g = true then assignmentsOutsideGroup pd x g else 0) -
        x.getD (groupDeviationIndex pd g) 0 := by
  have h2 : rowValue [(pd.tds + 2 * pd.nb_weekends + 2 + g, (-1 : ℚ))] x =
      - x.getD (groupDeviationIndex pd g) 0 := by
    simp [rowValue, groupDeviationIndex, Problem_Data.tds]
  simp only [row_12]
  rw [rowValue_append, h2, sub_eq_add_neg]
  congr 1
  split
  · unfold rowValue assignmentsOutsideGroup
    rw [List.map_map, sum_map_filter_ite, sum_tdsLoop]
    apply Finset.sum_congr rfl
    intro t _
    by_cases hg : pd.group_task g t = true
    · simp [hg]
    · simp [hg, tdsIndex]
  · simp [rowValue]

theorem rows_before_set_12_valid (pd : Problem_Data) (person : Nat) (hS : pd.nb_shifts = 3)
    (hw : pd.nb_weekends = input_nb_weekends pd.start_day pd.nb_days) :
    ∀ r ∈ rows_before_set_12 pd person ++ constraint_set_12 pd person,
      ∀ e ∈ r.mat, e.1 < (subproblem_variables pd).cols.length := by
  intro r hr e he
  have h7 := rows_before_set_7_valid pd person hS
  have hncol : (subproblem_variables pd).cols.length =
      pd.tds + 2 * pd.nb_weekends + 2 + pd.nb_groups := by
    rw [(subproblem_variables_spec pd).2.1, numcols_subproblem]
  have hn : pd.tds ≤ (subproblem_variables pd).cols.length := by omega
  have hsl : (sundays pd).length = pd.nb_weekends := by
    rw [hw]; rfl
  simp only [rows_before_set_12, List.mem_append, List.mem_singleton] at hr
  rcases hr with (((hr | hr) | hr) | hr) | hr
  · exact h7 r (by simp only [List.mem_append]; exact Or.inl hr) e he
  · exact h7 r (by simp only [List.mem_append, List.mem_singleton]; exact Or.inr hr) e he
  · simp only [constraint_set_8, List.mem_map] at hr
    obtain ⟨wd, hwd, rfl⟩ := hr
    have hlt := List.fst_lt_of_mem_enum hwd
    have hmem := List.snd_mem_of_mem_enum hwd
    simp only [List.mem_filter, decide_eq_true_eq] at hmem
    have hday := weekLoop_lt _ _ _ hmem.1
    have hfl : ((sundays pd).filter fun d => decide (0 < d)).length ≤ pd.nb_weekends := by
      rw [← hsl]; exact List.length_filter_le _ _
    simp only [List.mem_append, List.mem_flatMap, List.mem_range, List.mem_cons,
      List.mem_singleton, List.not_mem_nil, or_false] at he
    rcases he with ⟨t, ht, s, hs, rfl | rfl⟩ | rfl | rfl
    · exact Nat.lt_of_lt_of_le (tdsIndex_lt pd t wd.2 s ht hday hs) hn
    · exact Nat.lt_of_lt_of_le (tdsIndex_lt pd t (wd.2 - 1) s ht (by omega) hs) hn
    · simp only; omega
    · simp only; omega
  · subst hr
    simp only [constraint_set_9, List.mem_append, List.mem_map, List.mem_cons,
      List.mem_singleton, List.not_mem_nil, or_false] at he
    rcases he with ⟨y, hy, rfl⟩ | rfl | rfl
    · have := mem_tdsLoop pd 0 pd.nb_tasks y hy
      exact Nat.lt_of_lt_of_le
        (tdsIndex_lt pd y.1 y.2.1 y.2.2 this.2.1 this.2.2.1 this.2.2.2) hn
    · simp only; omega
    · simp only; omega
  · simp only [constraint_set_12, List.mem_map, List.mem_range] at hr
    obtain ⟨g, hg, rfl⟩ := hr
    simp only [row_12, List.mem_append, List.mem_singleton] at he
    rcases he with he | rfl
    · split at he
      · simp only [List.mem_map, List.mem_filter] at he
        obtain ⟨y, ⟨hy, _⟩, rfl⟩ := he
        have := mem_tdsLoop pd 0 pd.nb_tasks y hy
        exact Nat.lt_of_lt_of_le
          (tdsIndex_lt pd y.1 y.2.1 y.2.2 this.2.1 this.2.2.1 this.2.2.2) hn
      · simp at he
    · simp only; omega

theorem group_row_holds (pd : Problem_Data) (person : Nat) (lp : CpxLP) (x : List ℚ)
    (hb : build_subproblem_problem pd person = some lp) (hS : pd.nb_shifts = 3)
    (hw : pd.nb_weekends = input_nb_weekends pd.start_day pd.nb_days)
    (g : Nat) (hg : g < pd.nb_groups) :
    lp.rows[groupRowIndex pd person g]? = some (row_12 pd person g).row ∧
    (RowHolds lp x (groupRowIndex pd person g) ↔
      x.getD (groupDeviationIndex pd g) 0 =
        if pd.person_group person g = true then assignmentsOutsideGroup pd x g else 0) := by
  obtain ⟨hlp, _⟩ := build_subproblem_problem_eq pd person lp hb
  obtain ⟨v1, v2, v3⟩ := subproblem_variables_spec pd
  have hsplit : subproblem_rows pd person =
      (rows_before_set_12 pd person ++ constraint_set_12 pd person) ++
          [constraint_set_13 pd person Shift.night "night",
           constraint_set_13 pd person Shift.morning "morning",
           constraint_set_13 pd person Shift.afternoon "afternoon"] := by
    simp only [subproblem_rows, rows_before_set_12, rows_before_set_7, List.append_assoc]
  have hget : (rows_before_set_12 pd person ++ constraint_set_12 pd person)[
      groupRowIndex pd person g]? = some (row_12 pd person g) := by
    rw [groupRowIndex, List.getElem?_append_right (by omega), Nat.add_sub_cancel_left]
    simp only [constraint_set_12, List.getElem?_map, List.getElem?_range hg, Option.map_some']
  obtain ⟨q1, q2⟩ := add_row_calls_row _ _ (subproblem_variables pd) x v1 v3
    (rows_before_set_12_valid pd person hS hw) _ _ hget
  rw [← hsplit, ← hlp] at q1 q2
  rw [rowValue_row_12] at q2
  refine ⟨q1, ?_⟩
  unfold RowHolds
  rw [q1]
  have hsense : (row_12 pd person g).row.sense = 'E' := rfl
  have hrhs : (row_12 pd person g).row.rhs = 0 := rfl
  constructor
  · intro h
    have := (h _ rfl).1 hsense
    rw [q2, hrhs] at this
    linarith
  · intro h r1 hr1
    simp only [Option.some.injEq] at hr1
    subst hr1
    refine ⟨?_, ?_, ?_⟩
    · intro _; rw [q2, hrhs, h]; ring
    · intro hL; rw [hsense] at hL; exact absurd hL (by decide)
    · intro hG; rw [hsense] at hG; exact absurd hG (by decide)

/-- C17 (as the code has it). In the pricing problem of person `p` the row of constraint
set 12 for group `g` holds at a point exactly when `Y_G_g` equals the number of
assignments to tasks that do not belong to `g` if `p` belongs to `g`, and equals 0 if
`p` does not belong to `g`; so this holds for every group in every feasible point. -/
theorem group_row_spec (pd : Problem_Data) (person : Nat) (lp : CpxLP) (x : List ℚ)
    (hb : build_subproblem_problem pd person = some lp) (hS : pd.nb_shifts = 3)
    (hw : pd.nb_weekends = input_nb_weekends pd.start_day pd.nb_days) :
    (∀ g, g < pd.nb_groups →
      lp.rows[groupRowIndex pd person g]? = some (row_12 pd person g).row ∧
      (RowHolds lp x (groupRowIndex pd person g) ↔
        x.getD (groupDeviationIndex pd g) 0 =
          if pd.person_group person g = true then assignmentsOutsideGroup pd x g else 0)) ∧
    (Feasible lp x → ∀ g, g < pd.nb_groups →
      x.getD (groupDeviationIndex pd g) 0 =
        if pd.person_group person g = true then assignmentsOutsideGroup pd x g else 0) := by
  refine ⟨fun g hg => group_row_holds pd person lp x hb hS hw g hg, ?_⟩
  intro hf g hg
  exact (group_row_holds pd person lp x hb hS hw g hg).2.mp (fun r hr => hf.2.2 _ r hr)

theorem add_row_calls_bounds (calls : List RowCall) :
    ∀ lp : CpxLP, (∀ r ∈ calls, ∀ e ∈ r.mat, e.1 < lp.cols.length) →
      ∀ (j : Nat) (c1 : CpxCol), (add_row_calls calls lp).cols[j]? = some c1 →
        ∃ c, lp.cols[j]? = some c ∧ c1.lb = c.lb ∧ c1.ub = c.ub := by
  induction calls with
  | nil =>
    intro lp _ j c1 h
    exact ⟨c1, h, rfl, rfl⟩
  | cons r rest ih =>
    intro lp hv j c1 h
    have hall := hv r (List.mem_cons_self _ _)
    obtain ⟨_, r2⟩ := CPXaddrows_rows lp r.rhs r.sense r.mat r.name hall
    obtain ⟨c, hc, e1, e2⟩ := ih (CPXaddrows lp r.rhs r.sense r.mat r.name) (by
      intro r1 hr1 e he
      rw [r2]
      exact hv r1 (List.mem_cons_of_mem _ hr1) e he) j c1 h
    obtain ⟨c0, hc0, f1, f2, _⟩ := CPXaddrows_bounds lp r.rhs r.sense r.mat r.name hall j c hc
    exact ⟨c0, hc0, by rw [e1, f1], by rw [e2, f2]⟩

theorem feasible_add_row_calls (calls : List RowCall) (lp : CpxLP) (x : List ℚ)
    (hrows : lp.rows = []) (hfresh : ∀ i j, matrixEntry lp i j = 0)
    (hv : ∀ r ∈ calls, ∀ e ∈ r.mat, e.1 < lp.cols.length)
    (hlen : x.length = lp.cols.length) (hbounds : bounds_hold lp.cols x = true)
    (hcalls : ∀ r ∈ calls, r.holds x) :
    Feasible (add_row_calls calls lp) x := by
  obtain ⟨k1, _, _⟩ := add_row_calls_keeps calls lp
  refine ⟨by rw [hlen, k1], ?_, ?_⟩
  · intro j c1 hc1
    obtain ⟨c, hc, e1, e2⟩ := add_row_calls_bounds calls lp hv j c1 hc1
    have hj : j < lp.cols.length := by
      by_contra hcon
      rw [List.getElem?_eq_none (not_lt.mp hcon)] at hc
      cases hc
    have hxj : x[j]? = some (x.getD j 0) := by
      rw [List.getD_eq_getElem?_getD, List.getElem?_eq_getElem (by omega)]
      rfl
    have hz : (lp.cols.zip x)[j]? = some (c, x.getD j 0) :=
      List.getElem?_zip_eq_some.mpr ⟨hc, hxj⟩
    have hm := List.getElem?_mem hz
    unfold bounds_hold at hbounds
    rw [List.all_eq_true] at hbounds
    have := hbounds _ hm
    simp only [Bool.and_eq_true, decide_eq_true_eq] at this
    refine ⟨by rw [e1]; exact this.1, ?_⟩
    intro u hu
    rw [e2] at hu
    have h2 := this.2
    rw [hu] at h2
    simpa using h2
  · intro i r hr
    obtain ⟨g1, _⟩ := add_row_calls_valid calls lp hv
    rw [g1, hrows, List.nil_append, List.getElem?_map] at hr
    cases hci : calls[i]? with
    | none => rw [hci] at hr; cases hr
    | some rc =>
      rw [hci] at hr
      simp only [Option.map_some', Option.some.injEq] at hr
      subst hr
      obtain ⟨_, q2⟩ := add_row_calls_row calls [] lp x hrows hfresh hv i rc hci
      rw [List.append_nil] at q2
      rw [q2]
      exact hcalls rc (List.getElem?_mem hci)

/-- Witness for C17: the pricing problem of `grpData` at the point `grpSchedule`. -/
theorem group_row_spec_witness :
    (∀ g, g < grpData.nb_groups →
      (add_row_calls (subproblem_rows grpData 0) (subproblem_variables grpData)).rows[
          groupRowIndex grpData 0 g]? = some (row_12 grpData 0 g).row ∧
      (RowHolds (add_row_calls (subproblem_rows grpData 0) (subproblem_variables grpData))
          grpSchedule (groupRowIndex grpData 0 g) ↔
        grpSchedule.getD (groupDeviationIndex grpData g) 0 =
          if grpData.person_group 0 g = true then assignmentsOutsideGroup grpData grpSchedule g
          else 0)) ∧
    (Feasible (add_row_calls (subproblem_rows grpData 0) (subproblem_variables grpData))
        grpSchedule →
      ∀ g, g < grpData.nb_groups →
        grpSchedule.getD (groupDeviationIndex grpData g) 0 =
          if grpData.person_group 0 g = true then assignmentsOutsideGroup grpData grpSchedule g
          else 0) :=
  group_row_spec grpData 0 _ grpSchedule
    (build_subproblem_problem_some grpData 0 (by decide!)) (by decide) (by decide)

/-- C17 (counterexample to the claim as stated). In the pricing problem of the person of
`grpData`, who belongs to the first group only, the integral point `grpSchedule` is
feasible; it assigns the person once to the task of the second group, and
`Y_G_1 = 1`, `Y_G_2 = 0`: the deviation of the person's own group is not 0, and the
deviation of the foreign group does not count the assignment to its task. -/
theorem group_row_counterexample :
    ∃ lp, build_subproblem_problem grpData 0 = some lp ∧
      grpData.nb_weekends = input_nb_weekends grpData.start_day grpData.nb_days ∧
      Feasible lp grpSchedule ∧ (∀ v ∈ grpSchedule, v.den = 1) ∧
      ¬ (∀ g, g < grpData.nb_groups →
        grpSchedule.getD (groupDeviationIndex grpData g) 0 =
          if grpData.person_group 0 g = true then 0
          else assignmentsInGroup grpData grpSchedule g) := by
  have hb := build_subproblem_problem_some grpData 0 (by decide!)
  obtain ⟨v1, v2, v3⟩ := subproblem_variables_spec grpData
  refine ⟨_, hb, by decide, ?_, by decide!, ?_⟩
  · exact feasible_add_row_calls (subproblem_rows grpData 0) (subproblem_variables grpData)
      grpSchedule v1 v3 (by decide!) (by decide!) (by decide!) (by decide!)
  · intro h
    exact absurd (h 0 (by decide)) (by decide!)

/-- The group deviations of `grpSchedule` evaluated: one assignment outside the first
group, one assignment inside the second group; `Y_G_1 = 1` and `Y_G_2 = 0`. -/
theorem group_row_example :
    assignmentsOutsideGroup grpData grpSchedule 0 = 1 ∧
    assignmentsInGroup grpData grpSchedule 1 = 1 ∧
    grpSchedule.getD (groupDeviationIndex grpData 0) 0 = 1 ∧
    grpSchedule.getD (groupDeviationIndex grpData 1) 0 = 0 := by
  decide!

/-- The schedule that `hexOracle` returns for the first person of `hexData` is a feasible
point of that person's pricing problem. -/
theorem hexSchedule_feasible :
    ∃ lp, build_subproblem_problem hexData 0 = some lp ∧ Feasible lp hexSchedule := by
  obtain ⟨v1, _, v3⟩ := subproblem_variables_spec hexData
  exact ⟨_, build_subproblem_problem_some hexData 0 (by decide!),
    feasible_add_row_calls (subproblem_rows hexData 0) (subproblem_variables hexData)
      hexSchedule v1 v3 (by decide!) (by decide!) (by decide!) (by decide!)⟩

/-! ## The reduced cost computed by the pricing step -/


theorem check_solution_status_mip_ok (cpx : CPX_Codes) (st : State) (status_ solstat_ : Int)
    (h0 : status_ = 0) (h : solstat_ = cpx.CPXMIP_OPTIMAL ∨ solstat_ = cpx.CPXMIP_OPTIMAL_TOL) :
    (check_solution_status cpx st true status_ solstat_).2 = true := by
  unfold check_solution_status
  have hs : ¬ status_ ≠ 0 := by simp [h0]
  rw [if_neg hs]
  simp only [Bool.not_true, Bool.false_eq_true, if_false, if_pos h]
  rfl

theorem check_solution_status_objective (cpx : CPX_Codes) (st : State) (integer : Bool)
    (status_ solstat_ : Int) :
    (check_solution_status cpx st integer status_ solstat_).1.objective_subproblem =
      st.objective_subproblem ∧
    (check_solution_status cpx st integer status_ solstat_).1.mu_p = st.mu_p := by
  have h := check_solution_status_fields cpx st integer status_ solstat_
  have h1 := congrArg State.objective_subproblem h
  have h2 := congrArg State.mu_p h
  exact ⟨h1, h2⟩

theorem solve_subproblem_reduced_cost (pd : Problem_Data) (cpx : CPX_Codes) (orc : Oracle)
    (st st3 : State) (person : Nat) (rc : ℚ) (sub : List ℚ)
    (hsub : st.subproblems[person]? = some sub)
    (h : solve_subproblem pd cpx orc st person = some (st3, rc)) :
    rc = (if (orc.mipopt person sub st.mu_p).status = 0 ∧
        ((orc.mipopt person sub st.mu_p).solstat = cpx.CPXMIP_OPTIMAL ∨
          (orc.mipopt person sub st.mu_p).solstat = cpx.CPXMIP_OPTIMAL_TOL)
      then (orc.mipopt person sub st.mu_p).objval else 1000000000000) - st.mu_p := by
  unfold solve_subproblem at h
  rw [hsub] at h
  dsimp only at h
  have hobj := check_solution_status_objective cpx
    (store_mip_answer pd st (orc.mipopt person sub st.mu_p)) true
    (store_mip_answer pd st (orc.mipopt person sub st.mu_p)).status
    (store_mip_answer pd st (orc.mipopt person sub st.mu_p)).solstat
  by_cases hok : (orc.mipopt person sub st.mu_p).status = 0 ∧
      ((orc.mipopt person sub st.mu_p).solstat = cpx.CPXMIP_OPTIMAL ∨
        (orc.mipopt person sub st.mu_p).solstat = cpx.CPXMIP_OPTIMAL_TOL)
  · have hchk := check_solution_status_mip_ok cpx
      (store_mip_answer pd st (orc.mipopt person sub st.mu_p))
      (store_mip_answer pd st (orc.mipopt person sub st.mu_p)).status
      (store_mip_answer pd st (orc.mipopt person sub st.mu_p)).solstat hok.1 hok.2
    rw [hchk] at h
    simp only [Bool.not_true, Bool.false_eq_true, if_false] at h
    split at h
    · cases h
    · simp only [Option.some.injEq, Prod.mk.injEq] at h
      rw [← h.2, if_pos hok, hobj.1, hobj.2]
      simp only [store_mip_answer, if_pos hok.1]
  · have hfail : (orc.mipopt person sub st.mu_p).status ≠ 0 ∨
        ((orc.mipopt person sub st.mu_p).solstat ≠ cpx.CPXMIP_OPTIMAL ∧
          (orc.mipopt person sub st.mu_p).solstat ≠ cpx.CPXMIP_OPTIMAL_TOL) := by
      by_cases h0 : (orc.mipopt person sub st.mu_p).status = 0
      · right
        constructor
        · intro h1; exact hok ⟨h0, Or.inl h1⟩
        · intro h1; exact hok ⟨h0, Or.inr h1⟩
      · exact Or.inl h0
    have hchk := check_solution_status_mip_fail cpx
      (store_mip_answer pd st (orc.mipopt person sub st.mu_p))
      (store_mip_answer pd st (orc.mipopt person sub st.mu_p)).status
      (store_mip_answer pd st (orc.mipopt person sub st.mu_p)).solstat hfail
    rw [hchk] at h
    simp only [Bool.not_false, if_true] at h
    split at h
    · cases h
    · simp only [Option.some.injEq, Prod.mk.injEq] at h
      rw [← h.2, if_neg hok, hobj.2]
      rfl

/-- The pricing step for a person: the reduced cost is the one determined by the duals
and the person's pricing problem; the duals, the pricing problems of the other people
and the branching lists are left as they are; the person's flag is set again exactly
when a column was admitted. -/
theorem price_person_spec (pd : Problem_Data) (cpx : CPX_Codes) (orc : Oracle)
    (st st' : State) (person : Nat) (rc : ℚ)
    (h : price_person pd cpx orc st person = some (st', rc)) :
    rc = reduced_cost_for pd cpx orc st person ∧
    st'.dual_var_master = st.dual_var_master ∧
    st'.fixed_people = st.fixed_people ∧
    (∀ q, q ≠ person → st'.subproblems[q]? = st.subproblems[q]?) ∧
    st'.subproblems.length = st.subproblems.length ∧
    st'.solve_subproblem_p = st.solve_subproblem_p.set person (decide (rc < -(1 / 1000))) ∧
    st'.log = st.log ++ [Event.priced person] ++
      (if rc < -(1 / 1000) then [Event.column_added person] else []) := by
  have htol : reduced_cost_tolerance_LP = 1 / 1000 := rfl
  unfold price_person at h
  split at h
  · rename_i hflag
    dsimp only at h
    split at h
    · cases h
    · rename_i st2 hcc
      split at h
      · cases h
      · rename_i st3 rc3 hss
        have f2 := change_coefficients_subproblem_frame pd _ st2 person hcc
        have f3 := solve_subproblem_frame pd cpx orc st2 st3 person rc3 hss
        -- the values written by change_coefficients_subproblem
        have hcc2 := hcc
        unfold change_coefficients_subproblem at hcc2
        dsimp only at hcc2
        split at hcc2
        · cases hcc2
        · rename_i mu hmu
          split at hcc2
          · rename_i hlen
            split at hcc2
            · cases hcc2
            · rename_i sub hsub
              simp only [Option.some.injEq] at hcc2
              have htake : (((st.dual_var_master.take pd.tds).map (fun v => -v) ++
                  st.values_coef.drop pd.tds).take pd.tds) =
                  (st.dual_var_master.take pd.tds).map (fun v => -v) := by
                rw [List.take_append_of_le_length (by simp [hlen.1]),
                  List.take_of_length_le (by simp)]
              have hpl : person < st.subproblems.length := by
                by_contra hcon
                rw [List.getElem?_eq_none (not_lt.mp hcon)] at hsub
                cases hsub
              have hmu2 : st2.mu_p = mu := by rw [← hcc2]
              have hsub2 : st2.subproblems[person]? = some (CPXchgobj sub
                  ((st.dual_var_master.take pd.tds).map (fun v => -v))) := by
                rw [← hcc2]
                simp only [List.getElem?_set, hpl, if_true, htake]
              have hsubs : st2.subproblems = st.subproblems.set person (CPXchgobj sub
                  ((st.dual_var_master.take pd.tds).map (fun v => -v))) := by
                rw [← hcc2, htake]
              have hrc := solve_subproblem_reduced_cost pd cpx orc st2 st3 person rc3 _ hsub2 hss
              have hgd : st.dual_var_master.getD (pd.tds + person) 0 = mu := by
                rw [List.getD_eq_getElem?_getD, hmu]; rfl
              have hsd : st.subproblems.getD person [] = sub := by
                rw [List.getD_eq_getElem?_getD, hsub]; rfl
              have hrcfor : rc3 = reduced_cost_for pd cpx orc st person := by
                rw [hrc, hmu2]
                simp only [reduced_cost_for, pricing_answer, hgd, hsd]
              have e1 : st3.dual_var_master = st.dual_var_master := by rw [f3, f2]
              have e2 : st3.fixed_people = st.fixed_people := by rw [f3, f2]
              have e3 : st3.subproblems = st2.subproblems := by rw [f3]
              have e4 : st3.solve_subproblem_p = st.solve_subproblem_p.set person false := by
                rw [f3, f2]
              have e5 : st3.log = st.log := by rw [f3, f2]
              have hq : ∀ q, q ≠ person → st2.subproblems[q]? = st.subproblems[q]? := by
                intro q hq
                rw [hsubs, List.getElem?_set_ne (fun h => hq h.symm)]
              have hl : st2.subproblems.length = st.subproblems.length := by
                rw [hsubs, List.length_set]
              rw [htol] at h
              by_cases hneg : rc3 < -(1 / 1000)
              · rw [if_pos hneg] at h
                split at h
                · cases h
                · rename_i st5 hadd
                  simp only [Option.some.injEq, Prod.mk.injEq] at h
                  obtain ⟨hst, hrc3⟩ := h
                  subst hrc3
                  obtain ⟨f5, _⟩ := add_column_to_master_frame pd _ st5 person hadd
                  refine ⟨hrcfor, ?_, ?_, ?_, ?_, ?_, ?_⟩
                  · rw [← hst]; show st5.dual_var_master = _; rw [f5]; exact e1
                  · rw [← hst]; show st5.fixed_people = _; rw [f5]; exact e2
                  · intro q hqne
                    rw [← hst]; show st5.subproblems[q]? = _; rw [f5]
                    show st3.subproblems[q]? = _
                    rw [e3]; exact hq q hqne
                  · rw [← hst]; show st5.subproblems.length = _; rw [f5]
                    show st3.subproblems.length = _
                    rw [e3]; exact hl
                  · rw [← hst]; show st5.solve_subproblem_p.set person true = _; rw [f5]
                    show st3.solve_subproblem_p.set person true = _
                    rw [e4, List.set_set, decide_eq_true hneg]
                  · rw [← hst]; show st5.log ++ _ = _; rw [f5]
                    show (st3.log ++ _) ++ _ = _
                    rw [e5, if_pos hneg]
              · rw [if_neg hneg] at h
                simp only [Option.some.injEq, Prod.mk.injEq] at h
                obtain ⟨hst, hrc3⟩ := h
                subst hrc3
                refine ⟨hrcfor, ?_, ?_, ?_, ?_, ?_, ?_⟩
                · rw [← hst]; exact e1
                · rw [← hst]; exact e2
                · intro q hqne
                  rw [← hst]; show st3.subproblems[q]? = _
                  rw [e3]; exact hq q hqne
                · rw [← hst]; show st3.subproblems.length = _
                  rw [e3]; exact hl
                · rw [← hst]; show st3.solve_subproblem_p = _
                  rw [e4, decide_eq_false hneg]
                · rw [← hst]; show st3.log ++ _ = _
                  rw [e5, if_neg hneg]
                  simp
          · cases hcc2
  · cases h

theorem reduced_cost_for_congr (pd : Problem_Data) (cpx : CPX_Codes) (orc : Oracle)
    (st st1 : State) (p : Nat) (hd : st1.dual_var_master = st.dual_var_master)
    (hs : st1.subproblems[p]? = st.subproblems[p]?) :
    reduced_cost_for pd cpx orc st1 p = reduced_cost_for pd cpx orc st p := by
  have : st1.subproblems.getD p [] = st.subproblems.getD p [] := by
    rw [List.getD_eq_getElem?_getD, List.getD_eq_getElem?_getD, hs]
  simp only [reduced_cost_for, pricing_answer, hd, this]

/-! ## The sweep of method 1 -/


theorem cg_sweep_spec (pd : Problem_Data) (cpx : CPX_Codes) (orc : Oracle) (l : List Nat) :
    ∀ (st : State) (b : Bool) (st' : State) (b' : Bool), l.Nodup →
      cg_sweep pd cpx orc l st b = some (st', b') →
      st'.dual_var_master = st.dual_var_master ∧
      st'.fixed_people = st.fixed_people ∧
      (∀ q, q ∉ l → st'.subproblems[q]? = st.subproblems[q]? ∧
        st'.solve_subproblem_p[q]? = st.solve_subproblem_p[q]?) ∧
      st'.log = st.log ++ l.flatMap (sweep_events pd cpx orc st) ∧
      (∀ p, p ∈ l → st'.solve_subproblem_p[p]? =
        some (decide (st.solve_subproblem_p[p]? = some true ∧
          reduced_cost_for pd cpx orc st p < -(1 / 1000)))) ∧
      (b' = true ↔ b = true ∧ ∀ p, p ∈ l → st.solve_subproblem_p[p]? = some true →
        ¬ reduced_cost_for pd cpx orc st p < -(1 / 1000)) := by
  have htol : reduced_cost_tolerance_LP = 1 / 1000 := rfl
  induction l with
  | nil =>
    intro st b st' b' _ h
    simp only [cg_sweep, Option.some.injEq, Prod.mk.injEq] at h
    obtain ⟨rfl, rfl⟩ := h
    refine ⟨rfl, rfl, fun _ _ => ⟨rfl, rfl⟩, by simp, ?_, ?_⟩
    · intro p hp; cases hp
    · constructor
      · intro hb; exact ⟨hb, fun p hp => by cases hp⟩
      · intro hb; exact hb.1
  | cons p rest ih =>
    intro st b st' b' hnd h
    have hp : p ∉ rest := (List.nodup_cons.mp hnd).1
    have hnd' : rest.Nodup := (List.nodup_cons.mp hnd).2
    rw [cg_sweep] at h
    split at h
    · cases h
    · rename_i hflag
      obtain ⟨i1, i2, i3, i4, i5, i6⟩ := ih st b st' b' hnd' h
      have hev : sweep_events pd cpx orc st p = [] := by
        simp only [sweep_events, hflag]
        rfl
      refine ⟨i1, i2, ?_, ?_, ?_, ?_⟩
      · intro q hq
        exact i3 q (fun hmem => hq (List.mem_cons_of_mem _ hmem))
      · rw [List.flatMap_cons, hev, List.nil_append]
        exact i4
      · intro q hq
        rcases List.mem_cons.mp hq with rfl | hq
        · rw [(i3 q hp).2, hflag]
          simp
        · exact i5 q hq
      · rw [i6]
        constructor
        · rintro ⟨hb, hall⟩
          refine ⟨hb, ?_⟩
          intro q hq hfl
          rcases List.mem_cons.mp hq with rfl | hq
          · rw [hflag] at hfl
            cases hfl
          · exact hall q hq hfl
        · rintro ⟨hb, hall⟩
          exact ⟨hb, fun q hq => hall q (List.mem_cons_of_mem _ hq)⟩
    · rename_i hflag
      split at h
      · cases h
      · rename_i st1 rc hpp
        obtain ⟨s1, s2, s3, s4, _, s6, s7⟩ := price_person_spec pd cpx orc st st1 p rc hpp
        rw [htol] at h
        obtain ⟨i1, i2, i3, i4, i5, i6⟩ := ih st1 _ st' b' hnd' h
        have hplt : p < st.solve_subproblem_p.length := by
          by_contra hcon
          rw [List.getElem?_eq_none (not_lt.mp hcon)] at hflag
          cases hflag
        have hfl1 : ∀ q, q ≠ p → st1.solve_subproblem_p[q]? = st.solve_subproblem_p[q]? := by
          intro q hq
          rw [s6, List.getElem?_set_ne (fun h => hq h.symm)]
        have hrc1 : ∀ q, q ≠ p →
            reduced_cost_for pd cpx orc st1 q = reduced_cost_for pd cpx orc st q := by
          intro q hq
          exact reduced_cost_for_congr pd cpx orc st st1 q s2 (s4 q hq)
        have hne : ∀ q, q ∈ rest → q ≠ p := by
          intro q hq hqp
          subst hqp
          exact hp hq
        have hev : sweep_events pd cpx orc st p =
            [Event.priced p] ++ (if rc < -(1 / 1000) then [Event.column_added p] else []) := by
          simp only [sweep_events, hflag, if_true, s1]
        have hevs : rest.flatMap (sweep_events pd cpx orc st1) =
            rest.flatMap (sweep_events pd cpx orc st) := by
          apply List.flatMap_congr
          intro q hq
          simp only [sweep_events, hfl1 q (hne q hq), hrc1 q (hne q hq)]
        refine ⟨by rw [i1, s2], by rw [i2, s3], ?_, ?_, ?_, ?_⟩
        · intro q hq
          have hq1 : q ∉ rest := fun hmem => hq (List.mem_cons_of_mem _ hmem)
          have hq2 : q ≠ p := fun h => hq (by rw [h]; exact List.mem_cons_self _ _)
          exact ⟨by rw [(i3 q hq1).1, s4 q hq2], by rw [(i3 q hq1).2, hfl1 q hq2]⟩
        · rw [i4, s7, List.flatMap_cons, hev, hevs]
          simp only [List.append_assoc]
        · intro q hq
          rcases List.mem_cons.mp hq with rfl | hq
          · rw [(i3 q hp).2, s6, List.getElem?_set_self hplt, ← s1]
            simp [hflag]
          · rw [i5 q hq, hfl1 q (hne q hq), hrc1 q (hne q hq)]
        · rw [i6]
          constructor
          · rintro ⟨hb, hall⟩
            have hrc : ¬ rc < -(1 / 1000) := by
              intro hcon
              rw [if_pos hcon] at hb
              cases hb
            rw [if_neg hrc] at hb
            refine ⟨hb, ?_⟩
            intro q hq hfl
            rcases List.mem_cons.mp hq with rfl | hq
            · rw [← s1]; exact hrc
            · have := hall q hq (by rw [hfl1 q (hne q hq)]; exact hfl)
              rw [hrc1 q (hne q hq)] at this
              exact this
          · rintro ⟨hb, hall⟩
            have hrc : ¬ rc < -(1 / 1000) := by
              rw [s1]
              exact hall p (List.mem_cons_self _ _) hflag
            rw [if_neg hrc]
            refine ⟨hb, ?_⟩
            intro q hq hfl
            rw [hrc1 q (hne q hq)]
            exact hall q (List.mem_cons_of_mem _ hq) (by rw [← hfl1 q (hne q hq)]; exact hfl)

/-! ## The rounds of method 1 -/


theorem foldl_set_flags (f : Nat → Bool) (n : Nat) :
    ∀ (fl : List Bool) (p : Nat), n ≤ fl.length →
      ((List.range n).foldl (fun flags q => flags.set q (f q)) fl)[p]? =
        if p < n then some (f p) else fl[p]? := by
  induction n with
  | zero => intro fl p _; simp
  | succ n ih =>
    intro fl p hn
    rw [List.range_succ, List.foldl_append]
    simp only [List.foldl_cons, List.foldl_nil]
    by_cases hp : p = n
    · subst hp
      rw [List.getElem?_set_self (by
        have : ((List.range p).foldl (fun flags q => flags.set q (f q)) fl).length = fl.length := by
          clear ih hn
          induction p generalizing fl with
          | zero => rfl
          | succ k ihk =>
            rw [List.range_succ, List.foldl_append]
            simp only [List.foldl_cons, List.foldl_nil, List.length_set]
            exact ihk fl
        omega)]
      simp
    · rw [List.getElem?_set_ne (fun h => hp h.symm), ih fl p (by omega)]
      by_cases h1 : p < n
      · simp [h1, Nat.lt_succ_of_lt h1]
      · have h2 : ¬ p < n + 1 := by omega
        simp [h1, h2]

theorem reset_flags_spec (pd : Problem_Data) (st st' : State)
    (h : reset_flags pd st = some st') (p : Nat) (hp : p < pd.nb_people) :
    st'.solve_subproblem_p[p]? = some (!st.fixed_people.contains p) := by
  unfold reset_flags at h
  split at h
  · rename_i hlen
    simp only [Option.some.injEq] at h
    rw [← h]
    show ((List.range pd.nb_people).foldl _ st.solve_subproblem_p)[p]? = _
    rw [foldl_set_flags (fun q => !st.fixed_people.contains q) pd.nb_people _ p hlen, if_pos hp]
  · cases h

/-- C13 (as the code has it). A round of method 1 that is not cut off by the time limit
solves the master once and then runs the `for` loop once over all people, from the state
`st2` after that solve: exactly the people whose flag `solve_subproblem_p` is set are
priced, each once and in order, with the reduced cost that the duals of this solve give,
and a column is admitted for those with a reduced cost below `-0.001`; the duals are not
touched on the way; afterwards the flag of a person is set exactly when the person got a
column in this round. The round ends the loop (`LP_optimum_found`) exactly when none of
the priced people had a reduced cost below `-0.001`, otherwise the next round starts
from the new flags. The flags of the first round of a call are those that the dive step
left: set exactly for the people not in `fixed_people`. -/
theorem policy_A_round (pd : Problem_Data) (cpx : CPX_Codes) (orc : Oracle) (fuel : Nat)
    (st : State)
    (htime : orc.time_exceeded st.clock_checks = false)
    (hdef : (cg_sweep pd cpx orc (List.range pd.nb_people) (cg_round_start cpx orc st).1
      true).isSome = true) :
    ∃ st3 b,
      cg_sweep pd cpx orc (List.range pd.nb_people) (cg_round_start cpx orc st).1 true =
        some (st3, b) ∧
      (cg_round_start cpx orc st).1.log = st.log ++ [Event.master_solved] ∧
      st3.dual_var_master = (cg_round_start cpx orc st).1.dual_var_master ∧
      st3.log = (cg_round_start cpx orc st).1.log ++
        (List.range pd.nb_people).flatMap
          (sweep_events pd cpx orc (cg_round_start cpx orc st).1) ∧
      (∀ p, p < pd.nb_people → st3.solve_subproblem_p[p]? =
        some (decide ((cg_round_start cpx orc st).1.solve_subproblem_p[p]? = some true ∧
          reduced_cost_for pd cpx orc (cg_round_start cpx orc st).1 p < -(1 / 1000)))) ∧
      (b = true ↔ ∀ p, p < pd.nb_people →
        (cg_round_start cpx orc st).1.solve_subproblem_p[p]? = some true →
        ¬ reduced_cost_for pd cpx orc (cg_round_start cpx orc st).1 p < -(1 / 1000)) ∧
      cg_method1 pd cpx orc (fuel + 1) st =
        (if b = true then Outcome.done (st3, (cg_round_start cpx orc st).2)
         else cg_method1 pd cpx orc fuel st3) ∧
      (∀ s s', reset_flags pd s = some s' → ∀ p, p < pd.nb_people →
        s'.solve_subproblem_p[p]? = some (!s.fixed_people.contains p)) := by
  cases hsw : cg_sweep pd cpx orc (List.range pd.nb_people) (cg_round_start cpx orc st).1 true with
  | none => rw [hsw] at hdef; cases hdef
  | some r =>
    obtain ⟨st3, b⟩ := r
    obtain ⟨i1, _, _, i4, i5, i6⟩ := cg_sweep_spec pd cpx orc (List.range pd.nb_people)
      (cg_round_start cpx orc st).1 true st3 b (List.nodup_range _) hsw
    have hlog : (cg_round_start cpx orc st).1.log = st.log ++ [Event.master_solved] := by
      simp only [cg_round_start, solve_master_logged, solve_masterproblem]
      have := check_solution_status_fields cpx
        { st with
          iterations_CG := st.iterations_CG + 1,
          dual_var_master := (List.range (CPXgetnumrows st.masterproblem)).map
            (orc.lpopt st.masterproblem).pi,
          solution_master := (List.range (CPXgetnumcols st.masterproblem)).map
            (orc.lpopt st.masterproblem).x,
          status := (orc.lpopt st.masterproblem).status,
          solstat := (orc.lpopt st.masterproblem).solstat,
          objective_master := (orc.lpopt st.masterproblem).objval } false
        (orc.lpopt st.masterproblem).status (orc.lpopt st.masterproblem).solstat
      have hl := congrArg State.log this
      simp only at hl
      rw [hl]
    refine ⟨st3, b, rfl, hlog, i1, i4, ?_, ?_, ?_, ?_⟩
    · intro p hp
      exact i5 p (List.mem_range.mpr hp)
    · rw [i6]
      constructor
      · rintro ⟨_, hall⟩ p hp hfl
        exact hall p (List.mem_range.mpr hp) hfl
      · intro hall
        exact ⟨rfl, fun p hp hfl => hall p (List.mem_range.mp hp) hfl⟩
    · have hcc : (solve_master_logged cpx orc
            { st with iterations_CG := st.iterations_CG + 1 }).1.clock_checks =
          st.clock_checks := by
        simp only [solve_master_logged, solve_masterproblem]
        have := check_solution_status_fields cpx
          { st with
            iterations_CG := st.iterations_CG + 1,
            dual_var_master := (List.range (CPXgetnumrows st.masterproblem)).map
              (orc.lpopt st.masterproblem).pi,
            solution_master := (List.range (CPXgetnumcols st.masterproblem)).map
              (orc.lpopt st.masterproblem).x,
            status := (orc.lpopt st.masterproblem).status,
            solstat := (orc.lpopt st.masterproblem).solstat,
            objective_master := (orc.lpopt st.masterproblem).objval } false
          (orc.lpopt st.masterproblem).status (orc.lpopt st.masterproblem).solstat
        have hl := congrArg State.clock_checks this
        simp only at hl
        rw [hl]
      rw [← hcc] at htime
      rw [cg_method1]
      simp only [htime, Bool.false_eq_true, if_false]
      have hst2 : ({ (solve_master_logged cpx orc
            { st with iterations_CG := st.iterations_CG + 1 }).1 with
          clock_checks := (solve_master_logged cpx orc
            { st with iterations_CG := st.iterations_CG + 1 }).1.clock_checks + 1 } : State) =
          (cg_round_start cpx orc st).1 := rfl
      rw [hst2, hsw]
      rfl
    · intro s s' hs p hp
      exact reset_flags_spec pd s s' hs p hp

/-- Witness for C13: the first round of the first call on `hexData`. -/
theorem policy_A_round_witness :
    ∃ st3 b,
      cg_sweep hexData cplexCodes hexOracle (List.range hexData.nb_people)
          (cg_round_start cplexCodes hexOracle hexRootState).1 true = some (st3, b) ∧
      (cg_round_start cplexCodes hexOracle hexRootState).1.log =
        hexRootState.log ++ [Event.master_solved] ∧
      st3.dual_var_master = (cg_round_start cplexCodes hexOracle hexRootState).1.dual_var_master ∧
      st3.log = (cg_round_start cplexCodes hexOracle hexRootState).1.log ++
        (List.range hexData.nb_people).flatMap
          (sweep_events hexData cplexCodes hexOracle
            (cg_round_start cplexCodes hexOracle hexRootState).1) ∧
      (∀ p, p < hexData.nb_people → st3.solve_subproblem_p[p]? =
        some (decide ((cg_round_start cplexCodes hexOracle
            hexRootState).1.solve_subproblem_p[p]? = some true ∧
          reduced_cost_for hexData cplexCodes hexOracle
            (cg_round_start cplexCodes hexOracle hexRootState).1 p < -(1 / 1000)))) ∧
      (b = true ↔ ∀ p, p < hexData.nb_people →
        (cg_round_start cplexCodes hexOracle hexRootState).1.solve_subproblem_p[p]? =
          some true →
        ¬ reduced_cost_for hexData cplexCodes hexOracle
          (cg_round_start cplexCodes hexOracle hexRootState).1 p < -(1 / 1000)) ∧
      cg_method1 hexData cplexCodes hexOracle (4 + 1) hexRootState =
        (if b = true then
          Outcome.done (st3, (cg_round_start cplexCodes hexOracle hexRootState).2)
         else cg_method1 hexData cplexCodes hexOracle 4 st3) ∧
      (∀ s s', reset_flags hexData s = some s' → ∀ p, p < hexData.nb_people →
        s'.solve_subproblem_p[p]? = some (!s.fixed_people.contains p)) :=
  policy_A_round hexData cplexCodes hexOracle 4 hexRootState (by decide!) (by decide!)

/-- C13 (counterexample to the claim as stated). On `hexData` under method 1 the first
round prices both people and admits a column for the first one only; the second round
re-solves the master and prices the first person only, and column generation reports
convergence after it, although the second person is not fixed by branching
(`fixed_people` is empty) and was not priced against the duals of the second solve. -/
theorem policy_A_partial_sweep_counterexample :
    ((column_generation hexData cplexCodes hexOracle
        Column_Generation_Method.one_column_per_person 5 hexRootState).result).map
      (fun r => (r.1.log, r.1.fixed_people)) =
      some ([Event.master_solved, Event.priced 0, Event.column_added 0, Event.priced 1,
        Event.master_solved, Event.priced 0], []) ∧
    ¬ (∀ round ∈ rounds [Event.master_solved, Event.priced 0, Event.column_added 0,
          Event.priced 1, Event.master_solved, Event.priced 0],
        ∀ p, p < hexData.nb_people → p ∉ ([] : List Nat) →
          round.count (Event.priced p) = 1) := by
  constructor
  · decide!
  · intro h
    have h1 : [Event.priced 0] ∈ rounds [Event.master_solved, Event.priced 0,
        Event.column_added 0, Event.priced 1, Event.master_solved, Event.priced 0] := by
      decide
    exact absurd (h _ h1 1 (by decide) (by simp)) (by decide)

/-! ## The pass of method 2 -/

theorem cursor_step (n person : Nat) (hp : person < n) :
    (if person + 1 ≥ n then 0 else person + 1) = (person + 1) % n := by
  by_cases h : person + 1 ≥ n
  · rw [if_pos h]
    have : person + 1 = n := by omega
    rw [this, Nat.mod_self]
  · rw [if_neg h, Nat.mod_eq_of_lt (by omega)]

theorem cursor_first_return (n person last k : Nat)
    (hend : (person + (k + 1)) % n = last)
    (hmin : ∀ i, 1 ≤ i → i ≤ k → (person + i) % n ≠ last) : k < n ∨ n = 0 := by
  by_contra hcon
  have hk : n ≤ k ∧ n ≠ 0 := by omega
  apply hmin (k + 1 - n) (by omega) (by omega)
  rw [← hend]
  have : person + (k + 1) = person + (k + 1 - n) + n := by omega
  rw [this, Nat.add_mod_right]

theorem cursor_no_return (n person j : Nat) (hp : person < n) (hj : 1 ≤ j) (hjn : j < n) :
    (person + j) % n ≠ person := by
  by_cases h : person + j < n
  · rw [Nat.mod_eq_of_lt h]; omega
  · rw [Nat.mod_eq_sub_mod (by omega), Nat.mod_eq_of_lt (by omega)]
    omega

theorem cg_inner2_converged (pd : Problem_Data) (cpx : CPX_Codes) (orc : Oracle)
    (hn : 2 ≤ pd.nb_people) (fuel : Nat) :
    ∀ (st : State) (person last : Nat) (rc0 : ℚ) (st' : State)
      (person' last' : Nat), person < pd.nb_people →
      cg_inner2 pd cpx orc fuel st person last rc0 = Outcome.done (st', person', last', true) →
      ∃ k, k < fuel ∧ person' = last ∧ last' = last ∧
        (person + (k + 1)) % pd.nb_people = last ∧
        (∀ i, 1 ≤ i → i ≤ k → (person + i) % pd.nb_people ≠ last) ∧
        st'.dual_var_master = st.dual_var_master ∧
        st'.fixed_people = st.fixed_people ∧
        (∀ q, st'.solve_subproblem_p[q]? =
          if q ∈ pass_people pd person (k + 1) ∧ st.solve_subproblem_p[q]? = some true
          then some false else st.solve_subproblem_p[q]?) ∧
        (∀ q, q ∉ pass_people pd person (k + 1) → st'.subproblems[q]? = st.subproblems[q]?) ∧
        st'.log = st.log ++ pass_events st (pass_people pd person (k + 1)) ∧
        (∀ q, q ∈ pass_people pd person (k + 1) → st.solve_subproblem_p[q]? = some true →
          ¬ reduced_cost_for pd cpx orc st q < -(1 / 1000)) := by
  have htol : reduced_cost_tolerance_LP = 1 / 1000 := rfl
  induction fuel with
  | zero =>
    intro st person last rc0 st' person' last' _ h
    simp only [cg_inner2] at h
    cases h
  | succ fuel ih =>
    intro st person last rc0 st' person' last' hp h
    rw [cg_inner2] at h
    have hcur := cursor_step pd.nb_people person hp
    have hp1 : (person + 1) % pd.nb_people < pd.nb_people := Nat.mod_lt _ (by omega)
    have hne1 : (person + 1) % pd.nb_people ≠ person := by
      have := cursor_no_return pd.nb_people person 1 hp (le_refl 1) (by omega)
      exact this
    -- the conclusion for a pass of one step
    have one : ∀ (s : State), (person + 1) % pd.nb_people = last →
        s.dual_var_master = st.dual_var_master → s.fixed_people = st.fixed_people →
        (∀ q, s.solve_subproblem_p[q]? =
          if q = person ∧ st.solve_subproblem_p[q]? = some true
          then some false else st.solve_subproblem_p[q]?) →
        (∀ q, q ≠ person → s.subproblems[q]? = st.subproblems[q]?) →
        s.log = st.log ++ pass_events st [person] →
        (st.solve_subproblem_p[person]? = some true →
          ¬ reduced_cost_for pd cpx orc st person < -(1 / 1000)) →
        ∃ k, k < fuel + 1 ∧ (person + 1) % pd.nb_people = last ∧ last = last ∧
          (person + (k + 1)) % pd.nb_people = last ∧
          (∀ i, 1 ≤ i → i ≤ k → (person + i) % pd.nb_people ≠ last) ∧
          s.dual_var_master = st.dual_var_master ∧
          s.fixed_people = st.fixed_people ∧
          (∀ q, s.solve_subproblem_p[q]? =
            if q ∈ pass_people pd person (k + 1) ∧ st.solve_subproblem_p[q]? = some true
            then some false else st.solve_subproblem_p[q]?) ∧
          (∀ q, q ∉ pass_people pd person (k + 1) → s.subproblems[q]? = st.subproblems[q]?) ∧
          s.log = st.log ++ pass_events st (pass_people pd person (k + 1)) ∧
          (∀ q, q ∈ pass_people pd person (k + 1) → st.solve_subproblem_p[q]? = some true →
            ¬ reduced_cost_for pd cpx orc st q < -(1 / 1000)) := by
      intro s hlast hd hf hfl hsub hlog hrc
      have hpath : pass_people pd person (0 + 1) = [person] := by
        show List.map (fun i => (person + i) % pd.nb_people) [0] = [person]
        simp [Nat.mod_eq_of_lt hp]
      refine ⟨0, by omega, hlast, rfl, hlast, ?_, hd, hf, ?_, ?_, ?_, ?_⟩
      · intro i h1 h2; omega
      · intro q; rw [hpath, hfl q]; simp
      · intro q hq; rw [hpath] at hq; exact hsub q (by simpa using hq)
      · rw [hpath]; exact hlog
      · intro q hq; rw [hpath] at hq
        have : q = person := by simpa using hq
        subst this; exact hrc
    -- the conclusion for a pass that goes on after the first step
    have more : ∀ (s : State) (rc : ℚ), (person + 1) % pd.nb_people ≠ last →
        s.dual_var_master = st.dual_var_master → s.fixed_people = st.fixed_people →
        (∀ q, s.solve_subproblem_p[q]? =
          if q = person ∧ st.solve_subproblem_p[q]? = some true
          then some false else st.solve_subproblem_p[q]?) →
        (∀ q, q ≠ person → s.subproblems[q]? = st.subproblems[q]?) →
        s.log = st.log ++ pass_events st [person] →
        (st.solve_subproblem_p[person]? = some true →
          ¬ reduced_cost_for pd cpx orc st person < -(1 / 1000)) →
        cg_inner2 pd cpx orc fuel s ((person + 1) % pd.nb_people) last rc =
          Outcome.done (st', person', last', true) →
        ∃ k, k < fuel + 1 ∧ person' = last ∧ last' = last ∧
          (person + (k + 1)) % pd.nb_people = last ∧
          (∀ i, 1 ≤ i → i ≤ k → (person + i) % pd.nb_people ≠ last) ∧
          st'.dual_var_master = st.dual_var_master ∧
          st'.fixed_people = st.fixed_people ∧
          (∀ q, st'.solve_subproblem_p[q]? =
            if q ∈ pass_people pd person (k + 1) ∧ st.solve_subproblem_p[q]? = some true
            then some false else st.solve_subproblem_p[q]?) ∧
          (∀ q, q ∉ pass_people pd person (k + 1) → st'.subproblems[q]? = st.subproblems[q]?) ∧
          st'.log = st.log ++ pass_events st (pass_people pd person (k + 1)) ∧
          (∀ q, q ∈ pass_people pd person (k + 1) → st.solve_subproblem_p[q]? = some true →
            ¬ reduced_cost_for pd cpx orc st q < -(1 / 1000)) := by
      intro s rc hnl hd hf hfl hsub hlog hrc hrec
      obtain ⟨k, hk, e1, e2, hend, hmin, i1, i2, i3, i4, i5, i6⟩ :=
        ih s ((person + 1) % pd.nb_people) last rc st' person' last' hp1 hrec
      have hshift : ∀ i, ((person + 1) % pd.nb_people + i) % pd.nb_people =
          (person + (i + 1)) % pd.nb_people := by
        intro i
        rw [Nat.mod_add_mod]
        congr 1
        omega
      have hend' : (person + (k + 1 + 1)) % pd.nb_people = last := by
        rw [← hshift (k + 1)]; exact hend
      have hmin' : ∀ i, 1 ≤ i → i ≤ k + 1 → (person + i) % pd.nb_people ≠ last := by
        intro i h1 h2
        by_cases hi : i = 1
        · subst hi; exact hnl
        · have := hmin (i - 1) (by omega) (by omega)
          rw [hshift (i - 1)] at this
          have e : i - 1 + 1 = i := by omega
          rw [e] at this
          exact this
      have hkn : k + 1 < pd.nb_people := by
        rcases cursor_first_return pd.nb_people person last (k + 1) hend' hmin' with h | h
        · exact h
        · omega
      have hpath : pass_people pd person (k + 1 + 1) =
          person :: pass_people pd ((person + 1) % pd.nb_people) (k + 1) := by
        unfold pass_people
        rw [List.range_succ_eq_map (k + 1), List.map_cons, List.map_map]
        congr 1
        · simp [Nat.mod_eq_of_lt hp]
        · apply List.map_congr_left
          intro i _
          simp only [Function.comp]
          rw [hshift i]
      have hnot : person ∉ pass_people pd ((person + 1) % pd.nb_people) (k + 1) := by
        intro hmem
        unfold pass_people at hmem
        obtain ⟨i, hi, hi2⟩ := List.mem_map.mp hmem
        rw [hshift i] at hi2
        exact cursor_no_return pd.nb_people person (i + 1) hp (by omega)
          (by have := List.mem_range.mp hi; omega) hi2
      have hflq : ∀ q, q ≠ person → s.solve_subproblem_p[q]? = st.solve_subproblem_p[q]? := by
        intro q hq
        rw [hfl q, if_neg (fun h => hq h.1)]
      have hrcq : ∀ q, q ≠ person →
          reduced_cost_for pd cpx orc s q = reduced_cost_for pd cpx orc st q := by
        intro q hq
        exact reduced_cost_for_congr pd cpx orc st s q hd (hsub q hq)
      have hneq : ∀ q, q ∈ pass_people pd ((person + 1) % pd.nb_people) (k + 1) → q ≠ person := by
        intro q hq hqp
        subst hqp
        exact hnot hq
      refine ⟨k + 1, by omega, e1, e2, hend', hmin', by rw [i1, hd], by rw [i2, hf],
        ?_, ?_, ?_, ?_⟩
      · intro q
        rw [hpath, i3 q]
        by_cases hq : q = person
        · subst hq
          rw [if_neg (fun h => hnot h.1), hfl q]
          simp
        · rw [hflq q hq]
          simp [hq]
      · intro q hq
        rw [hpath] at hq
        have hq1 : q ≠ person := fun h => hq (by rw [h]; exact List.mem_cons_self _ _)
        have hq2 : q ∉ pass_people pd ((person + 1) % pd.nb_people) (k + 1) :=
          fun h => hq (List.mem_cons_of_mem _ h)
        rw [i4 q hq2, hsub q hq1]
      · rw [i5, hlog, hpath]
        have : pass_events s (pass_people pd ((person + 1) % pd.nb_people) (k + 1)) =
            pass_events st (pass_people pd ((person + 1) % pd.nb_people) (k + 1)) := by
          unfold pass_events
          congr 1
          apply List.filter_congr
          intro q hq
          rw [hflq q (hneq q hq)]
        rw [this, List.append_assoc]
        congr 1
        unfold pass_events
        rw [← List.map_append, ← List.filter_append]
        rfl
      · intro q hq hflag
        rw [hpath] at hq
        rcases List.mem_cons.mp hq with rfl | hq
        · exact hrc hflag
        · have := i6 q hq (by rw [hflq q (hneq q hq)]; exact hflag)
          rw [hrcq q (hneq q hq)] at this
          exact this
    split at h
    · cases h
    · rename_i flag hflag
      cases flag with
      | false =>
        simp only [Bool.false_eq_true, if_false, hcur] at h
        have hfl0 : ∀ q, st.solve_subproblem_p[q]? =
            if q = person ∧ st.solve_subproblem_p[q]? = some true
            then some false else st.solve_subproblem_p[q]? := by
          intro q
          by_cases hq : q = person
          · subst hq; rw [hflag]; simp
          · rw [if_neg (fun h => hq h.1)]
        have hlog0 : st.log = st.log ++ pass_events st [person] := by
          simp [pass_events, hflag]
        have hrc0 : st.solve_subproblem_p[person]? = some true →
            ¬ reduced_cost_for pd cpx orc st person < -(1 / 1000) := by
          intro hcon; rw [hflag] at hcon; cases hcon
        by_cases hl : (person + 1) % pd.nb_people = last
        · rw [if_pos hl] at h
          simp only [Outcome.done.injEq, Prod.mk.injEq] at h
          obtain ⟨h1, h2, h3, _⟩ := h
          rw [← h1, ← h2, ← h3]
          exact one st hl rfl rfl hfl0 (fun _ _ => rfl) hlog0 hrc0
        · rw [if_neg hl] at h
          split at h
          · exact more st rc0 hl rfl rfl hfl0 (fun _ _ => rfl) hlog0 hrc0 h
          · simp at h
      | true =>
        simp only [if_true] at h
        split at h
        · cases h
        · rename_i st1 rc last1 hstep
          split at hstep
          · cases hstep
          · rename_i st1' rc' hpp
            simp only [Option.some.injEq, Prod.mk.injEq] at hstep
            obtain ⟨rfl, rfl, hl1⟩ := hstep
            obtain ⟨s1, s2, s3, s4, _, s6, s7⟩ :=
              price_person_spec pd cpx orc st st1' person rc' hpp
            rw [htol] at hl1 h
            rw [hcur] at h
            have hplt : person < st.solve_subproblem_p.length := by
              by_contra hcon
              rw [List.getElem?_eq_none (not_lt.mp hcon)] at hflag
              cases hflag
            by_cases hneg : rc' < -(1 / 1000)
            · rw [if_pos hneg] at hl1
              rw [← hl1, if_neg hne1] at h
              have : ¬ rc' > -(1 / 1000) := by
                intro hc; exact absurd hneg (not_lt.mpr (le_of_lt hc))
              rw [if_neg this] at h
              simp at h
            · rw [if_neg hneg] at hl1
              rw [← hl1] at h
              have hfl1 : ∀ q, st1'.solve_subproblem_p[q]? =
                  if q = person ∧ st.solve_subproblem_p[q]? = some true
                  then some false else st.solve_subproblem_p[q]? := by
                intro q
                rw [s6, decide_eq_false hneg]
                by_cases hq : q = person
                · subst hq
                  rw [List.getElem?_set_self hplt, hflag]; simp
                · rw [List.getElem?_set_ne (fun h => hq h.symm), if_neg (fun h => hq h.1)]
              have hlog1 : st1'.log = st.log ++ pass_events st [person] := by
                rw [s7, if_neg hneg]
                simp [pass_events, hflag]
              have hrc1 : st.solve_subproblem_p[person]? = some true →
                  ¬ reduced_cost_for pd cpx orc st person < -(1 / 1000) := by
                intro _; rw [← s1]; exact hneg
              by_cases hl : (person + 1) % pd.nb_people = last
              · rw [if_pos hl] at h
                simp only [Outcome.done.injEq, Prod.mk.injEq] at h
                obtain ⟨h1, h2, h3, _⟩ := h
                rw [← h1, ← h2, ← h3]
                exact one st1' hl s2 s3 hfl1 s4 hlog1 hrc1
              · rw [if_neg hl] at h
                split at h
                · exact more st1' rc' hl s2 s3 hfl1 s4 hlog1 hrc1 h
                · simp at h

/-! ## The rounds of method 2 -/

theorem cg_round_start2_log (cpx : CPX_Codes) (orc : Oracle) (st : State) :
    (cg_round_start2 cpx orc st).1.log = st.log ++ [Event.master_solved] := by
  simp only [cg_round_start2, solve_master_logged, solve_masterproblem]
  have := check_solution_status_fields cpx
    { st with
      iterations_CG := st.iterations_CG + 1,
      clock_checks := st.clock_checks + 1,
      dual_var_master := (List.range (CPXgetnumrows st.masterproblem)).map
        (orc.lpopt st.masterproblem).pi,
      solution_master := (List.range (CPXgetnumcols st.masterproblem)).map
        (orc.lpopt st.masterproblem).x,
      status := (orc.lpopt st.masterproblem).status,
      solstat := (orc.lpopt st.masterproblem).solstat,
      objective_master := (orc.lpopt st.masterproblem).objval } false
    (orc.lpopt st.masterproblem).status (orc.lpopt st.masterproblem).solstat
  have hl := congrArg State.log this
  simp only at hl
  rw [hl]

/-- C14 (as the code has it). A round of method 2 for an instance with at least two
people, not cut off by the time limit, whose `do` loop ends with `LP_optimum_found`: the
call returns with the objective of the master solve of this round. The pass started at the
cursor `person`, took `k + 1` steps and ended when the cursor reached
`last_person_improved` for the first time; no column was admitted in it (the log of the
pass holds pricing events only, the duals are those of the solve of this round); exactly
the visited people whose flag `solve_subproblem_p` was set were priced, each with the
reduced cost that these duals give, and none was below `-0.001`. Unless the pass started
at `last_person_improved` itself, that person is not among the visited people. -/
theorem policy_B_round (pd : Problem_Data) (cpx : CPX_Codes) (orc : Oracle) (fuel : Nat)
    (st : State) (person last_person_improved : Nat) (obj_master_LP : ℚ)
    (hn : 2 ≤ pd.nb_people) (hp : person < pd.nb_people)
    (htime : orc.time_exceeded st.clock_checks = false)
    (hconv : ((cg_inner2 pd cpx orc (pd.nb_people + 1) (cg_round_start2 cpx orc st).1 person
      last_person_improved 999999).result.map fun r => r.2.2.2) = some true) :
    ∃ st2 k,
      cg_inner2 pd cpx orc (pd.nb_people + 1) (cg_round_start2 cpx orc st).1 person
          last_person_improved 999999 =
        Outcome.done (st2, last_person_improved, last_person_improved, true) ∧
      cg_method2 pd cpx orc (fuel + 1) st person last_person_improved obj_master_LP =
        Outcome.done (st2, (cg_round_start2 cpx orc st).2) ∧
      (cg_round_start2 cpx orc st).1.log = st.log ++ [Event.master_solved] ∧
      k < pd.nb_people ∧
      (person + (k + 1)) % pd.nb_people = last_person_improved ∧
      (∀ i, 1 ≤ i → i ≤ k → (person + i) % pd.nb_people ≠ last_person_improved) ∧
      (person ≠ last_person_improved →
        last_person_improved ∉ pass_people pd person (k + 1)) ∧
      st2.dual_var_master = (cg_round_start2 cpx orc st).1.dual_var_master ∧
      st2.log = (cg_round_start2 cpx orc st).1.log ++
        pass_events (cg_round_start2 cpx orc st).1 (pass_people pd person (k + 1)) ∧
      (∀ q, q ∈ pass_people pd person (k + 1) →
        (cg_round_start2 cpx orc st).1.solve_subproblem_p[q]? = some true →
        ¬ reduced_cost_for pd cpx orc (cg_round_start2 cpx orc st).1 q < -(1 / 1000)) := by
  cases hin : cg_inner2 pd cpx orc (pd.nb_people + 1) (cg_round_start2 cpx orc st).1 person
      last_person_improved 999999 with
  | undefined => rw [hin] at hconv; cases hconv
  | out_of_fuel => rw [hin] at hconv; cases hconv
  | done r =>
    obtain ⟨st2, person1, last1, b⟩ := r
    rw [hin] at hconv
    simp only [Outcome.result, Option.map_some', Option.some.injEq] at hconv
    subst hconv
    obtain ⟨k, _, e1, e2, hend, hmin, i1, _, _, _, i5, i6⟩ :=
      cg_inner2_converged pd cpx orc hn (pd.nb_people + 1) (cg_round_start2 cpx orc st).1
        person last_person_improved 999999 st2 person1 last1 hp hin
    rw [e1, e2] at hin
    have hk : k < pd.nb_people := by
      rcases cursor_first_return pd.nb_people person last_person_improved k hend hmin with h | h
      · exact h
      · omega
    refine ⟨st2, k, by rw [e1, e2], ?_, cg_round_start2_log cpx orc st, hk, hend, hmin, ?_, i1, i5, i6⟩
    · rw [cg_method2]
      simp only [htime, Bool.false_eq_true, if_false]
      have hst : solve_master_logged cpx orc
          { st with iterations_CG := st.iterations_CG + 1,
                    clock_checks := st.clock_checks + 1 } = cg_round_start2 cpx orc st := rfl
      rw [hst, hin]
      rfl
    · intro hne hmem
      obtain ⟨i, hi, hi2⟩ := List.mem_map.mp hmem
      by_cases h0 : i = 0
      · subst h0
        rw [Nat.add_zero, Nat.mod_eq_of_lt hp] at hi2
        exact hne hi2
      · exact hmin i (by omega) (by have := List.mem_range.mp hi; omega) hi2

/-- Witness for C14: the second round of the first call on `hexData`. -/
theorem policy_B_round_witness :
    ∃ st2 k,
      cg_inner2 hexData cplexCodes hexOracle (hexData.nb_people + 1)
          (cg_round_start2 cplexCodes hexOracle hexAdmittedState).1 1 0 999999 =
        Outcome.done (st2, 0, 0, true) ∧
      cg_method2 hexData cplexCodes hexOracle (4 + 1) hexAdmittedState 1 0 21800 =
        Outcome.done (st2, (cg_round_start2 cplexCodes hexOracle hexAdmittedState).2) ∧
      (cg_round_start2 cplexCodes hexOracle hexAdmittedState).1.log =
        hexAdmittedState.log ++ [Event.master_solved] ∧
      k < hexData.nb_people ∧
      (1 + (k + 1)) % hexData.nb_people = 0 ∧
      (∀ i, 1 ≤ i → i ≤ k → (1 + i) % hexData.nb_people ≠ 0) ∧
      (1 ≠ 0 → 0 ∉ pass_people hexData 1 (k + 1)) ∧
      st2.dual_var_master =
        (cg_round_start2 cplexCodes hexOracle hexAdmittedState).1.dual_var_master ∧
      st2.log = (cg_round_start2 cplexCodes hexOracle hexAdmittedState).1.log ++
        pass_events (cg_round_start2 cplexCodes hexOracle hexAdmittedState).1
          (pass_people hexData 1 (k + 1)) ∧
      (∀ q, q ∈ pass_people hexData 1 (k + 1) →
        (cg_round_start2 cplexCodes hexOracle hexAdmittedState).1.solve_subproblem_p[q]? =
          some true →
        ¬ reduced_cost_for hexData cplexCodes hexOracle
          (cg_round_start2 cplexCodes hexOracle hexAdmittedState).1 q < -(1 / 1000)) :=
  policy_B_round hexData cplexCodes hexOracle 4 hexAdmittedState 1 0 21800
    (by decide) (by decide) (by decide!) (by decide!)

/-- C14 (counterexample to the claim as stated). On `hexData` under method 2 the
first round prices the first person and admits a column; the second round re-solves the
master and prices the second person; then the cursor is back at the first person, the one
who received the last column, and column generation reports convergence: the first person
is not fixed by branching (`fixed_people` is empty) and has not been priced after the
last admission. -/
theorem policy_B_last_improved_counterexample :
    ((column_generation hexData cplexCodes hexOracle
        Column_Generation_Method.one_column_person_p_and_reoptimize 5 hexRootState).result).map
      (fun r => (r.1.log, r.1.fixed_people)) =
      some ([Event.master_solved, Event.priced 0, Event.column_added 0,
        Event.master_solved, Event.priced 1], []) ∧
    after_last_admission [Event.master_solved, Event.priced 0, Event.column_added 0,
        Event.master_solved, Event.priced 1] = [Event.master_solved, Event.priced 1] ∧
    ¬ (∀ p, p < hexData.nb_people → p ∉ ([] : List Nat) →
        Event.priced p ∈ after_last_admission [Event.master_solved, Event.priced 0,
          Event.column_added 0, Event.master_solved, Event.priced 1]) := by
  refine ⟨by decide!, by decide, ?_⟩
  intro h
  exact absurd (h 0 (by decide) (by simp)) (by decide)

/-! ## The pool of columns after the pruning -/

/-- C19 (divergence). `remove_columns_that_violate_branching_restrictions` never changes
`current_columns`: whenever it returns, the pool is the one it was called with. On
`duoBranchedState` (first person fixed to `z_1_1`) it deletes `z_1_3` from the master,
and the pool still holds the record of `z_1_3`, a column of the newly fixed person other
than the one fixed; the pool and the generated columns of the master differ. -/
theorem remove_columns_pool_untouched :
    (∀ st : State,
      (remove_columns_that_violate_branching_restrictions st).map State.current_columns =
        (remove_columns_that_violate_branching_restrictions st).map
          (fun _ => st.current_columns)) ∧
    (remove_columns_that_violate_branching_restrictions duoBranchedState).map
        (fun st => (st.fixed_people, st.fixed_columns.map Column.name,
          st.current_columns.map Column.name,
          (colNames st.masterproblem).drop (firstGenerated duoData))) =
      some ([0], ["z_1_1"], ["z_1_1", "z_2_2", "z_1_3", "z_2_4"],
        ["z_1_1", "z_2_2", "z_2_4"]) := by
  refine ⟨?_, ?_⟩
  · intro st
    unfold remove_columns_that_violate_branching_restrictions
    cases remove_columns_outer st.fixed_columns st.nb_people_fixed_current_iteration
      st.current_columns st.masterproblem <;> rfl
  · decide

/-! ## The time budget of a dive level -/

theorem unfixed_people_length (n : Nat) (l : List Nat) (hnd : l.Nodup) (hlt : ∀ p ∈ l, p < n) :
    ((List.range n).filter fun p => !l.contains p).length + l.length = n := by
  have h1 : ((List.range n).filter fun p => !l.contains p).length =
      ((Finset.range n).filter fun p => p ∉ l).card := by
    rw [← List.toFinset_card_of_nodup ((List.nodup_range n).filter _)]
    congr 1
    ext p
    simp
  have h2 : l.length = ((Finset.range n).filter fun p => p ∈ l).card := by
    rw [← List.toFinset_card_of_nodup hnd]
    congr 1
    ext p
    simp only [List.mem_toFinset, Finset.mem_filter, Finset.mem_range]
    exact ⟨fun h => ⟨hlt p h, h⟩, fun h => h.2⟩
  rw [h1, h2, add_comm]
  have := Finset.filter_card_add_filter_neg_card_eq_card (s := Finset.range n) (fun p => p ∈ l)
  rw [this, Finset.card_range]

/-- The divisor of step (8) when `fixed_people` lists distinct people of the instance:
it is the number of people not fixed, and it is at least 1 exactly when fewer than
`nb_people` people are fixed. -/
theorem node_budget_divisor_spec (pd : Problem_Data) (st : State)
    (hn : pd.nb_people < 2 ^ 64) (hnd : st.fixed_people.Nodup)
    (hlt : ∀ p ∈ st.fixed_people, p < pd.nb_people) :
    node_budget_divisor pd st = (unfixed_people pd st).length ∧
    (1 ≤ node_budget_divisor pd st ↔ st.fixed_people.length < pd.nb_people) := by
  have h := unfixed_people_length pd.nb_people st.fixed_people hnd hlt
  have e : node_budget_divisor pd st = pd.nb_people - st.fixed_people.length := by
    unfold node_budget_divisor
    have h1 : st.fixed_people.length ≤ pd.nb_people := by omega
    have hL : st.fixed_people.length % 2 ^ 64 = st.fixed_people.length :=
      Nat.mod_eq_of_lt (by omega)
    rw [Nat.mod_eq_of_lt hn, hL]
    omega
  unfold unfixed_people
  constructor
  · rw [e]; omega
  · rw [e]; omega

/-- C20 (divergence). On `duoData` with the largest-fractional rule, the dive level that
fixes the second (last) person leaves `fixed_people = [0, 1]`: the divisor of step (8) is
0 and the budget is not a number of seconds. With the threshold rule and threshold 0.4
on `duoFractionalState` the second person is pushed twice, `fixed_people = [0, 1, 1]` is
longer than `nb_people`, and the `size_t` subtraction wraps to `2^64 - 1`, whereas no
person is unfixed. In general the divisor is 0 whenever `fixed_people` has `nb_people`
entries. -/
theorem node_budget_divisor_defects :
    (dive_step duoData Branching_Method_Diving.largest_fractional_variable 0
        duoSecondLevelState).map
      (fun st => (st.fixed_people, unfixed_people duoData st, node_budget_divisor duoData st,
        allowed_computation_time_node duoData 3600 10 st)) =
      some ([0, 1], [], 0, none) ∧
    (dive_step duoData Branching_Method_Diving.value_above_threshold (2 / 5)
        duoFractionalState).map
      (fun st => (st.fixed_people, unfixed_people duoData st, node_budget_divisor duoData st,
        allowed_computation_time_node duoData 3600 10 st)) =
      some ([0, 1, 1], [], 2 ^ 64 - 1, some (3590 / (2 ^ 64 - 1))) ∧
    (∀ (pd : Problem_Data) (st : State), st.fixed_people.length = pd.nb_people →
      allowed_computation_time_node pd 3600 10 st = none) := by
  refine ⟨by decide!, by decide!, ?_⟩
  intro pd st h
  have : node_budget_divisor pd st = 0 := by
    unfold node_budget_divisor
    rw [h]
    have := Nat.mod_lt pd.nb_people (show 0 < 2 ^ 64 by norm_num)
    omega
  simp [allowed_computation_time_node, this]

/-! ## The dive step restricts the master -/


theorem Restricts.trans {a b c : CpxLP} (h1 : Restricts a b) (h2 : Restricts b c) :
    Restricts a c := by
  intro x hx
  obtain ⟨y, hy, e1⟩ := h1 x hx
  obtain ⟨z, hz, e2⟩ := h2 y hy
  exact ⟨z, hz, by rw [e2, e1]⟩

theorem zipWith_all_getElem {α β : Type} (f : α → β → Bool) :
    ∀ (l : List α) (x : List β), (List.zipWith f l x).all id = true →
      ∀ (j : Nat) (a : α) (b : β), l[j]? = some a → x[j]? = some b → f a b = true := by
  intro l
  induction l with
  | nil => intro x _ j a b ha; cases ha
  | cons a0 l ih =>
    intro x h j a b ha hb
    cases x with
    | nil => cases hb
    | cons b0 x =>
      simp only [List.zipWith_cons_cons, List.all_cons, Bool.and_eq_true, id] at h
      cases j with
      | zero =>
        simp only [List.getElem?_cons_zero, Option.some.injEq] at ha hb
        rw [← ha, ← hb]; exact h.1
      | succ j =>
        simp only [List.getElem?_cons_succ] at ha hb
        exact ih x h.2 j a b ha hb

theorem sum_zipWith_range {α : Type} (g : α → ℚ → ℚ) :
    ∀ (l : List α) (x : List ℚ), x.length = l.length →
      (List.zipWith g l x).sum =
        ∑ j in Finset.range l.length,
          (match l[j]? with
           | some c => g c (x.getD j 0)
           | none => 0) := by
  intro l
  induction l with
  | nil => intro x _; simp
  | cons a l ih =>
    intro x hx
    cases x with
    | nil => simp at hx
    | cons b x =>
      simp only [List.length_cons, Nat.add_right_cancel_iff] at hx
      rw [List.zipWith_cons_cons, List.sum_cons, ih x hx, List.length_cons,
        Finset.sum_range_succ']
      simp only [List.getElem?_cons_succ, List.getElem?_cons_zero, List.getD_cons_succ,
        List.getD_cons_zero]
      ring

theorem row_activity_nonzero_eq (lp : CpxLP) (x : List ℚ) (i : Nat) (hx : x.length = lp.cols.length) :
    row_activity_nonzero lp x i = row_activity lp x i := by
  unfold row_activity_nonzero row_activity
  rw [sum_zipWith_range _ lp.cols x hx]
  apply Finset.sum_congr rfl
  intro j _
  unfold matrixEntry
  cases lp.cols[j]? with
  | none => simp
  | some c =>
    simp only
    by_cases h : x.getD j 0 = 0
    · rw [if_pos h, h, mul_zero]
    · rw [if_neg h]

theorem column_reduced_cost_eq (lp : CpxLP) (pi_ : List ℚ) (j : Nat) (c : CpxCol)
    (hc : lp.cols[j]? = some c) (hrows : ∀ e ∈ c.coefs, e.1 < lp.rows.length) :
    column_reduced_cost pi_ c =
      objCoef lp j - ∑ i in Finset.range lp.rows.length, pi_.getD i 0 * matrixEntry lp i j := by
  unfold column_reduced_cost objCoef matrixEntry
  rw [hc]
  simp only
  congr 1
  have h := sum_matCoef_mul lp.rows.length (fun i => pi_.getD i 0) c.coefs hrows
  have e1 : (∑ i in Finset.range lp.rows.length, pi_.getD i 0 * coef c i) =
      ∑ i in Finset.range lp.rows.length, matCoef c.coefs i * pi_.getD i 0 := by
    apply Finset.sum_congr rfl
    intro i _
    unfold coef matCoef
    ring
  rw [e1, h]
  congr 1
  apply List.map_congr_left
  intro e _
  by_cases h0 : e.2 = 0
  · rw [if_pos h0, h0, zero_mul]
  · rw [if_neg h0]

theorem objective_value_split (lp : CpxLP) (pi_ v : List ℚ) :
    objective_value lp v =
      ∑ j in Finset.range lp.cols.length,
        (objCoef lp j - ∑ i in Finset.range lp.rows.length,
          pi_.getD i 0 * matrixEntry lp i j) * v.getD j 0 +
      ∑ i in Finset.range lp.rows.length, pi_.getD i 0 * row_activity lp v i := by
  have h2 : ∑ i in Finset.range lp.rows.length, pi_.getD i 0 * row_activity lp v i =
      ∑ j in Finset.range lp.cols.length,
        (∑ i in Finset.range lp.rows.length, pi_.getD i 0 * matrixEntry lp i j) * v.getD j 0 := by
    unfold row_activity
    simp only [Finset.mul_sum, Finset.sum_mul]
    rw [Finset.sum_comm]
    apply Finset.sum_congr rfl
    intro j _
    apply Finset.sum_congr rfl
    intro i _
    ring
  rw [h2, ← Finset.sum_add_distrib]
  unfold objective_value
  apply Finset.sum_congr rfl
  intro j _
  ring

/-- A point and row multipliers that pass `optimality_certificate` are an optimal
solution: the point is feasible and no feasible point has a smaller objective value. -/
theorem optimality_certificate_sound (lp : CpxLP) (x pi_ : List ℚ)
    (h : optimality_certificate lp x pi_ = true) :
    Feasible lp x ∧ ∀ y, Feasible lp y → objective_value lp x ≤ objective_value lp y := by
  unfold optimality_certificate at h
  simp only [Bool.and_eq_true, decide_eq_true_eq] at h
  obtain ⟨⟨hlen, hcols⟩, hrows⟩ := h
  have hrowE : ∀ (i : Nat) (r : CpxRow), lp.rows[i]? = some r →
      r.sense = 'E' ∧ row_activity lp x i = r.rhs := by
    intro i r hr
    have hi : i < lp.rows.length := by
      by_contra hcon
      rw [List.getElem?_eq_none (not_lt.mp hcon)] at hr
      cases hr
    have := zipWith_all_getElem _ lp.rows (List.range lp.rows.length) hrows i r i hr
      (by rw [List.getElem?_range hi])
    simp only [Bool.and_eq_true, decide_eq_true_eq] at this
    rw [row_activity_nonzero_eq lp x i hlen] at this
    exact this
  have hcol : ∀ (j : Nat) (c : CpxCol), lp.cols[j]? = some c →
      (c.lb ≤ x.getD j 0 ∧ ∀ u, c.ub = some u → x.getD j 0 ≤ u) ∧
      ((objCoef lp j - ∑ i in Finset.range lp.rows.length,
          pi_.getD i 0 * matrixEntry lp i j) = 0 ∨
        (0 < (objCoef lp j - ∑ i in Finset.range lp.rows.length,
          pi_.getD i 0 * matrixEntry lp i j) ∧ x.getD j 0 = c.lb) ∨
        ((objCoef lp j - ∑ i in Finset.range lp.rows.length,
          pi_.getD i 0 * matrixEntry lp i j) < 0 ∧ c.ub = some (x.getD j 0))) := by
    intro j c hc
    have hj : j < lp.cols.length := by
      by_contra hcon
      rw [List.getElem?_eq_none (not_lt.mp hcon)] at hc
      cases hc
    have hxj : x[j]? = some (x.getD j 0) := by
      rw [List.getD_eq_getElem?_getD, List.getElem?_eq_getElem (by rw [hlen]; exact hj)]
      rfl
    have := zipWith_all_getElem _ lp.cols x hcols j c _ hc hxj
    unfold column_certified at this
    simp only [Bool.and_eq_true, Bool.or_eq_true, decide_eq_true_eq, List.all_eq_true] at this
    obtain ⟨⟨⟨h0, h1⟩, h2⟩, h3⟩ := this
    have hrc := column_reduced_cost_eq lp pi_ j c hc (fun e he => h0 e he)
    rw [hrc] at h3
    refine ⟨⟨h1, ?_⟩, ?_⟩
    · intro u hu
      rw [hu] at h2
      simpa using h2
    · rcases h3 with (h3 | h3) | h3
      · exact Or.inl h3
      · exact Or.inr (Or.inl h3)
      · exact Or.inr (Or.inr h3)
  have hfeas : Feasible lp x := by
    refine ⟨hlen, fun j c hc => (hcol j c hc).1, ?_⟩
    intro i r hr
    obtain ⟨hs, ha⟩ := hrowE i r hr
    refine ⟨fun _ => ha, ?_, ?_⟩
    · intro hL; rw [hs] at hL; exact absurd hL (by decide)
    · intro hG; rw [hs] at hG; exact absurd hG (by decide)
  refine ⟨hfeas, ?_⟩
  intro y hy
  obtain ⟨_, hyb, hyr⟩ := hy
  rw [objective_value_split lp pi_ x, objective_value_split lp pi_ y]
  have hrowsum : ∑ i in Finset.range lp.rows.length, pi_.getD i 0 * row_activity lp x i =
      ∑ i in Finset.range lp.rows.length, pi_.getD i 0 * row_activity lp y i := by
    apply Finset.sum_congr rfl
    intro i hi
    have hi' := Finset.mem_range.mp hi
    have hr : lp.rows[i]? = some lp.rows[i] := List.getElem?_eq_getElem hi'
    obtain ⟨hs, ha⟩ := hrowE i _ hr
    rw [ha, ((hyr i _ hr).1 hs)]
  rw [hrowsum]
  apply add_le_add_right
  apply Finset.sum_le_sum
  intro j hj
  have hj' := Finset.mem_range.mp hj
  have hc : lp.cols[j]? = some lp.cols[j] := List.getElem?_eq_getElem hj'
  obtain ⟨_, hrc⟩ := hcol j _ hc
  obtain ⟨hylb, hyub⟩ := hyb j _ hc
  rcases hrc with h0 | ⟨hpos, hx⟩ | ⟨hneg, hx⟩
  · rw [h0, zero_mul, zero_mul]
  · rw [hx]
    exact mul_le_mul_of_nonneg_left hylb (le_of_lt hpos)
  · have := hyub _ hx
    exact mul_le_mul_of_nonpos_left this (le_of_lt hneg)

/-! ## A run on which the objective of a dive level is below that of the level before -/


set_option maxRecDepth 100000 in
set_option maxHeartbeats 4000000 in
/-- The master of `trioRootState` is the one that `build_master_problem` creates for
`trioData`. -/
theorem build_master_problem_trio : build_master_problem trioData = some trioMaster := by
  decide!

/-- The schedule "task `t` on all days" is a feasible point of the pricing problem of
every person of `trioData`. -/
theorem trioUniform_feasible (t : Nat) (ht : t < 3) (p : Nat) (hp : p < 3) :
    ∃ lp, build_subproblem_problem trioData p = some lp ∧ Feasible lp (trioUniform t) := by
  obtain ⟨v1, _, v3⟩ := subproblem_variables_spec trioData
  have hb : ∀ q, q < 3 → build_subproblem_problem trioData q =
      some (add_row_calls (subproblem_rows trioData q) (subproblem_variables trioData)) := by
    intro q hq
    apply build_subproblem_problem_some
    interval_cases q <;> decide!
  refine ⟨_, hb p hp, ?_⟩
  apply feasible_add_row_calls (subproblem_rows trioData p) (subproblem_variables trioData)
    (trioUniform t) v1 v3
  · interval_cases p <;> decide!
  · interval_cases t <;> decide!
  · interval_cases t <;> decide!
  · interval_cases p <;> interval_cases t <;> decide!

/-! ## The master solution that `column_generation` leaves behind -/

set_option maxRecDepth 100000 in
set_option maxHeartbeats 4000000 in
/-- C29 (code defect). Under method 2 the time check stands before the master solve and
the convergence test follows an admission directly, so the call can return without a
master solve after the last column was added. (a) On `hexData`, with the allowed time
exceeded at the second comparison, the call returns 21800, the objective of the only
solve, the master has 39 columns, `solution_master` has 38 entries and
`is_solution_fractional` reads outside the array. (b) With the time exceeded at the first
comparison the call returns the initial value `1e100` without any master solve. (c) On
`soloData` (one person) convergence is reported right after the admission: 38 columns
against 37 entries. Under method 1, which checks the time after the master solve, the
same clock as in (a) gives one entry per column. -/
theorem column_generation_stale_master_solution :
    call_summary (column_generation hexData cplexCodes hexTimedOracle
        Column_Generation_Method.one_column_person_p_and_reoptimize 10 hexRootState) =
      some (21800, 39, 38, none,
        [Event.master_solved, Event.priced 0, Event.column_added 0]) ∧
    call_summary (column_generation hexData cplexCodes hexLateOracle
        Column_Generation_Method.one_column_person_p_and_reoptimize 10 hexRootState) =
      some (10 ^ 100, 38, 0, none, []) ∧
    call_summary (column_generation soloData cplexCodes soloOracle
        Column_Generation_Method.one_column_person_p_and_reoptimize 10 soloRootState) =
      some (11800, 38, 37, none,
        [Event.master_solved, Event.priced 0, Event.column_added 0]) ∧
    call_summary (column_generation hexData cplexCodes hexTimedOracle
        Column_Generation_Method.one_column_per_person 10 hexRootState) =
      some (11218, 39, 39, some false,
        [Event.master_solved, Event.priced 0, Event.column_added 0, Event.priced 1,
          Event.master_solved]) := by
  refine ⟨?_, ?_, ?_, ?_⟩ <;> decide!

/-! ## The value returned by `check_solution_status` -/

/-- The LP branch of `check_solution_status` for a solution status that is none of the
four it compares with: no member is assigned, and the value returned is the negation of
`algorithm_failed` as the call found it. -/
theorem check_solution_status_lp_other (cpx : CPX_Codes) (st : State) (solstat_ : Int)
    (h1 : solstat_ ≠ cpx.CPX_STAT_OPTIMAL) (h2 : solstat_ ≠ cpx.CPX_STAT_UNBOUNDED)
    (h3 : solstat_ ≠ cpx.CPX_STAT_INFEASIBLE) (h4 : solstat_ ≠ cpx.CPX_STAT_INForUNBD) :
    check_solution_status cpx st false 0 solstat_ = (st, !st.algorithm_failed) := by
  simp [check_solution_status, h1, h2, h3, h4]

/-- The MIP branch of `check_solution_status` assigns the flag in every case: the value
returned is `true` exactly for status code 0 and one of the two optimal statuses. -/
theorem check_solution_status_mip_iff (cpx : CPX_Codes) (st : State) (status_ solstat_ : Int) :
    (check_solution_status cpx st true status_ solstat_).2 = true ↔
      status_ = 0 ∧ (solstat_ = cpx.CPXMIP_OPTIMAL ∨ solstat_ = cpx.CPXMIP_OPTIMAL_TOL) := by
  constructor
  · intro h
    by_contra hcon
    have hfail : status_ ≠ 0 ∨
        (solstat_ ≠ cpx.CPXMIP_OPTIMAL ∧ solstat_ ≠ cpx.CPXMIP_OPTIMAL_TOL) := by
      by_cases h0 : status_ = 0
      · right
        exact ⟨fun h1 => hcon ⟨h0, Or.inl h1⟩, fun h1 => hcon ⟨h0, Or.inr h1⟩⟩
      · exact Or.inl h0
    rw [check_solution_status_mip_fail cpx st status_ solstat_ hfail] at h
    cases h
  · rintro ⟨h0, h⟩
    exact check_solution_status_mip_ok cpx st status_ solstat_ h0 h

/-- C30 (code defect). For a MIP the value returned by `check_solution_status` is `true`
exactly for status code 0 with `CPXMIP_OPTIMAL` or `CPXMIP_OPTIMAL_TOL`, whatever the
state. For an LP whose solution status is none of `CPX_STAT_OPTIMAL`, `CPX_STAT_UNBOUNDED`,
`CPX_STAT_INFEASIBLE`, `CPX_STAT_INForUNBD` the call assigns nothing and returns the
negation of the flag left by the call before: with status code 0 and solution status 5
(`CPX_STAT_OPTIMAL_INFEAS`) it returns `true` after a call that saw an optimal LP and
`false` after a call that saw an infeasible LP. -/
theorem check_solution_status_depends_on_earlier_call :
    (∀ (st : State) (status_ solstat_ : Int),
      (check_solution_status cplexCodes st true status_ solstat_).2 = true ↔
        status_ = 0 ∧ (solstat_ = cplexCodes.CPXMIP_OPTIMAL ∨
          solstat_ = cplexCodes.CPXMIP_OPTIMAL_TOL)) ∧
    (∀ (st : State) (solstat_ : Int),
      solstat_ ≠ cplexCodes.CPX_STAT_OPTIMAL → solstat_ ≠ cplexCodes.CPX_STAT_UNBOUNDED →
      solstat_ ≠ cplexCodes.CPX_STAT_INFEASIBLE → solstat_ ≠ cplexCodes.CPX_STAT_INForUNBD →
      check_solution_status cplexCodes st false 0 solstat_ = (st, !st.algorithm_failed)) ∧
    (check_solution_status cplexCodes
      (check_solution_status cplexCodes (initial_state toyData toyMaster) false 0
        cplexCodes.CPX_STAT_OPTIMAL).1 false 0 5).2 = true ∧
    (check_solution_status cplexCodes
      (check_solution_status cplexCodes (initial_state toyData toyMaster) false 0
        cplexCodes.CPX_STAT_INFEASIBLE).1 false 0 5).2 = false ∧
    (5 : Int) ≠ cplexCodes.CPX_STAT_OPTIMAL := by
  refine ⟨fun st status_ solstat_ => check_solution_status_mip_iff cplexCodes st status_ solstat_,
    fun st solstat_ h1 h2 h3 h4 => check_solution_status_lp_other cplexCodes st solstat_ h1 h2 h3 h4,
    ?_, ?_, by decide⟩
  · rw [check_solution_status_lp_other cplexCodes _ 5 (by decide) (by decide) (by decide)
      (by decide)]
    simp [check_solution_status, cplexCodes]
  · rw [check_solution_status_lp_other cplexCodes _ 5 (by decide) (by decide) (by decide)
      (by decide)]
    simp [check_solution_status, cplexCodes]

/-! ## The constraint matrix of the master -/

/-- The effect of `add_column_to_master` written out, for a pricing solution whose work
entries are 0 or 1 and fit into the scratch arrays. -/
theorem add_column_to_master_eq (pd : Problem_Data) (st : State) (person : Nat)
    (hsol : ∀ k, k < pd.tds →
      ∃ v, st.solution_subproblem[k]? = some v ∧ (v = 0 ∨ v = 1))
    (hcap : pd.tds < matCapacityColumn) :
    add_column_to_master pd st person = some { st with
      nb_calls_CG := st.nb_calls_CG + 1,
      masterproblem := CPXaddcols st.masterproblem st.cost_column_k_person_p
        ((List.range pd.tds).map (fun k => (k, st.solution_subproblem.getD k 0)) ++
          [(pd.tds + person, 1)]) 0 (some 1) (name_z person (st.nb_calls_CG + 1)),
      current_columns := st.current_columns ++
        [{ person := person, name := name_z person (st.nb_calls_CG + 1),
           cost := st.cost_column_k_person_p,
           a_tds := (List.range pd.tds).map
             (fun k => if st.solution_subproblem.getD k 0 = 1 then (1 : Int) else 0) }] } := by
  have hloop : ∀ x ∈ tdsLoop pd 0 pd.nb_tasks,
      ∃ v, st.solution_subproblem[tdsIndex pd x]? = some v ∧ (v = 0 ∨ v = 1) := by
    intro x hx
    have : tdsIndex pd x ∈ (tdsLoop pd 0 pd.nb_tasks).map (tdsIndex pd) :=
      List.mem_map_of_mem _ hx
    rw [tdsLoop_map_index] at this
    exact hsol _ (List.mem_range.mp this)
  have hlen : (tdsLoop pd 0 pd.nb_tasks).length = pd.tds := tdsLoop_length pd
  have hent := add_column_entries_spec pd st.solution_subproblem (tdsLoop pd 0 pd.nb_tasks)
    [] [] hloop (by rw [hlen]; simp only [List.length_nil]; omega)
  have hmat : (tdsLoop pd 0 pd.nb_tasks).map
      (fun x => (tdsIndex pd x, st.solution_subproblem.getD (tdsIndex pd x) 0)) =
      (List.range pd.tds).map (fun k => (k, st.solution_subproblem.getD k 0)) := by
    rw [← tdsLoop_map_index, List.map_map]
    rfl
  have ha : (tdsLoop pd 0 pd.nb_tasks).map
      (fun x => if st.solution_subproblem.getD (tdsIndex pd x) 0 = 1 then (1 : Int) else 0) =
      (List.range pd.tds).map
        (fun k => if st.solution_subproblem.getD k 0 = 1 then (1 : Int) else 0) := by
    rw [← tdsLoop_map_index, List.map_map]
    rfl
  rw [hmat, ha] at hent
  simp only [List.nil_append] at hent
  simp only [add_column_to_master, hent, List.length_map, List.length_range, hcap, if_true]

/-- The column that `CPXaddcols` appends when every row index exists. -/
theorem CPXaddcols_cols (lp : CpxLP) (obj : ℚ) (mat : List (Nat × ℚ)) (lb : ℚ)
    (ub : Option ℚ) (colname : String) (hall : ∀ e ∈ mat, e.1 < lp.rows.length) :
    (CPXaddcols lp obj mat lb ub colname).cols = lp.cols ++ [⟨colname, obj, lb, ub, mat⟩] := by
  have h : (mat.all fun e => decide (e.1 < lp.rows.length)) = true := by
    rw [List.all_eq_true]
    intro e he
    simpa using hall e he
  simp only [CPXaddcols, h, if_true]

/-- C21. For an instance with `nb_tasks_CODU ≤ nb_tasks` (and at most 99998 people, the
room of the scratch arrays) `build_master_problem` returns a master with
`2·T·D·S + nb_people` columns and `T·D·S + nb_people` rows; row `t·D·S + d·S + s` is an
equality with right-hand side `demand(t,d,s)` and the coefficients -1 on column
`t·D·S + d·S + s` (overstaffing), +1 on column `T·D·S + t·D·S + d·S + s`
(understaffing) and 0 on every other column, the super columns included; row `T·D·S + p`
is an equality with right-hand side 1 and coefficient 1 on column `2·T·D·S + p` (the
super column of `p`) and 0 elsewhere. For a pricing solution with 0/1 work entries
`add_column_to_master` for person `p` appends one column to a master that has these
rows: its coefficient in coverage row `(t,d,s)` is the entry `a_tds` of the new record,
and its coefficient in the convexity row of person `q` is 1 for `q = p` and 0 for every
other person. -/
theorem master_constraint_matrix (pd : Problem_Data)
    (hC : pd.nb_tasks_CODU ≤ pd.nb_tasks) (hcap : pd.nb_people + 2 ≤ matCapacityMaster)
    (st : State) (person : Nat)
    (hsol : ∀ k, k < pd.nb_tasks * pd.nb_days * pd.nb_shifts →
      ∃ v, st.solution_subproblem[k]? = some v ∧ (v = 0 ∨ v = 1))
    (hcapc : pd.nb_tasks * pd.nb_days * pd.nb_shifts < matCapacityColumn)
    (hrows : pd.nb_tasks * pd.nb_days * pd.nb_shifts + pd.nb_people ≤
      CPXgetnumrows st.masterproblem)
    (hp : person < pd.nb_people) :
    (∃ lp0, build_master_problem pd = some lp0 ∧
      CPXgetnumcols lp0 = 2 * (pd.nb_tasks * pd.nb_days * pd.nb_shifts) + pd.nb_people ∧
      CPXgetnumrows lp0 = pd.nb_tasks * pd.nb_days * pd.nb_shifts + pd.nb_people ∧
      (∀ t d s, t < pd.nb_tasks → d < pd.nb_days → s < pd.nb_shifts →
        ∃ r, lp0.rows[t * pd.nb_days * pd.nb_shifts + d * pd.nb_shifts + s]? = some r ∧
          r.sense = 'E' ∧ r.rhs = pd.shift_demands t d s ∧
          ∀ j, j < CPXgetnumcols lp0 →
            matrixEntry lp0 (t * pd.nb_days * pd.nb_shifts + d * pd.nb_shifts + s) j =
              if j = t * pd.nb_days * pd.nb_shifts + d * pd.nb_shifts + s then -1
              else if j = pd.nb_tasks * pd.nb_days * pd.nb_shifts +
                  (t * pd.nb_days * pd.nb_shifts + d * pd.nb_shifts + s) then 1
              else 0) ∧
      (∀ p, p < pd.nb_people →
        ∃ r, lp0.rows[pd.nb_tasks * pd.nb_days * pd.nb_shifts + p]? = some r ∧
          r.sense = 'E' ∧ r.rhs = 1 ∧
          ∀ j, j < CPXgetnumcols lp0 →
            matrixEntry lp0 (pd.nb_tasks * pd.nb_days * pd.nb_shifts + p) j =
              if j = 2 * (pd.nb_tasks * pd.nb_days * pd.nb_shifts) + p then 1 else 0)) ∧
    (∃ st1 rec, add_column_to_master pd st person = some st1 ∧
      st1.current_columns = st.current_columns ++ [rec] ∧ rec.person = person ∧
      CPXgetnumcols st1.masterproblem = CPXgetnumcols st.masterproblem + 1 ∧
      st1.masterproblem.rows = st.masterproblem.rows ∧
      (∀ j, j < CPXgetnumcols st.masterproblem →
        st1.masterproblem.cols[j]? = st.masterproblem.cols[j]?) ∧
      (∀ t d s, t < pd.nb_tasks → d < pd.nb_days → s < pd.nb_shifts →
        matrixEntry st1.masterproblem (t * pd.nb_days * pd.nb_shifts + d * pd.nb_shifts + s)
            (CPXgetnumcols st.masterproblem) =
          ((rec.a_tds.getD (t * pd.nb_days * pd.nb_shifts + d * pd.nb_shifts + s) 0 : Int) : ℚ)) ∧
      (∀ q, q < pd.nb_people →
        matrixEntry st1.masterproblem (pd.nb_tasks * pd.nb_days * pd.nb_shifts + q)
            (CPXgetnumcols st.masterproblem) = if q = person then 1 else 0)) := by
  constructor
  · obtain ⟨lp0, e0, hs, hcl, hrl⟩ := build_master_problem_shape pd hC hcap
    obtain ⟨lp0b, e0b, hrw⟩ := build_master_problem_rows pd hC hcap
    rw [e0] at e0b
    cases e0b
    have htl := tdsLoop_length pd
    refine ⟨lp0, e0, ?_, ?_, ?_, ?_⟩
    · simp only [CPXgetnumcols, hcl, firstGenerated, Problem_Data.tds]
    · simp only [CPXgetnumrows, hrl, Problem_Data.tds]
    · intro t d s ht hd hs3
      have hk := tdsIndex_lt pd t d s ht hd hs3
      have hg := tdsLoop_getElem pd t d s ht hd hs3
      simp only [tdsIndex] at hk hg
      refine ⟨coverage_row pd (t, d, s), ?_, rfl, rfl, ?_⟩
      · rw [hrw, List.getElem?_append_left (by rw [List.length_map, htl]; exact hk),
          List.getElem?_map, hg]
        rfl
      · intro j hj
        have h1 := hs.cov_init (t * pd.nb_days * pd.nb_shifts + d * pd.nb_shifts + s) j hk
          (by rw [hrl]; omega) (by rw [← hcl]; exact hj)
        rw [h1]
        by_cases hj1 : j = t * pd.nb_days * pd.nb_shifts + d * pd.nb_shifts + s
        · simp only [hj1, if_true]
        · simp only [hj1, if_false, Problem_Data.tds]
    · intro p hp1
      refine ⟨convexity_row p, ?_, rfl, rfl, ?_⟩
      · have hl : ((tdsLoop pd 0 pd.nb_tasks).map (coverage_row pd)).length =
            pd.nb_tasks * pd.nb_days * pd.nb_shifts := by
          rw [List.length_map, htl]
          rfl
        rw [hrw, List.getElem?_append_right (by rw [hl]; omega), hl, Nat.add_sub_cancel_left,
          List.getElem?_map, List.getElem?_range hp1]
        rfl
      · intro j hj
        have h1 := hs.conv_init p j hp1 (by rw [hrl]; omega) (by rw [← hcl]; exact hj)
        simp only [Problem_Data.tds] at h1
        rw [h1]
  · have heq := add_column_to_master_eq pd st person hsol hcapc
    have hall : ∀ e ∈ (List.range pd.tds).map (fun k => (k, st.solution_subproblem.getD k 0)) ++
        [(pd.tds + person, (1 : ℚ))], e.1 < st.masterproblem.rows.length := by
      intro e he
      simp only [CPXgetnumrows] at hrows
      rcases List.mem_append.mp he with he | he
      · simp only [List.mem_map, List.mem_range] at he
        obtain ⟨k, hk, rfl⟩ := he
        simp only [Problem_Data.tds] at hk ⊢
        omega
      · simp only [List.mem_singleton] at he
        subst he
        simp only [Problem_Data.tds]
        omega
    have hcols := CPXaddcols_cols st.masterproblem st.cost_column_k_person_p _ 0 (some 1)
      (name_z person (st.nb_calls_CG + 1)) hall
    have hentry : ∀ i, matrixEntry (CPXaddcols st.masterproblem st.cost_column_k_person_p
        ((List.range pd.tds).map (fun k => (k, st.solution_subproblem.getD k 0)) ++
          [(pd.tds + person, 1)]) 0 (some 1) (name_z person (st.nb_calls_CG + 1))) i
        (CPXgetnumcols st.masterproblem) =
        if i < pd.tds then st.solution_subproblem.getD i 0
        else if i = pd.tds + person then 1 else 0 := by
      intro i
      simp only [matrixEntry, hcols, CPXgetnumcols]
      rw [List.getElem?_append_right (le_refl _), Nat.sub_self]
      simp only [List.getElem?_cons_zero]
      exact coef_new_column pd.tds person (fun k => st.solution_subproblem.getD k 0) _ _ i
    refine ⟨_, _, heq, rfl, rfl, ?_, ?_, ?_, ?_, ?_⟩
    · simp only [CPXgetnumcols, hcols, List.length_append, List.length_singleton]
    · exact CPXaddcols_rows _ _ _ _ _ _
    · intro j hj
      simp only [hcols]
      exact List.getElem?_append_left hj
    · intro t d s ht hd hs3
      have hk := tdsIndex_lt pd t d s ht hd hs3
      simp only [tdsIndex] at hk
      refine (hentry _).trans ?_
      rw [if_pos hk]
      obtain ⟨v, hv, hv01⟩ := hsol _ hk
      have hgetD : st.solution_subproblem.getD
          (t * pd.nb_days * pd.nb_shifts + d * pd.nb_shifts + s) 0 = v := by
        rw [List.getD_eq_getElem?_getD, hv]
        rfl
      have hget : ((List.range pd.tds).map
          (fun k => if st.solution_subproblem.getD k 0 = 1 then (1 : Int) else 0)).getD
          (t * pd.nb_days * pd.nb_shifts + d * pd.nb_shifts + s) 0 =
          if v = 1 then 1 else 0 := by
        rw [List.getD_eq_getElem?_getD, List.getElem?_map, List.getElem?_range hk]
        simp only [Option.map_some', hgetD, Option.getD_some]
      rw [hgetD, hget]
      rcases hv01 with h0 | h1
      · rw [h0]
        norm_num
      · rw [h1]
        norm_num
    · intro q hq
      have hnot : ¬ pd.tds + q < pd.tds := by omega
      refine (hentry (pd.tds + q)).trans ?_
      rw [if_neg hnot]
      by_cases hqp : q = person
      · simp only [hqp, if_true]
      · have : ¬ pd.tds + q = pd.tds + person := by omega
        simp only [this, hqp, if_false]

/-- Witness for C21: the instance `duoData` and the pricing solution of `duoPricedState`
for the second person. -/
theorem master_constraint_matrix_witness :
    (∃ lp0, build_master_problem duoData = some lp0 ∧
      CPXgetnumcols lp0 = 2 * (duoData.nb_tasks * duoData.nb_days * duoData.nb_shifts) +
        duoData.nb_people ∧
      CPXgetnumrows lp0 = duoData.nb_tasks * duoData.nb_days * duoData.nb_shifts +
        duoData.nb_people ∧
      (∀ t d s, t < duoData.nb_tasks → d < duoData.nb_days → s < duoData.nb_shifts →
        ∃ r, lp0.rows[t * duoData.nb_days * duoData.nb_shifts + d * duoData.nb_shifts + s]? =
            some r ∧
          r.sense = 'E' ∧ r.rhs = duoData.shift_demands t d s ∧
          ∀ j, j < CPXgetnumcols lp0 →
            matrixEntry lp0 (t * duoData.nb_days * duoData.nb_shifts + d * duoData.nb_shifts + s)
                j =
              if j = t * duoData.nb_days * duoData.nb_shifts + d * duoData.nb_shifts + s then -1
              else if j = duoData.nb_tasks * duoData.nb_days * duoData.nb_shifts +
                  (t * duoData.nb_days * duoData.nb_shifts + d * duoData.nb_shifts + s) then 1
              else 0) ∧
      (∀ p, p < duoData.nb_people →
        ∃ r, lp0.rows[duoData.nb_tasks * duoData.nb_days * duoData.nb_shifts + p]? = some r ∧
          r.sense = 'E' ∧ r.rhs = 1 ∧
          ∀ j, j < CPXgetnumcols lp0 →
            matrixEntry lp0 (duoData.nb_tasks * duoData.nb_days * duoData.nb_shifts + p) j =
              if j = 2 * (duoData.nb_tasks * duoData.nb_days * duoData.nb_shifts) + p then 1
              else 0)) ∧
    (∃ st1 rec, add_column_to_master duoData duoPricedState 1 = some st1 ∧
      st1.current_columns = duoPricedState.current_columns ++ [rec] ∧ rec.person = 1 ∧
      CPXgetnumcols st1.masterproblem = CPXgetnumcols duoPricedState.masterproblem + 1 ∧
      st1.masterproblem.rows = duoPricedState.masterproblem.rows ∧
      (∀ j, j < CPXgetnumcols duoPricedState.masterproblem →
        st1.masterproblem.cols[j]? = duoPricedState.masterproblem.cols[j]?) ∧
      (∀ t d s, t < duoData.nb_tasks → d < duoData.nb_days → s < duoData.nb_shifts →
        matrixEntry st1.masterproblem
            (t * duoData.nb_days * duoData.nb_shifts + d * duoData.nb_shifts + s)
            (CPXgetnumcols duoPricedState.masterproblem) =
          ((rec.a_tds.getD
            (t * duoData.nb_days * duoData.nb_shifts + d * duoData.nb_shifts + s) 0 : Int) : ℚ)) ∧
      (∀ q, q < duoData.nb_people →
        matrixEntry st1.masterproblem
            (duoData.nb_tasks * duoData.nb_days * duoData.nb_shifts + q)
            (CPXgetnumcols duoPricedState.masterproblem) = if q = 1 then 1 else 0)) :=
  master_constraint_matrix duoData (by decide) (by decide) duoPricedState 1
    (by
      intro k hk
      have h3 : k < 3 := hk
      have hcases : k = 0 ∨ k = 1 ∨ k = 2 := by omega
      rcases hcases with rfl | rfl | rfl
      · exact ⟨0, rfl, Or.inl rfl⟩
      · exact ⟨0, rfl, Or.inl rfl⟩
      · exact ⟨1, rfl, Or.inr rfl⟩)
    (by decide) (by decide) (by decide)

/-! ## The selection made by `find_branching_variables`, for both rules -/

/-- The members of `selectedAbove`. -/
theorem mem_selectedAbove (beta : ℚ) (st : State) (l : List Nat) (i : Nat) :
    i ∈ selectedAbove beta st l ↔
      i ∈ l ∧ ∃ v, st.solution_master[i]? = some v ∧ beta < v ∧
        v < 1 - fractionality_tolerance_master := by
  simp only [selectedAbove, List.mem_filter]
  constructor
  · rintro ⟨h1, h3⟩
    refine ⟨h1, ?_⟩
    generalize st.solution_master[i]? = o at h3 ⊢
    cases o with
    | none => cases h3
    | some v =>
      simp only [decide_eq_true_eq] at h3
      exact ⟨v, rfl, h3.2, h3.1⟩
  · rintro ⟨h1, v, hv, h3, h4⟩
    refine ⟨h1, ?_⟩
    rw [hv]
    simp only [decide_eq_true_eq]
    exact ⟨h4, h3⟩

/-- Whenever some generated variable has a value strictly between 0 and 1 - 0.001 (every
generated master column having its record in the pool, the solution vector having one
entry per master column), `find_branching_variables` returns under both rules and for
every threshold: it appends the branching decisions for a non-empty, strictly increasing
list `sel` of master indices of generated columns with a value below 1 - 0.001, each
with a record in the pool; `sel` has one member (largest-fractional rule, or no value
above the threshold), or consists of all generated columns above the threshold. -/
theorem find_branching_variables_selects (pd : Problem_Data) (m : Branching_Method_Diving)
    (beta : ℚ) (st : State)
    (hlen : st.solution_master.length = CPXgetnumcols st.masterproblem)
    (hres : PoolKnowsMaster pd st)
    (hex : ∃ i v, firstGenerated pd ≤ i ∧ i < CPXgetnumcols st.masterproblem ∧
      st.solution_master[i]? = some v ∧ 0 < v ∧ v < 1 - fractionality_tolerance_master) :
    ∃ sel, sel ≠ [] ∧
      find_branching_variables pd m beta st =
        some (pushAll { st with fixed_indices_cplex := [],
                                nb_people_fixed_current_iteration := 0 } sel) ∧
      sel.Pairwise (· < ·) ∧
      (∀ i ∈ sel, firstGenerated pd ≤ i ∧ i < CPXgetnumcols st.masterproblem ∧
        ∃ v r, st.solution_master[i]? = some v ∧ v < 1 - fractionality_tolerance_master ∧
          (0 < v ∨ beta < v) ∧ record_of st i = some r ∧ r ∈ st.current_columns) ∧
      (sel.length = 1 ∨
        (m = Branching_Method_Diving.value_above_threshold ∧
          ∀ i ∈ sel, ∃ v, st.solution_master[i]? = some v ∧ beta < v)) := by
  let st0 : State := { st with fixed_indices_cplex := [], nb_people_fixed_current_iteration := 0 }
  have hres0 : PoolKnowsMaster pd st0 := hres
  have hlen0 : st0.solution_master.length = CPXgetnumcols st0.masterproblem := hlen
  have hge : firstGenerated pd ≤ CPXgetnumcols st.masterproblem := by
    obtain ⟨i, v, h1, h2, _⟩ := hex
    omega
  have hrec : ∀ i, firstGenerated pd ≤ i → i < CPXgetnumcols st.masterproblem →
      ∃ r, record_of st i = some r ∧ r ∈ st.current_columns := by
    intro i h1 h2
    obtain ⟨j, r, _, hs2, hs3⟩ := select_column_spec pd st hres i h1 h2 initLocals
    exact ⟨r, hs3, List.getElem?_mem hs2⟩
  have hgen : generatedIndices pd st0 = List.range' (firstGenerated pd)
      (CPXgetnumcols st.masterproblem - firstGenerated pd) := rfl
  -- the run of the largest-fractional loop from the initial locals
  obtain ⟨loc1, e1, e2, _, e4⟩ := largest_loop_spec pd st0 hres0 hlen0
    (CPXgetnumcols st.masterproblem - firstGenerated pd) (firstGenerated pd) initLocals
    (le_refl _) (by show _ ≤ CPXgetnumcols st.masterproblem; omega)
  have hend : firstGenerated pd + (CPXgetnumcols st.masterproblem - firstGenerated pd)
      = CPXgetnumcols st.masterproblem := by omega
  rw [hend] at e2 e4
  have hlargest : ∃ i, push_fixed st0 loc1 = some (pushAll st0 [i]) ∧
      firstGenerated pd ≤ i ∧ i < CPXgetnumcols st.masterproblem ∧
      ∃ v, st.solution_master[i]? = some v ∧ v < 1 - fractionality_tolerance_master ∧
        0 < v := by
    rcases e4 with e4 | ⟨i, k, r, f1, f2, f3, f4, f5, f6, f7, f8, f9, f10, f11⟩
    · exfalso
      obtain ⟨i, v, h1, h2, h3, h4, h5⟩ := hex
      have := e2 i v h1 h2 h3 h5
      rw [e4] at this
      exact absurd h4 (not_lt.mpr this)
    · exact ⟨i, push_fixed_spec st0 loc1 i k r f7 f8 f9 f10 f11, f1, f2,
        loc1.z_val_current_highest_frac_col, f3, f4, f5⟩
  obtain ⟨i0, hpush, hi1, hi2, v0, hv0, hv1, hv2⟩ := hlargest
  have hone : ∀ i ∈ [i0], firstGenerated pd ≤ i ∧ i < CPXgetnumcols st.masterproblem ∧
      ∃ v r, st.solution_master[i]? = some v ∧ v < 1 - fractionality_tolerance_master ∧
        (0 < v ∨ beta < v) ∧ record_of st i = some r ∧ r ∈ st.current_columns := by
    intro i hi
    simp only [List.mem_singleton] at hi
    subst hi
    obtain ⟨r, hr1, hr2⟩ := hrec i hi1 hi2
    exact ⟨hi1, hi2, v0, r, hv0, hv1, Or.inl hv2, hr1, hr2⟩
  cases m with
  | largest_fractional_variable =>
    refine ⟨[i0], by simp, ?_, List.pairwise_singleton _ _, hone, Or.inl rfl⟩
    simp only [find_branching_variables]
    rw [hgen, e1]
    exact hpush
  | value_above_threshold =>
    have hl : ∀ j ∈ generatedIndices pd st0, firstGenerated pd ≤ j ∧
        j < CPXgetnumcols st0.masterproblem ∧ j < st0.solution_master.length := by
      intro j hj
      have := (mem_generatedIndices pd st0 j).mp hj
      exact ⟨this.1, this.2, by rw [hlen0]; exact this.2⟩
    obtain ⟨loc2, g1, g2⟩ := threshold_loop_spec pd beta (generatedIndices pd st0) st0
      initLocals 0 hres0 hl
    by_cases hempty : selectedAbove beta st0 (generatedIndices pd st0) = []
    · refine ⟨[i0], by simp, ?_, List.pairwise_singleton _ _, hone, Or.inl rfl⟩
      have hloc2 := g2 hempty
      rw [hempty] at g1
      have hp0 : pushAll st0 [] = st0 := by
        simp [pushAll]
      rw [hp0, hloc2] at g1
      simp only [find_branching_variables]
      rw [g1]
      simp only [List.length_nil, Nat.add_zero, if_true]
      rw [hgen, e1]
      exact hpush
    · refine ⟨selectedAbove beta st0 (generatedIndices pd st0), hempty, ?_, ?_, ?_, Or.inr ⟨rfl, ?_⟩⟩
      · have hne : (selectedAbove beta st0 (generatedIndices pd st0)).length ≠ 0 := by
          intro h0
          exact hempty (List.length_eq_zero.mp h0)
        simp only [find_branching_variables]
        rw [g1]
        simp only [Nat.zero_add, hne, if_false]
      · simp only [selectedAbove]
        exact List.Pairwise.filter _ (List.pairwise_lt_range' _ _)
      · intro i hi
        obtain ⟨h1, v, hv, h3, h4⟩ := (mem_selectedAbove beta st0 _ i).mp hi
        have h2 := (mem_generatedIndices pd st0 i).mp h1
        obtain ⟨r, hr1, hr2⟩ := hrec i h2.1 h2.2
        exact ⟨h2.1, h2.2, v, r, hv, h4, Or.inr h3, hr1, hr2⟩
      · intro i hi
        obtain ⟨_, v, hv, h3, _⟩ := (mem_selectedAbove beta st0 _ i).mp hi
        exact ⟨v, hv, h3⟩

/-! ## The rows added by `add_branching_restrictions` -/

/-- A list of options that are all present is the image of a list of values. -/
theorem map_some_of_all_some {α β : Type} (f : α → Option β) (l : List α)
    (h : ∀ i ∈ l, ∃ r, f i = some r) :
    ∃ recs, l.map f = recs.map some ∧ l.filterMap f = recs := by
  induction l with
  | nil => exact ⟨[], rfl, rfl⟩
  | cons a rest ih =>
    obtain ⟨recs, h1, h2⟩ := ih (fun i hi => h i (List.mem_cons_of_mem _ hi))
    obtain ⟨r, hr⟩ := h a (List.mem_cons_self _ _)
    refine ⟨r :: recs, ?_, ?_⟩
    · simp only [List.map_cons, hr, h1]
    · rw [List.filterMap_cons_some hr, h2]

/-- A master in which every stored coefficient belongs to an existing row has no entry
in a row that does not exist. -/
theorem matrixEntry_future_zero (lp : CpxLP)
    (hwf : ∀ c ∈ lp.cols, ∀ e ∈ c.coefs, e.1 < lp.rows.length) (i j : Nat)
    (hi : lp.rows.length ≤ i) : matrixEntry lp i j = 0 := by
  simp only [matrixEntry]
  cases hc : lp.cols[j]? with
  | none => rfl
  | some c =>
    have hmem : c ∈ lp.cols := List.getElem?_mem hc
    have hfil : (c.coefs.filter fun e => decide (e.1 = i)) = [] := by
      rw [List.filter_eq_nil_iff]
      intro e he
      have := hwf c hmem e he
      simp only [decide_eq_true_eq]
      omega
    simp only [coef, hfil, List.map_nil, List.sum_nil]

/-- The loop of `add_branching_restrictions` over valid master indices: one row `= 1`
per index is appended, named with the running counter; the entry of the matrix in the
`k`-th new row is raised by 1 in the column of the `k`-th index and nowhere else; the
columns keep their number and names and the branching lists are not touched. -/
theorem add_branching_restrictions_loop_spec (l : List Nat) :
    ∀ st : State, (∀ i ∈ l, i < st.masterproblem.cols.length) →
      (add_branching_restrictions_loop l st).masterproblem.rows =
        st.masterproblem.rows ++ (List.range l.length).map (fun k =>
          (⟨"Branching_Restriction_" ++ toString (st.nb_branching_dec + k + 1), 'E', 1⟩ :
            CpxRow)) ∧
      (add_branching_restrictions_loop l st).masterproblem.cols.length =
        st.masterproblem.cols.length ∧
      colNames (add_branching_restrictions_loop l st).masterproblem =
        colNames st.masterproblem ∧
      (∀ i j, matrixEntry (add_branching_restrictions_loop l st).masterproblem i j =
        matrixEntry st.masterproblem i j +
          if st.masterproblem.rows.length ≤ i ∧
              l[i - st.masterproblem.rows.length]? = some j then 1 else 0) ∧
      (add_branching_restrictions_loop l st).fixed_people = st.fixed_people ∧
      (add_branching_restrictions_loop l st).fixed_columns = st.fixed_columns ∧
      (add_branching_restrictions_loop l st).fixed_indices_cplex = st.fixed_indices_cplex ∧
      (add_branching_restrictions_loop l st).current_columns = st.current_columns ∧
      (add_branching_restrictions_loop l st).nb_branching_dec =
        st.nb_branching_dec + l.length := by
  induction l with
  | nil =>
    intro st _
    refine ⟨by simp [add_branching_restrictions_loop], rfl, rfl, ?_, rfl, rfl, rfl, rfl, rfl⟩
    intro i j
    simp [add_branching_restrictions_loop]
  | cons i0 rest ih =>
    intro st hl
    have hi0 : i0 < st.masterproblem.cols.length := hl i0 (List.mem_cons_self _ _)
    have hall : ∀ e ∈ [(i0, (1 : ℚ))], e.1 < st.masterproblem.cols.length := by
      intro e he
      simp only [List.mem_singleton] at he
      subst he
      exact hi0
    obtain ⟨r1, r2⟩ := CPXaddrows_rows st.masterproblem 1 'E' [(i0, 1)]
      ("Branching_Restriction_" ++ toString (st.nb_branching_dec + 1)) hall
    obtain ⟨g1, g2, g3, g4, g5, g6, g7, g8, g9⟩ := ih { st with
      nb_branching_dec := st.nb_branching_dec + 1,
      masterproblem := CPXaddrows st.masterproblem 1 'E' [(i0, 1)]
        ("Branching_Restriction_" ++ toString (st.nb_branching_dec + 1)) }
      (by
        intro i hi
        show i < (CPXaddrows _ _ _ _ _).cols.length
        rw [r2]
        exact hl i (List.mem_cons_of_mem _ hi))
    rw [add_branching_restrictions_loop]
    refine ⟨?_, ?_, ?_, ?_, g5, g6, g7, g8, ?_⟩
    · rw [g1]
      show (CPXaddrows _ _ _ _ _).rows ++ _ = _
      rw [r1, List.length_cons, List.range_succ_eq_map, List.map_cons, List.map_map,
        List.append_assoc]
      simp only [List.singleton_append, Nat.add_zero]
      congr 2
      apply List.map_congr_left
      intro k _
      simp only [Function.comp]
      congr 3
      omega
    · rw [g2]
      exact r2
    · rw [g3]
      simp only [colNames]
      apply List.ext_getElem?
      intro j
      simp only [List.getElem?_map]
      rw [CPXaddrows_col st.masterproblem 1 'E' [(i0, 1)] _ hall j]
      cases st.masterproblem.cols[j]? <;> rfl
    · intro i j
      rw [g4]
      show matrixEntry (CPXaddrows _ _ _ _ _) i j +
        (if (CPXaddrows _ _ _ _ _).rows.length ≤ i ∧
          rest[i - (CPXaddrows _ _ _ _ _).rows.length]? = some j then (1 : ℚ) else 0) = _
      rw [matrixEntry_addrows st.masterproblem 1 'E' [(i0, 1)] _ hall i j, r1,
        matCoef_singleton, List.length_append, List.length_singleton, add_assoc]
      congr 1
      by_cases hi : i = st.masterproblem.rows.length
      · subst hi
        have hno : ¬ (st.masterproblem.rows.length + 1 ≤ st.masterproblem.rows.length ∧
            rest[st.masterproblem.rows.length - (st.masterproblem.rows.length + 1)]? =
              some j) := by
          rintro ⟨h, _⟩
          omega
        rw [if_neg hno, add_zero, Nat.sub_self]
        simp only [List.getElem?_cons_zero, Option.some.injEq, le_refl, true_and]
        by_cases hj : j = i0
        · subst hj
          simp [hi0]
        · have hj2 : ¬ i0 = j := fun h => hj h.symm
          simp [hj, hj2]
      · have h0 : ¬ (i = st.masterproblem.rows.length ∧ j < st.masterproblem.cols.length) :=
          fun h => hi h.1
        rw [if_neg h0, zero_add]
        by_cases hlt : st.masterproblem.rows.length + 1 ≤ i
        · have hle : st.masterproblem.rows.length ≤ i := by omega
          have hidx : i - st.masterproblem.rows.length =
              (i - (st.masterproblem.rows.length + 1)) + 1 := by omega
          rw [hidx, List.getElem?_cons_succ]
          simp only [hlt, hle, true_and]
        · have hle : ¬ st.masterproblem.rows.length ≤ i := by omega
          simp only [hlt, hle, false_and, if_false]
    · rw [g9]
      simp only [List.length_cons]
      omega

/-- C22. At a dive level at which some generated variable has a value strictly between 0
and 1 - 0.001 (solution vector with one entry per master column, every generated column
with its record in the pool, every stored coefficient in an existing row),
`find_branching_variables` selects a non-empty list `sel` of master indices under either
rule; `fixed_columns` and `fixed_people` are extended by exactly one entry per selected
index, the record of the pool that has the name of that master column and its person,
the earlier entries staying in place; `add_branching_restrictions` then appends exactly
one row per selected index, an equality with right-hand side 1 whose only non-zero
coefficient is a 1 on that column, and leaves the existing rows, the columns and the
branching lists as they are. -/
theorem branching_rows_and_decisions (pd : Problem_Data) (m : Branching_Method_Diving)
    (beta : ℚ) (st : State)
    (hlen : st.solution_master.length = CPXgetnumcols st.masterproblem)
    (hres : PoolKnowsMaster pd st)
    (hex : ∃ i v, firstGenerated pd ≤ i ∧ i < CPXgetnumcols st.masterproblem ∧
      st.solution_master[i]? = some v ∧ 0 < v ∧ v < 1 - fractionality_tolerance_master)
    (hwf : ∀ c ∈ st.masterproblem.cols, ∀ e ∈ c.coefs, e.1 < CPXgetnumrows st.masterproblem) :
    ∃ st1 sel recs, find_branching_variables pd m beta st = some st1 ∧
      sel ≠ [] ∧ st1.fixed_indices_cplex = sel ∧
      (∀ i ∈ sel, firstGenerated pd ≤ i ∧ i < CPXgetnumcols st.masterproblem) ∧
      sel.map (record_of st) = recs.map some ∧
      st1.fixed_columns = st.fixed_columns ++ recs ∧
      st1.fixed_people = st.fixed_people ++ recs.map (fun r => r.person) ∧
      st1.masterproblem = st.masterproblem ∧
      (add_branching_restrictions { st1 with log := st1.log ++ [Event.branched] }).fixed_columns =
        st.fixed_columns ++ recs ∧
      (add_branching_restrictions { st1 with log := st1.log ++ [Event.branched] }).fixed_people =
        st.fixed_people ++ recs.map (fun r => r.person) ∧
      (add_branching_restrictions
          { st1 with log := st1.log ++ [Event.branched] }).masterproblem.rows =
        st.masterproblem.rows ++ (List.range sel.length).map (fun k =>
          (⟨"Branching_Restriction_" ++ toString (st.nb_branching_dec + k + 1), 'E', 1⟩ :
            CpxRow)) ∧
      colNames (add_branching_restrictions
          { st1 with log := st1.log ++ [Event.branched] }).masterproblem =
        colNames st.masterproblem ∧
      (∀ k i, sel[k]? = some i → ∀ j,
        matrixEntry (add_branching_restrictions
            { st1 with log := st1.log ++ [Event.branched] }).masterproblem
          (CPXgetnumrows st.masterproblem + k) j = if j = i then 1 else 0) ∧
      (∀ i j, i < CPXgetnumrows st.masterproblem →
        matrixEntry (add_branching_restrictions
            { st1 with log := st1.log ++ [Event.branched] }).masterproblem i j =
          matrixEntry st.masterproblem i j) := by
  obtain ⟨sel, hne, hfind, _, hsel, _⟩ :=
    find_branching_variables_selects pd m beta st hlen hres hex
  obtain ⟨recs, hr1, hr2⟩ := map_some_of_all_some (record_of st) sel (by
    intro i hi
    obtain ⟨_, _, v, r, _, _, _, hr, _⟩ := hsel i hi
    exact ⟨r, hr⟩)
  let st0 : State :=
    { st with fixed_indices_cplex := [], nb_people_fixed_current_iteration := 0 }
  have hfind0 : find_branching_variables pd m beta st = some (pushAll st0 sel) := hfind
  have hr2b : sel.filterMap (record_of st0) = recs := hr2
  obtain ⟨g1, _, g3, g4, g5, g6, _, _, _⟩ := add_branching_restrictions_loop_spec sel
    { pushAll st0 sel with log := (pushAll st0 sel).log ++ [Event.branched] }
    (fun i hi => (hsel i hi).2.1)
  have hfc : (pushAll st0 sel).fixed_columns = st.fixed_columns ++ recs := by
    simp only [pushAll, hr2b]
  have hfp : (pushAll st0 sel).fixed_people =
      st.fixed_people ++ recs.map (fun r => r.person) := by
    simp only [pushAll, hr2b]
  have hfi : (pushAll st0 sel).fixed_indices_cplex = sel := by
    simp only [pushAll, List.nil_append]
  refine ⟨_, sel, recs, hfind0, hne, hfi, fun i hi => ⟨(hsel i hi).1, (hsel i hi).2.1⟩, hr1,
    hfc, hfp, rfl, ?_, ?_, ?_, ?_, ?_, ?_⟩
  · simp only [add_branching_restrictions]
    rw [hfi]
    exact g6.trans hfc
  · simp only [add_branching_restrictions]
    rw [hfi]
    exact g5.trans hfp
  · simp only [add_branching_restrictions]
    rw [hfi]
    exact g1
  · simp only [add_branching_restrictions]
    rw [hfi]
    exact g3
  · intro k i hk j
    simp only [add_branching_restrictions]
    rw [hfi]
    refine (g4 _ j).trans ?_
    have hz : matrixEntry st.masterproblem (CPXgetnumrows st.masterproblem + k) j = 0 :=
      matrixEntry_future_zero st.masterproblem hwf _ j (Nat.le_add_right _ _)
    show matrixEntry st.masterproblem (CPXgetnumrows st.masterproblem + k) j +
      (if st.masterproblem.rows.length ≤ CPXgetnumrows st.masterproblem + k ∧
        sel[CPXgetnumrows st.masterproblem + k - st.masterproblem.rows.length]? = some j
        then (1 : ℚ) else 0) = _
    rw [hz, zero_add]
    have hidx : CPXgetnumrows st.masterproblem + k - st.masterproblem.rows.length = k := by
      simp only [CPXgetnumrows]
      omega
    rw [hidx, hk]
    have hle : st.masterproblem.rows.length ≤ CPXgetnumrows st.masterproblem + k := by
      simp only [CPXgetnumrows]
      omega
    by_cases hj : j = i
    · subst hj
      simp [hle]
    · have hj2 : ¬ i = j := fun h => hj h.symm
      simp [hj, hj2]
  · intro i j hi
    simp only [add_branching_restrictions]
    rw [hfi]
    refine (g4 i j).trans ?_
    have hno : ¬ (st.masterproblem.rows.length ≤ i ∧
        sel[i - st.masterproblem.rows.length]? = some j) := by
      rintro ⟨h, _⟩
      simp only [CPXgetnumrows] at hi
      omega
    show matrixEntry st.masterproblem i j +
      (if st.masterproblem.rows.length ≤ i ∧
        sel[i - st.masterproblem.rows.length]? = some j then (1 : ℚ) else 0) = _
    rw [if_neg hno, add_zero]

/-- Witness for C22: the threshold rule with β = 0.4 on `duoFractionalState`, which
selects three columns. -/
theorem branching_rows_and_decisions_witness :
    ∃ st1 sel recs, find_branching_variables duoData
        Branching_Method_Diving.value_above_threshold (4 / 10) duoFractionalState = some st1 ∧
      sel ≠ [] ∧ st1.fixed_indices_cplex = sel ∧
      (∀ i ∈ sel, firstGenerated duoData ≤ i ∧
        i < CPXgetnumcols duoFractionalState.masterproblem) ∧
      sel.map (record_of duoFractionalState) = recs.map some ∧
      st1.fixed_columns = duoFractionalState.fixed_columns ++ recs ∧
      st1.fixed_people = duoFractionalState.fixed_people ++ recs.map (fun r => r.person) ∧
      st1.masterproblem = duoFractionalState.masterproblem ∧
      (add_branching_restrictions { st1 with log := st1.log ++ [Event.branched] }).fixed_columns =
        duoFractionalState.fixed_columns ++ recs ∧
      (add_branching_restrictions { st1 with log := st1.log ++ [Event.branched] }).fixed_people =
        duoFractionalState.fixed_people ++ recs.map (fun r => r.person) ∧
      (add_branching_restrictions
          { st1 with log := st1.log ++ [Event.branched] }).masterproblem.rows =
        duoFractionalState.masterproblem.rows ++ (List.range sel.length).map (fun k =>
          (⟨"Branching_Restriction_" ++
            toString (duoFractionalState.nb_branching_dec + k + 1), 'E', 1⟩ : CpxRow)) ∧
      colNames (add_branching_restrictions
          { st1 with log := st1.log ++ [Event.branched] }).masterproblem =
        colNames duoFractionalState.masterproblem ∧
      (∀ k i, sel[k]? = some i → ∀ j,
        matrixEntry (add_branching_restrictions
            { st1 with log := st1.log ++ [Event.branched] }).masterproblem
          (CPXgetnumrows duoFractionalState.masterproblem + k) j = if j = i then 1 else 0) ∧
      (∀ i j, i < CPXgetnumrows duoFractionalState.masterproblem →
        matrixEntry (add_branching_restrictions
            { st1 with log := st1.log ++ [Event.branched] }).masterproblem i j =
          matrixEntry duoFractionalState.masterproblem i j) :=
  branching_rows_and_decisions duoData Branching_Method_Diving.value_above_threshold (4 / 10)
    duoFractionalState (by decide) duoFractionalState_pool
    ⟨8, 7 / 10, by decide, by decide, rfl, by norm_num,
      by norm_num [fractionality_tolerance_master]⟩
    (by decide)

/-! ## The cost of a column and the objective of the pricing problem -/

/-- The accumulation loop of `solve_subproblem` over positions inside the array: `f` is
the loop body, which adds `w * sol[i]` to the accumulator. -/
theorem cost_fold_eq (sol : List ℚ) (w : ℚ) (f : Option ℚ → Nat → Option ℚ)
    (hf : ∀ (a : ℚ) (i : Nat) (hi : i < sol.length), f (some a) i = some (a + w * sol[i]))
    (idx : List Nat) :
    ∀ acc : ℚ, (∀ i ∈ idx, i < sol.length) →
      idx.foldl f (some acc) = some (acc + w * (idx.map fun i => sol.getD i 0).sum) := by
  induction idx with
  | nil => intro acc _; simp
  | cons i rest ih =>
    intro acc h
    have hi := h i (List.mem_cons_self _ _)
    simp only [List.foldl_cons, hf acc i hi]
    rw [ih _ (fun j hj => h j (List.mem_cons_of_mem _ hj))]
    simp only [List.map_cons, List.sum_cons, List.getD_eq_getElem?_getD,
      List.getElem?_eq_getElem hi, Option.getD_some]
    congr 1
    ring

/-- A weighted sum over a list of terms. -/
theorem sum_map_mul_left (l : List Nat) (c : ℚ) (f : Nat → ℚ) :
    (l.map fun g => c * f g).sum = c * (l.map f).sum := by
  induction l with
  | nil => simp
  | cons a rest ih => simp only [List.map_cons, List.sum_cons, ih]; ring

/-- The two halves of a range of even length, added up termwise. -/
theorem sum_range_two_mul (n : Nat) (f : Nat → ℚ) :
    ((List.range (2 * n)).map f).sum = ((List.range n).map fun w => f w + f (n + w)).sum := by
  have h : List.range (2 * n) = List.range n ++ (List.range n).map (fun w => n + w) := by
    rw [two_mul, List.range_add]
  rw [h, List.map_append, List.sum_append, List.map_map]
  clear h
  generalize List.range n = l
  induction l with
  | nil => simp
  | cons a rest ih =>
    simp only [List.map_cons, List.sum_cons, Function.comp] at ih ⊢
    linarith

/-- The cost computed by `solve_subproblem` is the penalty cost of the specification. -/
theorem column_cost_eq_penalty_cost (pd : Problem_Data) (sol : List ℚ)
    (hlen : numcols_subproblem pd ≤ sol.length) (hG : pd.nb_groups_CODU ≤ pd.nb_groups) :
    column_cost pd sol = some (penalty_cost pd sol) := by
  simp only [numcols_subproblem] at hlen
  have hidx1 : ∀ i ∈ (List.range (2 * pd.nb_weekends)).map (fun w => pd.tds + w),
      i < sol.length := by
    intro i hi
    simp only [List.mem_map, List.mem_range] at hi
    obtain ⟨w, hw, rfl⟩ := hi
    omega
  have hidx2 : ∀ i ∈ (List.range pd.nb_groups_CODU).map
      (fun g => pd.tds + 2 * pd.nb_weekends + 2 + g), i < sol.length := by
    intro i hi
    simp only [List.mem_map, List.mem_range] at hi
    obtain ⟨g, hg, rfl⟩ := hi
    omega
  have hidx3 : ∀ i ∈ (List.range' pd.nb_groups_CODU (pd.nb_groups - pd.nb_groups_CODU)).map
      (fun g => pd.tds + 2 * pd.nb_weekends + 2 + g), i < sol.length := by
    intro i hi
    simp only [List.mem_map, List.mem_range'] at hi
    obtain ⟨g, ⟨k, hk, rfl⟩, rfl⟩ := hi
    omega
  have h2 : pd.tds + 2 * pd.nb_weekends < sol.length := by omega
  have h3 : pd.tds + 2 * pd.nb_weekends + 1 < sol.length := by omega
  have hbody : ∀ (w a : ℚ) (i : Nat) (hi : i < sol.length),
      (match some a, sol[i]? with
        | some a, some v => some (a + w * v)
        | _, _ => none) = some (a + w * sol[i]) := by
    intro w a i hi
    simp only [List.getElem?_eq_getElem hi]
  simp only [column_cost]
  rw [cost_fold_eq sol pd.obj_weight_Y_W _ (hbody _) _ 0 hidx1]
  simp only [List.getElem?_eq_getElem h2, List.getElem?_eq_getElem h3]
  rw [cost_fold_eq sol pd.obj_weight_Y_G_CODU _ (hbody _) _ _ hidx2]
  simp only []
  rw [cost_fold_eq sol pd.obj_weight_Y_G_ambulances _ (hbody _) _ _ hidx3]
  congr 1
  have hw : (((List.range (2 * pd.nb_weekends)).map (fun w => pd.tds + w)).map
      fun i => sol.getD i 0).sum =
      ((List.range pd.nb_weekends).map fun w =>
        sol.getD (pd.tds + w) 0 + sol.getD (pd.tds + pd.nb_weekends + w) 0).sum := by
    rw [List.map_map, sum_range_two_mul]
    apply congrArg
    apply List.map_congr_left
    intro w _
    simp only [Function.comp, Nat.add_assoc]
  have hg : List.range pd.nb_groups =
      List.range pd.nb_groups_CODU ++
        List.range' pd.nb_groups_CODU (pd.nb_groups - pd.nb_groups_CODU) := by
    have e := List.range'_append 0 pd.nb_groups_CODU (pd.nb_groups - pd.nb_groups_CODU) 1
    simp only [Nat.one_mul, Nat.zero_add] at e
    rw [List.range_eq_range', List.range_eq_range', e]
    congr 1
    omega
  have hg1 : ((List.range pd.nb_groups_CODU).map fun g =>
      (if g < pd.nb_groups_CODU then (pd.obj_weight_Y_G_CODU : ℚ)
        else pd.obj_weight_Y_G_ambulances) *
        sol.getD (pd.tds + 2 * pd.nb_weekends + 2 + g) 0).sum =
      pd.obj_weight_Y_G_CODU * (((List.range pd.nb_groups_CODU).map
        (fun g => pd.tds + 2 * pd.nb_weekends + 2 + g)).map fun i => sol.getD i 0).sum := by
    rw [List.map_map, ← sum_map_mul_left]
    apply congrArg
    apply List.map_congr_left
    intro g hg
    simp only [List.mem_range] at hg
    simp only [hg, if_true, Function.comp]
  have hg2 : ((List.range' pd.nb_groups_CODU (pd.nb_groups - pd.nb_groups_CODU)).map fun g =>
      (if g < pd.nb_groups_CODU then (pd.obj_weight_Y_G_CODU : ℚ)
        else pd.obj_weight_Y_G_ambulances) *
        sol.getD (pd.tds + 2 * pd.nb_weekends + 2 + g) 0).sum =
      pd.obj_weight_Y_G_ambulances *
        (((List.range' pd.nb_groups_CODU (pd.nb_groups - pd.nb_groups_CODU)).map
          (fun g => pd.tds + 2 * pd.nb_weekends + 2 + g)).map fun i => sol.getD i 0).sum := by
    rw [List.map_map, ← sum_map_mul_left]
    apply congrArg
    apply List.map_congr_left
    intro g hg
    simp only [List.mem_range'] at hg
    obtain ⟨k, hk, rfl⟩ := hg
    have : ¬ pd.nb_groups_CODU + 1 * k < pd.nb_groups_CODU := by omega
    simp only [this, if_false, Function.comp]
  have e2 : sol[pd.tds + 2 * pd.nb_weekends] = sol.getD (pd.tds + 2 * pd.nb_weekends) 0 := by
    rw [List.getD_eq_getElem?_getD, List.getElem?_eq_getElem h2]
    rfl
  have e3 : sol[pd.tds + 2 * pd.nb_weekends + 1] =
      sol.getD (pd.tds + 2 * pd.nb_weekends + 1) 0 := by
    rw [List.getD_eq_getElem?_getD, List.getElem?_eq_getElem h3]
    rfl
  simp only [penalty_cost]
  rw [hg, List.map_append, List.sum_append, hg1, hg2, hw, e2, e3]
  ring
theorem objective_at_eq_shifted_sum (obj x : List ℚ) :
    objective_at obj x = shifted_sum obj x 0 := by
  simp only [objective_at, shifted_sum, Nat.zero_add]

theorem shifted_sum_append (a b x : List ℚ) (off : Nat) :
    shifted_sum (a ++ b) x off = shifted_sum a x off + shifted_sum b x (off + a.length) := by
  simp only [shifted_sum, List.length_append, List.range_add, List.map_append, List.sum_append,
    List.map_map]
  congr 1
  · apply congrArg
    apply List.map_congr_left
    intro k hk
    simp only [List.mem_range] at hk
    simp only [List.getD_eq_getElem?_getD, List.getElem?_append_left hk]
  · apply congrArg
    apply List.map_congr_left
    intro k hk
    simp only [Function.comp, List.getD_eq_getElem?_getD,
      List.getElem?_append_right (Nat.le_add_right _ _), Nat.add_sub_cancel_left, Nat.add_assoc]

theorem shifted_sum_replicate (n : Nat) (c : ℚ) (x : List ℚ) (off : Nat) :
    shifted_sum (List.replicate n c) x off =
      c * ((List.range n).map fun k => x.getD (off + k) 0).sum := by
  simp only [shifted_sum, List.length_replicate]
  rw [← sum_map_mul_left]
  apply congrArg
  apply List.map_congr_left
  intro k hk
  simp only [List.mem_range] at hk
  simp only [List.getD_eq_getElem?_getD, List.getElem?_replicate, hk, if_true, Option.getD_some]

theorem shifted_sum_map_range (n : Nat) (f : Nat → ℚ) (x : List ℚ) (off : Nat) :
    shifted_sum ((List.range n).map f) x off =
      ((List.range n).map fun k => f k * x.getD (off + k) 0).sum := by
  simp only [shifted_sum, List.length_map, List.length_range]
  apply congrArg
  apply List.map_congr_left
  intro k hk
  simp only [List.mem_range] at hk
  simp only [List.getD_eq_getElem?_getD, List.getElem?_map, List.getElem?_range hk,
    Option.map_some', Option.getD_some]

theorem shifted_sum_neg_take (n : Nat) (dual x : List ℚ) (off : Nat) (h : n ≤ dual.length) :
    shifted_sum ((dual.take n).map fun v => -v) x off =
      -((List.range n).map fun k => dual.getD k 0 * x.getD (off + k) 0).sum := by
  simp only [shifted_sum, List.length_map, List.length_take, Nat.min_eq_left h]
  rw [neg_eq_neg_one_mul, ← sum_map_mul_left]
  apply congrArg
  apply List.map_congr_left
  intro k hk
  simp only [List.mem_range] at hk
  have hk2 : k < dual.length := by omega
  simp only [Function.comp, List.getD_eq_getElem?_getD, List.getElem?_map, List.getElem?_take,
    hk, if_true, List.getElem?_eq_getElem hk2, Option.map_some', Option.getD_some]
  ring

/-- The objective coefficients that `build_subproblem_problem` gives the variables, in
the order of creation. -/
theorem subproblem_objective_eq (pd : Problem_Data) :
    subproblem_objective pd =
      List.replicate pd.tds 0 ++
        (List.replicate pd.nb_weekends (pd.obj_weight_Y_W : ℚ) ++
          (List.replicate pd.nb_weekends (pd.obj_weight_Y_W : ℚ) ++
            ([(pd.obj_weight_Y_Hplus : ℚ), (pd.obj_weight_Y_Hmin : ℚ)] ++
              (List.range pd.nb_groups).map fun g =>
                if g < pd.nb_groups_CODU then (pd.obj_weight_Y_G_CODU : ℚ)
                else pd.obj_weight_Y_G_ambulances))) := by
  simp only [subproblem_objective]
  rw [subproblem_variables_eq]
  simp only [List.map_append, List.map_map, List.append_assoc, List.map_cons, List.map_nil]
  have h1 : ∀ (l : List (Nat × Nat × Nat)),
      l.map ((fun c : CpxCol => c.obj) ∘ fun x =>
        (⟨name_tds "a_" "_" "_" x, 0, 0, some 1, []⟩ : CpxCol)) = List.replicate l.length 0 := by
    intro l
    induction l with
    | nil => rfl
    | cons a rest ih => simp only [List.map_cons, List.length_cons, List.replicate_succ, ih,
        Function.comp]
  have h2 : ∀ (pre : String) (l : List Nat),
      l.map ((fun c : CpxCol => c.obj) ∘ fun w =>
        (⟨pre ++ toString (w + 1), pd.obj_weight_Y_W, 0, none, []⟩ : CpxCol)) =
        List.replicate l.length (pd.obj_weight_Y_W : ℚ) := by
    intro pre l
    induction l with
    | nil => rfl
    | cons a rest ih => simp only [List.map_cons, List.length_cons, List.replicate_succ, ih,
        Function.comp]
  rw [h1, h2, h2, tdsLoop_length, List.length_range]
  rfl

/-- The cost of the specification is the objective of the pricing problem as built,
evaluated at the solution: each penalty variable is read at the position at which it was
created, with the weight it was given there. -/
theorem objective_at_built (pd : Problem_Data) (x : List ℚ) :
    objective_at (subproblem_objective pd) x = penalty_cost pd x := by
  rw [objective_at_eq_shifted_sum, subproblem_objective_eq, shifted_sum_append,
    shifted_sum_append, shifted_sum_append, shifted_sum_append, shifted_sum_replicate,
    shifted_sum_replicate, shifted_sum_replicate, shifted_sum_map_range]
  simp only [penalty_cost, shifted_sum, List.length_replicate, List.length_cons, List.length_nil,
    Nat.zero_add, zero_mul, List.range_succ, List.range_zero, List.nil_append, List.map_cons,
    List.map_nil, List.sum_cons, List.sum_nil, List.getD_cons_zero, List.getD_cons_succ,
    List.singleton_append, add_zero, Nat.add_zero]
  have e1 : ((List.range pd.nb_weekends).map fun w =>
      x.getD (pd.tds + w) 0 + x.getD (pd.tds + pd.nb_weekends + w) 0).sum =
      ((List.range pd.nb_weekends).map fun w => x.getD (pd.tds + w) 0).sum +
      ((List.range pd.nb_weekends).map fun w => x.getD (pd.tds + pd.nb_weekends + w) 0).sum := by
    generalize List.range pd.nb_weekends = l
    induction l with
    | nil => simp
    | cons a rest ih =>
      simp only [List.map_cons, List.sum_cons, ih]
      ring
  rw [e1]
  have e2 : pd.tds + pd.nb_weekends + pd.nb_weekends = pd.tds + 2 * pd.nb_weekends := by omega
  have e3 : pd.tds + pd.nb_weekends + pd.nb_weekends + 1 = pd.tds + 2 * pd.nb_weekends + 1 := by
    omega
  have e4 : ∀ g, pd.tds + pd.nb_weekends + pd.nb_weekends + 2 + g =
      pd.tds + 2 * pd.nb_weekends + 2 + g := by
    intro g
    omega
  simp only [e2, e3, e4]
  ring
/-- The call `solve_subproblem` returns whenever the solution array has room for the
columns of the pricing problem; the cost it stores is the penalty cost of the solution
vector it leaves in `solution_subproblem`, whatever the status of the solve. -/
theorem solve_subproblem_cost (pd : Problem_Data) (cpx : CPX_Codes) (orc : Oracle)
    (st : State) (person : Nat) (sub : List ℚ)
    (hsub : st.subproblems[person]? = some sub)
    (hlen : numcols_subproblem pd ≤ st.solution_subproblem.length)
    (hG : pd.nb_groups_CODU ≤ pd.nb_groups) :
    ∃ st3 rc, solve_subproblem pd cpx orc st person = some (st3, rc) ∧
      st3.solution_subproblem =
        (store_mip_answer pd st (orc.mipopt person sub st.mu_p)).solution_subproblem ∧
      st3.cost_column_k_person_p = penalty_cost pd st3.solution_subproblem := by
  have hfld := check_solution_status_fields cpx
    (store_mip_answer pd st (orc.mipopt person sub st.mu_p)) true
    (store_mip_answer pd st (orc.mipopt person sub st.mu_p)).status
    (store_mip_answer pd st (orc.mipopt person sub st.mu_p)).solstat
  have hsollen : numcols_subproblem pd ≤
      (store_mip_answer pd st (orc.mipopt person sub st.mu_p)).solution_subproblem.length := by
    simp only [store_mip_answer]
    split_ifs
    · simp
    · exact hlen
  have hc := column_cost_eq_penalty_cost pd _ hsollen hG
  have hsol := congrArg State.solution_subproblem hfld
  simp only at hsol
  generalize hr : check_solution_status cpx
    (store_mip_answer pd st (orc.mipopt person sub st.mu_p)) true
    (store_mip_answer pd st (orc.mipopt person sub st.mu_p)).status
    (store_mip_answer pd st (orc.mipopt person sub st.mu_p)).solstat = r at hsol
  cases hb : r.2
  · refine ⟨{ r.1 with objective_subproblem := 1000000000000,
                        cost_column_k_person_p := penalty_cost pd
                          (store_mip_answer pd st
                            (orc.mipopt person sub st.mu_p)).solution_subproblem },
      1000000000000 - r.1.mu_p, ?_, hsol, ?_⟩
    · simp only [solve_subproblem, hsub, hr, hb, Bool.not_false, if_true, hsol, hc]
    · show penalty_cost pd _ = penalty_cost pd r.1.solution_subproblem
      rw [hsol]
  · refine ⟨{ r.1 with cost_column_k_person_p := penalty_cost pd
                          (store_mip_answer pd st
                            (orc.mipopt person sub st.mu_p)).solution_subproblem },
      r.1.objective_subproblem - r.1.mu_p, ?_, hsol, ?_⟩
    · simp only [solve_subproblem, hsub, hr, hb, Bool.not_true, Bool.false_eq_true, if_false,
        hsol, hc]
    · show penalty_cost pd _ = penalty_cost pd r.1.solution_subproblem
      rw [hsol]

/-- The effect of `change_coefficients_subproblem` on the pricing problem of the person:
the work variables get minus the dual values, `mu_p` the dual value of the convexity
row. -/
theorem change_coefficients_subproblem_eq (pd : Problem_Data) (st : State) (person : Nat)
    (sub : List ℚ) (hsub : st.subproblems[person]? = some sub)
    (hsublen : pd.tds ≤ sub.length)
    (hdual : pd.tds + person < st.dual_var_master.length)
    (hvc : pd.tds ≤ st.values_coef.length) :
    ∃ st2, change_coefficients_subproblem pd st person = some st2 ∧
      st2.subproblems[person]? = some (repriced pd st.dual_var_master sub) ∧
      st2.mu_p = st.dual_var_master.getD (pd.tds + person) 0 ∧
      st2.solution_subproblem = st.solution_subproblem ∧
      st2.dual_var_master = st.dual_var_master := by
  have hmu : st.dual_var_master[pd.tds + person]? =
      some (st.dual_var_master.getD (pd.tds + person) 0) := by
    rw [List.getD_eq_getElem?_getD, List.getElem?_eq_getElem hdual]
    rfl
  have hcond : pd.tds ≤ st.dual_var_master.length ∧ pd.tds ≤ st.values_coef.length :=
    ⟨by omega, hvc⟩
  have hp : person < st.subproblems.length := by
    by_contra hcon
    rw [List.getElem?_eq_none (not_lt.mp hcon)] at hsub
    cases hsub
  have htake : (((st.dual_var_master.take pd.tds).map fun v => -v) ++
      st.values_coef.drop pd.tds).take pd.tds = (st.dual_var_master.take pd.tds).map fun v => -v := by
    rw [List.take_append_of_le_length (by simp; omega), List.take_of_length_le (by simp)]
  refine ⟨{ st with
      mu_p := st.dual_var_master.getD (pd.tds + person) 0,
      values_coef := ((st.dual_var_master.take pd.tds).map fun v => -v) ++
        st.values_coef.drop pd.tds,
      subproblems := st.subproblems.set person
        (CPXchgobj sub ((((st.dual_var_master.take pd.tds).map fun v => -v) ++
          st.values_coef.drop pd.tds).take pd.tds)) }, ?_, ?_, rfl, rfl, rfl⟩
  · simp only [change_coefficients_subproblem, hmu, hcond, and_self, if_true, hsub]
  · simp only [List.getElem?_set_self hp, htake]
    simp only [CPXchgobj, List.length_map, List.length_take, Nat.min_eq_left hcond.1, repriced]
    rw [if_pos hsublen]
/-- The names and the objective coefficients of the columns are not changed by
`CPXaddrows`. -/
theorem CPXaddrows_names_obj (lp : CpxLP) (rhs : ℚ) (sense : Char) (mat : List (Nat × ℚ))
    (rowname : String) :
    (CPXaddrows lp rhs sense mat rowname).cols.map (fun c => (c.name, c.obj)) =
      lp.cols.map (fun c => (c.name, c.obj)) := by
  unfold CPXaddrows
  split
  · apply List.ext_getElem?
    intro j
    simp only [List.getElem?_map, fold_addEntry_getElem]
    cases lp.cols[j]? <;> rfl
  · rfl

theorem add_row_calls_names_obj (calls : List RowCall) :
    ∀ lp : CpxLP, (add_row_calls calls lp).cols.map (fun c => (c.name, c.obj)) =
      lp.cols.map (fun c => (c.name, c.obj)) := by
  induction calls with
  | nil => intro lp; rfl
  | cons r rest ih =>
    intro lp
    show (add_row_calls rest (CPXaddrows lp r.rhs r.sense r.mat r.name)).cols.map _ = _
    rw [ih, CPXaddrows_names_obj]

/-- The variables of the pricing problem built by `build_subproblem_problem`, by
position: name and objective coefficient. -/
theorem build_subproblem_problem_columns (pd : Problem_Data) (person : Nat) (lp : CpxLP)
    (hb : build_subproblem_problem pd person = some lp) :
    lp.cols.map (fun c => (c.name, c.obj)) =
      (tdsLoop pd 0 pd.nb_tasks).map (fun x => (name_tds "a_" "_" "_" x, (0 : ℚ))) ++
        ((List.range pd.nb_weekends).map
            (fun w => ("Y_Wplus_" ++ toString (w + 1), (pd.obj_weight_Y_W : ℚ))) ++
          ((List.range pd.nb_weekends).map
              (fun w => ("Y_Wmin_" ++ toString (w + 1), (pd.obj_weight_Y_W : ℚ))) ++
            ([("Y_Hplus", (pd.obj_weight_Y_Hplus : ℚ)), ("Y_Hmin", (pd.obj_weight_Y_Hmin : ℚ))] ++
              (List.range pd.nb_groups).map fun g =>
                ("Y_G_" ++ toString (g + 1),
                  if g < pd.nb_groups_CODU then (pd.obj_weight_Y_G_CODU : ℚ)
                  else pd.obj_weight_Y_G_ambulances)))) ∧
    lp.cols.map (fun c => c.obj) = subproblem_objective pd := by
  obtain ⟨h1, _⟩ := build_subproblem_problem_eq pd person lp hb
  have h2 := add_row_calls_names_obj (subproblem_rows pd person) (subproblem_variables pd)
  rw [← h1] at h2
  constructor
  · rw [h2, subproblem_variables_eq]
    simp only [List.map_append, List.map_map, List.append_assoc, List.map_cons, List.map_nil]
    rfl
  · have h3 := congrArg (List.map Prod.snd) h2
    simp only [List.map_map] at h3
    exact h3

/-- The objective of the pricing problem as built only involves the variables after the
work variables. -/
theorem objective_at_built_drop (pd : Problem_Data) (x : List ℚ) :
    shifted_sum ((subproblem_objective pd).drop pd.tds) x pd.tds = penalty_cost pd x := by
  rw [← objective_at_built, objective_at_eq_shifted_sum]
  have h := subproblem_objective_eq pd
  have hd : (subproblem_objective pd).drop pd.tds =
      List.replicate pd.nb_weekends (pd.obj_weight_Y_W : ℚ) ++
        (List.replicate pd.nb_weekends (pd.obj_weight_Y_W : ℚ) ++
          ([(pd.obj_weight_Y_Hplus : ℚ), (pd.obj_weight_Y_Hmin : ℚ)] ++
            (List.range pd.nb_groups).map fun g =>
              if g < pd.nb_groups_CODU then (pd.obj_weight_Y_G_CODU : ℚ)
              else pd.obj_weight_Y_G_ambulances)) := by
    rw [h, List.drop_append_of_le_length (by simp), List.drop_of_length_le (by simp),
      List.nil_append]
  rw [hd]
  rw [h]
  rw [shifted_sum_append (List.replicate pd.tds 0), shifted_sum_replicate, zero_mul, zero_add,
    List.length_replicate, Nat.zero_add]

/-- C23 (amended). The pricing problem built by `build_subproblem_problem` has its
variables at fixed positions: the work variables with objective coefficient 0, then
`Y_Wplus_w`, `Y_Wmin_w` (weight `obj_weight_Y_W`), `Y_Hplus`, `Y_Hmin` and `Y_G_g` (CODU
weight for `g < nb_groups_CODU`, ambulance weight otherwise). For every state whose
pricing problem for the person has these penalty coefficients, the pricing step
`change_coefficients_subproblem`, `solve_subproblem` returns, and for the solution
vector it leaves behind, whatever the status of the solve: the cost it stores is the
penalty cost of the specification, which is the objective as built evaluated at that
vector; the objective after repricing, evaluated at that vector, is the cost minus the
sum of dual value times work entry. When the solve ends with status code 0 and an
optimal status, and the solver reports the objective value of the solution it returns,
the reduced cost returned is that objective minus `mu_p`, the dual value of the
person's convexity row. -/
theorem column_cost_and_reduced_cost (pd : Problem_Data) (cpx : CPX_Codes) (orc : Oracle)
    (st : State) (person : Nat) (sub : List ℚ)
    (hG : pd.nb_groups_CODU ≤ pd.nb_groups)
    (hsub : st.subproblems[person]? = some sub)
    (hpen : sub.drop pd.tds = (subproblem_objective pd).drop pd.tds)
    (hsublen : pd.tds ≤ sub.length)
    (hdual : pd.tds + person < st.dual_var_master.length)
    (hvc : pd.tds ≤ st.values_coef.length)
    (hsol : numcols_subproblem pd ≤ st.solution_subproblem.length) :
    (∀ lp, build_subproblem_problem pd person = some lp →
      lp.cols.map (fun c => (c.name, c.obj)) =
        (tdsLoop pd 0 pd.nb_tasks).map (fun x => (name_tds "a_" "_" "_" x, (0 : ℚ))) ++
          ((List.range pd.nb_weekends).map
              (fun w => ("Y_Wplus_" ++ toString (w + 1), (pd.obj_weight_Y_W : ℚ))) ++
            ((List.range pd.nb_weekends).map
                (fun w => ("Y_Wmin_" ++ toString (w + 1), (pd.obj_weight_Y_W : ℚ))) ++
              ([("Y_Hplus", (pd.obj_weight_Y_Hplus : ℚ)),
                  ("Y_Hmin", (pd.obj_weight_Y_Hmin : ℚ))] ++
                (List.range pd.nb_groups).map fun g =>
                  ("Y_G_" ++ toString (g + 1),
                    if g < pd.nb_groups_CODU then (pd.obj_weight_Y_G_CODU : ℚ)
                    else pd.obj_weight_Y_G_ambulances)))) ∧
      lp.cols.map (fun c => c.obj) = subproblem_objective pd) ∧
    ∃ st2 st3 rc,
      change_coefficients_subproblem pd st person = some st2 ∧
      st2.subproblems[person]? = some (repriced pd st.dual_var_master sub) ∧
      st2.mu_p = st.dual_var_master.getD (pd.tds + person) 0 ∧
      solve_subproblem pd cpx orc st2 person = some (st3, rc) ∧
      st3.cost_column_k_person_p = penalty_cost pd st3.solution_subproblem ∧
      objective_at (subproblem_objective pd) st3.solution_subproblem =
        st3.cost_column_k_person_p ∧
      objective_at (repriced pd st.dual_var_master sub) st3.solution_subproblem =
        st3.cost_column_k_person_p -
          dual_work pd st.dual_var_master st3.solution_subproblem ∧
      ((orc.mipopt person (repriced pd st.dual_var_master sub)
            (st.dual_var_master.getD (pd.tds + person) 0)).status = 0 →
        ((orc.mipopt person (repriced pd st.dual_var_master sub)
              (st.dual_var_master.getD (pd.tds + person) 0)).solstat = cpx.CPXMIP_OPTIMAL ∨
          (orc.mipopt person (repriced pd st.dual_var_master sub)
              (st.dual_var_master.getD (pd.tds + person) 0)).solstat =
            cpx.CPXMIP_OPTIMAL_TOL) →
        (orc.mipopt person (repriced pd st.dual_var_master sub)
            (st.dual_var_master.getD (pd.tds + person) 0)).objval =
          objective_at (repriced pd st.dual_var_master sub)
            ((List.range (numcols_subproblem pd)).map
              (orc.mipopt person (repriced pd st.dual_var_master sub)
                (st.dual_var_master.getD (pd.tds + person) 0)).x) →
        st3.solution_subproblem = (List.range (numcols_subproblem pd)).map
          (orc.mipopt person (repriced pd st.dual_var_master sub)
            (st.dual_var_master.getD (pd.tds + person) 0)).x ∧
        rc = objective_at (repriced pd st.dual_var_master sub) st3.solution_subproblem -
          st2.mu_p) := by
  refine ⟨fun lp hb => build_subproblem_problem_columns pd person lp hb, ?_⟩
  obtain ⟨st2, h1, h2, h3, h4, h5⟩ :=
    change_coefficients_subproblem_eq pd st person sub hsub hsublen hdual hvc
  obtain ⟨st3, rc, g1, g2, g3⟩ := solve_subproblem_cost pd cpx orc st2 person _ h2
    (by rw [h4]; exact hsol) hG
  refine ⟨st2, st3, rc, h1, h2, h3, g1, g3, ?_, ?_, ?_⟩
  · rw [g3]
    exact objective_at_built pd _
  · rw [objective_at_eq_shifted_sum]
    simp only [repriced]
    rw [shifted_sum_append, shifted_sum_neg_take _ _ _ _ (by omega), hpen, List.length_map,
      List.length_take, Nat.min_eq_left (by omega), Nat.zero_add, objective_at_built_drop, g3]
    simp only [dual_work, Nat.zero_add]
    ring
  · intro hs ho hv
    have hrc := solve_subproblem_reduced_cost pd cpx orc st2 st3 person rc _ h2 g1
    rw [h3] at hrc
    rw [if_pos ⟨hs, ho⟩] at hrc
    have hx : st3.solution_subproblem = (List.range (numcols_subproblem pd)).map
        (orc.mipopt person (repriced pd st.dual_var_master sub)
          (st.dual_var_master.getD (pd.tds + person) 0)).x := by
      rw [g2, h3]
      simp only [store_mip_answer, hs, if_true]
    refine ⟨hx, ?_⟩
    rw [hrc, h3, hx, hv]

set_option maxRecDepth 100000 in
/-- Witness for C23: the first person of `hexData` after the first master solve, with the
exact solver `hexOracle`. -/
theorem column_cost_and_reduced_cost_witness :
    ∃ st2 st3 rc,
      change_coefficients_subproblem hexData hexSolvedState 0 = some st2 ∧
      st2.mu_p = hexSolvedState.dual_var_master.getD (hexData.tds + 0) 0 ∧
      solve_subproblem hexData cplexCodes hexOracle st2 0 = some (st3, rc) ∧
      st3.cost_column_k_person_p = penalty_cost hexData st3.solution_subproblem ∧
      objective_at (repriced hexData hexSolvedState.dual_var_master
          (subproblem_objective hexData)) st3.solution_subproblem =
        st3.cost_column_k_person_p -
          dual_work hexData hexSolvedState.dual_var_master st3.solution_subproblem ∧
      rc = objective_at (repriced hexData hexSolvedState.dual_var_master
          (subproblem_objective hexData)) st3.solution_subproblem - st2.mu_p := by
  obtain ⟨_, st2, st3, rc, h1, _, h3, h4, h5, _, h7, h8⟩ :=
    column_cost_and_reduced_cost hexData cplexCodes hexOracle hexSolvedState 0
      (subproblem_objective hexData) (by decide) (by decide!) rfl (by decide!) (by decide!)
      (by decide!) (by decide!)
  exact ⟨st2, st3, rc, h1, h3, h4, h5, h7, (h8 (by decide!) (by decide!) (by decide!)).2⟩

set_option maxRecDepth 100000 in
/-- Counterexample to C23 as stated: on `hexData` after the first master solve, a pricing
solve of the first person that stops at its time limit with the incumbent `hexSchedule`
(`CPXMIP_TIME_LIM_FEAS`, status code 0) leaves a solution vector with cost 18 and
objective -582, `mu_p` is 10000, and the reduced cost returned is 10^12 - 10000, not
-582 - 10000. -/
theorem reduced_cost_not_optimal_counterexample :
    ((change_coefficients_subproblem hexData hexSolvedState 0).bind fun st2 =>
      (solve_subproblem hexData cplexCodes hexTimeLimitOracle st2 0).map fun r =>
        (r.1.cost_column_k_person_p, st2.mu_p,
          objective_at (st2.subproblems.getD 0 []) r.1.solution_subproblem, r.2)) =
      some (18, 10000, -582, 1000000000000 - 10000) ∧
    ((change_coefficients_subproblem hexData hexSolvedState 0).bind fun st2 =>
      (solve_subproblem hexData cplexCodes hexTimeLimitOracle st2 0).map fun r =>
        r.1.solution_subproblem) = some hexSchedule ∧
    (1000000000000 - 10000 : ℚ) ≠ -582 - 10000 := by
  refine ⟨by decide!, by decide!, by norm_num⟩

/-! ## People whose flag is cleared are left alone by column generation -/

theorem untouched_refl (p : Nat) (st : State) : untouched p st st :=
  ⟨rfl, rfl, rfl, [], by simp, by simp, by simp⟩

theorem untouched_trans {p : Nat} {a b c : State} (h1 : untouched p a b)
    (h2 : untouched p b c) : untouched p a c := by
  obtain ⟨f1, g1, c1, n1, l1, x1, y1⟩ := h1
  obtain ⟨f2, g2, c2, n2, l2, x2, y2⟩ := h2
  refine ⟨f2.trans f1, g2.trans g1, c2.trans c1, n1 ++ n2, ?_, ?_, ?_⟩
  · rw [l2, l1, List.append_assoc]
  · simp only [List.mem_append, not_or]
    exact ⟨x1, x2⟩
  · simp only [List.mem_append, not_or]
    exact ⟨y1, y2⟩

/-- A state that differs from `st` in members other than the flags, the pool, the list
of fixed people and the log. -/
theorem untouched_of_eq (p : Nat) (st st' : State)
    (h1 : st'.solve_subproblem_p = st.solve_subproblem_p)
    (h2 : st'.fixed_people = st.fixed_people)
    (h3 : st'.current_columns = st.current_columns) (h4 : st'.log = st.log) :
    untouched p st st' :=
  ⟨by rw [h1], h2, by rw [h3], [], by simp [h4], by simp, by simp⟩

/-- The record that `add_column_to_master` appends to the pool belongs to the person it
is called for. -/
theorem add_column_to_master_pool (pd : Problem_Data) (st st5 : State) (person : Nat)
    (h : add_column_to_master pd st person = some st5) :
    ∃ rec, st5.current_columns = st.current_columns ++ [rec] ∧ rec.person = person := by
  unfold add_column_to_master at h
  dsimp only at h
  split at h
  · cases h
  · split at h
    · simp only [Option.some.injEq] at h
      subst h
      exact ⟨_, rfl, rfl⟩
    · cases h

/-- The pool after the pricing step of a person: at most one record more, of that
person. -/
theorem price_person_pool (pd : Problem_Data) (cpx : CPX_Codes) (orc : Oracle)
    (st st' : State) (person : Nat) (rc : ℚ)
    (h : price_person pd cpx orc st person = some (st', rc)) :
    ∃ extra, st'.current_columns = st.current_columns ++ extra ∧
      ∀ c ∈ extra, c.person = person := by
  unfold price_person at h
  split at h
  · dsimp only at h
    split at h
    · cases h
    · rename_i st2 hcc
      split at h
      · cases h
      · rename_i st3 rc3 hss
        have f2 := change_coefficients_subproblem_frame pd _ st2 person hcc
        have f3 := solve_subproblem_frame pd cpx orc st2 st3 person rc3 hss
        have e : st3.current_columns = st.current_columns := by rw [f3, f2]
        split at h
        · split at h
          · cases h
          · rename_i st5 hadd
            simp only [Option.some.injEq, Prod.mk.injEq] at h
            obtain ⟨hst, _⟩ := h
            obtain ⟨rec, r1, r2⟩ := add_column_to_master_pool pd _ st5 person hadd
            refine ⟨[rec], ?_, ?_⟩
            · rw [← hst]
              show st5.current_columns = _
              rw [r1]
              show st3.current_columns ++ [rec] = _
              rw [e]
            · intro c hc
              simp only [List.mem_singleton] at hc
              rw [hc, r2]
        · simp only [Option.some.injEq, Prod.mk.injEq] at h
          obtain ⟨hst, _⟩ := h
          exact ⟨[], by rw [← hst]; simp [e], by simp⟩
  · cases h

/-- The pricing step of another person leaves `p` alone. -/
theorem price_person_untouched (pd : Problem_Data) (cpx : CPX_Codes) (orc : Oracle)
    (st st' : State) (q p : Nat) (rc : ℚ) (hq : q ≠ p)
    (h : price_person pd cpx orc st q = some (st', rc)) : untouched p st st' := by
  obtain ⟨_, _, h3, _, _, h6, h7⟩ := price_person_spec pd cpx orc st st' q rc h
  obtain ⟨extra, e1, e2⟩ := price_person_pool pd cpx orc st st' q rc h
  refine ⟨?_, h3, ?_, _, by rw [h7, List.append_assoc], ?_, ?_⟩
  · rw [h6, List.getElem?_set_ne hq]
  · rw [e1, List.filter_append]
    have : (extra.filter fun c => decide (c.person = p)) = [] := by
      rw [List.filter_eq_nil_iff]
      intro c hc
      simp only [decide_eq_true_eq]
      rw [e2 c hc]
      exact hq
    rw [this, List.append_nil]
  · intro hm
    simp only [List.mem_append, List.mem_singleton] at hm
    rcases hm with hm | hm
    · cases hm; exact hq rfl
    · split at hm
      · simp only [List.mem_singleton] at hm; cases hm
      · cases hm
  · intro hm
    simp only [List.mem_append, List.mem_singleton] at hm
    rcases hm with hm | hm
    · cases hm
    · split at hm
      · simp only [List.mem_singleton] at hm; cases hm; exact hq rfl
      · cases hm

/-- A master solve leaves everybody alone. -/
theorem solve_master_logged_untouched (cpx : CPX_Codes) (orc : Oracle) (st : State) (p : Nat) :
    untouched p st (solve_master_logged cpx orc st).1 := by
  have hfld := check_solution_status_fields cpx
    { st with
      dual_var_master := (List.range (CPXgetnumrows st.masterproblem)).map
        (orc.lpopt st.masterproblem).pi,
      solution_master := (List.range (CPXgetnumcols st.masterproblem)).map
        (orc.lpopt st.masterproblem).x,
      status := (orc.lpopt st.masterproblem).status,
      solstat := (orc.lpopt st.masterproblem).solstat,
      objective_master := (orc.lpopt st.masterproblem).objval } false
    (orc.lpopt st.masterproblem).status (orc.lpopt st.masterproblem).solstat
  have h1 := congrArg State.solve_subproblem_p hfld
  have h2 := congrArg State.fixed_people hfld
  have h3 := congrArg State.current_columns hfld
  have h4 := congrArg State.log hfld
  simp only at h1 h2 h3 h4
  refine ⟨?_, ?_, ?_, [Event.master_solved], ?_, by simp, by simp⟩
  · show (check_solution_status _ _ _ _ _).1.solve_subproblem_p[p]? = _
    rw [h1]
  · show (check_solution_status _ _ _ _ _).1.fixed_people = _
    rw [h2]
  · show (check_solution_status _ _ _ _ _).1.current_columns.filter _ = _
    rw [h3]
  · show (check_solution_status _ _ _ _ _).1.log ++ _ = _
    rw [h4]

/-- The `for` loop of method 1 leaves a person with a cleared flag alone. -/
theorem cg_sweep_untouched (pd : Problem_Data) (cpx : CPX_Codes) (orc : Oracle) (p : Nat)
    (l : List Nat) :
    ∀ (st : State) (b : Bool) (st' : State) (b' : Bool),
      st.solve_subproblem_p[p]? = some false →
      cg_sweep pd cpx orc l st b = some (st', b') → untouched p st st' := by
  induction l with
  | nil =>
    intro st b st' b' _ h
    simp only [cg_sweep, Option.some.injEq, Prod.mk.injEq] at h
    rw [← h.1]
    exact untouched_refl p st
  | cons q rest ih =>
    intro st b st' b' hf h
    rw [cg_sweep] at h
    split at h
    · cases h
    · exact ih st b st' b' hf h
    · rename_i hq
      split at h
      · cases h
      · rename_i st1 rc hpp
        have hne : q ≠ p := by
          intro e
          rw [e, hf] at hq
          cases hq
        have u1 := price_person_untouched pd cpx orc st st1 q p rc hne hpp
        have u2 := ih st1 _ st' b' (by rw [u1.1, hf]) h
        exact untouched_trans u1 u2

/-- Method 1 leaves a person with a cleared flag alone. -/
theorem cg_method1_untouched (pd : Problem_Data) (cpx : CPX_Codes) (orc : Oracle) (p : Nat) :
    ∀ (fuel : Nat) (st st' : State) (obj : ℚ), st.solve_subproblem_p[p]? = some false →
      cg_method1 pd cpx orc fuel st = Outcome.done (st', obj) → untouched p st st' := by
  intro fuel
  induction fuel with
  | zero => intro st st' obj _ h; cases h
  | succ fuel ih =>
    intro st st' obj hf h
    have u0 : untouched p st { st with iterations_CG := st.iterations_CG + 1 } :=
      untouched_of_eq p _ _ rfl rfl rfl rfl
    have u1 := solve_master_logged_untouched cpx orc
      { st with iterations_CG := st.iterations_CG + 1 } p
    have u2 : untouched p
        (solve_master_logged cpx orc { st with iterations_CG := st.iterations_CG + 1 }).1
        { (solve_master_logged cpx orc { st with iterations_CG := st.iterations_CG + 1 }).1 with
          clock_checks :=
            (solve_master_logged cpx orc
              { st with iterations_CG := st.iterations_CG + 1 }).1.clock_checks + 1 } :=
      untouched_of_eq p _ _ rfl rfl rfl rfl
    have u3 := untouched_trans (untouched_trans u0 u1) u2
    rw [cg_method1] at h
    dsimp only at h
    split at h
    · simp only [Outcome.done.injEq, Prod.mk.injEq] at h
      rw [← h.1]
      exact u3
    · split at h
      · cases h
      · rename_i st3 found hsw
        have u4 := cg_sweep_untouched pd cpx orc p _ _ _ _ _ (by rw [u3.1, hf]) hsw
        split at h
        · simp only [Outcome.done.injEq, Prod.mk.injEq] at h
          rw [← h.1]
          exact untouched_trans u3 u4
        · have u5 := ih st3 st' obj (by rw [u4.1, u3.1, hf]) h
          exact untouched_trans (untouched_trans u3 u4) u5

/-- The inner loop of method 2 leaves a person with a cleared flag alone. -/
theorem cg_inner2_untouched (pd : Problem_Data) (cpx : CPX_Codes) (orc : Oracle) (p : Nat) :
    ∀ (fuel : Nat) (st : State) (person last : Nat) (rc : ℚ) (st' : State)
      (r : Nat × Nat × Bool), st.solve_subproblem_p[p]? = some false →
      cg_inner2 pd cpx orc fuel st person last rc = Outcome.done (st', r) →
      untouched p st st' := by
  intro fuel
  induction fuel with
  | zero => intro st person last rc st' r _ h; cases h
  | succ fuel ih =>
    intro st person last rc st' r hf h
    rw [cg_inner2] at h
    split at h
    · cases h
    · rename_i flag hflag
      dsimp only at h
      cases flag with
      | false =>
        simp only [Bool.false_eq_true, if_false] at h
        generalize (if person + 1 ≥ pd.nb_people then 0 else person + 1) = person1 at h
        split at h
        · simp only [Outcome.done.injEq, Prod.mk.injEq] at h
          rw [← h.1]
          exact untouched_refl p st
        · split at h
          · exact ih _ _ _ _ _ _ hf h
          · simp only [Outcome.done.injEq, Prod.mk.injEq] at h
            rw [← h.1]
            exact untouched_refl p st
      | true =>
        simp only [if_true] at h
        have hne : person ≠ p := by
          intro e
          rw [e, hf] at hflag
          cases hflag
        cases hpp : price_person pd cpx orc st person with
        | none =>
          rw [hpp] at h
          cases h
        | some res =>
          obtain ⟨st1, rc1⟩ := res
          rw [hpp] at h
          dsimp only at h
          have u1 := price_person_untouched pd cpx orc st st1 person p rc1 hne hpp
          generalize (if person + 1 ≥ pd.nb_people then 0 else person + 1) = person1 at h
          generalize (if rc1 < -reduced_cost_tolerance_LP then person else last) = last1 at h
          split at h
          · simp only [Outcome.done.injEq, Prod.mk.injEq] at h
            rw [← h.1]
            exact u1
          · split at h
            · exact untouched_trans u1 (ih _ _ _ _ _ _ (by rw [u1.1, hf]) h)
            · simp only [Outcome.done.injEq, Prod.mk.injEq] at h
              rw [← h.1]
              exact u1

/-- Method 2 leaves a person with a cleared flag alone. -/
theorem cg_method2_untouched (pd : Problem_Data) (cpx : CPX_Codes) (orc : Oracle) (p : Nat) :
    ∀ (fuel : Nat) (st : State) (person last : Nat) (obj0 : ℚ) (st' : State) (obj : ℚ),
      st.solve_subproblem_p[p]? = some false →
      cg_method2 pd cpx orc fuel st person last obj0 = Outcome.done (st', obj) →
      untouched p st st' := by
  intro fuel
  induction fuel with
  | zero => intro st person last obj0 st' obj _ h; cases h
  | succ fuel ih =>
    intro st person last obj0 st' obj hf h
    have u0 : untouched p st { st with iterations_CG := st.iterations_CG + 1,
                                       clock_checks := st.clock_checks + 1 } :=
      untouched_of_eq p _ _ rfl rfl rfl rfl
    have u1 := solve_master_logged_untouched cpx orc
      { st with iterations_CG := st.iterations_CG + 1,
                clock_checks := st.clock_checks + 1 } p
    have u01 := untouched_trans u0 u1
    rw [cg_method2] at h
    dsimp only at h
    split at h
    · simp only [Outcome.done.injEq, Prod.mk.injEq] at h
      rw [← h.1]
      exact u0
    · split at h
      · rename_i st2 person1 last1 found hin
        have u2 := cg_inner2_untouched pd cpx orc p _ _ _ _ _ _ _ (by rw [u01.1, hf]) hin
        split at h
        · simp only [Outcome.done.injEq, Prod.mk.injEq] at h
          rw [← h.1]
          exact untouched_trans u01 u2
        · exact untouched_trans (untouched_trans u01 u2)
            (ih _ _ _ _ _ _ (by rw [u2.1, u01.1, hf]) h)
      · cases h
      · cases h

/-- A call of `column_generation`, under either method, leaves a person with a cleared
flag alone. -/
theorem column_generation_untouched (pd : Problem_Data) (cpx : CPX_Codes) (orc : Oracle)
    (m : Column_Generation_Method) (fuel : Nat) (st st' : State) (obj : ℚ) (p : Nat)
    (hf : st.solve_subproblem_p[p]? = some false)
    (h : column_generation pd cpx orc m fuel st = Outcome.done (st', obj)) :
    untouched p st st' := by
  unfold column_generation at h
  dsimp only at h
  split at h
  · rename_i st1 obj1 hr
    have u1 : untouched p st st1 := by
      cases m with
      | one_column_per_person => exact cg_method1_untouched pd cpx orc p fuel st st1 obj1 hf hr
      | one_column_person_p_and_reoptimize =>
        exact cg_method2_untouched pd cpx orc p fuel st 0 0 _ st1 obj1 hf hr
    split at h
    · simp only [Outcome.done.injEq, Prod.mk.injEq] at h
      rw [← h.1]
      exact untouched_trans u1 (untouched_of_eq p _ _ rfl rfl rfl rfl)
    · simp only [Outcome.done.injEq, Prod.mk.injEq] at h
      rw [← h.1]
      exact u1
  · cases h
  · cases h
/-! ## The dive step and the people fixed by branching -/

theorem push_fixed_frame (st st1 : State) (loc : BranchLocals)
    (h : push_fixed st loc = some st1) :
    st1.current_columns = st.current_columns ∧ st1.log = st.log ∧
    st1.solve_subproblem_p = st.solve_subproblem_p ∧
    st.fixed_people <+: st1.fixed_people := by
  unfold push_fixed at h
  split at h
  · split at h
    · simp only [Option.some.injEq] at h
      rw [← h]
      exact ⟨rfl, rfl, rfl, List.prefix_append _ _⟩
    · cases h
  · cases h

theorem threshold_loop_frame (beta : ℚ) (l : List Nat) :
    ∀ (st : State) (loc : BranchLocals) (n : Nat) (st1 : State) (loc1 : BranchLocals) (n1 : Nat),
      threshold_loop beta l st loc n = some (st1, loc1, n1) →
      st1.current_columns = st.current_columns ∧ st1.log = st.log ∧
      st1.solve_subproblem_p = st.solve_subproblem_p ∧
      st.fixed_people <+: st1.fixed_people := by
  induction l with
  | nil =>
    intro st loc n st1 loc1 n1 h
    simp only [threshold_loop, Option.some.injEq, Prod.mk.injEq] at h
    rw [← h.1]
    exact ⟨rfl, rfl, rfl, List.prefix_refl _⟩
  | cons i rest ih =>
    intro st loc n st1 loc1 n1 h
    rw [threshold_loop] at h
    split at h
    · cases h
    · split at h
      · split at h
        · cases h
        · split at h
          · cases h
          · rename_i st2 hpf
            obtain ⟨a1, a2, a3, a4⟩ := push_fixed_frame _ _ _ hpf
            obtain ⟨b1, b2, b3, b4⟩ := ih _ _ _ _ _ _ h
            exact ⟨b1.trans a1, b2.trans a2, b3.trans a3, a4.trans b4⟩
      · exact ih _ _ _ _ _ _ h

/-- `find_branching_variables` only appends to `fixed_people`; the pool, the flags and
the log are not touched. -/
theorem find_branching_variables_frame (pd : Problem_Data)
    (branching_method_diving : Branching_Method_Diving) (beta : ℚ) (st st1 : State)
    (h : find_branching_variables pd branching_method_diving beta st = some st1) :
    st1.current_columns = st.current_columns ∧ st1.log = st.log ∧
    st1.solve_subproblem_p = st.solve_subproblem_p ∧
    st.fixed_people <+: st1.fixed_people := by
  unfold find_branching_variables at h
  cases branching_method_diving with
  | largest_fractional_variable =>
    simp only at h
    split at h
    · cases h
    · have hp := push_fixed_frame _ _ _ h
      exact hp
  | value_above_threshold =>
    simp only at h
    split at h
    · cases h
    · rename_i st2 loc n hth
      obtain ⟨a1, a2, a3, a4⟩ := threshold_loop_frame beta _ _ _ _ _ _ _ hth
      split at h
      · split at h
        · cases h
        · obtain ⟨b1, b2, b3, b4⟩ := push_fixed_frame _ _ _ h
          exact ⟨b1.trans a1, b2.trans a2, b3.trans a3, a4.trans b4⟩
      · simp only [Option.some.injEq] at h
        rw [← h]
        exact ⟨a1, a2, a3, a4⟩

theorem add_branching_restrictions_loop_frame (l : List Nat) :
    ∀ st : State,
      (add_branching_restrictions_loop l st).current_columns = st.current_columns ∧
      (add_branching_restrictions_loop l st).log = st.log ∧
      (add_branching_restrictions_loop l st).solve_subproblem_p = st.solve_subproblem_p ∧
      (add_branching_restrictions_loop l st).fixed_people = st.fixed_people := by
  induction l with
  | nil => intro st; exact ⟨rfl, rfl, rfl, rfl⟩
  | cons i rest ih =>
    intro st
    rw [add_branching_restrictions_loop]
    exact ih _

/-- A dive step adds one `branched` event to the log, only appends to `fixed_people`,
leaves the pool as it is, and ends with the flag of every person cleared exactly when
the person occurs in `fixed_people`. -/
theorem dive_step_frame (pd : Problem_Data) (bm : Branching_Method_Diving) (beta : ℚ)
    (st st' : State) (h : dive_step pd bm beta st = some st') :
    st'.current_columns = st.current_columns ∧ st'.log = st.log ++ [Event.branched] ∧
    st.fixed_people <+: st'.fixed_people ∧
    ∀ q, q < pd.nb_people →
      st'.solve_subproblem_p[q]? = some (!st'.fixed_people.contains q) := by
  unfold dive_step at h
  split at h
  · cases h
  · rename_i st1 hfind
    dsimp only at h
    split at h
    · cases h
    · rename_i st3 hrem
      obtain ⟨a1, a2, a3, a4⟩ := find_branching_variables_frame pd bm beta st st1 hfind
      obtain ⟨b1, b2, b3, b4⟩ := add_branching_restrictions_loop_frame
        st1.fixed_indices_cplex { st1 with log := st1.log ++ [Event.branched] }
      have hst3 : st3 = { add_branching_restrictions
          { st1 with log := st1.log ++ [Event.branched] } with
          masterproblem := st3.masterproblem } := by
        unfold remove_columns_that_violate_branching_restrictions at hrem
        split at hrem
        · cases hrem
        · simp only [Option.some.injEq] at hrem
          rw [← hrem]
      have c1 : st3.current_columns = st.current_columns := by
        rw [hst3]
        exact b1.trans a1
      have c2 : st3.log = st.log ++ [Event.branched] := by
        rw [hst3]
        show (add_branching_restrictions _).log = _
        rw [show (add_branching_restrictions
          { st1 with log := st1.log ++ [Event.branched] }).log =
            st1.log ++ [Event.branched] from b2, a2]
      have c4 : st3.fixed_people = st1.fixed_people := by
        rw [hst3]
        exact b4
      have hflags := reset_flags_spec pd st3 st' h
      have hst' : st' = { st3 with solve_subproblem_p := st'.solve_subproblem_p } := by
        unfold reset_flags at h
        split at h
        · simp only [Option.some.injEq] at h
          rw [← h]
        · cases h
      have d1 : st'.current_columns = st3.current_columns := by rw [hst']
      have d2 : st'.log = st3.log := by rw [hst']
      have d4 : st'.fixed_people = st3.fixed_people := by rw [hst']
      refine ⟨d1.trans c1, d2.trans c2, ?_, ?_⟩
      · rw [d4, c4]
        exact a4
      · intro q hq
        rw [hflags q hq, d4]

/-- From a loop head of the dive at which person `p` is fixed and the flag of `p` is
cleared, the rest of the run prices `p` no more and adds no column for `p`. -/
theorem diving_loop_untouched (pd : Problem_Data) (cpx : CPX_Codes) (orc : Oracle)
    (cgm : Column_Generation_Method) (bm : Branching_Method_Diving) (beta : ℚ)
    (cg_fuel : Nat) (p : Nat) (hp : p < pd.nb_people) :
    ∀ (fuel : Nat) (st st_final : State), p ∈ st.fixed_people →
      st.solve_subproblem_p[p]? = some false →
      diving_loop pd cpx orc cgm bm beta cg_fuel fuel st = Outcome.done st_final →
      (st_final.current_columns.filter fun c => decide (c.person = p)) =
        (st.current_columns.filter fun c => decide (c.person = p)) ∧
      ∃ new, st_final.log = st.log ++ new ∧ Event.priced p ∉ new ∧
        Event.column_added p ∉ new := by
  intro fuel
  induction fuel with
  | zero => intro st st_final _ _ h; cases h
  | succ fuel ih =>
    intro st st_final hfix hf h
    rw [diving_loop] at h
    split at h
    · cases h
    · cases h
    · rename_i st1 obj hcg
      obtain ⟨u1, u2, u3, new1, u4, u5, u6⟩ :=
        column_generation_untouched pd cpx orc cgm cg_fuel st st1 obj p hf hcg
      split at h
      · cases h
      · split at h
        · cases h
        · rename_i st2 hres
          split at h
          · cases h
          · rename_i st3 hsave
            simp only [Outcome.done.injEq] at h
            have e2 : st2 = { st1 with fixed_columns := st2.fixed_columns } := by
              unfold fix_residual_schedule at hres
              split at hres
              · cases hres
              · simp only [Option.some.injEq] at hres
                rw [← hres]
            have e3 : st3 = { st2 with objective_best_solution := st3.objective_best_solution,
                                       solution := st3.solution } := by
              unfold save_solution at hsave
              split at hsave
              · cases hsave
              · split at hsave
                · cases hsave
                · split at hsave
                  · cases hsave
                  · simp only [Option.some.injEq] at hsave
                    rw [← hsave]
            have f1 : st3.current_columns = st1.current_columns := by rw [e3, e2]
            have f2 : st3.log = st1.log := by rw [e3, e2]
            rw [← h]
            refine ⟨?_, new1 ++ [Event.solution_saved], ?_, ?_, ?_⟩
            · show st3.current_columns.filter _ = _
              rw [f1]
              exact u3
            · show st3.log ++ _ = _
              rw [f2, u4, List.append_assoc]
            · simp only [List.mem_append, List.mem_singleton, not_or]
              exact ⟨u5, fun hc => by cases hc⟩
            · simp only [List.mem_append, List.mem_singleton, not_or]
              exact ⟨u6, fun hc => by cases hc⟩
      · rename_i hfrac
        split at h
        · cases h
        · rename_i st2 hdive
          obtain ⟨d1, d2, d3, d4⟩ := dive_step_frame pd bm beta st1 st2 hdive
          have hfix2 : p ∈ st2.fixed_people := d3.subset (by rw [u2]; exact hfix)
          have hf2 : st2.solve_subproblem_p[p]? = some false := by
            rw [d4 p hp]
            have : st2.fixed_people.contains p = true := by
              simp only [List.contains_iff_exists_mem_beq, beq_iff_eq]
              exact ⟨p, hfix2, rfl⟩
            rw [this]
            rfl
          obtain ⟨g1, new2, g2, g3, g4⟩ := ih st2 st_final hfix2 hf2 h
          refine ⟨?_, new1 ++ [Event.branched] ++ new2, ?_, ?_, ?_⟩
          · rw [g1, d1]
            exact u3
          · rw [g2, d2, u4]
            simp only [List.append_assoc]
          · simp only [List.mem_append, List.mem_singleton, not_or]
            exact ⟨⟨u5, fun hc => by cases hc⟩, g3⟩
          · simp only [List.mem_append, List.mem_singleton, not_or]
            exact ⟨⟨u6, fun hc => by cases hc⟩, g4⟩
/-- C24. After a dive step (the end of step (7)) the flag `solve_subproblem_p[q]` of
every person `q` is `false` exactly when `q` occurs in `fixed_people`. In both
column-generation methods a person whose flag is `false` at the start of a call is
neither priced nor given a column during the call: the calls logged contain no pricing
call and no column addition for that person, and the records of the person in the pool,
the flag and `fixed_people` are the same at the end. Hence for a person `p` that is in
`fixed_people` after a dive step, the rest of the dive prices `p` no more and adds no
column for `p`. -/
theorem fixed_person_gets_no_column (pd : Problem_Data) (cpx : CPX_Codes) (orc : Oracle)
    (cgm : Column_Generation_Method) (bm : Branching_Method_Diving) (beta : ℚ)
    (cg_fuel fuel : Nat) (st0 st st_final : State) (p : Nat)
    (hp : p < pd.nb_people)
    (hdive : dive_step pd bm beta st0 = some st)
    (hfix : p ∈ st.fixed_people)
    (hrun : diving_loop pd cpx orc cgm bm beta cg_fuel fuel st = Outcome.done st_final) :
    (∀ q, q < pd.nb_people →
      st.solve_subproblem_p[q]? = some (!st.fixed_people.contains q)) ∧
    (∀ (m : Column_Generation_Method) (fuel1 : Nat) (s s1 : State) (obj : ℚ) (q : Nat),
      s.solve_subproblem_p[q]? = some false →
      column_generation pd cpx orc m fuel1 s = Outcome.done (s1, obj) → untouched q s s1) ∧
    (st_final.current_columns.filter fun c => decide (c.person = p)) =
      (st.current_columns.filter fun c => decide (c.person = p)) ∧
    ∃ new, st_final.log = st.log ++ new ∧ Event.priced p ∉ new ∧
      Event.column_added p ∉ new := by
  obtain ⟨_, _, _, d4⟩ := dive_step_frame pd bm beta st0 st hdive
  have hf : st.solve_subproblem_p[p]? = some false := by
    rw [d4 p hp]
    have : st.fixed_people.contains p = true := by
      simp only [List.contains_iff_exists_mem_beq, beq_iff_eq]
      exact ⟨p, hfix, rfl⟩
    rw [this]
    rfl
  exact ⟨d4, fun m fuel1 s s1 obj q hq h =>
      column_generation_untouched pd cpx orc m fuel1 s s1 obj q hq h,
    diving_loop_untouched pd cpx orc cgm bm beta cg_fuel p hp fuel st st_final hfix hf hrun⟩

set_option maxRecDepth 100000 in
/-- Witness for C24: the first person of `duoData`, fixed by the dive step that leads
from `duoFractionalState` to `duoDivedState`; the rest of the dive under `duoDoneOracle`
solves the master, prices the second person and saves the solution. -/
theorem fixed_person_gets_no_column_witness :
    (∀ q, q < duoData.nb_people →
      duoDivedState.solve_subproblem_p[q]? = some (!duoDivedState.fixed_people.contains q)) ∧
    (duoFinalState.current_columns.filter fun c => decide (c.person = 0)) =
      (duoDivedState.current_columns.filter fun c => decide (c.person = 0)) ∧
    ∃ new, duoFinalState.log = duoDivedState.log ++ new ∧ Event.priced 0 ∉ new ∧
      Event.column_added 0 ∉ new := by
  obtain ⟨h1, _, h3, h4⟩ := fixed_person_gets_no_column duoData cplexCodes duoDoneOracle
    Column_Generation_Method.one_column_per_person
    Branching_Method_Diving.largest_fractional_variable 0 10 5
    duoFractionalState duoDivedState duoFinalState 0 (by decide) (by decide!) (by decide!)
    (by decide!)
  exact ⟨h1, h3, h4⟩

/-! ## At most one column per person is fixed at a dive level -/

/-- Two different members of a duplicate-free list contribute at most the whole sum of
non-negative terms. -/
theorem two_terms_le_sum (l : List Nat) (f : Nat → ℚ) (hnd : l.Nodup)
    (hnn : ∀ i ∈ l, 0 ≤ f i) (a b : Nat) (ha : a ∈ l) (hb : b ∈ l) (hab : a ≠ b) :
    f a + f b ≤ (l.map f).sum := by
  have hsingle : ∀ (l : List Nat), (∀ i ∈ l, 0 ≤ f i) → ∀ c ∈ l, f c ≤ (l.map f).sum := by
    intro l
    induction l with
    | nil => intro _ c hc; cases hc
    | cons x rest ih =>
      intro hnn c hc
      have hx := hnn x (List.mem_cons_self _ _)
      have hrest : 0 ≤ (rest.map f).sum :=
        List.sum_nonneg (by
          intro v hv
          simp only [List.mem_map] at hv
          obtain ⟨i, hi, rfl⟩ := hv
          exact hnn i (List.mem_cons_of_mem _ hi))
      simp only [List.map_cons, List.sum_cons]
      rcases List.mem_cons.mp hc with rfl | hc
      · linarith
      · have := ih (fun i hi => hnn i (List.mem_cons_of_mem _ hi)) c hc
        linarith
  induction l with
  | nil => cases ha
  | cons x rest ih =>
    have hx := hnn x (List.mem_cons_self _ _)
    have hnn' : ∀ i ∈ rest, 0 ≤ f i := fun i hi => hnn i (List.mem_cons_of_mem _ hi)
    obtain ⟨hxr, hnd'⟩ := List.nodup_cons.mp hnd
    simp only [List.map_cons, List.sum_cons]
    rcases List.mem_cons.mp ha with ha1 | ha1
    · rcases List.mem_cons.mp hb with hb1 | hb1
      · exact absurd (ha1.trans hb1.symm) hab
      · have := hsingle rest hnn' b hb1
        rw [ha1]
        linarith
    · rcases List.mem_cons.mp hb with hb1 | hb1
      · have := hsingle rest hnn' a ha1
        rw [hb1]
        linarith
      · have := ih hnd' hnn' ha1 hb1
        linarith

/-- In a master solution in which the assign-variables of every person are non-negative
and sum to 1, two different generated columns of one person have values that add up to
at most 1. -/
theorem two_columns_le_one (pd : Problem_Data) (st : State) (hc : convex_solution pd st)
    (p : Nat) (hp : p < pd.nb_people) (i j : Nat)
    (hi : i ∈ person_columns pd st p) (hj : j ∈ person_columns pd st p) (hij : i ≠ j) :
    st.solution_master.getD i 0 + st.solution_master.getD j 0 ≤ 1 := by
  obtain ⟨hnn, hsum⟩ := hc p hp
  have hnd : (person_columns pd st p).Nodup := by
    simp only [person_columns, generatedIndices]
    exact List.Nodup.filter _ (List.nodup_range' _ _)
  have h2 := two_terms_le_sum (person_columns pd st p) (fun i => st.solution_master.getD i 0)
    hnd (by
      intro k hk
      exact hnn _ (List.mem_cons_of_mem _ (List.mem_map_of_mem _ hk))) i j hi hj hij
  have h0 := hnn (st.solution_master.getD (2 * pd.tds + p) 0) (List.mem_cons_self _ _)
  simp only [person_assign_values, List.sum_cons] at hsum
  linarith

/-- The members of `person_columns`. -/
theorem mem_person_columns (pd : Problem_Data) (st : State) (p i : Nat) :
    i ∈ person_columns pd st p ↔
      firstGenerated pd ≤ i ∧ i < CPXgetnumcols st.masterproblem ∧
        column_person st i = some p := by
  simp only [person_columns, List.mem_filter, mem_generatedIndices, decide_eq_true_eq, and_assoc]

/-- A list of master indices whose columns belong to pairwise different people yields
records of pairwise different people. -/
theorem records_people_nodup (st : State) (sel : List Nat) (recs : List Column)
    (hmap : sel.map (record_of st) = recs.map some)
    (hpw : sel.Pairwise fun i j => column_person st i ≠ column_person st j) :
    (recs.map fun r => r.person).Nodup := by
  have h1 : (sel.map (column_person st)).Nodup := by
    rw [List.Nodup, List.pairwise_map]
    exact hpw
  have h2 : sel.map (column_person st) = (recs.map fun r => r.person).map some := by
    have := congrArg (List.map (Option.map fun r : Column => r.person)) hmap
    simp only [List.map_map] at this
    rw [List.map_map]
    exact this
  rw [h2] at h1
  exact List.Nodup.of_map _ h1

/-- With a threshold of at least 1/2, in a master solution in which the assign-variables
of every person are non-negative and sum to 1, the columns selected by
`find_branching_variables` belong to pairwise different people. -/
theorem selected_people_distinct (pd : Problem_Data) (m : Branching_Method_Diving) (beta : ℚ)
    (st : State) (hbeta : 1 / 2 ≤ beta) (hc : convex_solution pd st)
    (hper : ∀ r ∈ st.current_columns, r.person < pd.nb_people)
    (sel : List Nat) (hpw : sel.Pairwise (· < ·))
    (hsel : ∀ i ∈ sel, firstGenerated pd ≤ i ∧ i < CPXgetnumcols st.masterproblem ∧
      ∃ v r, st.solution_master[i]? = some v ∧ v < 1 - fractionality_tolerance_master ∧
        (0 < v ∨ beta < v) ∧ record_of st i = some r ∧ r ∈ st.current_columns)
    (hkind : sel.length = 1 ∨
      (m = Branching_Method_Diving.value_above_threshold ∧
        ∀ i ∈ sel, ∃ v, st.solution_master[i]? = some v ∧ beta < v)) :
    sel.Pairwise fun i j => column_person st i ≠ column_person st j := by
  rcases hkind with h1 | ⟨_, hall⟩
  · match sel, h1 with
    | [a], _ => exact List.pairwise_singleton _ _
  · refine List.Pairwise.imp_of_mem ?_ hpw
    intro i j hi hj hlt hsame
    obtain ⟨a1, a2, v, r, _, _, _, hr, hrm⟩ := hsel i hi
    obtain ⟨b1, b2, _, _, _, _, _, _, _⟩ := hsel j hj
    obtain ⟨vi, hvi, hbi⟩ := hall i hi
    obtain ⟨vj, hvj, hbj⟩ := hall j hj
    have hcp : column_person st i = some r.person := by
      simp only [column_person, hr, Option.map_some']
    have hmi : i ∈ person_columns pd st r.person :=
      (mem_person_columns pd st _ i).mpr ⟨a1, a2, hcp⟩
    have hmj : j ∈ person_columns pd st r.person :=
      (mem_person_columns pd st _ j).mpr ⟨b1, b2, by rw [← hsame, hcp]⟩
    have h2 := two_columns_le_one pd st hc r.person (hper r hrm) i j hmi hmj (by omega)
    have e1 : st.solution_master.getD i 0 = vi := by
      rw [List.getD_eq_getElem?_getD, hvi]
      rfl
    have e2 : st.solution_master.getD j 0 = vj := by
      rw [List.getD_eq_getElem?_getD, hvj]
      rfl
    rw [e1, e2] at h2
    linarith
theorem add_branching_restrictions_loop_counter (l : List Nat) :
    ∀ st : State,
      (add_branching_restrictions_loop l st).nb_people_fixed_current_iteration =
        st.nb_people_fixed_current_iteration := by
  induction l with
  | nil => intro st; rfl
  | cons i rest ih =>
    intro st
    rw [add_branching_restrictions_loop]
    exact ih _

/-- The record of a master column has the name of the column and is in the pool. -/
theorem record_of_some (st : State) (i : Nat) (r : Column) (h : record_of st i = some r) :
    r ∈ st.current_columns ∧ ∃ c, st.masterproblem.cols[i]? = some c ∧ r.name = c.name := by
  unfold record_of at h
  split at h
  · cases h
  · rename_i column_name hname
    simp only [CPXgetcolname] at hname
    cases hc : st.masterproblem.cols[i]? with
    | none =>
      rw [hc] at hname
      cases hname
    | some c =>
      rw [hc] at hname
      simp only [Option.map_some', Option.some.injEq] at hname
      have h1 := List.find?_some h
      simp only [decide_eq_true_eq] at h1
      exact ⟨List.mem_of_find?_eq_some h, c, rfl, by rw [h1, hname]⟩

/-- C25. With a threshold `β ≥ 0.5`, at a dive level whose master solution has
non-negative assign-variables that sum to 1 for every person and at least one generated
variable strictly between 0 and 1 - 0.001 (solution vector with one entry per master
column, every generated column with its record in the pool, the records belonging to
people of the instance, distinct column names in master and pool), the
value-above-threshold rule returns, and the records it appends to `fixed_columns` (their
people to `fixed_people`) belong to pairwise different people; the pruning that follows
returns and every column fixed at this level is still in the master afterwards. -/
theorem threshold_fixes_distinct_people (pd : Problem_Data) (beta : ℚ) (st : State)
    (hbeta : 1 / 2 ≤ beta)
    (hlen : st.solution_master.length = CPXgetnumcols st.masterproblem)
    (hres : PoolKnowsMaster pd st)
    (hex : ∃ i v, firstGenerated pd ≤ i ∧ i < CPXgetnumcols st.masterproblem ∧
      st.solution_master[i]? = some v ∧ 0 < v ∧ v < 1 - fractionality_tolerance_master)
    (hc : convex_solution pd st)
    (hper : ∀ r ∈ st.current_columns, r.person < pd.nb_people)
    (hnd : (colNames st.masterproblem).Nodup)
    (hpool : (st.current_columns.map fun r => r.name).Nodup) :
    ∃ st1 recs st3,
      find_branching_variables pd Branching_Method_Diving.value_above_threshold beta st =
        some st1 ∧
      st1.fixed_indices_cplex.map (record_of st) = recs.map some ∧
      st1.fixed_columns = st.fixed_columns ++ recs ∧
      st1.fixed_people = st.fixed_people ++ recs.map (fun r => r.person) ∧
      (recs.map fun r => r.person).Nodup ∧
      remove_columns_that_violate_branching_restrictions
        (add_branching_restrictions { st1 with log := st1.log ++ [Event.branched] }) =
          some st3 ∧
      (∀ r ∈ recs, r.name ∈ colNames st.masterproblem ∧ r.name ∈ colNames st3.masterproblem) := by
  obtain ⟨sel, hne, hfind, hpw, hsel, hkind⟩ := find_branching_variables_selects pd
    Branching_Method_Diving.value_above_threshold beta st hlen hres hex
  obtain ⟨recs, hr1, hr2⟩ := map_some_of_all_some (record_of st) sel (by
    intro i hi
    obtain ⟨_, _, v, r, _, _, _, hr, _⟩ := hsel i hi
    exact ⟨r, hr⟩)
  let st0 : State :=
    { st with fixed_indices_cplex := [], nb_people_fixed_current_iteration := 0 }
  have hfind0 : find_branching_variables pd Branching_Method_Diving.value_above_threshold
      beta st = some (pushAll st0 sel) := hfind
  have hr2b : sel.filterMap (record_of st0) = recs := hr2
  have hfc : (pushAll st0 sel).fixed_columns = st.fixed_columns ++ recs := by
    simp only [pushAll, hr2b]
  have hfp : (pushAll st0 sel).fixed_people =
      st.fixed_people ++ recs.map (fun r => r.person) := by
    simp only [pushAll, hr2b]
  have hfi : (pushAll st0 sel).fixed_indices_cplex = sel := by
    simp only [pushAll, List.nil_append]
  have hnbp : (pushAll st0 sel).nb_people_fixed_current_iteration = sel.length := by
    simp only [pushAll]
    show 0 + sel.length = sel.length
    omega
  have hdist := selected_people_distinct pd Branching_Method_Diving.value_above_threshold beta
    st hbeta hc hper sel hpw hsel hkind
  have hnodup := records_people_nodup st sel recs hr1 hdist
  have hlenr : recs.length = sel.length := by
    have := congrArg List.length hr1
    simpa using this.symm
  -- the state after the branching rows
  obtain ⟨_, _, g3, _, _, g6, _, g8, _⟩ := add_branching_restrictions_loop_spec sel
    { pushAll st0 sel with log := (pushAll st0 sel).log ++ [Event.branched] }
    (fun i hi => (hsel i hi).2.1)
  have gnb := add_branching_restrictions_loop_counter sel
    { pushAll st0 sel with log := (pushAll st0 sel).log ++ [Event.branched] }
  have habr : add_branching_restrictions
      { pushAll st0 sel with log := (pushAll st0 sel).log ++ [Event.branched] } =
      add_branching_restrictions_loop sel
        { pushAll st0 sel with log := (pushAll st0 sel).log ++ [Event.branched] } := by
    simp only [add_branching_restrictions]
    rw [hfi]
  have k1 : (add_branching_restrictions
      { pushAll st0 sel with log := (pushAll st0 sel).log ++ [Event.branched] }).fixed_columns =
      st.fixed_columns ++ recs := by
    rw [habr]
    exact g6.trans hfc
  have k2 : (add_branching_restrictions
      { pushAll st0 sel with log := (pushAll st0 sel).log ++ [Event.branched] }
        ).nb_people_fixed_current_iteration = sel.length := by
    rw [habr]
    exact gnb.trans hnbp
  have k3 : (add_branching_restrictions
      { pushAll st0 sel with log := (pushAll st0 sel).log ++ [Event.branched] }
        ).current_columns = st.current_columns := by
    rw [habr]
    exact g8
  have k4 : colNames (add_branching_restrictions
      { pushAll st0 sel with log := (pushAll st0 sel).log ++ [Event.branched] }
        ).masterproblem = colNames st.masterproblem := by
    rw [habr]
    exact g3
  have knew : newlyFixed (add_branching_restrictions
      { pushAll st0 sel with log := (pushAll st0 sel).log ++ [Event.branched] }) = recs := by
    simp only [newlyFixed, k1, k2, List.length_append, hlenr, Nat.add_sub_cancel]
    rw [List.drop_append_of_le_length (le_refl _), List.drop_length, List.nil_append]
  obtain ⟨lp1, e1, _, e3⟩ := remove_columns_outer_spec (add_branching_restrictions
      { pushAll st0 sel with log := (pushAll st0 sel).log ++ [Event.branched] })
    (by rw [k1, k2, List.length_append, hlenr]; omega)
    st.current_columns _ (by rw [k4]; exact hnd)
  rw [knew] at e3
  refine ⟨pushAll st0 sel, recs,
    { add_branching_restrictions
        { pushAll st0 sel with log := (pushAll st0 sel).log ++ [Event.branched] } with
      masterproblem := lp1 },
    hfind0, by rw [hfi]; exact hr1, hfc, hfp, hnodup, ?_, ?_⟩
  · simp only [remove_columns_that_violate_branching_restrictions]
    rw [k3, e1]
  · intro r hr
    -- `r` is the record of a selected index
    have hrs : some r ∈ sel.map (record_of st) := by
      rw [hr1]
      exact List.mem_map_of_mem _ hr
    obtain ⟨i, _, hri⟩ := List.mem_map.mp hrs
    obtain ⟨hrpool, c, hci, hrc⟩ := record_of_some st i r hri
    have hin : r.name ∈ colNames st.masterproblem := by
      simp only [colNames, List.mem_map]
      exact ⟨c, List.getElem?_mem hci, hrc.symm⟩
    refine ⟨hin, ?_⟩
    have hin2 := hin
    rw [← k4] at hin2
    simp only [colNames, List.mem_map] at hin2 ⊢
    obtain ⟨mc, hmc, hname⟩ := hin2
    refine ⟨mc, ?_, hname⟩
    show mc ∈ lp1.cols
    rw [e3, List.mem_filter]
    refine ⟨hmc, ?_⟩
    simp only [Bool.not_eq_true']
    by_contra hpr
    simp only [Bool.not_eq_false] at hpr
    simp only [pruned, List.any_eq_true, Bool.and_eq_true, decide_eq_true_eq] at hpr
    obtain ⟨cc, hcc, hccname, hviol⟩ := hpr
    have hccr : cc = r :=
      List.inj_on_of_nodup_map hpool hcc hrpool (by rw [hccname, hname])
    subst hccr
    simp only [violates, List.any_eq_true, decide_eq_true_eq] at hviol
    obtain ⟨fc, hfc1, hfc2, hfc3⟩ := hviol
    have : cc = fc := List.inj_on_of_nodup_map hnodup hr hfc1 hfc2
    exact hfc3 (by rw [this])
/-- The master solution of `duoFractionalState` has non-negative assign-variables that
sum to 1 for both people. -/
theorem duoFractionalState_convex : convex_solution duoData duoFractionalState := by
  intro p hp
  have h2 : p < 2 := hp
  have hcases : p = 0 ∨ p = 1 := by omega
  rcases hcases with rfl | rfl <;> decide!

/-- Witness for C25: the threshold 0.6 on `duoFractionalState`. -/
theorem threshold_fixes_distinct_people_witness :
    ∃ st1 recs st3,
      find_branching_variables duoData Branching_Method_Diving.value_above_threshold (6 / 10)
        duoFractionalState = some st1 ∧
      st1.fixed_indices_cplex.map (record_of duoFractionalState) = recs.map some ∧
      st1.fixed_columns = duoFractionalState.fixed_columns ++ recs ∧
      st1.fixed_people = duoFractionalState.fixed_people ++ recs.map (fun r => r.person) ∧
      (recs.map fun r => r.person).Nodup ∧
      remove_columns_that_violate_branching_restrictions
        (add_branching_restrictions { st1 with log := st1.log ++ [Event.branched] }) =
          some st3 ∧
      (∀ r ∈ recs, r.name ∈ colNames duoFractionalState.masterproblem ∧
        r.name ∈ colNames st3.masterproblem) :=
  threshold_fixes_distinct_people duoData (6 / 10) duoFractionalState (by norm_num)
    (by decide) duoFractionalState_pool
    ⟨8, 7 / 10, by decide, by decide, rfl, by norm_num,
      by norm_num [fractionality_tolerance_master]⟩
    duoFractionalState_convex (by decide) (by decide) (by decide)

/-! ## Integral master solutions and the columns of a person -/

theorem filter_sum_le (l : List ℚ) (q : ℚ → Bool) (hnn : ∀ v ∈ l, 0 ≤ v) :
    (l.filter q).sum ≤ l.sum := by
  induction l with
  | nil => simp
  | cons a rest ih =>
    have ha := hnn a (List.mem_cons_self _ _)
    have hr := ih (fun v hv => hnn v (List.mem_cons_of_mem _ hv))
    simp only [List.filter_cons, List.sum_cons]
    split
    · simp only [List.sum_cons]
      linarith
    · linarith

theorem mul_length_le_sum (m : List ℚ) (t : ℚ) (h : ∀ v ∈ m, t ≤ v) :
    t * m.length ≤ m.sum := by
  induction m with
  | nil => simp
  | cons a rest ih =>
    have ha := h a (List.mem_cons_self _ _)
    have hr := ih (fun v hv => h v (List.mem_cons_of_mem _ hv))
    simp only [List.length_cons, List.sum_cons, Nat.cast_add, Nat.cast_one]
    linarith

theorem sum_le_mul_length (l : List ℚ) (c : ℚ) (h : ∀ v ∈ l, v ≤ c) :
    l.sum ≤ c * l.length := by
  induction l with
  | nil => simp
  | cons a rest ih =>
    have ha := h a (List.mem_cons_self _ _)
    have hr := ih (fun v hv => h v (List.mem_cons_of_mem _ hv))
    simp only [List.length_cons, List.sum_cons, Nat.cast_add, Nat.cast_one]
    linarith

/-- Among non-negative values that sum to 1 at most one is 1 - 0.001 or more. -/
theorem at_most_one_large (l : List ℚ) (hnn : ∀ v ∈ l, 0 ≤ v) (hsum : l.sum = 1) :
    (l.filter fun v => decide (1 - fractionality_tolerance_master ≤ v)).length ≤ 1 := by
  have h1 := filter_sum_le l (fun v => decide (1 - fractionality_tolerance_master ≤ v)) hnn
  have h2 := mul_length_le_sum
    (l.filter fun v => decide (1 - fractionality_tolerance_master ≤ v))
    (1 - fractionality_tolerance_master) (by
      intro v hv
      simpa using (List.mem_filter.mp hv).2)
  by_contra hcon
  have h3 : 2 ≤ (l.filter fun v => decide (1 - fractionality_tolerance_master ≤ v)).length := by
    omega
  have h4 : (2 : ℚ) ≤
      ((l.filter fun v => decide (1 - fractionality_tolerance_master ≤ v)).length : ℚ) := by
    exact_mod_cast h3
  simp only [fractionality_tolerance_master] at h1 h2 h4
  nlinarith

/-- Among fewer than 1000 non-negative values that sum to 1, each of them at most 0.001
or at least 1 - 0.001, exactly one is 1 - 0.001 or more. -/
theorem exactly_one_large (l : List ℚ) (hnn : ∀ v ∈ l, 0 ≤ v) (hsum : l.sum = 1)
    (hint : ∀ v ∈ l, v ≤ fractionality_tolerance_master ∨
      1 - fractionality_tolerance_master ≤ v)
    (hlen : l.length < 1000) :
    (l.filter fun v => decide (1 - fractionality_tolerance_master ≤ v)).length = 1 := by
  have h1 := at_most_one_large l hnn hsum
  by_contra hcon
  have h0 : (l.filter fun v => decide (1 - fractionality_tolerance_master ≤ v)) = [] := by
    apply List.length_eq_zero.mp
    omega
  rw [List.filter_eq_nil_iff] at h0
  have hsmall : ∀ v ∈ l, v ≤ fractionality_tolerance_master := by
    intro v hv
    rcases hint v hv with h | h
    · exact h
    · exact absurd (decide_eq_true h) (h0 v hv)
  have h2 := sum_le_mul_length l fractionality_tolerance_master hsmall
  have h3 : (l.length : ℚ) ≤ 999 := by
    have : l.length ≤ 999 := by omega
    exact_mod_cast this
  simp only [fractionality_tolerance_master] at h2
  rw [hsum] at h2
  linarith

/-- The columns that `fix_residual_schedule` returns for person `p` are as many as the
generated columns of `p` with a value of 1 - 0.001 or more. -/
theorem fixed_records_of_person (st : State) (p : Nat) (l : List Nat) :
    (∀ i ∈ l, i < st.solution_master.length ∧ ∃ r, record_of st i = some r) →
    (((selectedOne st l).filterMap (record_of st)).filter
        fun r => decide (r.person = p)).length =
      (((l.filter fun i => decide (column_person st i = some p)).map
          fun i => st.solution_master.getD i 0).filter
        fun v => decide (1 - fractionality_tolerance_master ≤ v)).length := by
  induction l with
  | nil => intro _; rfl
  | cons i rest ih =>
    intro h
    obtain ⟨hi, r, hr⟩ := h i (List.mem_cons_self _ _)
    have ih' := ih (fun j hj => h j (List.mem_cons_of_mem _ hj))
    have hv : st.solution_master[i]? = some (st.solution_master.getD i 0) := by
      rw [List.getD_eq_getElem?_getD, List.getElem?_eq_getElem hi]
      rfl
    have hcp : column_person st i = some r.person := by
      simp only [column_person, hr, Option.map_some']
    by_cases hsel : 1 - fractionality_tolerance_master ≤ st.solution_master.getD i 0
    · have hsa : selectedOne st (i :: rest) = i :: selectedOne st rest := by
        simp only [selectedOne, List.filter_cons, hv]
        rw [if_pos (decide_eq_true hsel)]
      rw [hsa, List.filterMap_cons_some hr]
      by_cases hp : r.person = p
      · have hc1 : decide (column_person st i = some p) = true := by
          rw [hcp, hp]
          simp
        simp only [List.filter_cons, hc1, if_true, decide_eq_true hp, List.map_cons,
          decide_eq_true hsel, List.length_cons]
        rw [ih']
      · have hc1 : decide (column_person st i = some p) = false := by
          rw [hcp]
          simp [hp]
        simp only [List.filter_cons, hc1, decide_eq_false hp, Bool.false_eq_true, if_false]
        exact ih'
    · have hsa : selectedOne st (i :: rest) = selectedOne st rest := by
        simp only [selectedOne, List.filter_cons, hv]
        rw [if_neg (fun h => hsel (of_decide_eq_true h))]
      rw [hsa, ih']
      by_cases hc1 : column_person st i = some p
      · simp only [List.filter_cons, decide_eq_true hc1, if_true, List.map_cons,
          decide_eq_false hsel, Bool.false_eq_true, if_false]
      · simp only [List.filter_cons, decide_eq_false hc1, Bool.false_eq_true, if_false]
/-- The verdict "integral" of `is_solution_fractional`, read on the entries of the
solution vector. -/
theorem integral_entries (st : State)
    (hlen : st.solution_master.length = CPXgetnumcols st.masterproblem)
    (hint : is_solution_fractional st = some false) (i : Nat)
    (hi : i < CPXgetnumcols st.masterproblem) :
    st.solution_master.getD i 0 ≤ fractionality_tolerance_master ∨
      1 - fractionality_tolerance_master ≤ st.solution_master.getD i 0 := by
  have hr : ∀ j ∈ List.range (CPXgetnumcols st.masterproblem),
      j < st.solution_master.length := by
    intro j hj
    rw [hlen]
    exact List.mem_range.mp hj
  have h1 := (is_solution_fractional_loop_false_iff st.solution_master _ hr).mp hint i
    (List.mem_range.mpr hi) (st.solution_master.getD i 0) (by
      rw [List.getD_eq_getElem?_getD, List.getElem?_eq_getElem (by rw [hlen]; exact hi)]
      rfl)
  exact h1

/-- C26 (amended). For a master solution with one entry per master column (every
generated column with its record in the pool) in which the assign-variables of every
person are non-negative and sum to 1 and which `is_solution_fractional` judges integral,
`fix_residual_schedule` returns, and for every person: at most one assign-variable (super
column or generated column) has a value of 1 - 0.001 or more, and at most one column of
the person is returned; if the person has fewer than 1000 assign-variables, exactly one
assign-variable has such a value, and exactly one column of the person is returned when
the value of the super column is below 1 - 0.001. -/
theorem integral_solution_one_column_per_person (pd : Problem_Data) (st : State)
    (hlen : st.solution_master.length = CPXgetnumcols st.masterproblem)
    (hres : PoolKnowsMaster pd st)
    (hcols : firstGenerated pd ≤ CPXgetnumcols st.masterproblem)
    (hc : convex_solution pd st)
    (hint : is_solution_fractional st = some false) :
    ∃ st1, fix_residual_schedule pd st = some st1 ∧
      ∀ p, p < pd.nb_people →
        ((person_assign_values pd st p).filter
          fun v => decide (1 - fractionality_tolerance_master ≤ v)).length ≤ 1 ∧
        (st1.fixed_columns.filter fun r => decide (r.person = p)).length ≤ 1 ∧
        ((person_assign_values pd st p).length < 1000 →
          ((person_assign_values pd st p).filter
            fun v => decide (1 - fractionality_tolerance_master ≤ v)).length = 1 ∧
          (st.solution_master.getD (2 * pd.tds + p) 0 < 1 - fractionality_tolerance_master →
            (st1.fixed_columns.filter fun r => decide (r.person = p)).length = 1)) := by
  have hl : ∀ i ∈ generatedIndices pd st, firstGenerated pd ≤ i ∧
      i < CPXgetnumcols st.masterproblem ∧ i < st.solution_master.length := by
    intro i hi
    have := (mem_generatedIndices pd st i).mp hi
    exact ⟨this.1, this.2, by rw [hlen]; exact this.2⟩
  have e := fix_residual_loop_spec pd st hres (generatedIndices pd st) none [] hl
  refine ⟨{ st with fixed_columns :=
      (selectedOne st (generatedIndices pd st)).filterMap (record_of st) }, ?_, ?_⟩
  · simp only [fix_residual_schedule, e, List.nil_append]
  · intro p hp
    obtain ⟨hnn, hsum⟩ := hc p hp
    have hcount := fixed_records_of_person st p (generatedIndices pd st) (by
      intro i hi
      obtain ⟨h1, h2, h3⟩ := hl i hi
      obtain ⟨_, r, _, _, _, _, hr, _, _⟩ := record_of_spec pd st hres i h1 h2
      exact ⟨h3, r, hr⟩)
    have hall := at_most_one_large _ hnn hsum
    have hsplit : ((person_assign_values pd st p).filter
        fun v => decide (1 - fractionality_tolerance_master ≤ v)).length =
        (if 1 - fractionality_tolerance_master ≤ st.solution_master.getD (2 * pd.tds + p) 0
          then 1 else 0) +
        (((person_columns pd st p).map fun i => st.solution_master.getD i 0).filter
          fun v => decide (1 - fractionality_tolerance_master ≤ v)).length := by
      simp only [person_assign_values, List.filter_cons]
      split
      · rename_i h
        rw [if_pos (of_decide_eq_true h), List.length_cons]
        omega
      · rename_i h
        rw [if_neg (fun h2 => h (decide_eq_true h2))]
        omega
    have hfix : ((selectedOne st (generatedIndices pd st)).filterMap (record_of st)).filter
        (fun r => decide (r.person = p)) =
        ({ st with fixed_columns :=
          (selectedOne st (generatedIndices pd st)).filterMap (record_of st) } : State
          ).fixed_columns.filter (fun r => decide (r.person = p)) := rfl
    rw [← hfix, hcount]
    have hpc : (generatedIndices pd st).filter
        (fun i => decide (column_person st i = some p)) = person_columns pd st p := rfl
    rw [hpc]
    refine ⟨hall, by omega, ?_⟩
    intro hfew
    have hintv : ∀ v ∈ person_assign_values pd st p,
        v ≤ fractionality_tolerance_master ∨ 1 - fractionality_tolerance_master ≤ v := by
      intro v hv
      simp only [person_assign_values, List.mem_cons, List.mem_map] at hv
      rcases hv with rfl | ⟨i, hi, rfl⟩
      · exact integral_entries st hlen hint _ (by simp only [firstGenerated] at hcols; omega)
      · exact integral_entries st hlen hint i ((mem_person_columns pd st p i).mp hi).2.1
    have hone := exactly_one_large _ hnn hsum hintv hfew
    refine ⟨hone, ?_⟩
    intro hsuper
    rw [hsplit, if_neg (not_le.mpr hsuper)] at hone
    omega

/-- Witness for C26: the integral master solution of `duoIntegralState`. -/
theorem integral_solution_one_column_per_person_witness :
    ∃ st1, fix_residual_schedule duoData duoIntegralState = some st1 ∧
      ∀ p, p < duoData.nb_people →
        ((person_assign_values duoData duoIntegralState p).filter
          fun v => decide (1 - fractionality_tolerance_master ≤ v)).length ≤ 1 ∧
        (st1.fixed_columns.filter fun r => decide (r.person = p)).length ≤ 1 ∧
        ((person_assign_values duoData duoIntegralState p).length < 1000 →
          ((person_assign_values duoData duoIntegralState p).filter
            fun v => decide (1 - fractionality_tolerance_master ≤ v)).length = 1 ∧
          (duoIntegralState.solution_master.getD (2 * duoData.tds + p) 0 <
              1 - fractionality_tolerance_master →
            (st1.fixed_columns.filter fun r => decide (r.person = p)).length = 1)) :=
  integral_solution_one_column_per_person duoData duoIntegralState (by decide)
    duoIntegralState_pool (by decide)
    (by
      intro p hp
      have h2 : p < 2 := hp
      have hcases : p = 0 ∨ p = 1 := by omega
      rcases hcases with rfl | rfl <;> decide!)
    (by decide!)
theorem milliState_cols :
    milliState.masterproblem.cols = toyMaster.cols ++ (List.range' 1 1000).map fun k =>
      (⟨name_z 0 k, 0, 0, some 1, [(3, 1)]⟩ : CpxCol) := rfl

theorem milliState_current_columns : milliState.current_columns = milliColumns := rfl

theorem milliState_solution :
    milliState.solution_master = [0, 0, 0, 1, 1, 1, 0] ++ List.replicate 1000 (1 / 1000) := rfl

theorem milliState_numcols : CPXgetnumcols milliState.masterproblem = 1007 := by
  simp only [CPXgetnumcols]
  rw [milliState_cols, List.length_append, List.length_map, List.length_range']
  rfl

theorem milliState_col (i : Nat) (h1 : 7 ≤ i) (h2 : i < 1007) :
    milliState.masterproblem.cols[i]? =
      some ⟨name_z 0 (1 + 1 * (i - 7)), 0, 0, some 1, [(3, 1)]⟩ := by
  have h7 : toyMaster.cols.length = 7 := rfl
  rw [milliState_cols, List.getElem?_append_right (by rw [h7]; exact h1), h7,
    List.getElem?_map, List.getElem?_range' 1 1 (by omega)]
  rfl

theorem milliState_pool : PoolKnowsMaster toyData milliState := by
  intro i hi c hc
  have h7 : 7 ≤ i := hi
  by_cases h2 : i < 1007
  · rw [milliState_col i h7 h2] at hc
    simp only [Option.some.injEq] at hc
    refine ⟨⟨0, name_z 0 (1 + 1 * (i - 7)), 0, [0, 0, 0]⟩, ?_, by rw [← hc]⟩
    rw [milliState_current_columns]
    exact List.mem_map.mpr ⟨1 + 1 * (i - 7), List.mem_range'.mpr ⟨i - 7, by omega, rfl⟩, rfl⟩
  · have : milliState.masterproblem.cols[i]? = none :=
      List.getElem?_eq_none (by
        have := milliState_numcols
        simp only [CPXgetnumcols] at this
        omega)
    rw [this] at hc
    cases hc

theorem milliState_value (i : Nat) (h1 : 7 ≤ i) (h2 : i < 1007) :
    milliState.solution_master[i]? = some (1 / 1000) := by
  have h7 : ([0, 0, 0, 1, 1, 1, 0] : List ℚ).length = 7 := rfl
  rw [milliState_solution, List.getElem?_append_right (by rw [h7]; exact h1), h7,
    List.getElem?_replicate, if_pos (by omega)]

theorem milliState_generated : generatedIndices toyData milliState = List.range' 7 1000 := by
  simp only [generatedIndices, milliState_numcols]
  rfl

theorem milliState_person_columns : person_columns toyData milliState 0 = List.range' 7 1000 := by
  simp only [person_columns, milliState_generated]
  rw [List.filter_eq_self]
  intro i hi
  simp only [List.mem_range', Nat.one_mul] at hi
  obtain ⟨k, hk, rfl⟩ := hi
  obtain ⟨_, r, _, _, _, _, hr, _, hmem⟩ := record_of_spec toyData milliState milliState_pool
    (7 + k) (by show 7 ≤ 7 + k; omega) (by rw [milliState_numcols]; omega)
  have hp : r.person = 0 := by
    rw [milliState_current_columns] at hmem
    obtain ⟨j, _, rfl⟩ := List.mem_map.mp hmem
    rfl
  simp only [column_person, hr, Option.map_some', hp, decide_True]

theorem milliState_super :
    milliState.solution_master.getD (2 * toyData.tds + 0) 0 = 0 := by
  have h6 : milliState.solution_master[2 * toyData.tds + 0]? = some 0 := by
    rw [milliState_solution]
    exact List.getElem?_append_left (by decide)
  rw [List.getD_eq_getElem?_getD, h6]
  rfl

theorem milliState_values :
    person_assign_values toyData milliState 0 = 0 :: List.replicate 1000 (1 / 1000) := by
  have h : (List.range' 7 1000).map (fun i => milliState.solution_master.getD i 0) =
      List.replicate 1000 (1 / 1000 : ℚ) := by
    have h1 : (List.range' 7 1000).map (fun i => milliState.solution_master.getD i 0) =
        (List.range' 7 1000).map (fun _ => (1 / 1000 : ℚ)) := by
      apply List.map_congr_left
      intro i hi
      simp only [List.mem_range', Nat.one_mul] at hi
      obtain ⟨k, hk, rfl⟩ := hi
      rw [List.getD_eq_getElem?_getD, milliState_value (7 + k) (by omega) (by omega)]
      rfl
    rw [h1, List.map_const', List.length_range']
  simp only [person_assign_values]
  rw [milliState_person_columns, h, milliState_super]

/-- When no generated column has a value of 1 - 0.001 or more, `fix_residual_schedule`
returns no column. -/
theorem fix_residual_schedule_none_selected (pd : Problem_Data) (st : State)
    (hlen : st.solution_master.length = CPXgetnumcols st.masterproblem)
    (hres : PoolKnowsMaster pd st)
    (hnone : selectedOne st (generatedIndices pd st) = []) :
    (fix_residual_schedule pd st).map (fun s => s.fixed_columns) = some [] := by
  have hl : ∀ i ∈ generatedIndices pd st, firstGenerated pd ≤ i ∧
      i < CPXgetnumcols st.masterproblem ∧ i < st.solution_master.length := by
    intro i hi
    have := (mem_generatedIndices pd st i).mp hi
    exact ⟨this.1, this.2, by rw [hlen]; exact this.2⟩
  have e := fix_residual_loop_spec pd st hres (generatedIndices pd st) none [] hl
  simp only [fix_residual_schedule, e, hnone, List.filterMap_nil, List.append_nil,
    Option.map_some']

/-- Counterexample to C26 as stated: in `milliState` the assign-variables of the only
person are non-negative and sum to 1 (the super column at 0, 1000 generated columns at
0.001 each), `is_solution_fractional` judges the solution integral, no assign-variable of
the person reaches 1 - 0.001, and `fix_residual_schedule` returns no column for the
person although the value of the super column is below 1 - 0.001. -/
theorem integral_without_a_one_counterexample :
    convex_solution toyData milliState ∧
    is_solution_fractional milliState = some false ∧
    (∀ v ∈ person_assign_values toyData milliState 0,
      v < 1 - fractionality_tolerance_master) ∧
    milliState.solution_master.getD (2 * toyData.tds + 0) 0 <
      1 - fractionality_tolerance_master ∧
    (fix_residual_schedule toyData milliState).map (fun s => s.fixed_columns) = some [] := by
  have hmem : ∀ v ∈ milliState.solution_master, v = 0 ∨ v = 1 ∨ v = 1 / 1000 := by
    intro v hv
    rw [milliState_solution] at hv
    rcases List.mem_append.mp hv with h | h
    · simp only [List.mem_cons, List.mem_singleton, List.not_mem_nil, or_false] at h
      rcases h with h | h | h | h | h | h | h
      · exact Or.inl h
      · exact Or.inl h
      · exact Or.inl h
      · exact Or.inr (Or.inl h)
      · exact Or.inr (Or.inl h)
      · exact Or.inr (Or.inl h)
      · exact Or.inl h
    · exact Or.inr (Or.inr (List.eq_of_mem_replicate h))
  have hlen : milliState.solution_master.length = 1007 := by
    rw [milliState_solution, List.length_append, List.length_replicate]
    rfl
  refine ⟨?_, ?_, ?_, ?_, ?_⟩
  · intro p hp
    have hp1 : p < 1 := hp
    have hp0 : p = 0 := by omega
    subst hp0
    rw [milliState_values]
    constructor
    · intro v hv
      rcases List.mem_cons.mp hv with rfl | h
      · exact le_refl _
      · rw [List.eq_of_mem_replicate h]
        norm_num
    · rw [List.sum_cons, List.sum_replicate]
      norm_num
  · have hr : ∀ j ∈ List.range (CPXgetnumcols milliState.masterproblem),
        j < milliState.solution_master.length := by
      intro j hj
      rw [hlen, ← milliState_numcols]
      exact List.mem_range.mp hj
    refine (is_solution_fractional_loop_false_iff milliState.solution_master _ hr).mpr ?_
    intro i _ v hv
    rcases hmem v (List.getElem?_mem hv) with h | h | h
    · left
      rw [h]
      norm_num [fractionality_tolerance_master]
    · right
      rw [h]
      norm_num [fractionality_tolerance_master]
    · left
      rw [h]
      norm_num [fractionality_tolerance_master]
  · rw [milliState_values]
    intro v hv
    rcases List.mem_cons.mp hv with rfl | h
    · norm_num [fractionality_tolerance_master]
    · rw [List.eq_of_mem_replicate h]
      norm_num [fractionality_tolerance_master]
  · rw [milliState_super]
    norm_num [fractionality_tolerance_master]
  · have hlen2 : milliState.solution_master.length =
        CPXgetnumcols milliState.masterproblem := by
      rw [hlen, milliState_numcols]
    refine fix_residual_schedule_none_selected toyData milliState hlen2 milliState_pool ?_
    simp only [selectedOne]
    rw [List.filter_eq_nil_iff]
    intro i hi
    have h12 := (mem_generatedIndices toyData milliState i).mp hi
    have h7 : 7 ≤ i := h12.1
    rw [milliState_value i h7 (by rw [← milliState_numcols]; exact h12.2)]
    simp only [decide_eq_true_eq]
    norm_num [fractionality_tolerance_master]

/-! ## The candidates of `find_branching_variables` at a fractional solution -/

theorem single_le_sum (l : List ℚ) (hnn : ∀ v ∈ l, 0 ≤ v) : ∀ c ∈ l, c ≤ l.sum := by
  induction l with
  | nil => intro c hc; cases hc
  | cons x rest ih =>
    intro c hc
    have hx := hnn x (List.mem_cons_self _ _)
    have hnn' : ∀ v ∈ rest, 0 ≤ v := fun v hv => hnn v (List.mem_cons_of_mem _ hv)
    have hrest : 0 ≤ rest.sum := List.sum_nonneg hnn'
    simp only [List.sum_cons]
    rcases List.mem_cons.mp hc with h | h
    · rw [h]
      linarith
    · have := ih hnn' c h
      linarith

theorem exists_pos_of_sum_pos (l : List ℚ) (h : 0 < l.sum) : ∃ v ∈ l, 0 < v := by
  by_contra hcon
  push_neg at hcon
  have : l.sum ≤ 0 := by
    have h2 := sum_le_mul_length l 0 hcon
    simpa using h2
  linarith

/-- In a master solution whose assign-variables are non-negative and sum to 1 for every
person, an assign-variable (super column or generated column) with a value strictly
between 0.001 and 1 - 0.001 brings a generated column with a value strictly between 0 and
1 - 0.001. -/
theorem generated_fractional_of_assign_fractional (pd : Problem_Data) (st : State)
    (hlen : st.solution_master.length = CPXgetnumcols st.masterproblem)
    (hc : convex_solution pd st)
    (hfrac : ∃ j v, 2 * pd.tds ≤ j ∧ j < CPXgetnumcols st.masterproblem ∧
      st.solution_master[j]? = some v ∧ fractionality_tolerance_master < v ∧
      v < 1 - fractionality_tolerance_master) :
    ∃ i v, firstGenerated pd ≤ i ∧ i < CPXgetnumcols st.masterproblem ∧
      st.solution_master[i]? = some v ∧ 0 < v ∧ v < 1 - fractionality_tolerance_master := by
  obtain ⟨j, v, h1, h2, h3, h4, h5⟩ := hfrac
  by_cases hj : firstGenerated pd ≤ j
  · exact ⟨j, v, hj, h2, h3, by
      simp only [fractionality_tolerance_master] at h4
      linarith, h5⟩
  · simp only [firstGenerated, not_le] at hj
    have hp : j - 2 * pd.tds < pd.nb_people := by omega
    obtain ⟨hnn, hsum⟩ := hc (j - 2 * pd.tds) hp
    have hjeq : 2 * pd.tds + (j - 2 * pd.tds) = j := by omega
    have hsuper : st.solution_master.getD (2 * pd.tds + (j - 2 * pd.tds)) 0 = v := by
      rw [hjeq, List.getD_eq_getElem?_getD, h3]
      rfl
    simp only [person_assign_values, List.sum_cons, hsuper] at hsum
    have hgnn : ∀ w ∈ (person_columns pd st (j - 2 * pd.tds)).map
        (fun i => st.solution_master.getD i 0), 0 ≤ w :=
      fun w hw => hnn w (List.mem_cons_of_mem _ hw)
    obtain ⟨w, hw, hwpos⟩ := exists_pos_of_sum_pos _ (by
      simp only [fractionality_tolerance_master] at h5
      linarith : 0 < ((person_columns pd st (j - 2 * pd.tds)).map
        (fun i => st.solution_master.getD i 0)).sum)
    have hwle := single_le_sum _ hgnn w hw
    obtain ⟨i, hi, rfl⟩ := List.mem_map.mp hw
    obtain ⟨g1, g2, _⟩ := (mem_person_columns pd st _ i).mp hi
    refine ⟨i, st.solution_master.getD i 0, g1, g2, ?_, hwpos, ?_⟩
    · rw [List.getD_eq_getElem?_getD, List.getElem?_eq_getElem (by rw [hlen]; exact g2)]
      rfl
    · simp only [fractionality_tolerance_master] at h4 ⊢
      linarith

/-- C27 (amended). For a master solution with one entry per master column (every
generated column with its record in the pool) in which the assign-variables of every
person are non-negative and sum to 1, and in which some assign-variable, super column or
generated column, has a value strictly between 0.001 and 1 - 0.001:
`is_solution_fractional` returns `true`, at least one generated column has a value
strictly between 0 and 1 - 0.001, and `find_branching_variables` returns under either
rule and for every threshold, having selected at least one master index; every selected
index is that of a generated column whose record was found in the pool, so the master
index, the person and the pool index are assigned before they are used and the pool
index is inside `current_columns`. -/
theorem fractional_assign_variable_gives_candidate (pd : Problem_Data) (st : State)
    (hlen : st.solution_master.length = CPXgetnumcols st.masterproblem)
    (hres : PoolKnowsMaster pd st)
    (hc : convex_solution pd st)
    (hfrac : ∃ j v, 2 * pd.tds ≤ j ∧ j < CPXgetnumcols st.masterproblem ∧
      st.solution_master[j]? = some v ∧ fractionality_tolerance_master < v ∧
      v < 1 - fractionality_tolerance_master) :
    is_solution_fractional st = some true ∧
    (∃ i v, firstGenerated pd ≤ i ∧ i < CPXgetnumcols st.masterproblem ∧
      st.solution_master[i]? = some v ∧ 0 < v ∧ v < 1 - fractionality_tolerance_master) ∧
    ∀ (m : Branching_Method_Diving) (beta : ℚ),
      ∃ st1 sel, find_branching_variables pd m beta st = some st1 ∧ sel ≠ [] ∧
        st1.fixed_indices_cplex = sel ∧
        ∀ i ∈ sel, firstGenerated pd ≤ i ∧ i < CPXgetnumcols st.masterproblem ∧
          ∃ (r : Column) (k : Nat), record_of st i = some r ∧ st.current_columns[k]? = some r := by
  have hex := generated_fractional_of_assign_fractional pd st hlen hc hfrac
  refine ⟨?_, hex, ?_⟩
  · have hr : ∀ j ∈ List.range (CPXgetnumcols st.masterproblem),
        j < st.solution_master.length := by
      intro j hj
      rw [hlen]
      exact List.mem_range.mp hj
    rcases is_solution_fractional_loop_some st.solution_master _ hr with h | h
    · exfalso
      obtain ⟨j, v, _, h2, h3, h4, h5⟩ := hfrac
      rcases (is_solution_fractional_loop_false_iff st.solution_master _ hr).mp h j
        (List.mem_range.mpr h2) v h3 with h6 | h6
      · exact absurd h4 (not_lt.mpr h6)
      · exact absurd h5 (not_lt.mpr h6)
    · exact h
  · intro m beta
    obtain ⟨sel, hne, hfind, _, hsel, _⟩ :=
      find_branching_variables_selects pd m beta st hlen hres hex
    refine ⟨_, sel, hfind, hne, by simp only [pushAll, List.nil_append], ?_⟩
    intro i hi
    obtain ⟨h1, h2, _, r, _, _, _, hr, hmem⟩ := hsel i hi
    obtain ⟨k, hk⟩ := List.mem_iff_getElem?.mp hmem
    exact ⟨h1, h2, r, k, hr, hk⟩

/-- Witness for C27: `duoFractionalState`, whose generated column `z_1_1` has the value
0.7. -/
theorem fractional_assign_variable_gives_candidate_witness :
    is_solution_fractional duoFractionalState = some true ∧
    (∃ i v, firstGenerated duoData ≤ i ∧ i < CPXgetnumcols duoFractionalState.masterproblem ∧
      duoFractionalState.solution_master[i]? = some v ∧ 0 < v ∧
      v < 1 - fractionality_tolerance_master) ∧
    ∀ (m : Branching_Method_Diving) (beta : ℚ),
      ∃ st1 sel, find_branching_variables duoData m beta duoFractionalState = some st1 ∧
        sel ≠ [] ∧ st1.fixed_indices_cplex = sel ∧
        ∀ i ∈ sel, firstGenerated duoData ≤ i ∧
          i < CPXgetnumcols duoFractionalState.masterproblem ∧
          ∃ (r : Column) (k : Nat), record_of duoFractionalState i = some r ∧
            duoFractionalState.current_columns[k]? = some r :=
  fractional_assign_variable_gives_candidate duoData duoFractionalState (by decide)
    duoFractionalState_pool duoFractionalState_convex
    ⟨8, 7 / 10, by decide, by decide, rfl, by norm_num [fractionality_tolerance_master],
      by norm_num [fractionality_tolerance_master]⟩

/-- Counterexample to C27 as stated: the master solution of `duoSlackState` satisfies the
bounds and every row of the master, the assign-variables of both people are non-negative
and sum to 1, and `is_solution_fractional` returns `true` (the overstaffing variable of
the first slot is 1/2); but no generated column has a value strictly between 0 and
1 - 0.001, and `find_branching_variables` uses locals that were never assigned, under
the largest-fractional rule and under the threshold rule (β = 0.6). -/
theorem fractional_slack_no_candidate_counterexample :
    bounds_hold duoSlackState.masterproblem.cols duoSlackState.solution_master = true ∧
    (List.range 5).all (fun i =>
      decide (row_activity_nonzero duoSlackState.masterproblem
        duoSlackState.solution_master i = 1)) = true ∧
    convex_solution duoData duoSlackState ∧
    is_solution_fractional duoSlackState = some true ∧
    (generatedIndices duoData duoSlackState).all (fun i =>
      decide (duoSlackState.solution_master.getD i 0 = 0 ∨
        duoSlackState.solution_master.getD i 0 = 1)) = true ∧
    find_branching_variables duoData Branching_Method_Diving.largest_fractional_variable
      (6 / 10) duoSlackState = none ∧
    find_branching_variables duoData Branching_Method_Diving.value_above_threshold
      (6 / 10) duoSlackState = none := by
  refine ⟨by decide!, by decide!, ?_, by decide!, by decide!, by decide!, by decide!⟩
  intro p hp
  have h2 : p < 2 := hp
  have hcases : p = 0 ∨ p = 1 := by omega
  rcases hcases with rfl | rfl <;> decide!

/-! ## The state after a dive step -/

end Diving_Heuristic
